import Mathlib

/-!
# Image-Processing: coordinate maps and the resampler

A shallow embedding of `ipcv::Remap` (Remap.cpp), `ipcv::MapRST` (MapRST.cpp),
`ipcv::MapGCP` (MapGCP.cpp), `ipcv::MapQ2Q` (MapQ2Q.cpp), `ipcv::MapPolar` (MapPolar.cpp),
`Uniform` and `Igs` (Quantize.cpp), and `visual_cryptography` and `decrypt`
(visual_cryptography.cpp).

Conventions of the embedding.

* A `cv::Mat` is a record of its dimensions and a total cell function; a checked read
  (`Mat.atChecked`) returns `none` when the index lies outside the matrix, which is how an
  out-of-bounds `src.at<>()` shows up in the model.
* `float`/`double` values are rational numbers: every finite floating-point number is one.
  The functions named after the code (`Remap`, `MapRST`, `MapGCP`, ...) compute over exact
  arithmetic; what is proved of them is a statement over exact arithmetic.
* `RemapRounded` and `MapRSTRounded` follow the bilinear branches of `Remap` and the whole of
  `MapRST` operation by operation with the floating-point arithmetic of the code: the result of
  every `float` or `double` operation is rounded (`roundFloat`, `roundDouble`: to nearest, ties
  to even), and a division by zero yields no result.  With the identity as rounding they are
  the functions over exact arithmetic (`RemapRounded_exact`, `MapRSTRounded_exact`).  Overflow
  and subnormal numbers are not modelled.
* `uchar` is `Fin 256`; `int` is `Int`.
* The calls into the linear-algebra library that solve a linear system (`ldlt().solve`,
  `inverse()` of a dynamic matrix) are parameters of the functions that use them; what they
  deliver over exact arithmetic is stated by `SolvesSystem` and `IsInverseOf`.
* The functions of the C math library (`sqrt`, `log`, `exp`, `cos`, `sin`, the constant
  `M_PI`), the pseudo-random generator (`srand`, `rand`) and the calls into the image library
  that prepare the secret image (`resize`, `cvtColor`, `threshold`) are parameters as well.
* A write at a position that the loop bounds do not tie to the written matrix is checked
  (`Mat.setChecked`) like the reads.
-/

namespace ipcv

/-! ## Data model -/

/-- The pixel type `cv::Vec3b`: three 8-bit channels. -/
structure Vec3b where
  c0 : Fin 256
  c1 : Fin 256
  c2 : Fin 256
deriving DecidableEq, Repr

/-- Channel access `pixel[channel_idx]` for `channel_idx` in `0..2`. -/
def Vec3b.get (p : Vec3b) (channel_idx : Nat) : Fin 256 :=
  match channel_idx with
  | 0 => p.c0
  | 1 => p.c1
  | _ => p.c2

/-- The write `pixel[channel_idx] = v` for `channel_idx` in `0..2`. -/
def Vec3b.set (p : Vec3b) (channel_idx : Nat) (v : Fin 256) : Vec3b :=
  match channel_idx with
  | 0 => { p with c0 := v }
  | 1 => { p with c1 := v }
  | _ => { p with c2 := v }

/-- A dense matrix `cv::Mat` with `rows` x `cols` cells of type `α`. -/
structure Mat (α : Type) where
  rows : Nat
  cols : Nat
  data : Nat → Nat → α

/-- The call `m.create(rows, cols, type)`: a fresh matrix (cells hold a fixed filler). -/
def Mat.create {α : Type} (rows cols : Nat) (filler : α) : Mat α :=
  { rows := rows, cols := cols, data := fun _ _ => filler }

/-- The write `m.at<>(row, col) = v`. -/
def Mat.set {α : Type} (m : Mat α) (row col : Nat) (v : α) : Mat α :=
  { m with data := fun r c => if r = row ∧ c = col then v else m.data r c }

/-- The read `m.at<>(row, col)` with the index checked against the matrix bounds:
`none` stands for a read outside the matrix. -/
def Mat.atChecked {α : Type} (m : Mat α) (row col : Int) : Option α :=
  if 0 ≤ row ∧ row < m.rows ∧ 0 ≤ col ∧ col < m.cols then
    some (m.data row.toNat col.toNat)
  else
    none

/-- The write `m.at<>(row, col) = v` with the index checked against the matrix bounds:
`none` stands for a write outside the matrix. -/
def Mat.setChecked {α : Type} (m : Mat α) (row col : Nat) (v : α) : Option (Mat α) :=
  if row < m.rows ∧ col < m.cols then some (m.set row col v) else none

/-- Interpolation kernels of the resampler. -/
inductive Interpolation where
  | NEAREST
  | LINEAR
deriving DecidableEq, Repr

/-- Border modes; `ISOLATED` is used by the spatial filter tooling only. -/
inductive BorderMode where
  | CONSTANT
  | REPLICATE
  | ISOLATED
deriving DecidableEq, Repr

/-! ## Numeric conversions -/

/-- The C conversion `(int)v` of a floating value: truncation toward zero. -/
def toInt (v : ℚ) : Int :=
  if 0 ≤ v then ⌊v⌋ else ⌈v⌉

/-- The C conversion `(uchar)v`: truncate, then keep the low 8 bits. -/
def toUchar (v : ℚ) : Fin 256 :=
  ⟨(toInt v % 256).toNat, by omega⟩

/-- The C conversion of an `int` to `uchar`: the low 8 bits. -/
def intToUchar (v : Int) : Fin 256 :=
  ⟨(v % 256).toNat, by omega⟩

/-! ## Loops -/

/-- The loop `for (int i = 0; i < n; i++) body` threading a state through a fallible body. -/
def forRange {σ : Type} (n : Nat) (body : Nat → σ → Option σ) (init : σ) : Option σ :=
  (List.range n).foldlM (fun s i => body i s) init

/-! ## Remap -/

/-- Body of the channel loop of the bilinear branches over exact arithmetic: one interpolated
channel.  The weights `remainder.x`, `remainder.y` are kept in a `cv::Point2f` by the code; the
rounding of these `float` weights and of the operations on them is the subject of
`interpolateChannelRounded`. -/
def interpolateChannel (src : Mat Vec3b) (x1 y1 x2 y2 : Int) (remainder_x remainder_y : ℚ)
    (channel_idx : Nat) : Option (Fin 256) := do
  let p11 ← src.atChecked y1 x1
  let p12 ← src.atChecked y1 x2
  let p21 ← src.atChecked y2 x1
  let p22 ← src.atChecked y2 x2
  let top : ℚ := (1 - remainder_x) * ((p11.get channel_idx).val : ℚ) +
    remainder_x * ((p12.get channel_idx).val : ℚ)
  let bottom : ℚ := (1 - remainder_x) * ((p21.get channel_idx).val : ℚ) +
    remainder_x * ((p22.get channel_idx).val : ℚ)
  pure (toUchar ((1 - remainder_y) * top + remainder_y * bottom))

/-- Pixel written by the bilinear branches once `x` and `y` are fixed: the 2x2 neighbourhood
at `floor(x)`, `floor(y)` and the channel loop over the three channels. -/
def interpolatePixel (src : Mat Vec3b) (x y : ℚ) : Option Vec3b := do
  let x1 : Int := ⌊x⌋
  let y1 : Int := ⌊y⌋
  let x2 : Int := x1 + 1
  let y2 : Int := y1 + 1
  let remainder_x : ℚ := x - x1
  let remainder_y : ℚ := y - y1
  let v0 ← interpolateChannel src x1 y1 x2 y2 remainder_x remainder_y 0
  let v1 ← interpolateChannel src x1 y1 x2 y2 remainder_x remainder_y 1
  let v2 ← interpolateChannel src x1 y1 x2 y2 remainder_x remainder_y 2
  pure ⟨v0, v1, v2⟩

/-- Cell body of the NEAREST + CONSTANT branch (Remap.cpp lines 45-54). -/
def nearestConstant (src : Mat Vec3b) (border_value : Fin 256) (x y : ℚ) : Option Vec3b :=
  if x < 0 ∨ x ≥ (src.cols : Int) ∨ y < 0 ∨ y ≥ (src.rows : Int) then
    some ⟨border_value, border_value, border_value⟩
  else
    src.atChecked (toInt y) (toInt x)

/-- Cell body of the NEAREST + REPLICATE branch (Remap.cpp lines 64-80). -/
def nearestReplicate (src : Mat Vec3b) (x y : ℚ) : Option Vec3b :=
  let x : ℚ := if x < 0 then 0 else if x ≥ (src.cols : Int) then (((src.cols : Int) - 1 : Int) : ℚ) else x
  let y : ℚ := if y < 0 then 0 else if y ≥ (src.rows : Int) then (((src.rows : Int) - 1 : Int) : ℚ) else y
  src.atChecked (toInt y) (toInt x)

/-- Cell body of the LINEAR + CONSTANT branch (Remap.cpp lines 90-115). -/
def linearConstant (src : Mat Vec3b) (border_value : Fin 256) (x y : ℚ) : Option Vec3b :=
  if x < 0 ∨ x ≥ (((src.cols : Int) - 1 : Int) : ℚ) ∨ y < 0 ∨ y ≥ (((src.rows : Int) - 1 : Int) : ℚ) then
    some ⟨border_value, border_value, border_value⟩
  else
    interpolatePixel src x y

/-- Cell body of the LINEAR + REPLICATE branch (Remap.cpp lines 125-157). -/
def linearReplicate (src : Mat Vec3b) (x y : ℚ) : Option Vec3b :=
  let x : ℚ := if x < 0 then 0
    else if x ≥ (((src.cols : Int) - 1 : Int) : ℚ) then (((src.cols : Int) - 2 : Int) : ℚ) else x
  let y : ℚ := if y < 0 then 0
    else if y ≥ (((src.rows : Int) - 1 : Int) : ℚ) then (((src.rows : Int) - 2 : Int) : ℚ) else y
  interpolatePixel src x y

/-- The inner loop `for (col_idx = 0; col_idx < dst.cols; col_idx++)` shared by the four
branches: the cell `(row_idx, col_idx)` of `dst` is written with the value `cell x y` computed
from the map entries `x = map1(row_idx, col_idx)`, `y = map2(row_idx, col_idx)`. -/
def remapRow (map1 map2 : Mat ℚ) (cell : ℚ → ℚ → Option Vec3b) (row_idx : Nat)
    (dst : Mat Vec3b) : Option (Mat Vec3b) :=
  forRange dst.cols (fun col_idx dst => do
    let x := map1.data row_idx col_idx
    let y := map2.data row_idx col_idx
    let p ← cell x y
    pure (dst.set row_idx col_idx p)) dst

/-- The outer loop `for (row_idx = 0; row_idx < dst.rows; row_idx++)` shared by the four
branches. -/
def remapLoop (map1 map2 : Mat ℚ) (cell : ℚ → ℚ → Option Vec3b) (dst : Mat Vec3b) :
    Option (Mat Vec3b) :=
  forRange dst.rows (fun row_idx dst => remapRow map1 map2 cell row_idx dst) dst

/-- The function `ipcv::Remap`.  `some dst` is the destination returned together with `true`;
`none` means that some `src.at<>()` was evaluated outside the source. -/
def Remap (src : Mat Vec3b) (map1 map2 : Mat ℚ) (interpolation : Interpolation)
    (border_mode : BorderMode) (border_value : Fin 256) : Option (Mat Vec3b) := do
  let dst : Mat Vec3b := Mat.create map1.rows map1.cols ⟨0, 0, 0⟩
  let dst ← if interpolation = Interpolation.NEAREST ∧ border_mode = BorderMode.CONSTANT then
      remapLoop map1 map2 (nearestConstant src border_value) dst
    else pure dst
  let dst ← if interpolation = Interpolation.NEAREST ∧ border_mode = BorderMode.REPLICATE then
      remapLoop map1 map2 (nearestReplicate src) dst
    else pure dst
  let dst ← if interpolation = Interpolation.LINEAR ∧ border_mode = BorderMode.CONSTANT then
      remapLoop map1 map2 (linearConstant src border_value) dst
    else pure dst
  let dst ← if interpolation = Interpolation.LINEAR ∧ border_mode = BorderMode.REPLICATE then
      remapLoop map1 map2 (linearReplicate src) dst
    else pure dst
  pure dst

/-- The clamp of the LINEAR + REPLICATE branch for one coordinate of a source with `n` columns
(or rows), as Remap.cpp lines 132-142 perform it: negative values go to `0`, values from
`n - 1` on go to `n - 2`, the others stay. -/
def linearClamp (n : Nat) (x : ℚ) : ℚ :=
  if x < 0 then 0 else if x ≥ (n : ℚ) - 1 then (n : ℚ) - 2 else x

/-! ## MapRST -/

/-- A 3-vector `Eigen::Vector3d`, entries `(0)`, `(1)`, `(2)`. -/
structure Vector3d where
  v0 : ℚ
  v1 : ℚ
  v2 : ℚ
deriving DecidableEq, Repr

/-- A 3x3 matrix `Eigen::Matrix3d`, entries in the row-major order of the `<<` initialiser. -/
structure Matrix3d where
  m00 : ℚ
  m01 : ℚ
  m02 : ℚ
  m10 : ℚ
  m11 : ℚ
  m12 : ℚ
  m20 : ℚ
  m21 : ℚ
  m22 : ℚ
deriving DecidableEq, Repr

/-- Matrix product `a * b`. -/
def Matrix3d.mul (a b : Matrix3d) : Matrix3d :=
  { m00 := a.m00 * b.m00 + a.m01 * b.m10 + a.m02 * b.m20
    m01 := a.m00 * b.m01 + a.m01 * b.m11 + a.m02 * b.m21
    m02 := a.m00 * b.m02 + a.m01 * b.m12 + a.m02 * b.m22
    m10 := a.m10 * b.m00 + a.m11 * b.m10 + a.m12 * b.m20
    m11 := a.m10 * b.m01 + a.m11 * b.m11 + a.m12 * b.m21
    m12 := a.m10 * b.m02 + a.m11 * b.m12 + a.m12 * b.m22
    m20 := a.m20 * b.m00 + a.m21 * b.m10 + a.m22 * b.m20
    m21 := a.m20 * b.m01 + a.m21 * b.m11 + a.m22 * b.m21
    m22 := a.m20 * b.m02 + a.m21 * b.m12 + a.m22 * b.m22 }

/-- Matrix-vector product `a * v`. -/
def Matrix3d.mulVec (a : Matrix3d) (v : Vector3d) : Vector3d :=
  { v0 := a.m00 * v.v0 + a.m01 * v.v1 + a.m02 * v.v2
    v1 := a.m10 * v.v0 + a.m11 * v.v1 + a.m12 * v.v2
    v2 := a.m20 * v.v0 + a.m21 * v.v1 + a.m22 * v.v2 }

/-- Determinant of a 3x3 matrix. -/
def Matrix3d.determinant (a : Matrix3d) : ℚ :=
  a.m00 * (a.m11 * a.m22 - a.m12 * a.m21) - a.m01 * (a.m10 * a.m22 - a.m12 * a.m20) +
    a.m02 * (a.m10 * a.m21 - a.m11 * a.m20)

/-- The call `a.inverse()` of the linear-algebra library: the transposed cofactor matrix
divided by the determinant. -/
def Matrix3d.inverse (a : Matrix3d) : Matrix3d :=
  let invdet : ℚ := 1 / a.determinant
  { m00 := (a.m11 * a.m22 - a.m12 * a.m21) * invdet
    m01 := (a.m02 * a.m21 - a.m01 * a.m22) * invdet
    m02 := (a.m01 * a.m12 - a.m02 * a.m11) * invdet
    m10 := (a.m12 * a.m20 - a.m10 * a.m22) * invdet
    m11 := (a.m00 * a.m22 - a.m02 * a.m20) * invdet
    m12 := (a.m02 * a.m10 - a.m00 * a.m12) * invdet
    m20 := (a.m10 * a.m21 - a.m11 * a.m20) * invdet
    m21 := (a.m01 * a.m20 - a.m00 * a.m21) * invdet
    m22 := (a.m00 * a.m11 - a.m01 * a.m10) * invdet }

/-- The loop `for (int i = 0; i < n; i++) body` threading a state through a body that
cannot fail. -/
def loopRange {σ : Type} (n : Nat) (body : Nat → σ → σ) (init : σ) : σ :=
  (List.range n).foldl (fun s i => body i s) init

/-- What `ipcv::MapRST` hands back: the returned flag and the two maps. -/
structure MapResult where
  ok : Bool
  map1 : Mat ℚ
  map2 : Mat ℚ

/-- The affine matrix `rotation * scale * translation` of MapRST.cpp lines 43-46 over exact
arithmetic, for non-zero scales.  For a zero scale the code divides by zero; the rational
`1 / 0 = 0` does not describe that case, which `rstAffineRounded` treats. -/
def rstAffine (cos_angle sin_angle scale_x scale_y translation_x translation_y : ℚ) :
    Matrix3d :=
  let rotation : Matrix3d :=
    { m00 := cos_angle, m01 := -sin_angle, m02 := 0
      m10 := sin_angle, m11 := cos_angle, m12 := 0
      m20 := 0, m21 := 0, m22 := 1 }
  let scale : Matrix3d :=
    { m00 := 1 / scale_x, m01 := 0, m02 := 0
      m10 := 0, m11 := 1 / scale_y, m12 := 0
      m20 := 0, m21 := 0, m22 := 1 }
  let translation : Matrix3d :=
    { m00 := 1, m01 := 0, m02 := -translation_x
      m10 := 0, m11 := 1, m12 := translation_y
      m20 := 0, m21 := 0, m22 := 1 }
  (rotation.mul scale).mul translation

/-- Number of rows of the map of `MapRST` (MapRST.cpp lines 48-66) over exact arithmetic;
`rstRowsRounded` has the roundings of the code. -/
def rstRows (src_cols src_rows : Nat) (affine : Matrix3d) : Nat :=
  let TopLeft : Vector3d := ⟨(Int.tdiv (-(src_cols : Int)) 2 : Int), (Int.tdiv (src_rows : Int) 2 : Int), 1⟩
  let BottomLeft : Vector3d :=
    ⟨(Int.tdiv (-(src_cols : Int)) 2 : Int), (Int.tdiv (-(src_rows : Int)) 2 : Int), 1⟩
  let TopRight : Vector3d := ⟨(Int.tdiv (src_cols : Int) 2 : Int), (Int.tdiv (src_rows : Int) 2 : Int), 1⟩
  let BottomRight : Vector3d :=
    ⟨(Int.tdiv (src_cols : Int) 2 : Int), (Int.tdiv (-(src_rows : Int)) 2 : Int), 1⟩
  let NTopLeft := affine.inverse.mulVec TopLeft
  let NBottomLeft := affine.inverse.mulVec BottomLeft
  let NTopRight := affine.inverse.mulVec TopRight
  let NBottomRight := affine.inverse.mulVec BottomRight
  (⌈max |NTopLeft.v1 - NBottomRight.v1| |NTopRight.v1 - NBottomLeft.v1|⌉).toNat

/-- Number of columns of the map of `MapRST` (MapRST.cpp lines 48-68) over exact arithmetic;
`rstColsRounded` has the roundings of the code. -/
def rstCols (src_cols src_rows : Nat) (affine : Matrix3d) : Nat :=
  let TopLeft : Vector3d := ⟨(Int.tdiv (-(src_cols : Int)) 2 : Int), (Int.tdiv (src_rows : Int) 2 : Int), 1⟩
  let BottomLeft : Vector3d :=
    ⟨(Int.tdiv (-(src_cols : Int)) 2 : Int), (Int.tdiv (-(src_rows : Int)) 2 : Int), 1⟩
  let TopRight : Vector3d := ⟨(Int.tdiv (src_cols : Int) 2 : Int), (Int.tdiv (src_rows : Int) 2 : Int), 1⟩
  let BottomRight : Vector3d :=
    ⟨(Int.tdiv (src_cols : Int) 2 : Int), (Int.tdiv (-(src_rows : Int)) 2 : Int), 1⟩
  let NTopLeft := affine.inverse.mulVec TopLeft
  let NBottomLeft := affine.inverse.mulVec BottomLeft
  let NTopRight := affine.inverse.mulVec TopRight
  let NBottomRight := affine.inverse.mulVec BottomRight
  (⌈max |NTopLeft.v0 - NBottomRight.v0| |NTopRight.v0 - NBottomLeft.v0|⌉).toNat

/-- The source point `affine * dst_point` of the destination cell `(row_idx, col_idx)`
(MapRST.cpp lines 77-79). -/
def rstSrcPoint (affine : Matrix3d) (rows cols row_idx col_idx : Nat) : Vector3d :=
  let dst_point : Vector3d :=
    ⟨((col_idx : Int) - Int.tdiv (cols : Int) 2 : Int),
     ((row_idx : Int) - Int.tdiv (rows : Int) 2 : Int), 1⟩
  affine.mulVec dst_point

/-- The function `ipcv::MapRST`.  The angle enters the code only through `cos(angle)` and
`sin(angle)`; these two values of the C math library are the parameters `cos_angle` and
`sin_angle` (`angle = 0` is `cos_angle = 1`, `sin_angle = 0`).  This is the function over
exact arithmetic for non-zero scales: neither the `double` operations nor the final
`static_cast<float>` round.  `MapRSTRounded` is the function with the roundings and the
divisions by zero of the code. -/
def MapRST (src : Mat Vec3b) (cos_angle sin_angle scale_x scale_y translation_x
    translation_y : ℚ) : MapResult :=
  let affine := rstAffine cos_angle sin_angle scale_x scale_y translation_x translation_y
  let rows : Nat := rstRows src.cols src.rows affine
  let cols : Nat := rstCols src.cols src.rows affine
  let map1 : Mat ℚ := Mat.create rows cols 0
  let map2 : Mat ℚ := Mat.create rows cols 0
  let maps : Mat ℚ × Mat ℚ :=
    loopRange rows (fun row_idx maps =>
      loopRange cols (fun col_idx maps =>
        let src_point := rstSrcPoint affine rows cols row_idx col_idx
        (maps.1.set row_idx col_idx (src_point.v0 + (Int.tdiv (src.cols : Int) 2 : Int)),
         maps.2.set row_idx col_idx (src_point.v1 + (Int.tdiv (src.rows : Int) 2 : Int)))) maps)
      (map1, map2)
  { ok := true, map1 := maps.1, map2 := maps.2 }

/-! ## Dense matrices and points -/

/-- The pixel coordinate type `cv::Point`: two `int` coordinates. -/
structure Point where
  x : Int
  y : Int
deriving DecidableEq, Repr

/-- The sum `f 0 + f 1 + ... + f (n - 1)`. -/
def sumRange (n : Nat) (f : Nat → ℚ) : ℚ :=
  ((List.range n).map f).sum

/-- The matrix `a.transpose()`. -/
def Mat.transpose (a : Mat ℚ) : Mat ℚ :=
  { rows := a.cols, cols := a.rows, data := fun i j => a.data j i }

/-- The matrix product `a * b` of dynamic matrices (inner dimension `a.cols`). -/
def Mat.mul (a b : Mat ℚ) : Mat ℚ :=
  { rows := a.rows, cols := b.cols,
    data := fun i j => sumRange a.cols (fun k => a.data i k * b.data k j) }

/-! ## MapGCP -/

/-- Number of columns of the design matrix, `(order + 1) * (order + 2) / 2`. -/
def gcpWidth (order : Nat) : Nat :=
  (order + 1) * (order + 2) / 2

/-- The loops of MapGCP.cpp lines 62-69 for one control point: the monomials
`P_x^(i-j) * P_y^j` are written to row `row_idx` of `X_Mat` at the running column `idx`.
The state is the pair `(X_Mat, idx)`. -/
def gcpDesignRow (order : Nat) (P_x P_y : ℚ) (row_idx : Nat) (X_Mat : Mat ℚ) : Mat ℚ :=
  (loopRange (order + 1) (fun i (st : Mat ℚ × Nat) =>
    loopRange (i + 1) (fun j (st : Mat ℚ × Nat) =>
      (st.1.set row_idx st.2 (P_x ^ (i - j) * P_y ^ j), st.2 + 1)) st) (X_Mat, 0)).1

/-- The design matrix `X_Mat` built from the map (target) points (MapGCP.cpp lines 57-70). -/
def gcpDesign (order : Nat) (map_points : List Point) : Mat ℚ :=
  loopRange map_points.length (fun row_idx X_Mat =>
    let P_x : ℚ := ((map_points.getD row_idx ⟨0, 0⟩).x : ℚ)
    let P_y : ℚ := ((map_points.getD row_idx ⟨0, 0⟩).y : ℚ)
    gcpDesignRow order P_x P_y row_idx X_Mat)
    (Mat.create map_points.length (gcpWidth order) 0)

/-- The right-hand sides `Y_Mat` built from the source points (MapGCP.cpp lines 73-77). -/
def gcpTargets (src_points : List Point) : Mat ℚ :=
  loopRange src_points.length (fun row_idx Y_Mat =>
    (Y_Mat.set row_idx 0 ((src_points.getD row_idx ⟨0, 0⟩).x : ℚ)).set row_idx 1
      ((src_points.getD row_idx ⟨0, 0⟩).y : ℚ))
    (Mat.create src_points.length 2 0)

/-- The evaluation loops of MapGCP.cpp lines 91-103 for the destination pixel `(col, row)`:
the state is `(x, y, idx)`; the result is `(x, y)`. -/
def gcpEvaluate (order : Nat) (a b : Nat → ℚ) (col row : Nat) : ℚ × ℚ :=
  let st : ℚ × ℚ × Nat :=
    loopRange (order + 1) (fun i (st : ℚ × ℚ × Nat) =>
      loopRange (i + 1) (fun j (st : ℚ × ℚ × Nat) =>
        let term : ℚ := (col : ℚ) ^ (i - j) * (row : ℚ) ^ j
        (st.1 + a st.2.2 * term, st.2.1 + b st.2.2 * term, st.2.2 + 1)) st) (0, 0, 0)
  (st.1, st.2.1)

/-- The function `ipcv::MapGCP`.  The call `(A).ldlt().solve(B)` of the linear-algebra
library is the parameter `ldltSolve`; `order` is taken non-negative; the parameter `src` is
not used by the code.  The product `X_Mat.transpose() * Y_Mat` needs as many source points
as map points.  The final `static_cast<float>` is exact in this model. -/
def MapGCP (ldltSolve : Mat ℚ → Mat ℚ → Mat ℚ) (_src map : Mat Vec3b)
    (src_points map_points : List Point) (order : Nat) : MapResult :=
  let X_Mat := gcpDesign order map_points
  let Y_Mat := gcpTargets src_points
  let AB := ldltSolve (X_Mat.transpose.mul X_Mat) (X_Mat.transpose.mul Y_Mat)
  let a : Nat → ℚ := fun idx => AB.data idx 0
  let b : Nat → ℚ := fun idx => AB.data idx 1
  let map1 : Mat ℚ := Mat.create map.rows map.cols 0
  let map2 : Mat ℚ := Mat.create map.rows map.cols 0
  let maps : Mat ℚ × Mat ℚ :=
    loopRange map.rows (fun row maps =>
      loopRange map.cols (fun col maps =>
        (maps.1.set row col (gcpEvaluate order a b col row).1,
         maps.2.set row col (gcpEvaluate order a b col row).2)) maps)
      (map1, map2)
  { ok := true, map1 := maps.1, map2 := maps.2 }

/-- The loop nest `for (i = 0; i <= order; i++) for (j = 0; j <= i; j++) { ...; idx++; }` of
MapGCP.cpp lines 62-69 and 96-103 with its body reduced to the bookkeeping: the list of the
triples `(idx, i, j)` in the order in which the loop body is entered.  The state is the pair
`(visits, idx)`. -/
def gcpVisits (order : Nat) : List (Nat × Nat × Nat) :=
  (loopRange (order + 1) (fun i (st : List (Nat × Nat × Nat) × Nat) =>
    loopRange (i + 1) (fun j (st : List (Nat × Nat × Nat) × Nat) =>
      (st.1 ++ [(st.2, i, j)], st.2 + 1)) st) ([], 0)).1

/-! ## MapQ2Q -/

/-- The 8x8 matrix `map_mat` filled by the loop of MapQ2Q.cpp lines 52-70. -/
def q2qMatrix (src_vertices tgt_vertices : List Point) : Mat ℚ :=
  loopRange 4 (fun i map_mat =>
    let s : Point := src_vertices.getD i ⟨0, 0⟩
    let t : Point := tgt_vertices.getD i ⟨0, 0⟩
    map_mat
      |>.set i 0 (t.x : ℚ)
      |>.set i 1 (t.y : ℚ)
      |>.set i 2 1
      |>.set i 3 0
      |>.set i 4 0
      |>.set i 5 0
      |>.set i 6 ((-t.x * s.x : Int) : ℚ)
      |>.set i 7 ((-t.y * s.x : Int) : ℚ)
      |>.set (i + 4) 0 0
      |>.set (i + 4) 1 0
      |>.set (i + 4) 2 0
      |>.set (i + 4) 3 (t.x : ℚ)
      |>.set (i + 4) 4 (t.y : ℚ)
      |>.set (i + 4) 5 1
      |>.set (i + 4) 6 ((-t.x * s.y : Int) : ℚ)
      |>.set (i + 4) 7 ((-t.y * s.y : Int) : ℚ))
    (Mat.create 8 8 0)

/-- The 8x1 matrix `src_point` of MapQ2Q.cpp lines 73-75: the four source x coordinates
followed by the four source y coordinates. -/
def q2qSrcPoint (src_vertices : List Point) : Mat ℚ :=
  { rows := 8, cols := 1,
    data := fun i _ =>
      ([((src_vertices.getD 0 ⟨0, 0⟩).x : ℚ), ((src_vertices.getD 1 ⟨0, 0⟩).x : ℚ),
        ((src_vertices.getD 2 ⟨0, 0⟩).x : ℚ), ((src_vertices.getD 3 ⟨0, 0⟩).x : ℚ),
        ((src_vertices.getD 0 ⟨0, 0⟩).y : ℚ), ((src_vertices.getD 1 ⟨0, 0⟩).y : ℚ),
        ((src_vertices.getD 2 ⟨0, 0⟩).y : ℚ), ((src_vertices.getD 3 ⟨0, 0⟩).y : ℚ)] :
          List ℚ).getD i 0 }

/-- The 3x3 matrix `P` of MapQ2Q.cpp lines 81-84 built from the solved coefficients. -/
def q2qP (tgt_point : Mat ℚ) : Matrix3d :=
  { m00 := tgt_point.data 0 0, m01 := tgt_point.data 1 0, m02 := tgt_point.data 2 0
    m10 := tgt_point.data 3 0, m11 := tgt_point.data 4 0, m12 := tgt_point.data 5 0
    m20 := tgt_point.data 6 0, m21 := tgt_point.data 7 0, m22 := 1 }

/-- The function `ipcv::MapQ2Q`.  The call `map_mat.inverse()` of the linear-algebra library
is the parameter `inverse`; the parameter `src` is not used by the code.  A division by a
zero `src_final(2)` is infinite or undefined in the code; the rational `v / 0 = 0` of the
model does not describe that case. -/
def MapQ2Q (inverse : Mat ℚ → Mat ℚ) (_src tgt : Mat Vec3b)
    (src_vertices tgt_vertices : List Point) : MapResult :=
  let map1 : Mat ℚ := Mat.create tgt.rows tgt.cols 0
  let map2 : Mat ℚ := Mat.create tgt.rows tgt.cols 0
  let map_mat := q2qMatrix src_vertices tgt_vertices
  let src_point := q2qSrcPoint src_vertices
  let tgt_point := (inverse map_mat).mul src_point
  let P := q2qP tgt_point
  let maps : Mat ℚ × Mat ℚ :=
    loopRange tgt.rows (fun row_idx maps =>
      loopRange tgt.cols (fun col_idx maps =>
        (maps.1.set row_idx col_idx
          ((P.mulVec ⟨(col_idx : ℚ), (row_idx : ℚ), 1⟩).v0 /
            (P.mulVec ⟨(col_idx : ℚ), (row_idx : ℚ), 1⟩).v2),
         maps.2.set row_idx col_idx
          ((P.mulVec ⟨(col_idx : ℚ), (row_idx : ℚ), 1⟩).v1 /
            (P.mulVec ⟨(col_idx : ℚ), (row_idx : ℚ), 1⟩).v2))) maps)
      (map1, map2)
  { ok := true, map1 := maps.1, map2 := maps.2 }

/-! ## MapPolar -/

/-- The functions and the constant of the C math library that `MapPolar` calls.  They are
parameters of the model: nothing is assumed about their values. -/
structure Libm where
  sqrt : ℚ → ℚ
  log : ℚ → ℚ
  exp : ℚ → ℚ
  cos : ℚ → ℚ
  sin : ℚ → ℚ
  M_PI : ℚ

/-- The state of the first loop of `MapPolar`: the vectors `cosValues`, `sinValues` and the
two maps. -/
structure PolarState where
  cosValues : Nat → ℚ
  sinValues : Nat → ℚ
  map1 : Mat ℚ
  map2 : Mat ℚ

/-- The value of `rho_max` after MapPolar.cpp lines 40-50: the distance from the centre to a
corner, replaced by `log(rho_max + 1.0)` when `use_log` is set. -/
def polarRhoMax (libm : Libm) (src : Mat Vec3b) (use_log : Bool) : ℚ :=
  let centerX : ℚ := (src.cols : ℚ) / 2
  let centerY : ℚ := (src.rows : ℚ) / 2
  let rho_max : ℚ := libm.sqrt (centerX * centerX + centerY * centerY)
  if use_log then libm.log (rho_max + 1) else rho_max

/-- The radius `rho` of ring `j` (MapPolar.cpp lines 65-66). -/
def polarRho (libm : Libm) (rho_max : ℚ) (numRings : Nat) (use_log : Bool) (j : Nat) : ℚ :=
  if use_log then libm.exp ((j : ℚ) * rho_max / (numRings : ℚ)) - 1
  else (j : ℚ) * rho_max / (numRings : ℚ)

/-- The function `ipcv::MapPolar`.  The first loop writes row `0` of both maps without looking
at the number of rows, so its writes are checked: `none` means that a map was written outside
its bounds (a source with columns but no rows).  The loop `for (j = 1; j < numRings; j++)`
runs `numRings - 1` times with `j = k + 1`; its writes lie inside the maps by the loop bounds.
The conversions to `float` are exact in this model. -/
def MapPolar (libm : Libm) (src : Mat Vec3b) (use_log : Bool) : Option MapResult := do
  let map1 : Mat ℚ := Mat.create src.rows src.cols 0
  let map2 : Mat ℚ := Mat.create src.rows src.cols 0
  let numSectors : Nat := src.cols
  let numRings : Nat := src.rows
  let centerX : ℚ := (src.cols : ℚ) / 2
  let centerY : ℚ := (src.rows : ℚ) / 2
  let rho_max : ℚ := polarRhoMax libm src use_log
  let st ← forRange numSectors (fun i (st : PolarState) => do
      let theta : ℚ := 2 * libm.M_PI * (i : ℚ) / (numSectors : ℚ)
      let map1 ← st.map1.setChecked 0 i centerX
      let map2 ← st.map2.setChecked 0 i centerY
      pure { cosValues := fun k => if k = i then libm.cos theta else st.cosValues k
             sinValues := fun k => if k = i then libm.sin theta else st.sinValues k
             map1 := map1
             map2 := map2 })
    { cosValues := fun _ => 0, sinValues := fun _ => 0, map1 := map1, map2 := map2 }
  let maps : Mat ℚ × Mat ℚ :=
    loopRange (numRings - 1) (fun k maps =>
      let j : Nat := k + 1
      let rho : ℚ := polarRho libm rho_max numRings use_log j
      loopRange numSectors (fun i (maps : Mat ℚ × Mat ℚ) =>
        let x : ℚ := centerX + rho * st.cosValues i
        let y : ℚ := centerY + rho * st.sinValues i
        if x ≥ 0 ∧ x < (src.cols : ℚ) ∧ y ≥ 0 ∧ y < (src.rows : ℚ) then
          (maps.1.set j i x, maps.2.set j i y)
        else
          (maps.1.set j i (-1), maps.2.set j i (-1))) maps)
      (st.map1, st.map2)
  pure { ok := true, map1 := maps.1, map2 := maps.2 }

/-- The point `(x, y)` computed for sector `i` of ring `j` (MapPolar.cpp lines 54-56 and
65-70): `(cx + rho * cos(theta), cy + rho * sin(theta))` with `theta = 2 * M_PI * i / cols`. -/
def polarPoint (libm : Libm) (src : Mat Vec3b) (use_log : Bool) (j i : Nat) : ℚ × ℚ :=
  let rho : ℚ := polarRho libm (polarRhoMax libm src use_log) src.rows use_log j
  let theta : ℚ := 2 * libm.M_PI * (i : ℚ) / (src.cols : ℚ)
  ((src.cols : ℚ) / 2 + rho * libm.cos theta, (src.rows : ℚ) / 2 + rho * libm.sin theta)

/-! ## Quantize -/

/-- The function `Uniform` of Quantize.cpp (lines 28-41); `dst` is the destination that
`Quantize` has created with the size of `src`.  The quotient of the channel value by the
`double` bin size is converted to `uchar`. -/
def Uniform (src : Mat Vec3b) (quantization_levels : Int) (dst : Mat Vec3b) : Mat Vec3b :=
  let bin_size : ℚ := 256 / (quantization_levels : ℚ)
  loopRange src.rows (fun y dst =>
    loopRange src.cols (fun x dst =>
      loopRange 3 (fun channel dst =>
        dst.set y x ((dst.data y x).set channel
          (toUchar ((((src.data y x).get channel).val : ℚ) / bin_size)))) dst) dst) dst

/-- The function `Igs` of Quantize.cpp (lines 50-75); `dst` is the destination that `Quantize`
has created with the size of `src`.  The state of the loops is the pair `(error, dst)`, where
`error` is the array of the three carried errors.  `bin_size` is an `int`: the quotient
`256 / quantization_levels` truncated; `none` stands for the integer division by a zero
`bin_size` (more than 256 levels; the rational `256 / 0 = 0` of the model puts zero levels
there too). -/
def Igs (src : Mat Vec3b) (quantization_levels : Int) (dst : Mat Vec3b) : Option (Mat Vec3b) :=
  let bin_size : Int := toInt (256 / (quantization_levels : ℚ))
  (forRange src.rows (fun y (st : (Nat → ℚ) × Mat Vec3b) =>
    forRange src.cols (fun x (st : (Nat → ℚ) × Mat Vec3b) =>
      forRange 3 (fun channel (st : (Nat → ℚ) × Mat Vec3b) =>
        if bin_size = 0 then none
        else
          let value_double : ℚ := (((src.data y x).get channel).val : ℚ) + st.1 channel
          let value : Int := toInt value_double
          let value : Int := Int.tdiv value bin_size * bin_size
          let error : Nat → ℚ := fun c => if c = channel then value_double - (value : ℚ) else st.1 c
          some (error, st.2.set y x ((st.2.data y x).set channel
            (intToUchar (Int.tdiv value bin_size))))) st) st)
    (fun _ => 0, dst)).map (fun st => st.2)

/-! ## Visual cryptography -/

/-- The matrix `binary_mat` of visual_cryptography.cpp (`visual_cryptography` lines 24-31 and
`decrypt` lines 81-88): `height` x `width` bits `rand() % 2` drawn in row-major order after
`srand(key)`.  The pseudo-random generator of the C library is the parameter `rand`:
`rand key n` is the value of the `n`-th call of `rand()` after `srand(key)`.  The state of the
loops is the pair `(binary_mat, n)`. -/
def binaryMat (rand : Int → Nat → Nat) (key : Int) (height width : Nat) : Mat (Fin 256) :=
  (loopRange height (fun row_idx (st : Mat (Fin 256) × Nat) =>
    loopRange width (fun col_idx (st : Mat (Fin 256) × Nat) =>
      (st.1.set row_idx col_idx ⟨rand key st.2 % 2, by omega⟩, st.2 + 1)) st)
    (Mat.create height width 0, 0)).1

/-- The loops that expand every bit of `binary_mat` to a 2x2 block of the share
(`visual_cryptography` lines 34-51 and, with the same body, `decrypt` lines 92-109).  The
writes are checked against the bounds of the share. -/
def shareBlocks (binary_mat : Mat (Fin 256)) (height width : Nat) (share : Mat (Fin 256)) :
    Option (Mat (Fin 256)) :=
  forRange height (fun row_idx share =>
    forRange width (fun col_idx share => do
      let base_row : Nat := row_idx * 2
      let base_col : Nat := col_idx * 2
      let bit : Fin 256 := binary_mat.data row_idx col_idx
      if bit = 0 then do
        let share ← share.setChecked base_row base_col 0
        let share ← share.setChecked (base_row + 1) base_col 255
        let share ← share.setChecked base_row (base_col + 1) 0
        share.setChecked (base_row + 1) (base_col + 1) 255
      else do
        let share ← share.setChecked base_row base_col 255
        let share ← share.setChecked (base_row + 1) base_col 0
        let share ← share.setChecked base_row (base_col + 1) 255
        share.setChecked (base_row + 1) (base_col + 1) 0) share) share

/-- The function `visual_cryptography`.  Of `host` only the size is used.  The three calls
into the image library that resize the secret to `binary_size`, convert it to grey and
threshold it at 128 are the parameter `resizeGrayThreshold` (arguments: the secret, the width
and the height of `binary_size`).  `cv::Size binary_size(host.rows / 2, host.cols / 2)` has
width `host.rows / 2` and height `host.cols / 2`.  Reads and writes at computed positions are
checked: `none` means that a matrix was accessed outside its bounds. -/
def visual_cryptography (rand : Int → Nat → Nat)
    (resizeGrayThreshold : Mat Vec3b → Nat → Nat → Mat (Fin 256))
    (host secret : Mat Vec3b) (key : Int) : Option (Mat (Fin 256)) := do
  let width : Nat := host.rows / 2
  let height : Nat := host.cols / 2
  let ownership_share : Mat (Fin 256) := Mat.create host.rows host.cols 0
  let resized_secret : Mat (Fin 256) := resizeGrayThreshold secret width height
  let binary_mat : Mat (Fin 256) := binaryMat rand key height width
  let ownership_share ← shareBlocks binary_mat height width ownership_share
  let watermark : Mat (Fin 256) := Mat.create host.rows host.cols 0
  forRange height (fun row_idx watermark =>
    forRange width (fun col_idx watermark => do
      let base_row : Nat := row_idx * 2
      let base_col : Nat := col_idx * 2
      let secret_pixel ← resized_secret.atChecked row_idx col_idx
      if secret_pixel = 255 then do
        let v ← ownership_share.atChecked base_row base_col
        let watermark ← watermark.setChecked base_row base_col v
        let v ← ownership_share.atChecked (base_row + 1 : Nat) base_col
        let watermark ← watermark.setChecked (base_row + 1) base_col v
        let v ← ownership_share.atChecked base_row (base_col + 1 : Nat)
        let watermark ← watermark.setChecked base_row (base_col + 1) v
        let v ← ownership_share.atChecked (base_row + 1 : Nat) (base_col + 1 : Nat)
        watermark.setChecked (base_row + 1) (base_col + 1) v
      else do
        let v ← ownership_share.atChecked (base_row + 1 : Nat) base_col
        let watermark ← watermark.setChecked base_row base_col v
        let v ← ownership_share.atChecked base_row base_col
        let watermark ← watermark.setChecked (base_row + 1) base_col v
        let v ← ownership_share.atChecked (base_row + 1 : Nat) (base_col + 1 : Nat)
        let watermark ← watermark.setChecked base_row (base_col + 1) v
        let v ← ownership_share.atChecked base_row (base_col + 1 : Nat)
        watermark.setChecked (base_row + 1) (base_col + 1) v) watermark) watermark

/-- The function `decrypt`.  Of `host` only the size is used; the loops of the master share
run over `binary_mat.rows` and `binary_mat.cols`.  Reads and writes are checked as in
`visual_cryptography`. -/
def decrypt (rand : Int → Nat → Nat) (ownership_share : Mat (Fin 256)) (host : Mat Vec3b)
    (key : Int) : Option (Mat (Fin 256)) := do
  let width : Nat := host.rows / 2
  let height : Nat := host.cols / 2
  let binary_mat : Mat (Fin 256) := binaryMat rand key height width
  let binary_master_share ← shareBlocks binary_mat binary_mat.rows binary_mat.cols
    (Mat.create host.rows host.cols 0)
  let revealed_watermark : Mat (Fin 256) := Mat.create host.rows host.cols 0
  forRange host.rows (fun row_idx revealed_watermark =>
    forRange host.cols (fun col_idx revealed_watermark => do
      let ownership_pixel ← ownership_share.atChecked row_idx col_idx
      let master_pixel ← binary_master_share.atChecked row_idx col_idx
      revealed_watermark.setChecked row_idx col_idx
        (if ownership_pixel = master_pixel then master_pixel else 0)) revealed_watermark)
    revealed_watermark

/-! ## Floating-point rounding -/

/-- Rounding of a number to the nearest integer, ties to the even integer. -/
def roundHalfEven (q : ℚ) : Int :=
  let f : Int := ⌊q⌋
  let r : ℚ := q - (f : ℚ)
  if r < 1 / 2 then f
  else if 1 / 2 < r then f + 1
  else if f % 2 = 0 then f else f + 1

/-- Rounding to the nearest binary floating-point number with `p` bits of precision, ties to
even (the default rounding of IEEE 754 arithmetic).  The exponent range is not bounded: overflow
and subnormal numbers are not modelled.  In the rounded functions below every operation of the
code is rounded once, to the format of its C type (no wider intermediate format, no fused
multiply-add). -/
def roundBinary (p : Nat) (v : ℚ) : ℚ :=
  if v = 0 then 0
  else
    let e : Int := Int.log 2 |v|
    let ulp : ℚ := (2 : ℚ) ^ (e - ((p : Int) - 1))
    (roundHalfEven (v / ulp) : ℚ) * ulp

/-- Rounding to `float` (24 bits of precision). -/
def roundFloat (v : ℚ) : ℚ :=
  roundBinary 24 v

/-- Rounding to `double` (53 bits of precision). -/
def roundDouble (v : ℚ) : ℚ :=
  roundBinary 53 v

/-! ## Remap with the rounding of the bilinear branches -/

/-- The channel loop body of the bilinear branches with the roundings of the code
(Remap.cpp lines 105-113 and 146-154).  The weights `remainder.x`, `remainder.y` are `float`
members of a `cv::Point2f`; `1 - remainder.x`, its products with the channel values and their
sum are `float` operations, whose result is stored in the `double` variables `top` and
`bottom`; the last line is evaluated in `double` except for `1 - remainder.y`.  `toFloat` and
`toDouble` are the roundings of the two formats. -/
def interpolateChannelRounded (toFloat toDouble : ℚ → ℚ) (src : Mat Vec3b)
    (x1 y1 x2 y2 : Int) (remainder_x remainder_y : ℚ) (channel_idx : Nat) :
    Option (Fin 256) := do
  let p11 ← src.atChecked y1 x1
  let p12 ← src.atChecked y1 x2
  let p21 ← src.atChecked y2 x1
  let p22 ← src.atChecked y2 x2
  let top : ℚ := toFloat (toFloat (toFloat (1 - remainder_x) * ((p11.get channel_idx).val : ℚ)) +
    toFloat (remainder_x * ((p12.get channel_idx).val : ℚ)))
  let bottom : ℚ :=
    toFloat (toFloat (toFloat (1 - remainder_x) * ((p21.get channel_idx).val : ℚ)) +
      toFloat (remainder_x * ((p22.get channel_idx).val : ℚ)))
  pure (toUchar (toDouble (toDouble (toFloat (1 - remainder_y) * top) +
    toDouble (remainder_y * bottom))))

/-- Pixel written by the bilinear branches once `x` and `y` are fixed, with the roundings of
the code: `remainder.x = x - x1` is a `double` difference stored in a `float`. -/
def interpolatePixelRounded (toFloat toDouble : ℚ → ℚ) (src : Mat Vec3b) (x y : ℚ) :
    Option Vec3b := do
  let x1 : Int := ⌊x⌋
  let y1 : Int := ⌊y⌋
  let x2 : Int := x1 + 1
  let y2 : Int := y1 + 1
  let remainder_x : ℚ := toFloat (toDouble (x - x1))
  let remainder_y : ℚ := toFloat (toDouble (y - y1))
  let v0 ← interpolateChannelRounded toFloat toDouble src x1 y1 x2 y2 remainder_x remainder_y 0
  let v1 ← interpolateChannelRounded toFloat toDouble src x1 y1 x2 y2 remainder_x remainder_y 1
  let v2 ← interpolateChannelRounded toFloat toDouble src x1 y1 x2 y2 remainder_x remainder_y 2
  pure ⟨v0, v1, v2⟩

/-- Cell body of the LINEAR + CONSTANT branch with the roundings of the code. -/
def linearConstantRounded (toFloat toDouble : ℚ → ℚ) (src : Mat Vec3b)
    (border_value : Fin 256) (x y : ℚ) : Option Vec3b :=
  if x < 0 ∨ x ≥ (((src.cols : Int) - 1 : Int) : ℚ) ∨ y < 0 ∨ y ≥ (((src.rows : Int) - 1 : Int) : ℚ) then
    some ⟨border_value, border_value, border_value⟩
  else
    interpolatePixelRounded toFloat toDouble src x y

/-- Cell body of the LINEAR + REPLICATE branch with the roundings of the code. -/
def linearReplicateRounded (toFloat toDouble : ℚ → ℚ) (src : Mat Vec3b) (x y : ℚ) :
    Option Vec3b :=
  let x : ℚ := if x < 0 then 0
    else if x ≥ (((src.cols : Int) - 1 : Int) : ℚ) then (((src.cols : Int) - 2 : Int) : ℚ) else x
  let y : ℚ := if y < 0 then 0
    else if y ≥ (((src.rows : Int) - 1 : Int) : ℚ) then (((src.rows : Int) - 2 : Int) : ℚ) else y
  interpolatePixelRounded toFloat toDouble src x y

/-- The function `ipcv::Remap` with the roundings of its bilinear branches: the map entries
are `float` values and the arithmetic is the floating-point arithmetic of the code.  The
nearest-neighbour branches perform no arithmetic.  With `toFloat` and `toDouble` the identity
this is `Remap`, the function over exact arithmetic. -/
def RemapRounded (toFloat toDouble : ℚ → ℚ) (src : Mat Vec3b) (map1 map2 : Mat ℚ)
    (interpolation : Interpolation) (border_mode : BorderMode) (border_value : Fin 256) :
    Option (Mat Vec3b) := do
  let dst : Mat Vec3b := Mat.create map1.rows map1.cols ⟨0, 0, 0⟩
  let dst ← if interpolation = Interpolation.NEAREST ∧ border_mode = BorderMode.CONSTANT then
      remapLoop map1 map2 (nearestConstant src border_value) dst
    else pure dst
  let dst ← if interpolation = Interpolation.NEAREST ∧ border_mode = BorderMode.REPLICATE then
      remapLoop map1 map2 (nearestReplicate src) dst
    else pure dst
  let dst ← if interpolation = Interpolation.LINEAR ∧ border_mode = BorderMode.CONSTANT then
      remapLoop map1 map2 (linearConstantRounded toFloat toDouble src border_value) dst
    else pure dst
  let dst ← if interpolation = Interpolation.LINEAR ∧ border_mode = BorderMode.REPLICATE then
      remapLoop map1 map2 (linearReplicateRounded toFloat toDouble src) dst
    else pure dst
  pure dst

/-! ## MapRST with the rounding and the divisions of the code -/

/-- The quotient `a / b` of two `double` values, rounded by `rnd`.  For `b = 0` the code obtains
an infinite value or a NaN, which is no number: the model returns `none`. -/
def divRounded (rnd : ℚ → ℚ) (a b : ℚ) : Option ℚ :=
  if b = 0 then none else some (rnd (a / b))

/-- Matrix product `a * b` in `double` arithmetic: every product and every sum is rounded by
`rnd`.  The three products of an entry are added from left to right. -/
def Matrix3d.mulRounded (rnd : ℚ → ℚ) (a b : Matrix3d) : Matrix3d :=
  { m00 := rnd (rnd (rnd (a.m00 * b.m00) + rnd (a.m01 * b.m10)) + rnd (a.m02 * b.m20))
    m01 := rnd (rnd (rnd (a.m00 * b.m01) + rnd (a.m01 * b.m11)) + rnd (a.m02 * b.m21))
    m02 := rnd (rnd (rnd (a.m00 * b.m02) + rnd (a.m01 * b.m12)) + rnd (a.m02 * b.m22))
    m10 := rnd (rnd (rnd (a.m10 * b.m00) + rnd (a.m11 * b.m10)) + rnd (a.m12 * b.m20))
    m11 := rnd (rnd (rnd (a.m10 * b.m01) + rnd (a.m11 * b.m11)) + rnd (a.m12 * b.m21))
    m12 := rnd (rnd (rnd (a.m10 * b.m02) + rnd (a.m11 * b.m12)) + rnd (a.m12 * b.m22))
    m20 := rnd (rnd (rnd (a.m20 * b.m00) + rnd (a.m21 * b.m10)) + rnd (a.m22 * b.m20))
    m21 := rnd (rnd (rnd (a.m20 * b.m01) + rnd (a.m21 * b.m11)) + rnd (a.m22 * b.m21))
    m22 := rnd (rnd (rnd (a.m20 * b.m02) + rnd (a.m21 * b.m12)) + rnd (a.m22 * b.m22)) }

/-- Matrix-vector product `a * v` in `double` arithmetic: every product and every sum is rounded
by `rnd`. -/
def Matrix3d.mulVecRounded (rnd : ℚ → ℚ) (a : Matrix3d) (v : Vector3d) : Vector3d :=
  { v0 := rnd (rnd (rnd (a.m00 * v.v0) + rnd (a.m01 * v.v1)) + rnd (a.m02 * v.v2))
    v1 := rnd (rnd (rnd (a.m10 * v.v0) + rnd (a.m11 * v.v1)) + rnd (a.m12 * v.v2))
    v2 := rnd (rnd (rnd (a.m20 * v.v0) + rnd (a.m21 * v.v1)) + rnd (a.m22 * v.v2)) }

/-- The call `a.inverse()` in `double` arithmetic, by the method the linear-algebra library uses
for a 3x3 matrix: the cofactors, the determinant as the sum of the products of the first column
with its cofactors, one division `1 / det`, and the transposed cofactor matrix multiplied by
that quotient.  `none` when the determinant is `0`: the division then yields an infinite value
and every entry of the result is infinite or a NaN. -/
def Matrix3d.inverseRounded (rnd : ℚ → ℚ) (a : Matrix3d) : Option Matrix3d := do
  let c00 : ℚ := rnd (rnd (a.m11 * a.m22) - rnd (a.m12 * a.m21))
  let c10 : ℚ := rnd (rnd (a.m21 * a.m02) - rnd (a.m22 * a.m01))
  let c20 : ℚ := rnd (rnd (a.m01 * a.m12) - rnd (a.m02 * a.m11))
  let c01 : ℚ := rnd (rnd (a.m12 * a.m20) - rnd (a.m10 * a.m22))
  let c11 : ℚ := rnd (rnd (a.m22 * a.m00) - rnd (a.m20 * a.m02))
  let c21 : ℚ := rnd (rnd (a.m02 * a.m10) - rnd (a.m00 * a.m12))
  let c02 : ℚ := rnd (rnd (a.m10 * a.m21) - rnd (a.m11 * a.m20))
  let c12 : ℚ := rnd (rnd (a.m20 * a.m01) - rnd (a.m21 * a.m00))
  let c22 : ℚ := rnd (rnd (a.m00 * a.m11) - rnd (a.m01 * a.m10))
  let det : ℚ := rnd (rnd (rnd (c00 * a.m00) + rnd (c10 * a.m10)) + rnd (c20 * a.m20))
  let invdet ← divRounded rnd 1 det
  pure
    { m00 := rnd (c00 * invdet), m01 := rnd (c10 * invdet), m02 := rnd (c20 * invdet)
      m10 := rnd (c01 * invdet), m11 := rnd (c11 * invdet), m12 := rnd (c21 * invdet)
      m20 := rnd (c02 * invdet), m21 := rnd (c12 * invdet), m22 := rnd (c22 * invdet) }

/-- The affine matrix `rotation * scale * translation` of MapRST.cpp lines 43-46 in `double`
arithmetic.  `none` when a scale is `0`: `1 / scale_x` is then infinite, the entry `(2, 0)` of
`rotation * scale` is the product of `0` with it, a NaN, and so is the last row of the affine
matrix. -/
def rstAffineRounded (rnd : ℚ → ℚ) (cos_angle sin_angle scale_x scale_y translation_x
    translation_y : ℚ) : Option Matrix3d := do
  let inv_scale_x ← divRounded rnd 1 scale_x
  let inv_scale_y ← divRounded rnd 1 scale_y
  let rotation : Matrix3d :=
    { m00 := cos_angle, m01 := -sin_angle, m02 := 0
      m10 := sin_angle, m11 := cos_angle, m12 := 0
      m20 := 0, m21 := 0, m22 := 1 }
  let scale : Matrix3d :=
    { m00 := inv_scale_x, m01 := 0, m02 := 0
      m10 := 0, m11 := inv_scale_y, m12 := 0
      m20 := 0, m21 := 0, m22 := 1 }
  let translation : Matrix3d :=
    { m00 := 1, m01 := 0, m02 := -translation_x
      m10 := 0, m11 := 1, m12 := translation_y
      m20 := 0, m21 := 0, m22 := 1 }
  pure ((rotation.mulRounded rnd scale).mulRounded rnd translation)

/-- The four transformed corners `NTopLeft`, `NBottomLeft`, `NTopRight`, `NBottomRight` of
MapRST.cpp lines 48-62 as the code computes them, `inv` being the value of
`affine.inverse()`. -/
def rstCornersRounded (rnd : ℚ → ℚ) (src_cols src_rows : Nat) (inv : Matrix3d) :
    Vector3d × Vector3d × Vector3d × Vector3d :=
  let TopLeft : Vector3d := ⟨(Int.tdiv (-(src_cols : Int)) 2 : Int), (Int.tdiv (src_rows : Int) 2 : Int), 1⟩
  let BottomLeft : Vector3d :=
    ⟨(Int.tdiv (-(src_cols : Int)) 2 : Int), (Int.tdiv (-(src_rows : Int)) 2 : Int), 1⟩
  let TopRight : Vector3d := ⟨(Int.tdiv (src_cols : Int) 2 : Int), (Int.tdiv (src_rows : Int) 2 : Int), 1⟩
  let BottomRight : Vector3d :=
    ⟨(Int.tdiv (src_cols : Int) 2 : Int), (Int.tdiv (-(src_rows : Int)) 2 : Int), 1⟩
  (inv.mulVecRounded rnd TopLeft, inv.mulVecRounded rnd BottomLeft,
    inv.mulVecRounded rnd TopRight, inv.mulVecRounded rnd BottomRight)

/-- Number of rows of the map of `MapRST` (MapRST.cpp lines 65-66) in `double` arithmetic: the
two differences are rounded before the absolute value, the maximum and the ceiling. -/
def rstRowsRounded (rnd : ℚ → ℚ) (src_cols src_rows : Nat) (inv : Matrix3d) : Nat :=
  let NTopLeft := (rstCornersRounded rnd src_cols src_rows inv).1
  let NBottomLeft := (rstCornersRounded rnd src_cols src_rows inv).2.1
  let NTopRight := (rstCornersRounded rnd src_cols src_rows inv).2.2.1
  let NBottomRight := (rstCornersRounded rnd src_cols src_rows inv).2.2.2
  (⌈max |rnd (NTopLeft.v1 - NBottomRight.v1)| |rnd (NTopRight.v1 - NBottomLeft.v1)|⌉).toNat

/-- Number of columns of the map of `MapRST` (MapRST.cpp lines 67-68) in `double`
arithmetic. -/
def rstColsRounded (rnd : ℚ → ℚ) (src_cols src_rows : Nat) (inv : Matrix3d) : Nat :=
  let NTopLeft := (rstCornersRounded rnd src_cols src_rows inv).1
  let NBottomLeft := (rstCornersRounded rnd src_cols src_rows inv).2.1
  let NTopRight := (rstCornersRounded rnd src_cols src_rows inv).2.2.1
  let NBottomRight := (rstCornersRounded rnd src_cols src_rows inv).2.2.2
  (⌈max |rnd (NTopLeft.v0 - NBottomRight.v0)| |rnd (NTopRight.v0 - NBottomLeft.v0)|⌉).toNat

/-- The source point `affine * dst_point` of the destination cell `(row_idx, col_idx)`
(MapRST.cpp lines 77-79) in `double` arithmetic. -/
def rstSrcPointRounded (rnd : ℚ → ℚ) (affine : Matrix3d) (rows cols row_idx col_idx : Nat) :
    Vector3d :=
  let dst_point : Vector3d :=
    ⟨((col_idx : Int) - Int.tdiv (cols : Int) 2 : Int),
     ((row_idx : Int) - Int.tdiv (rows : Int) 2 : Int), 1⟩
  affine.mulVecRounded rnd dst_point

/-- The function `ipcv::MapRST` with the floating-point arithmetic of the code: `toDouble`
rounds the result of every `double` operation and `toFloat` is the final
`static_cast<float>`.  `some r` is a normal return with the flag and the two maps.  `none`
means that a division by zero occurred (a zero scale, or a zero determinant inside
`affine.inverse()`): every transformed corner is then infinite or a NaN, so is the argument of
`static_cast<int>`, a conversion that the language leaves undefined, and the function hands
back no maps (with the usual conversion to the most negative `int`, `map1.create` throws on
the negative size).  With `toFloat` and `toDouble` the identity and no division by zero this is
`MapRST`, the function over exact arithmetic. -/
def MapRSTRounded (toFloat toDouble : ℚ → ℚ) (src : Mat Vec3b) (cos_angle sin_angle scale_x
    scale_y translation_x translation_y : ℚ) : Option MapResult := do
  let affine ← rstAffineRounded toDouble cos_angle sin_angle scale_x scale_y translation_x
    translation_y
  let inv ← affine.inverseRounded toDouble
  let rows : Nat := rstRowsRounded toDouble src.cols src.rows inv
  let cols : Nat := rstColsRounded toDouble src.cols src.rows inv
  let map1 : Mat ℚ := Mat.create rows cols 0
  let map2 : Mat ℚ := Mat.create rows cols 0
  let maps : Mat ℚ × Mat ℚ :=
    loopRange rows (fun row_idx maps =>
      loopRange cols (fun col_idx maps =>
        let src_point := rstSrcPointRounded toDouble affine rows cols row_idx col_idx
        (maps.1.set row_idx col_idx
           (toFloat (toDouble (src_point.v0 + (Int.tdiv (src.cols : Int) 2 : Int)))),
         maps.2.set row_idx col_idx
           (toFloat (toDouble (src_point.v1 + (Int.tdiv (src.rows : Int) 2 : Int)))))) maps)
      (map1, map2)
  pure { ok := true, map1 := maps.1, map2 := maps.2 }

/-! ## Reference formulas of the specification -/

/-- Bilinear interpolation of one channel at `(x, y)` as the specification words it:
interpolate along x for both rows of the 2x2 neighbourhood at `(floor x, floor y)` with weight
`x - floor x`, then along y with weight `y - floor y`. -/
def specBilinearChannel (src : Mat Vec3b) (x y : ℚ) (channel_idx : Nat) : ℚ :=
  let x1 : Nat := ⌊x⌋.toNat
  let y1 : Nat := ⌊y⌋.toNat
  let fx : ℚ := x - ⌊x⌋
  let fy : ℚ := y - ⌊y⌋
  (1 - fy) * ((1 - fx) * (((src.data y1 x1).get channel_idx).val : ℚ) +
      fx * (((src.data y1 (x1 + 1)).get channel_idx).val : ℚ)) +
    fy * ((1 - fx) * (((src.data (y1 + 1) x1).get channel_idx).val : ℚ) +
      fx * (((src.data (y1 + 1) (x1 + 1)).get channel_idx).val : ℚ))

/-- The pixel obtained by bilinear interpolation at `(x, y)`, each channel converted to 8 bits. -/
def specBilinear (src : Mat Vec3b) (x y : ℚ) : Vec3b :=
  ⟨toUchar (specBilinearChannel src x y 0), toUchar (specBilinearChannel src x y 1),
   toUchar (specBilinearChannel src x y 2)⟩

/-- Clamping of `v` to the interval `[lo, hi]` as the specification words it. -/
def specClamp (v lo hi : ℚ) : ℚ :=
  min (max v lo) hi

/-- A source corner `(signX * floor(W/2), signY * floor(H/2))` mapped through the inverse of
the affine matrix, as the specification words the extent computation. -/
def specCorner (src_cols src_rows : Nat) (affine : Matrix3d) (signX signY : Int) : Vector3d :=
  affine.inverse.mulVec
    ⟨(signX : ℚ) * ((src_cols / 2 : Nat) : ℚ), (signY : ℚ) * ((src_rows / 2 : Nat) : ℚ), 1⟩

/-- The extent of the bounding box of four coordinates, rounded up:
`ceil(max - min)`. -/
def specBoundingSpan (v1 v2 v3 v4 : ℚ) : Nat :=
  (⌈max (max v1 v2) (max v3 v4) - min (min v1 v2) (min v3 v4)⌉).toNat

/-- The matrix `S` solves the linear system `A * S = B`, entry by entry inside the shape of
the product: what the library call `A.ldlt().solve(B)` delivers over exact arithmetic when the
system has a solution. -/
def SolvesSystem (A B S : Mat ℚ) : Prop :=
  ∀ i j, i < A.rows → j < B.cols → (A.mul S).data i j = B.data i j

/-- The matrix `Ainv` is the inverse of the square matrix `A`: it has the shape of `A` and both
products are the identity matrix.  This is what the library call `A.inverse()` delivers over
exact arithmetic when `A` is invertible. -/
def IsInverseOf (A Ainv : Mat ℚ) : Prop :=
  Ainv.rows = A.rows ∧ Ainv.cols = A.cols ∧
    ∀ i j, i < A.rows → j < A.cols →
      (Ainv.mul A).data i j = (if i = j then 1 else 0) ∧
      (A.mul Ainv).data i j = (if i = j then 1 else 0)

/-- The smallest of the four channel values of the 2x2 neighbourhood at
`(floor x, floor y)`. -/
def specNeighbourMin (src : Mat Vec3b) (x y : ℚ) (channel_idx : Nat) : Nat :=
  min (min ((src.data ⌊y⌋.toNat ⌊x⌋.toNat).get channel_idx).val
      ((src.data ⌊y⌋.toNat (⌊x⌋.toNat + 1)).get channel_idx).val)
    (min ((src.data (⌊y⌋.toNat + 1) ⌊x⌋.toNat).get channel_idx).val
      ((src.data (⌊y⌋.toNat + 1) (⌊x⌋.toNat + 1)).get channel_idx).val)

/-- The largest of the four channel values of the 2x2 neighbourhood at
`(floor x, floor y)`. -/
def specNeighbourMax (src : Mat Vec3b) (x y : ℚ) (channel_idx : Nat) : Nat :=
  max (max ((src.data ⌊y⌋.toNat ⌊x⌋.toNat).get channel_idx).val
      ((src.data ⌊y⌋.toNat (⌊x⌋.toNat + 1)).get channel_idx).val)
    (max ((src.data (⌊y⌋.toNat + 1) ⌊x⌋.toNat).get channel_idx).val
      ((src.data (⌊y⌋.toNat + 1) (⌊x⌋.toNat + 1)).get channel_idx).val)

/-- The monomials of order 2 in the order of the header comment of `MapGCP`
(MapGCP.cpp lines 36-39): `1, x, x^2, y, x*y, y^2`. -/
def gcpDocumentedOrder2 (x y : ℚ) : List ℚ :=
  [x ^ 0 * y ^ 0, x ^ 1 * y ^ 0, x ^ 2 * y ^ 0, x ^ 0 * y ^ 1, x ^ 1 * y ^ 1, x ^ 0 * y ^ 2]

/-! ## Concrete inputs -/

/-- A `rows` x `cols` image whose three channels all hold the row-major index of the
pixel (reduced to 8 bits): `0, 1, 2, ...`. -/
def rampImage (rows cols : Nat) : Mat Vec3b :=
  { rows := rows, cols := cols,
    data := fun r c =>
      let v : Fin 256 := ⟨(cols * r + c) % 256, Nat.mod_lt _ (by decide)⟩
      ⟨v, v, v⟩ }

/-- A map all of whose cells hold the value `v`. -/
def constMap (rows cols : Nat) (v : ℚ) : Mat ℚ :=
  { rows := rows, cols := cols, data := fun _ _ => v }

/-- The map of x coordinates of the identity transform: cell `(row, col)` holds `col`. -/
def colMap (rows cols : Nat) : Mat ℚ :=
  { rows := rows, cols := cols, data := fun _ c => (c : ℚ) }

/-- The map of y coordinates of the identity transform: cell `(row, col)` holds `row`. -/
def rowMap (rows cols : Nat) : Mat ℚ :=
  { rows := rows, cols := cols, data := fun r _ => (r : ℚ) }

/-- Three map (target) control points that are not collinear. -/
def trianglePoints : List Point :=
  [⟨0, 0⟩, ⟨1, 0⟩, ⟨0, 1⟩]

/-- The images of `trianglePoints` under the affine transform
`(x, y) ↦ (1 + 2*x, 2 + 3*y)`. -/
def triangleImages : List Point :=
  [⟨1, 2⟩, ⟨3, 2⟩, ⟨1, 5⟩]

/-- A solver that returns the coefficient matrix of `(x, y) ↦ (1 + 2*x, 2 + 3*y)`:
column 0 holds `(1, 2, 0)`, column 1 holds `(2, 0, 3)`. -/
def triangleSolver : Mat ℚ → Mat ℚ → Mat ℚ :=
  fun _ _ =>
    { rows := 3, cols := 2,
      data := fun i j =>
        (([[1, 2], [2, 0], [0, 3]] : List (List ℚ)).getD i []).getD j 0 }

/-- Entry `(i, j)` of a table of integer rows (`0` outside the table). -/
def intEntry (entries : List (List Int)) (i j : Nat) : Int :=
  (entries.getD i []).getD j 0

/-- The matrix with the given shape whose entries are read from a table of integer rows. -/
def matOfRows (rows cols : Nat) (entries : List (List Int)) : Mat ℚ :=
  { rows := rows, cols := cols, data := fun i j => ((intEntry entries i j : Int) : ℚ) }

/-- Entry `(i, j)` of the product of two 8x8 integer tables. -/
def intProduct (A B : List (List Int)) (i j : Nat) : Int :=
  ((List.range 8).map (fun k => intEntry A i k * intEntry B k j)).sum

/-- The unit square, clockwise in image coordinates. -/
def unitSquare : List Point :=
  [⟨0, 0⟩, ⟨1, 0⟩, ⟨1, 1⟩, ⟨0, 1⟩]

/-- The unit square moved by `(1, 2)`. -/
def shiftedSquare : List Point :=
  [⟨1, 2⟩, ⟨2, 2⟩, ⟨2, 3⟩, ⟨1, 3⟩]

/-- The correspondence matrix of the unit square mapped to itself. -/
def unitSquareTable : List (List Int) :=
  [[0, 0, 1, 0, 0, 0, 0, 0],
   [1, 0, 1, 0, 0, 0, -1, 0],
   [1, 1, 1, 0, 0, 0, -1, -1],
   [0, 1, 1, 0, 0, 0, 0, 0],
   [0, 0, 0, 0, 0, 1, 0, 0],
   [0, 0, 0, 1, 0, 1, 0, 0],
   [0, 0, 0, 1, 1, 1, -1, -1],
   [0, 0, 0, 0, 1, 1, 0, -1]]

/-- The inverse of `unitSquareTable`. -/
def unitSquareInverseTable : List (List Int) :=
  [[-1, 1, 0, 0, -1, 1, -1, 1],
   [-1, 0, 0, 1, 0, 0, 0, 0],
   [1, 0, 0, 0, 0, 0, 0, 0],
   [0, 0, 0, 0, -1, 1, 0, 0],
   [-1, 1, -1, 1, -1, 0, 0, 1],
   [0, 0, 0, 0, 1, 0, 0, 0],
   [0, 0, 0, 0, -1, 1, -1, 1],
   [-1, 1, -1, 1, 0, 0, 0, 0]]

/-- An `inverse` that returns the inverse of the correspondence matrix of the unit square
mapped to itself. -/
def unitSquareInverse : Mat ℚ → Mat ℚ :=
  fun _ => matOfRows 8 8 unitSquareInverseTable

/-- The correspondence matrix of the target `unitSquare` and the source `shiftedSquare`. -/
def shiftedSquareTable : List (List Int) :=
  [[0, 0, 1, 0, 0, 0, 0, 0],
   [1, 0, 1, 0, 0, 0, -2, 0],
   [1, 1, 1, 0, 0, 0, -2, -2],
   [0, 1, 1, 0, 0, 0, 0, -1],
   [0, 0, 0, 0, 0, 1, 0, 0],
   [0, 0, 0, 1, 0, 1, -2, 0],
   [0, 0, 0, 1, 1, 1, -3, -3],
   [0, 0, 0, 0, 1, 1, 0, -3]]

/-- The inverse of `shiftedSquareTable`. -/
def shiftedSquareInverseTable : List (List Int) :=
  [[-1, 1, 0, 0, -2, 2, -2, 2],
   [-2, 1, -1, 2, 0, 0, 0, 0],
   [1, 0, 0, 0, 0, 0, 0, 0],
   [0, 0, 0, 0, -3, 3, -2, 2],
   [-3, 3, -3, 3, -1, 0, 0, 1],
   [0, 0, 0, 0, 1, 0, 0, 0],
   [0, 0, 0, 0, -1, 1, -1, 1],
   [-1, 1, -1, 1, 0, 0, 0, 0]]

/-- An `inverse` that returns the inverse of the correspondence matrix of the target
`unitSquare` and the source `shiftedSquare`. -/
def shiftedSquareInverse : Mat ℚ → Mat ℚ :=
  fun _ => matOfRows 8 8 shiftedSquareInverseTable

/-- A degenerate target quad: its first two vertices coincide. -/
def duplicatedQuad : List Point :=
  [⟨0, 0⟩, ⟨0, 0⟩, ⟨1, 1⟩, ⟨0, 1⟩]

/-- Three collinear control points. -/
def collinearPoints : List Point :=
  [⟨0, 0⟩, ⟨1, 1⟩, ⟨2, 2⟩]

/-- A concrete instance of the math-library parameters for evaluating `MapPolar` on concrete
inputs: rational stand-ins, not the real library functions. -/
def sampleLibm : Libm :=
  { sqrt := fun v => v, log := fun v => v, exp := fun v => v + 1,
    cos := fun _ => 1, sin := fun _ => 0, M_PI := 3 }

/-- An image of one row and two columns: the pixel `(127, 127, 127)` followed by the pixel
`(255, 255, 255)`. -/
def igsImage : Mat Vec3b :=
  { rows := 1, cols := 2, data := fun _ c => if c = 0 then ⟨127, 127, 127⟩ else ⟨255, 255, 255⟩ }

/-- An image of one row and one column: the pixel `(255, 255, 255)`. -/
def whiteImage : Mat Vec3b :=
  { rows := 1, cols := 1, data := fun _ _ => ⟨255, 255, 255⟩ }

/-- A pseudo-random generator for evaluating on concrete inputs: the `n`-th value after
`srand(key)` is `|key| + n`. -/
def sampleRand (key : Int) (n : Nat) : Nat :=
  key.natAbs + n

/-- A stand-in for the preparation of the secret on concrete inputs: a `height` x `width`
matrix that is white (255) on the main diagonal and black (0) elsewhere. -/
def sampleSecret (_secret : Mat Vec3b) (width height : Nat) : Mat (Fin 256) :=
  { rows := height, cols := width, data := fun r c => if r = c then 255 else 0 }

/-- The `double` nearest to `6.3`, a horizontal translation. -/
def translationSixPointThree : ℚ :=
  7093169413108531 / 1125899906842624

/-- The `double` nearest to `1.2`, a horizontal translation. -/
def translationOnePointTwo : ℚ :=
  5404319552844595 / 4503599627370496

/-- The `float` nearest to `0.2`, a map entry. -/
def floatOneFifth : ℚ :=
  13421773 / 67108864

/-! ## Loop lemmas -/

theorem forRange_zero {σ : Type} (body : Nat → σ → Option σ) (init : σ) :
    forRange 0 body init = some init := by
  simp [forRange]

theorem forRange_succ {σ : Type} (n : Nat) (body : Nat → σ → Option σ) (init : σ) :
    forRange (n + 1) body init = (forRange n body init).bind (body n) := by
  simp [forRange, List.range_succ, List.foldlM_append]

/-- Closed form of a row loop all of whose cells are computed successfully. -/
theorem forRange_setRow (f : Nat → Option Vec3b) (g : Nat → Vec3b) (row : Nat) (d : Mat Vec3b) :
    ∀ n : Nat, (∀ c, c < n → f c = some (g c)) →
      forRange n (fun col_idx dst => (f col_idx).bind (fun p => some (dst.set row col_idx p))) d =
        some { rows := d.rows, cols := d.cols,
               data := fun r c => if r = row ∧ c < n then g c else d.data r c } := by
  intro n
  induction n with
  | zero =>
    intro _
    rw [forRange_zero]
    cases d
    simp
  | succ n ih =>
    intro h
    rw [forRange_succ, ih (fun c hc => h c (Nat.lt_succ_of_lt hc)), Option.some_bind,
      h n (Nat.lt_succ_self n), Option.some_bind]
    simp only [Mat.set, Option.some.injEq, Mat.mk.injEq, true_and]
    funext r c
    by_cases h1 : r = row ∧ c = n
    · obtain ⟨rfl, rfl⟩ := h1
      simp
    · by_cases h2 : r = row ∧ c < n
      · have h3 : r = row ∧ c < n + 1 := ⟨h2.1, Nat.lt_succ_of_lt h2.2⟩
        have h4 : c ≠ n := Nat.ne_of_lt h2.2
        simp [h2, h3, h4]
      · have h3 : ¬ (r = row ∧ c < n + 1) := by
          rintro ⟨hr, hc⟩
          rcases Nat.lt_succ_iff_lt_or_eq.mp hc with hlt | heq
          · exact h2 ⟨hr, hlt⟩
          · exact h1 ⟨hr, heq⟩
        simp [h1, h2, h3]

theorem remapRow_eq (map1 map2 : Mat ℚ) (cell : ℚ → ℚ → Option Vec3b) (g : Nat → Nat → Vec3b)
    (row : Nat) (d : Mat Vec3b)
    (h : ∀ c, c < d.cols → cell (map1.data row c) (map2.data row c) = some (g row c)) :
    remapRow map1 map2 cell row d =
      some { rows := d.rows, cols := d.cols,
             data := fun r c => if r = row ∧ c < d.cols then g r c else d.data r c } := by
  have key := forRange_setRow (fun c => cell (map1.data row c) (map2.data row c)) (g row) row d
    d.cols h
  have hdata : (fun r c => if r = row ∧ c < d.cols then g row c else d.data r c) =
      (fun r c => if r = row ∧ c < d.cols then g r c else d.data r c) := by
    funext r c
    by_cases hr : r = row
    · subst hr; rfl
    · simp [hr]
  rw [← hdata]
  exact key

theorem remapLoop_rows (map1 map2 : Mat ℚ) (cell : ℚ → ℚ → Option Vec3b) (g : Nat → Nat → Vec3b)
    (d : Mat Vec3b) :
    ∀ n : Nat, (∀ r c, r < n → c < d.cols →
        cell (map1.data r c) (map2.data r c) = some (g r c)) →
      forRange n (fun row_idx dst => remapRow map1 map2 cell row_idx dst) d =
        some { rows := d.rows, cols := d.cols,
               data := fun r c => if r < n ∧ c < d.cols then g r c else d.data r c } := by
  intro n
  induction n with
  | zero =>
    intro _
    rw [forRange_zero]
    cases d
    simp
  | succ n ih =>
    intro h
    have hrow := remapRow_eq map1 map2 cell g n
      { rows := d.rows, cols := d.cols,
        data := fun r c => if r < n ∧ c < d.cols then g r c else d.data r c }
      (fun c hc => h n c (Nat.lt_succ_self n) hc)
    rw [forRange_succ, ih (fun r c hr hc => h r c (Nat.lt_succ_of_lt hr) hc), Option.some_bind,
      hrow]
    simp only [Option.some.injEq, Mat.mk.injEq, true_and]
    funext r c
    by_cases hc : c < d.cols
    · by_cases h1 : r = n
      · subst h1
        simp [hc]
      · by_cases h2 : r < n
        · have h3 : r < n + 1 := Nat.lt_succ_of_lt h2
          simp [h1, h2, h3, hc]
        · have h3 : ¬ r < n + 1 := by omega
          simp [h1, h2, h3, hc]
    · simp [hc]

/-- Closed form of the double loop when every cell is computed successfully: the result has
the dimensions of `dst` and holds `g row col` in every cell. -/
theorem remapLoop_eq (map1 map2 : Mat ℚ) (cell : ℚ → ℚ → Option Vec3b) (g : Nat → Nat → Vec3b)
    (d : Mat Vec3b)
    (h : ∀ r c, r < d.rows → c < d.cols → cell (map1.data r c) (map2.data r c) = some (g r c)) :
    remapLoop map1 map2 cell d =
      some { rows := d.rows, cols := d.cols,
             data := fun r c => if r < d.rows ∧ c < d.cols then g r c else d.data r c } :=
  remapLoop_rows map1 map2 cell g d d.rows h

/-! ## The four branches of Remap -/

theorem Remap_nearest_constant (src : Mat Vec3b) (map1 map2 : Mat ℚ) (border_value : Fin 256) :
    Remap src map1 map2 Interpolation.NEAREST BorderMode.CONSTANT border_value =
      remapLoop map1 map2 (nearestConstant src border_value)
        (Mat.create map1.rows map1.cols ⟨0, 0, 0⟩) := by
  simp [Remap]

theorem Remap_nearest_replicate (src : Mat Vec3b) (map1 map2 : Mat ℚ) (border_value : Fin 256) :
    Remap src map1 map2 Interpolation.NEAREST BorderMode.REPLICATE border_value =
      remapLoop map1 map2 (nearestReplicate src) (Mat.create map1.rows map1.cols ⟨0, 0, 0⟩) := by
  simp [Remap]

theorem Remap_linear_constant (src : Mat Vec3b) (map1 map2 : Mat ℚ) (border_value : Fin 256) :
    Remap src map1 map2 Interpolation.LINEAR BorderMode.CONSTANT border_value =
      remapLoop map1 map2 (linearConstant src border_value)
        (Mat.create map1.rows map1.cols ⟨0, 0, 0⟩) := by
  simp [Remap]

theorem Remap_linear_replicate (src : Mat Vec3b) (map1 map2 : Mat ℚ) (border_value : Fin 256) :
    Remap src map1 map2 Interpolation.LINEAR BorderMode.REPLICATE border_value =
      remapLoop map1 map2 (linearReplicate src) (Mat.create map1.rows map1.cols ⟨0, 0, 0⟩) := by
  simp [Remap]

/-- When every cell of the map is computed successfully, the double loop returns a
destination of the shape of `map1` holding in each cell what the cell body returned. -/
theorem remapLoop_total (map1 map2 : Mat ℚ) (cell : ℚ → ℚ → Option Vec3b)
    (h : ∀ r c, r < map1.rows → c < map1.cols →
      (cell (map1.data r c) (map2.data r c)).isSome = true) :
    ∃ dst, remapLoop map1 map2 cell (Mat.create map1.rows map1.cols ⟨0, 0, 0⟩) = some dst ∧
      dst.rows = map1.rows ∧ dst.cols = map1.cols ∧
      ∀ r c, r < map1.rows → c < map1.cols →
        cell (map1.data r c) (map2.data r c) = some (dst.data r c) := by
  have hg : ∀ r c, r < (Mat.create map1.rows map1.cols (⟨0, 0, 0⟩ : Vec3b)).rows →
      c < (Mat.create map1.rows map1.cols (⟨0, 0, 0⟩ : Vec3b)).cols →
      cell (map1.data r c) (map2.data r c) =
        some ((cell (map1.data r c) (map2.data r c)).getD ⟨0, 0, 0⟩) := by
    intro r c hr hc
    have hs := h r c hr hc
    cases hcell : cell (map1.data r c) (map2.data r c) with
    | none => rw [hcell] at hs; simp at hs
    | some p => simp
  refine ⟨_, remapLoop_eq map1 map2 cell
    (fun r c => (cell (map1.data r c) (map2.data r c)).getD ⟨0, 0, 0⟩) _ hg, rfl, rfl, ?_⟩
  intro r c hr hc
  have hin : r < (Mat.create map1.rows map1.cols (⟨0, 0, 0⟩ : Vec3b)).rows ∧
      c < (Mat.create map1.rows map1.cols (⟨0, 0, 0⟩ : Vec3b)).cols := ⟨hr, hc⟩
  simp only [hin, and_self, if_true]
  exact hg r c hr hc

/-! ## Facts about the conversions -/

theorem toInt_of_nonneg (v : ℚ) (h : 0 ≤ v) : toInt v = ⌊v⌋ := by
  simp [toInt, h]

theorem toInt_intCast (z : Int) : toInt (z : ℚ) = z := by
  by_cases h : (0 : ℚ) ≤ (z : ℚ)
  · simp [toInt, h]
  · simp [toInt, h]

/-- Converting a value of `[0, 256)` to 8 bits keeps its integer part. -/
theorem toUchar_val (v : ℚ) (h0 : 0 ≤ v) (h1 : v < 256) : ((toUchar v).val : Int) = toInt v := by
  have hf : toInt v = ⌊v⌋ := toInt_of_nonneg v h0
  have hnn : 0 ≤ ⌊v⌋ := Int.floor_nonneg.mpr h0
  have hlt : ⌊v⌋ < 256 := Int.floor_lt.mpr (by exact_mod_cast h1)
  simp only [toUchar, hf]
  omega

theorem toUchar_natCast (n : Fin 256) : toUchar ((n.val : ℚ)) = n := by
  apply Fin.ext
  have h := toInt_intCast (n.val : Int)
  have h2 : ((n.val : Int) : ℚ) = (n.val : ℚ) := by push_cast; rfl
  rw [h2] at h
  simp only [toUchar, h]
  omega

/-! ## Facts about the cell bodies -/

theorem atChecked_of_bounds {α : Type} (m : Mat α) (row col : Int) (hr0 : 0 ≤ row)
    (hr1 : row < m.rows) (hc0 : 0 ≤ col) (hc1 : col < m.cols) :
    m.atChecked row col = some (m.data row.toNat col.toNat) := by
  simp [Mat.atChecked, hr0, hr1, hc0, hc1]

theorem nearestConstant_border (src : Mat Vec3b) (b : Fin 256) (x y : ℚ)
    (h : x < 0 ∨ x ≥ (src.cols : ℚ) ∨ y < 0 ∨ y ≥ (src.rows : ℚ)) :
    nearestConstant src b x y = some ⟨b, b, b⟩ := by
  have h' : x < 0 ∨ x ≥ ((src.cols : Int) : ℚ) ∨ y < 0 ∨ y ≥ ((src.rows : Int) : ℚ) := by
    simpa using h
  simp only [nearestConstant, h', if_true]

theorem nearestConstant_inside (src : Mat Vec3b) (b : Fin 256) (x y : ℚ)
    (hx0 : 0 ≤ x) (hx1 : x < (src.cols : ℚ)) (hy0 : 0 ≤ y) (hy1 : y < (src.rows : ℚ)) :
    nearestConstant src b x y = src.atChecked ⌊y⌋ ⌊x⌋ ∧
      src.atChecked ⌊y⌋ ⌊x⌋ = some (src.data ⌊y⌋.toNat ⌊x⌋.toNat) := by
  have h' : ¬ (x < 0 ∨ x ≥ ((src.cols : Int) : ℚ) ∨ y < 0 ∨ y ≥ ((src.rows : Int) : ℚ)) := by
    simp only [Int.cast_natCast, not_or, not_lt, ge_iff_le, not_le]
    exact ⟨hx0, hx1, hy0, hy1⟩
  refine ⟨?_, ?_⟩
  · simp only [nearestConstant, h', if_false, toInt_of_nonneg x hx0, toInt_of_nonneg y hy0]
  · apply atChecked_of_bounds
    · exact Int.floor_nonneg.mpr hy0
    · exact Int.floor_lt.mpr (by exact_mod_cast hy1)
    · exact Int.floor_nonneg.mpr hx0
    · exact Int.floor_lt.mpr (by exact_mod_cast hx1)

theorem nearestConstant_isSome (src : Mat Vec3b) (b : Fin 256) (x y : ℚ) :
    (nearestConstant src b x y).isSome = true := by
  by_cases h : x < 0 ∨ x ≥ (src.cols : ℚ) ∨ y < 0 ∨ y ≥ (src.rows : ℚ)
  · rw [nearestConstant_border src b x y h]; rfl
  · simp only [not_or, not_lt, ge_iff_le, not_le] at h
    obtain ⟨h1, h2⟩ := nearestConstant_inside src b x y h.1 h.2.1 h.2.2.1 h.2.2.2
    rw [h1, h2]; rfl

/-- The clamp of the NEAREST + REPLICATE branch followed by `(int)`: the result is the floor
of the coordinate clamped to `[0, n-1]` and is a valid index. -/
theorem nearestClamp_toInt (n : Nat) (hn : 1 ≤ n) (x : ℚ) :
    toInt (if x < 0 then 0 else if x ≥ ((n : Int) : ℚ) then (((n : Int) - 1 : Int) : ℚ) else x) =
        ⌊specClamp x 0 ((n : ℚ) - 1)⌋ ∧
      0 ≤ ⌊specClamp x 0 ((n : ℚ) - 1)⌋ ∧ ⌊specClamp x 0 ((n : ℚ) - 1)⌋ < (n : Int) := by
  have hn' : (1 : ℚ) ≤ (n : ℚ) := by exact_mod_cast hn
  have hcast : ((((n : Int) - 1 : Int)) : ℚ) = (n : ℚ) - 1 := by push_cast; ring
  have hfl : ⌊(n : ℚ) - 1⌋ = (n : Int) - 1 := by
    rw [← hcast]; exact Int.floor_intCast _
  by_cases h0 : x < 0
  · have hc : specClamp x 0 ((n : ℚ) - 1) = 0 := by
      simp only [specClamp]
      rw [max_eq_right (le_of_lt h0), min_eq_left (by linarith)]
    rw [hc]
    simp only [h0, if_true]
    refine ⟨?_, ?_, ?_⟩
    · simp [toInt]
    · simp
    · simp; omega
  · have h0' : 0 ≤ x := not_lt.mp h0
    by_cases h1 : x ≥ ((n : Int) : ℚ)
    · have h1' : (n : ℚ) ≤ x := by simpa using h1
      have hc : specClamp x 0 ((n : ℚ) - 1) = (n : ℚ) - 1 := by
        simp only [specClamp]
        rw [max_eq_left h0', min_eq_right (by linarith)]
      rw [hc, hfl]
      simp only [h0, h1, if_true, if_false]
      refine ⟨toInt_intCast _, ?_, ?_⟩ <;> omega
    · have h1' : x < (n : ℚ) := by simpa using h1
      simp only [h0, h1, if_false]
      rw [toInt_of_nonneg x h0']
      have hxfl0 : 0 ≤ ⌊x⌋ := Int.floor_nonneg.mpr h0'
      have hxfl1 : ⌊x⌋ < (n : Int) := Int.floor_lt.mpr (by exact_mod_cast h1')
      by_cases h2 : x ≤ (n : ℚ) - 1
      · have hc : specClamp x 0 ((n : ℚ) - 1) = x := by
          simp only [specClamp]
          rw [max_eq_left h0', min_eq_left h2]
        rw [hc]
        exact ⟨rfl, hxfl0, hxfl1⟩
      · have h2' : (n : ℚ) - 1 < x := not_le.mp h2
        have hc : specClamp x 0 ((n : ℚ) - 1) = (n : ℚ) - 1 := by
          simp only [specClamp]
          rw [max_eq_left h0', min_eq_right (le_of_lt h2')]
        rw [hc, hfl]
        have hge : (n : Int) - 1 ≤ ⌊x⌋ := by
          apply Int.le_floor.mpr
          rw [hcast]; exact le_of_lt h2'
        refine ⟨?_, ?_, ?_⟩ <;> omega

theorem nearestReplicate_eq (src : Mat Vec3b) (x y : ℚ) (hc : 1 ≤ src.cols) (hr : 1 ≤ src.rows) :
    nearestReplicate src x y =
      some (src.data ⌊specClamp y 0 ((src.rows : ℚ) - 1)⌋.toNat
        ⌊specClamp x 0 ((src.cols : ℚ) - 1)⌋.toNat) := by
  obtain ⟨hx, hx0, hx1⟩ := nearestClamp_toInt src.cols hc x
  obtain ⟨hy, hy0, hy1⟩ := nearestClamp_toInt src.rows hr y
  simp only [nearestReplicate]
  rw [hx, hy]
  exact atChecked_of_bounds src _ _ hy0 hy1 hx0 hx1

theorem interpolatePixel_eq (src : Mat Vec3b) (x y : ℚ) (hx0 : 0 ≤ x)
    (hx1 : ⌊x⌋ + 1 < (src.cols : Int)) (hy0 : 0 ≤ y) (hy1 : ⌊y⌋ + 1 < (src.rows : Int)) :
    interpolatePixel src x y = some (specBilinear src x y) := by
  have fx0 : 0 ≤ ⌊x⌋ := Int.floor_nonneg.mpr hx0
  have fy0 : 0 ≤ ⌊y⌋ := Int.floor_nonneg.mpr hy0
  have e11 := atChecked_of_bounds src ⌊y⌋ ⌊x⌋ fy0 (by omega) fx0 (by omega)
  have e12 := atChecked_of_bounds src ⌊y⌋ (⌊x⌋ + 1) fy0 (by omega) (by omega) hx1
  have e21 := atChecked_of_bounds src (⌊y⌋ + 1) ⌊x⌋ (by omega) hy1 fx0 (by omega)
  have e22 := atChecked_of_bounds src (⌊y⌋ + 1) (⌊x⌋ + 1) (by omega) hy1 (by omega) hx1
  have tx : (⌊x⌋ + 1).toNat = ⌊x⌋.toNat + 1 := by omega
  have ty : (⌊y⌋ + 1).toNat = ⌊y⌋.toNat + 1 := by omega
  rw [tx] at e12 e22
  rw [ty] at e21 e22
  simp only [interpolatePixel, interpolateChannel, e11, e12, e21, e22, bind, Option.bind,
    pure, specBilinear, specBilinearChannel]

theorem lerp_bounds (t a b : ℚ) (ht0 : 0 ≤ t) (ht1 : t ≤ 1) (ha0 : 0 ≤ a) (ha1 : a ≤ 255)
    (hb0 : 0 ≤ b) (hb1 : b ≤ 255) :
    0 ≤ (1 - t) * a + t * b ∧ (1 - t) * a + t * b ≤ 255 := by
  have h1 : 0 ≤ 1 - t := by linarith
  constructor
  · exact add_nonneg (mul_nonneg h1 ha0) (mul_nonneg ht0 hb0)
  · have e1 : (1 - t) * a ≤ (1 - t) * 255 := mul_le_mul_of_nonneg_left ha1 h1
    have e2 : t * b ≤ t * 255 := mul_le_mul_of_nonneg_left hb1 ht0
    linarith

theorem channel_bounds (p : Vec3b) (ch : Nat) :
    (0 : ℚ) ≤ ((p.get ch).val : ℚ) ∧ ((p.get ch).val : ℚ) ≤ 255 := by
  constructor
  · exact Nat.cast_nonneg _
  · have h : (p.get ch).val ≤ 255 := by have := (p.get ch).isLt; omega
    exact_mod_cast h

/-- The interpolated value is a convex combination of four channel values, hence in
`[0, 255]`. -/
theorem specBilinearChannel_bounds (src : Mat Vec3b) (x y : ℚ) (ch : Nat) :
    0 ≤ specBilinearChannel src x y ch ∧ specBilinearChannel src x y ch ≤ 255 := by
  have hx0 : 0 ≤ x - ⌊x⌋ := sub_nonneg.mpr (Int.floor_le x)
  have hx1 : x - ⌊x⌋ ≤ 1 := by have := Int.lt_floor_add_one x; linarith
  have hy0 : 0 ≤ y - ⌊y⌋ := sub_nonneg.mpr (Int.floor_le y)
  have hy1 : y - ⌊y⌋ ≤ 1 := by have := Int.lt_floor_add_one y; linarith
  have b11 := channel_bounds (src.data ⌊y⌋.toNat ⌊x⌋.toNat) ch
  have b12 := channel_bounds (src.data ⌊y⌋.toNat (⌊x⌋.toNat + 1)) ch
  have b21 := channel_bounds (src.data (⌊y⌋.toNat + 1) ⌊x⌋.toNat) ch
  have b22 := channel_bounds (src.data (⌊y⌋.toNat + 1) (⌊x⌋.toNat + 1)) ch
  have top := lerp_bounds (x - ⌊x⌋) _ _ hx0 hx1 b11.1 b11.2 b12.1 b12.2
  have bottom := lerp_bounds (x - ⌊x⌋) _ _ hx0 hx1 b21.1 b21.2 b22.1 b22.2
  exact lerp_bounds (y - ⌊y⌋) _ _ hy0 hy1 top.1 top.2 bottom.1 bottom.2

/-- Each channel of the interpolated pixel is the truncation of the interpolated value. -/
theorem specBilinear_get (src : Mat Vec3b) (x y : ℚ) (ch : Nat) (hch : ch < 3) :
    ((((specBilinear src x y).get ch).val : Nat) : Int) = toInt (specBilinearChannel src x y ch) := by
  have hb := fun c => specBilinearChannel_bounds src x y c
  have hv := fun c => toUchar_val (specBilinearChannel src x y c) (hb c).1
    (lt_of_le_of_lt (hb c).2 (by norm_num))
  have hcases : ch = 0 ∨ ch = 1 ∨ ch = 2 := by omega
  rcases hcases with rfl | rfl | rfl
  · exact hv 0
  · exact hv 1
  · exact hv 2

/-- On an integer grid point the interpolation returns the source pixel itself. -/
theorem specBilinear_grid (src : Mat Vec3b) (xi yi : Int) :
    specBilinear src (xi : ℚ) (yi : ℚ) = src.data yi.toNat xi.toNat := by
  have e : ∀ ch, specBilinearChannel src (xi : ℚ) (yi : ℚ) ch =
      (((src.data yi.toNat xi.toNat).get ch).val : ℚ) := by
    intro ch
    simp [specBilinearChannel]
  simp only [specBilinear, e, toUchar_natCast]
  rfl

theorem linearConstant_border (src : Mat Vec3b) (b : Fin 256) (x y : ℚ)
    (h : x < 0 ∨ x ≥ (src.cols : ℚ) - 1 ∨ y < 0 ∨ y ≥ (src.rows : ℚ) - 1) :
    linearConstant src b x y = some ⟨b, b, b⟩ := by
  have h' : x < 0 ∨ x ≥ ((((src.cols : Int) - 1 : Int)) : ℚ) ∨ y < 0 ∨
      y ≥ ((((src.rows : Int) - 1 : Int)) : ℚ) := by
    push_cast
    exact h
  simp only [linearConstant, h', if_true]

theorem linearConstant_inside (src : Mat Vec3b) (b : Fin 256) (x y : ℚ)
    (hx0 : 0 ≤ x) (hx1 : x < (src.cols : ℚ) - 1) (hy0 : 0 ≤ y) (hy1 : y < (src.rows : ℚ) - 1) :
    linearConstant src b x y = some (specBilinear src x y) := by
  have h' : ¬ (x < 0 ∨ x ≥ ((((src.cols : Int) - 1 : Int)) : ℚ) ∨ y < 0 ∨
      y ≥ ((((src.rows : Int) - 1 : Int)) : ℚ)) := by
    push_cast
    simp only [not_or, not_lt, ge_iff_le, not_le]
    exact ⟨hx0, hx1, hy0, hy1⟩
  have fx : ⌊x⌋ < (src.cols : Int) - 1 := Int.floor_lt.mpr (by push_cast; exact hx1)
  have fy : ⌊y⌋ < (src.rows : Int) - 1 := Int.floor_lt.mpr (by push_cast; exact hy1)
  simp only [linearConstant, h', if_false]
  exact interpolatePixel_eq src x y hx0 (by omega) hy0 (by omega)

theorem linearConstant_isSome (src : Mat Vec3b) (b : Fin 256) (x y : ℚ) :
    (linearConstant src b x y).isSome = true := by
  by_cases h : x < 0 ∨ x ≥ (src.cols : ℚ) - 1 ∨ y < 0 ∨ y ≥ (src.rows : ℚ) - 1
  · rw [linearConstant_border src b x y h]; rfl
  · simp only [not_or, not_lt, ge_iff_le, not_le] at h
    rw [linearConstant_inside src b x y h.1 h.2.1 h.2.2.1 h.2.2.2]; rfl

/-- The clamp of the LINEAR + REPLICATE branch, as the code performs it: negative values go to
`0`, values from `n - 1` on go to `n - 2`, the others stay. -/
theorem linearClamp_bounds (n : Nat) (hn : 2 ≤ n) (x : ℚ) :
    0 ≤ (if x < 0 then 0 else if x ≥ (n : ℚ) - 1 then (n : ℚ) - 2 else x) ∧
      ⌊(if x < 0 then 0 else if x ≥ (n : ℚ) - 1 then (n : ℚ) - 2 else x)⌋ + 1 < (n : Int) := by
  have hn' : (2 : ℚ) ≤ (n : ℚ) := by exact_mod_cast hn
  by_cases h0 : x < 0
  · simp only [h0, if_true]
    refine ⟨le_refl _, ?_⟩
    simp; omega
  · by_cases h1 : x ≥ (n : ℚ) - 1
    · simp only [h0, h1, if_true, if_false]
      refine ⟨by linarith, ?_⟩
      have hfl : ⌊(n : ℚ) - 2⌋ = (n : Int) - 2 := by
        have hcast : ((((n : Int) - 2 : Int)) : ℚ) = (n : ℚ) - 2 := by push_cast; ring
        rw [← hcast]; exact Int.floor_intCast _
      rw [hfl]; omega
    · simp only [h0, h1, if_false]
      refine ⟨not_lt.mp h0, ?_⟩
      have : ⌊x⌋ < (n : Int) - 1 := Int.floor_lt.mpr (by push_cast; exact not_le.mp h1)
      omega

theorem linearReplicate_eq (src : Mat Vec3b) (x y : ℚ) (hc : 2 ≤ src.cols) (hr : 2 ≤ src.rows) :
    linearReplicate src x y =
      some (specBilinear src
        (if x < 0 then 0 else if x ≥ (src.cols : ℚ) - 1 then (src.cols : ℚ) - 2 else x)
        (if y < 0 then 0 else if y ≥ (src.rows : ℚ) - 1 then (src.rows : ℚ) - 2 else y)) := by
  obtain ⟨hx0, hx1⟩ := linearClamp_bounds src.cols hc x
  obtain ⟨hy0, hy1⟩ := linearClamp_bounds src.rows hr y
  have e := interpolatePixel_eq src _ _ hx0 hx1 hy0 hy1
  simp only [linearReplicate]
  push_cast
  exact e

theorem linearReplicate_isSome (src : Mat Vec3b) (x y : ℚ) (hc : 2 ≤ src.cols)
    (hr : 2 ≤ src.rows) : (linearReplicate src x y).isSome = true := by
  rw [linearReplicate_eq src x y hc hr]; rfl

theorem nearestReplicate_isSome (src : Mat Vec3b) (x y : ℚ) (hc : 1 ≤ src.cols)
    (hr : 1 ≤ src.rows) : (nearestReplicate src x y).isSome = true := by
  rw [nearestReplicate_eq src x y hc hr]; rfl

/-! ## Remap as a whole: the destination cell by cell -/

theorem Remap_nearest_constant_cells (src : Mat Vec3b) (map1 map2 : Mat ℚ) (b : Fin 256) :
    ∃ dst, Remap src map1 map2 Interpolation.NEAREST BorderMode.CONSTANT b = some dst ∧
      dst.rows = map1.rows ∧ dst.cols = map1.cols ∧
      ∀ r c, r < map1.rows → c < map1.cols →
        nearestConstant src b (map1.data r c) (map2.data r c) = some (dst.data r c) := by
  rw [Remap_nearest_constant]
  exact remapLoop_total map1 map2 _ (fun r c _ _ => nearestConstant_isSome src b _ _)

theorem Remap_linear_constant_cells (src : Mat Vec3b) (map1 map2 : Mat ℚ) (b : Fin 256) :
    ∃ dst, Remap src map1 map2 Interpolation.LINEAR BorderMode.CONSTANT b = some dst ∧
      dst.rows = map1.rows ∧ dst.cols = map1.cols ∧
      ∀ r c, r < map1.rows → c < map1.cols →
        linearConstant src b (map1.data r c) (map2.data r c) = some (dst.data r c) := by
  rw [Remap_linear_constant]
  exact remapLoop_total map1 map2 _ (fun r c _ _ => linearConstant_isSome src b _ _)

theorem Remap_nearest_replicate_cells (src : Mat Vec3b) (map1 map2 : Mat ℚ) (b : Fin 256)
    (hc : 1 ≤ src.cols) (hr : 1 ≤ src.rows) :
    ∃ dst, Remap src map1 map2 Interpolation.NEAREST BorderMode.REPLICATE b = some dst ∧
      dst.rows = map1.rows ∧ dst.cols = map1.cols ∧
      ∀ r c, r < map1.rows → c < map1.cols →
        nearestReplicate src (map1.data r c) (map2.data r c) = some (dst.data r c) := by
  rw [Remap_nearest_replicate]
  exact remapLoop_total map1 map2 _ (fun r c _ _ => nearestReplicate_isSome src _ _ hc hr)

theorem Remap_linear_replicate_cells (src : Mat Vec3b) (map1 map2 : Mat ℚ) (b : Fin 256)
    (hc : 2 ≤ src.cols) (hr : 2 ≤ src.rows) :
    ∃ dst, Remap src map1 map2 Interpolation.LINEAR BorderMode.REPLICATE b = some dst ∧
      dst.rows = map1.rows ∧ dst.cols = map1.cols ∧
      ∀ r c, r < map1.rows → c < map1.cols →
        linearReplicate src (map1.data r c) (map2.data r c) = some (dst.data r c) := by
  rw [Remap_linear_replicate]
  exact remapLoop_total map1 map2 _ (fun r c _ _ => linearReplicate_isSome src _ _ hc hr)

/-- On sources with at least two rows and two columns no branch of `Remap` reads outside
the source: the call returns a destination for all four combinations. -/
theorem Remap_returns_of_two (src : Mat Vec3b) (map1 map2 : Mat ℚ) (b : Fin 256)
    (interpolation : Interpolation) (border_mode : BorderMode)
    (hc : 2 ≤ src.cols) (hr : 2 ≤ src.rows) :
    ∃ dst, Remap src map1 map2 interpolation border_mode b = some dst := by
  cases interpolation <;> cases border_mode
  · obtain ⟨d, h, _⟩ := Remap_nearest_constant_cells src map1 map2 b
    exact ⟨d, h⟩
  · obtain ⟨d, h, _⟩ := Remap_nearest_replicate_cells src map1 map2 b (by omega) (by omega)
    exact ⟨d, h⟩
  · exact ⟨_, by simp [Remap]; rfl⟩
  · obtain ⟨d, h, _⟩ := Remap_linear_constant_cells src map1 map2 b
    exact ⟨d, h⟩
  · obtain ⟨d, h, _⟩ := Remap_linear_replicate_cells src map1 map2 b hc hr
    exact ⟨d, h⟩
  · exact ⟨_, by simp [Remap]; rfl⟩

/-! ## Claims about Remap -/

/-- C1 (the code reads outside the source).  On a source of one row and one column the
LINEAR + REPLICATE branch clamps the coordinate `0` to `cols - 2 = -1` and reads the source at
row `-1`, column `-1`: the checked read fails and `Remap` has no defined result, although the
source is non-empty. -/
theorem C1_linear_replicate_reads_outside :
    1 ≤ (rampImage 1 1).cols ∧ 1 ≤ (rampImage 1 1).rows ∧
      linearReplicate (rampImage 1 1) 0 0 = none ∧
      (rampImage 1 1).atChecked (-1) (-1) = none ∧
      Remap (rampImage 1 1) (constMap 1 1 0) (constMap 1 1 0) Interpolation.LINEAR
        BorderMode.REPLICATE 9 = none := by
  refine ⟨by decide, by decide, ?_, by decide, ?_⟩
  · rfl
  · rfl

/-- C2 (counterexample).  On the 2x2 ramp image the map cell `(x, y) = (1, 0)` is an integer
grid point with `0 ≤ x ≤ cols - 1` and `0 ≤ y ≤ rows - 1`, yet under the CONSTANT border with
value 9 NEAREST writes the source pixel `(1, 1, 1)` while LINEAR writes the border value. -/
theorem C2_counterexample :
    ∃ dn dl,
      Remap (rampImage 2 2) (constMap 1 1 1) (constMap 1 1 0) Interpolation.NEAREST
        BorderMode.CONSTANT 9 = some dn ∧
      Remap (rampImage 2 2) (constMap 1 1 1) (constMap 1 1 0) Interpolation.LINEAR
        BorderMode.CONSTANT 9 = some dl ∧
      (constMap 1 1 1).data 0 0 = ((1 : Int) : ℚ) ∧ (constMap 1 1 0).data 0 0 = ((0 : Int) : ℚ) ∧
      (0 : Int) ≤ 1 ∧ (1 : Int) ≤ ((rampImage 2 2).cols : Int) - 1 ∧
      (0 : Int) ≤ 0 ∧ (0 : Int) ≤ ((rampImage 2 2).rows : Int) - 1 ∧
      dn.data 0 0 = ⟨1, 1, 1⟩ ∧ dl.data 0 0 = ⟨9, 9, 9⟩ ∧ dn.data 0 0 ≠ dl.data 0 0 := by
  obtain ⟨dn, hn, -, -, hnc⟩ :=
    Remap_nearest_constant_cells (rampImage 2 2) (constMap 1 1 1) (constMap 1 1 0) 9
  obtain ⟨dl, hl, -, -, hlc⟩ :=
    Remap_linear_constant_cells (rampImage 2 2) (constMap 1 1 1) (constMap 1 1 0) 9
  have en := hnc 0 0 (by decide) (by decide)
  have el := hlc 0 0 (by decide) (by decide)
  have vn : nearestConstant (rampImage 2 2) 9 ((constMap 1 1 1).data 0 0)
      ((constMap 1 1 0).data 0 0) = some ⟨1, 1, 1⟩ := by rfl
  have vl : linearConstant (rampImage 2 2) 9 ((constMap 1 1 1).data 0 0)
      ((constMap 1 1 0).data 0 0) = some ⟨9, 9, 9⟩ := by rfl
  rw [vn] at en
  rw [vl] at el
  have en' : dn.data 0 0 = ⟨1, 1, 1⟩ := (Option.some.inj en).symm
  have el' : dl.data 0 0 = ⟨9, 9, 9⟩ := (Option.some.inj el).symm
  refine ⟨dn, dl, hn, hl, ?_, ?_, by decide, by decide, by decide, by decide, en', el', ?_⟩
  · simp [constMap]
  · simp [constMap]
  · rw [en', el']; decide

/-- C2 (amended).  At a map cell whose coordinate is an integer grid point `(x, y)` with
`0 ≤ x ≤ cols - 2` and `0 ≤ y ≤ rows - 2`, NEAREST and LINEAR write the same pixel, under the
CONSTANT border and under the REPLICATE border. -/
theorem C2_grid_agreement (src : Mat Vec3b) (map1 map2 : Mat ℚ) (b : Fin 256)
    (row col : Nat) (xi yi : Int) (hrow : row < map1.rows) (hcol : col < map1.cols)
    (hx : map1.data row col = (xi : ℚ)) (hy : map2.data row col = (yi : ℚ))
    (hx0 : 0 ≤ xi) (hx1 : xi ≤ (src.cols : Int) - 2)
    (hy0 : 0 ≤ yi) (hy1 : yi ≤ (src.rows : Int) - 2) :
    (∃ dn dl,
      Remap src map1 map2 Interpolation.NEAREST BorderMode.CONSTANT b = some dn ∧
      Remap src map1 map2 Interpolation.LINEAR BorderMode.CONSTANT b = some dl ∧
      dn.data row col = dl.data row col) ∧
    (∃ dn dl,
      Remap src map1 map2 Interpolation.NEAREST BorderMode.REPLICATE b = some dn ∧
      Remap src map1 map2 Interpolation.LINEAR BorderMode.REPLICATE b = some dl ∧
      dn.data row col = dl.data row col) := by
  have hcols : 2 ≤ src.cols := by omega
  have hrows : 2 ≤ src.rows := by omega
  have qx0 : (0 : ℚ) ≤ (xi : ℚ) := by exact_mod_cast hx0
  have qy0 : (0 : ℚ) ≤ (yi : ℚ) := by exact_mod_cast hy0
  have qx1 : (xi : ℚ) ≤ (src.cols : ℚ) - 2 := by
    have : ((xi : Int) : ℚ) ≤ (((src.cols : Int) - 2 : Int) : ℚ) := by exact_mod_cast hx1
    push_cast at this; exact this
  have qy1 : (yi : ℚ) ≤ (src.rows : ℚ) - 2 := by
    have : ((yi : Int) : ℚ) ≤ (((src.rows : Int) - 2 : Int) : ℚ) := by exact_mod_cast hy1
    push_cast at this; exact this
  -- the four cell bodies all return the source pixel at (yi, xi)
  have vnc : nearestConstant src b (xi : ℚ) (yi : ℚ) = some (src.data yi.toNat xi.toNat) := by
    obtain ⟨h1, h2⟩ := nearestConstant_inside src b (xi : ℚ) (yi : ℚ) qx0 (by linarith) qy0
      (by linarith)
    rw [h1, h2, Int.floor_intCast, Int.floor_intCast]
  have vlc : linearConstant src b (xi : ℚ) (yi : ℚ) = some (src.data yi.toNat xi.toNat) := by
    rw [linearConstant_inside src b (xi : ℚ) (yi : ℚ) qx0 (by linarith) qy0 (by linarith),
      specBilinear_grid]
  have vnr : nearestReplicate src (xi : ℚ) (yi : ℚ) = some (src.data yi.toNat xi.toNat) := by
    rw [nearestReplicate_eq src _ _ (by omega) (by omega)]
    have cx : specClamp (xi : ℚ) 0 ((src.cols : ℚ) - 1) = (xi : ℚ) := by
      simp only [specClamp]
      rw [max_eq_left qx0, min_eq_left (by linarith)]
    have cy : specClamp (yi : ℚ) 0 ((src.rows : ℚ) - 1) = (yi : ℚ) := by
      simp only [specClamp]
      rw [max_eq_left qy0, min_eq_left (by linarith)]
    rw [cx, cy, Int.floor_intCast, Int.floor_intCast]
  have vlr : linearReplicate src (xi : ℚ) (yi : ℚ) = some (src.data yi.toNat xi.toNat) := by
    rw [linearReplicate_eq src _ _ hcols hrows]
    have cx : (if (xi : ℚ) < 0 then 0 else if (xi : ℚ) ≥ (src.cols : ℚ) - 1 then
        (src.cols : ℚ) - 2 else (xi : ℚ)) = (xi : ℚ) := by
      rw [if_neg (not_lt.mpr qx0), if_neg (by rw [ge_iff_le, not_le]; linarith)]
    have cy : (if (yi : ℚ) < 0 then 0 else if (yi : ℚ) ≥ (src.rows : ℚ) - 1 then
        (src.rows : ℚ) - 2 else (yi : ℚ)) = (yi : ℚ) := by
      rw [if_neg (not_lt.mpr qy0), if_neg (by rw [ge_iff_le, not_le]; linarith)]
    rw [cx, cy, specBilinear_grid]
  obtain ⟨d1, e1, -, -, c1⟩ := Remap_nearest_constant_cells src map1 map2 b
  obtain ⟨d2, e2, -, -, c2⟩ := Remap_linear_constant_cells src map1 map2 b
  obtain ⟨d3, e3, -, -, c3⟩ := Remap_nearest_replicate_cells src map1 map2 b (by omega) (by omega)
  obtain ⟨d4, e4, -, -, c4⟩ := Remap_linear_replicate_cells src map1 map2 b hcols hrows
  have k1 := c1 row col hrow hcol
  have k2 := c2 row col hrow hcol
  have k3 := c3 row col hrow hcol
  have k4 := c4 row col hrow hcol
  rw [hx, hy] at k1 k2 k3 k4
  rw [vnc] at k1
  rw [vlc] at k2
  rw [vnr] at k3
  rw [vlr] at k4
  refine ⟨⟨d1, d2, e1, e2, ?_⟩, ⟨d3, d4, e3, e4, ?_⟩⟩
  · rw [← Option.some.inj k1, ← Option.some.inj k2]
  · rw [← Option.some.inj k3, ← Option.some.inj k4]

/-- Witness of C2 (amended): the 4x4 ramp image under the identity map, at cell `(1, 2)`. -/
theorem C2_grid_agreement_witness :
    (∃ dn dl,
      Remap (rampImage 4 4) (colMap 4 4) (rowMap 4 4) Interpolation.NEAREST
        BorderMode.CONSTANT 9 = some dn ∧
      Remap (rampImage 4 4) (colMap 4 4) (rowMap 4 4) Interpolation.LINEAR
        BorderMode.CONSTANT 9 = some dl ∧
      dn.data 1 2 = dl.data 1 2) ∧
    (∃ dn dl,
      Remap (rampImage 4 4) (colMap 4 4) (rowMap 4 4) Interpolation.NEAREST
        BorderMode.REPLICATE 9 = some dn ∧
      Remap (rampImage 4 4) (colMap 4 4) (rowMap 4 4) Interpolation.LINEAR
        BorderMode.REPLICATE 9 = some dl ∧
      dn.data 1 2 = dl.data 1 2) :=
  C2_grid_agreement (rampImage 4 4) (colMap 4 4) (rowMap 4 4) 9 1 2 2 1 (by decide) (by decide)
    (by simp [colMap]) (by simp [rowMap]) (by decide) (by decide) (by decide) (by decide)

/-! ## Evaluations on the 2x2 ramp image -/

theorem floor_half : ⌊(1 / 2 : ℚ)⌋ = 0 := by
  rw [Int.floor_eq_iff]; norm_num

theorem toUchar_one : toUchar 1 = 1 := by
  have h := toUchar_natCast 1
  simpa using h

theorem specBilinear_ramp_half : specBilinear (rampImage 2 2) 0 (1 / 2) = ⟨1, 1, 1⟩ := by
  have e : ∀ ch, specBilinearChannel (rampImage 2 2) 0 (1 / 2) ch = 1 := by
    intro ch
    simp only [specBilinearChannel, floor_half, Int.floor_zero, rampImage, Vec3b.get]
    rcases ch with _ | _ | ch <;> norm_num
  simp only [specBilinear, e, toUchar_one]

theorem linearReplicate_ramp_half :
    linearReplicate (rampImage 2 2) ((constMap 1 1 0).data 0 0)
      ((constMap 1 1 (1 / 2)).data 0 0) = some ⟨1, 1, 1⟩ := by
  rw [linearReplicate_eq _ _ _ (by decide) (by decide)]
  have cx : (if (constMap 1 1 0).data 0 0 < 0 then 0
          else if (constMap 1 1 0).data 0 0 ≥ ((rampImage 2 2).cols : ℚ) - 1 then
            ((rampImage 2 2).cols : ℚ) - 2
          else (constMap 1 1 0).data 0 0) = 0 := by
    norm_num [constMap, rampImage]
  have cy : (if (constMap 1 1 (1 / 2)).data 0 0 < 0 then 0
          else if (constMap 1 1 (1 / 2)).data 0 0 ≥ ((rampImage 2 2).rows : ℚ) - 1 then
            ((rampImage 2 2).rows : ℚ) - 2
          else (constMap 1 1 (1 / 2)).data 0 0) = 1 / 2 := by
    norm_num [constMap, rampImage]
  rw [cx, cy, specBilinear_ramp_half]

theorem specBilinear_ramp_clamped :
    specBilinear (rampImage 2 2)
      (specClamp ((constMap 1 1 0).data 0 0) 0 (((rampImage 2 2).cols : ℚ) - 2))
      (specClamp ((constMap 1 1 (1 / 2)).data 0 0) 0 (((rampImage 2 2).rows : ℚ) - 2)) =
        ⟨0, 0, 0⟩ := by
  have c1 : specClamp ((constMap 1 1 0).data 0 0) 0 (((rampImage 2 2).cols : ℚ) - 2) =
      ((0 : Int) : ℚ) := by
    simp [specClamp, constMap, rampImage]
  have c2 : specClamp ((constMap 1 1 (1 / 2)).data 0 0) 0 (((rampImage 2 2).rows : ℚ) - 2) =
      ((0 : Int) : ℚ) := by
    simp [specClamp, constMap, rampImage]
  rw [c1, c2, specBilinear_grid]
  rfl

/-- The clamp of the LINEAR + REPLICATE branch agrees with the clamp to `[0, n - 2]` except
for coordinates strictly between `n - 2` and `n - 1`. -/
theorem linearClamp_eq_specClamp (n : Nat) (hn : 2 ≤ n) (x : ℚ)
    (h : x ≤ (n : ℚ) - 2 ∨ (n : ℚ) - 1 ≤ x) :
    (if x < 0 then 0 else if x ≥ (n : ℚ) - 1 then (n : ℚ) - 2 else x) =
      specClamp x 0 ((n : ℚ) - 2) := by
  have hn' : (2 : ℚ) ≤ (n : ℚ) := by exact_mod_cast hn
  simp only [specClamp]
  by_cases h0 : x < 0
  · rw [if_pos h0, max_eq_right (le_of_lt h0), min_eq_left (by linarith)]
  · have h0' : 0 ≤ x := not_lt.mp h0
    rw [if_neg h0, max_eq_left h0']
    by_cases h1 : x ≥ (n : ℚ) - 1
    · rw [if_pos h1, min_eq_right (by linarith)]
    · rw [if_neg h1]
      rcases h with h | h
      · rw [min_eq_left h]
      · exact absurd h h1

/-- C3 (counterexample).  On the 2x2 ramp image the map cell `(x, y) = (0, 1/2)` is
interpolated at `y = 1/2` by the LINEAR + REPLICATE branch (pixel `(1, 1, 1)`), while the
interpolation at the coordinate clamped to `[0, rows - 2] = [0, 0]` is the pixel `(0, 0, 0)`. -/
theorem C3_counterexample :
    ∃ d,
      Remap (rampImage 2 2) (constMap 1 1 0) (constMap 1 1 (1 / 2)) Interpolation.LINEAR
        BorderMode.REPLICATE 9 = some d ∧
      2 ≤ (rampImage 2 2).cols ∧ 2 ≤ (rampImage 2 2).rows ∧
      d.data 0 0 = ⟨1, 1, 1⟩ ∧
      specBilinear (rampImage 2 2)
        (specClamp ((constMap 1 1 0).data 0 0) 0 (((rampImage 2 2).cols : ℚ) - 2))
        (specClamp ((constMap 1 1 (1 / 2)).data 0 0) 0 (((rampImage 2 2).rows : ℚ) - 2)) =
          ⟨0, 0, 0⟩ ∧
      d.data 0 0 ≠ specBilinear (rampImage 2 2)
        (specClamp ((constMap 1 1 0).data 0 0) 0 (((rampImage 2 2).cols : ℚ) - 2))
        (specClamp ((constMap 1 1 (1 / 2)).data 0 0) 0 (((rampImage 2 2).rows : ℚ) - 2)) := by
  obtain ⟨d, hd, -, -, hcell⟩ :=
    Remap_linear_replicate_cells (rampImage 2 2) (constMap 1 1 0) (constMap 1 1 (1 / 2)) 9
      (by decide) (by decide)
  have e := hcell 0 0 (by decide) (by decide)
  rw [linearReplicate_ramp_half] at e
  have e' : d.data 0 0 = ⟨1, 1, 1⟩ := (Option.some.inj e).symm
  have s := specBilinear_ramp_clamped
  refine ⟨d, hd, by decide, by decide, e', s, ?_⟩
  rw [e', s]; decide

/-- C3 (amended).  Over exact arithmetic: for a source with at least two columns and two rows,
the LINEAR + REPLICATE branch of `Remap` writes the bilinear interpolation of the source at
`(x', y')`, where `x' = 0` if `x < 0`, `x' = cols - 2` if `x ≥ cols - 1` and `x' = x`
otherwise (likewise `y'` with `rows`).
This is the interpolation at the coordinate clamped to `[0, cols - 2] x [0, rows - 2]` unless a
coordinate lies strictly between `cols - 2` and `cols - 1` (or `rows - 2` and `rows - 1`). -/
theorem C3_linear_replicate_rule (src : Mat Vec3b) (map1 map2 : Mat ℚ) (b : Fin 256)
    (row col : Nat) (hc : 2 ≤ src.cols) (hr : 2 ≤ src.rows)
    (hrow : row < map1.rows) (hcol : col < map1.cols) :
    ∃ d, Remap src map1 map2 Interpolation.LINEAR BorderMode.REPLICATE b = some d ∧
      d.data row col = specBilinear src
        (if map1.data row col < 0 then 0
          else if map1.data row col ≥ (src.cols : ℚ) - 1 then (src.cols : ℚ) - 2
          else map1.data row col)
        (if map2.data row col < 0 then 0
          else if map2.data row col ≥ (src.rows : ℚ) - 1 then (src.rows : ℚ) - 2
          else map2.data row col) ∧
      ((map1.data row col ≤ (src.cols : ℚ) - 2 ∨ (src.cols : ℚ) - 1 ≤ map1.data row col) →
        (map2.data row col ≤ (src.rows : ℚ) - 2 ∨ (src.rows : ℚ) - 1 ≤ map2.data row col) →
        d.data row col = specBilinear src
          (specClamp (map1.data row col) 0 ((src.cols : ℚ) - 2))
          (specClamp (map2.data row col) 0 ((src.rows : ℚ) - 2))) := by
  obtain ⟨d, hd, -, -, hcell⟩ := Remap_linear_replicate_cells src map1 map2 b hc hr
  have e := hcell row col hrow hcol
  rw [linearReplicate_eq src _ _ hc hr] at e
  have e' := (Option.some.inj e).symm
  refine ⟨d, hd, e', ?_⟩
  intro hx hy
  rw [e', linearClamp_eq_specClamp src.cols hc _ hx, linearClamp_eq_specClamp src.rows hr _ hy]

/-- Witness of C3 (amended): the 2x2 ramp image and the map cell `(0, 1/2)`. -/
theorem C3_linear_replicate_rule_witness :
    ∃ d, Remap (rampImage 2 2) (constMap 1 1 0) (constMap 1 1 (1 / 2)) Interpolation.LINEAR
        BorderMode.REPLICATE 9 = some d ∧
      d.data 0 0 = specBilinear (rampImage 2 2)
        (if (constMap 1 1 0).data 0 0 < 0 then 0
          else if (constMap 1 1 0).data 0 0 ≥ ((rampImage 2 2).cols : ℚ) - 1 then
            ((rampImage 2 2).cols : ℚ) - 2
          else (constMap 1 1 0).data 0 0)
        (if (constMap 1 1 (1 / 2)).data 0 0 < 0 then 0
          else if (constMap 1 1 (1 / 2)).data 0 0 ≥ ((rampImage 2 2).rows : ℚ) - 1 then
            ((rampImage 2 2).rows : ℚ) - 2
          else (constMap 1 1 (1 / 2)).data 0 0) ∧
      (((constMap 1 1 0).data 0 0 ≤ ((rampImage 2 2).cols : ℚ) - 2 ∨
          ((rampImage 2 2).cols : ℚ) - 1 ≤ (constMap 1 1 0).data 0 0) →
        ((constMap 1 1 (1 / 2)).data 0 0 ≤ ((rampImage 2 2).rows : ℚ) - 2 ∨
          ((rampImage 2 2).rows : ℚ) - 1 ≤ (constMap 1 1 (1 / 2)).data 0 0) →
        d.data 0 0 = specBilinear (rampImage 2 2)
          (specClamp ((constMap 1 1 0).data 0 0) 0 (((rampImage 2 2).cols : ℚ) - 2))
          (specClamp ((constMap 1 1 (1 / 2)).data 0 0) 0 (((rampImage 2 2).rows : ℚ) - 2))) :=
  C3_linear_replicate_rule (rampImage 2 2) (constMap 1 1 0) (constMap 1 1 (1 / 2)) 9 0 0
    (by decide) (by decide) (by decide) (by decide)

/-- C4.  NEAREST + CONSTANT: `Remap` returns a destination of the shape of the map; at a cell
with coordinate `(x, y)`, if `x < 0` or `x ≥ cols` or `y < 0` or `y ≥ rows` the pixel has all
three channels equal to the border value, otherwise it is the source pixel at column
`floor(x)`, row `floor(y)` (an index inside the source). -/
theorem C4_nearest_constant_rule (src : Mat Vec3b) (map1 map2 : Mat ℚ) (b : Fin 256)
    (row col : Nat) (hrow : row < map1.rows) (hcol : col < map1.cols) :
    ∃ d, Remap src map1 map2 Interpolation.NEAREST BorderMode.CONSTANT b = some d ∧
      d.rows = map1.rows ∧ d.cols = map1.cols ∧
      ((map1.data row col < 0 ∨ map1.data row col ≥ (src.cols : ℚ) ∨
          map2.data row col < 0 ∨ map2.data row col ≥ (src.rows : ℚ)) →
        d.data row col = ⟨b, b, b⟩) ∧
      (¬ (map1.data row col < 0 ∨ map1.data row col ≥ (src.cols : ℚ) ∨
          map2.data row col < 0 ∨ map2.data row col ≥ (src.rows : ℚ)) →
        src.atChecked ⌊map2.data row col⌋ ⌊map1.data row col⌋ = some (d.data row col) ∧
        d.data row col = src.data ⌊map2.data row col⌋.toNat ⌊map1.data row col⌋.toNat) := by
  obtain ⟨d, hd, hr, hc, hcell⟩ := Remap_nearest_constant_cells src map1 map2 b
  have e := hcell row col hrow hcol
  refine ⟨d, hd, hr, hc, ?_, ?_⟩
  · intro h
    rw [nearestConstant_border src b _ _ h] at e
    exact (Option.some.inj e).symm
  · intro h
    simp only [not_or, not_lt, ge_iff_le, not_le] at h
    obtain ⟨h1, h2⟩ := nearestConstant_inside src b _ _ h.1 h.2.1 h.2.2.1 h.2.2.2
    rw [h1] at e
    refine ⟨e, ?_⟩
    rw [h2] at e
    exact (Option.some.inj e).symm

/-- Witness of C4: the 4x4 ramp image under the identity map, at cell `(1, 2)`. -/
theorem C4_nearest_constant_rule_witness :
    ∃ d, Remap (rampImage 4 4) (colMap 4 4) (rowMap 4 4) Interpolation.NEAREST
        BorderMode.CONSTANT 9 = some d ∧
      d.rows = (colMap 4 4).rows ∧ d.cols = (colMap 4 4).cols ∧
      (((colMap 4 4).data 1 2 < 0 ∨ (colMap 4 4).data 1 2 ≥ ((rampImage 4 4).cols : ℚ) ∨
          (rowMap 4 4).data 1 2 < 0 ∨ (rowMap 4 4).data 1 2 ≥ ((rampImage 4 4).rows : ℚ)) →
        d.data 1 2 = ⟨9, 9, 9⟩) ∧
      (¬ ((colMap 4 4).data 1 2 < 0 ∨ (colMap 4 4).data 1 2 ≥ ((rampImage 4 4).cols : ℚ) ∨
          (rowMap 4 4).data 1 2 < 0 ∨ (rowMap 4 4).data 1 2 ≥ ((rampImage 4 4).rows : ℚ)) →
        (rampImage 4 4).atChecked ⌊(rowMap 4 4).data 1 2⌋ ⌊(colMap 4 4).data 1 2⌋ =
          some (d.data 1 2) ∧
        d.data 1 2 =
          (rampImage 4 4).data ⌊(rowMap 4 4).data 1 2⌋.toNat ⌊(colMap 4 4).data 1 2⌋.toNat) :=
  C4_nearest_constant_rule (rampImage 4 4) (colMap 4 4) (rowMap 4 4) 9 1 2 (by decide) (by decide)

/-- C5.  NEAREST + REPLICATE on a non-empty source: the pixel written for the coordinate
`(x, y)` is the source pixel at column `floor(min(max(x, 0), cols - 1))` and row
`floor(min(max(y, 0), rows - 1))`, and the whole result does not depend on the border value. -/
theorem C5_nearest_replicate_rule (src : Mat Vec3b) (map1 map2 : Mat ℚ) (b : Fin 256)
    (row col : Nat) (hc : 1 ≤ src.cols) (hr : 1 ≤ src.rows)
    (hrow : row < map1.rows) (hcol : col < map1.cols) :
    ∃ d, Remap src map1 map2 Interpolation.NEAREST BorderMode.REPLICATE b = some d ∧
      d.rows = map1.rows ∧ d.cols = map1.cols ∧
      d.data row col =
        src.data ⌊min (max (map2.data row col) 0) ((src.rows : ℚ) - 1)⌋.toNat
          ⌊min (max (map1.data row col) 0) ((src.cols : ℚ) - 1)⌋.toNat ∧
      ⌊min (max (map2.data row col) 0) ((src.rows : ℚ) - 1)⌋.toNat < src.rows ∧
      ⌊min (max (map1.data row col) 0) ((src.cols : ℚ) - 1)⌋.toNat < src.cols ∧
      ∀ b2 : Fin 256,
        Remap src map1 map2 Interpolation.NEAREST BorderMode.REPLICATE b2 = some d := by
  obtain ⟨d, hd, hr', hc', hcell⟩ := Remap_nearest_replicate_cells src map1 map2 b hc hr
  have e := hcell row col hrow hcol
  rw [nearestReplicate_eq src _ _ hc hr] at e
  obtain ⟨-, hx0, hx1⟩ := nearestClamp_toInt src.cols hc (map1.data row col)
  obtain ⟨-, hy0, hy1⟩ := nearestClamp_toInt src.rows hr (map2.data row col)
  simp only [specClamp] at e hx0 hx1 hy0 hy1
  refine ⟨d, hd, hr', hc', (Option.some.inj e).symm, by omega, by omega, ?_⟩
  intro b2
  rw [Remap_nearest_replicate]
  rw [Remap_nearest_replicate] at hd
  exact hd

/-- Witness of C5: the 4x4 ramp image and a 1x1 map with the cell `(-1/2, 7)`. -/
theorem C5_nearest_replicate_rule_witness :
    ∃ d, Remap (rampImage 4 4) (constMap 1 1 (-1 / 2)) (constMap 1 1 7) Interpolation.NEAREST
        BorderMode.REPLICATE 9 = some d ∧
      d.rows = (constMap 1 1 (-1 / 2)).rows ∧ d.cols = (constMap 1 1 (-1 / 2)).cols ∧
      d.data 0 0 =
        (rampImage 4 4).data
          ⌊min (max ((constMap 1 1 7).data 0 0) 0) (((rampImage 4 4).rows : ℚ) - 1)⌋.toNat
          ⌊min (max ((constMap 1 1 (-1 / 2)).data 0 0) 0)
            (((rampImage 4 4).cols : ℚ) - 1)⌋.toNat ∧
      ⌊min (max ((constMap 1 1 7).data 0 0) 0) (((rampImage 4 4).rows : ℚ) - 1)⌋.toNat <
        (rampImage 4 4).rows ∧
      ⌊min (max ((constMap 1 1 (-1 / 2)).data 0 0) 0) (((rampImage 4 4).cols : ℚ) - 1)⌋.toNat <
        (rampImage 4 4).cols ∧
      ∀ b2 : Fin 256,
        Remap (rampImage 4 4) (constMap 1 1 (-1 / 2)) (constMap 1 1 7) Interpolation.NEAREST
          BorderMode.REPLICATE b2 = some d :=
  C5_nearest_replicate_rule (rampImage 4 4) (constMap 1 1 (-1 / 2)) (constMap 1 1 7) 9 0 0
    (by decide) (by decide) (by decide) (by decide)

/-- C6 (amended).  Over exact arithmetic, LINEAR + CONSTANT at a cell with coordinate `(x, y)`:
outside the region `0 ≤ x < cols - 1`, `0 ≤ y < rows - 1` the pixel is `(b, b, b)`; inside it,
with `x1 = floor(x)`, `y1 = floor(y)`, `fx = x - x1`, `fy = y - y1`, every channel is the
truncation to an integer of
`(1-fy)*((1-fx)*src[y1][x1] + fx*src[y1][x1+1]) + fy*((1-fx)*src[y1+1][x1] + fx*src[y1+1][x1+1])`
taken on that channel, and the four pixels read lie inside the source. -/
theorem C6_linear_constant_rule (src : Mat Vec3b) (map1 map2 : Mat ℚ) (b : Fin 256)
    (row col : Nat) (x y : ℚ) (hrow : row < map1.rows) (hcol : col < map1.cols)
    (hx : map1.data row col = x) (hy : map2.data row col = y) :
    ∃ d, Remap src map1 map2 Interpolation.LINEAR BorderMode.CONSTANT b = some d ∧
      d.rows = map1.rows ∧ d.cols = map1.cols ∧
      (¬ (0 ≤ x ∧ x < (src.cols : ℚ) - 1 ∧ 0 ≤ y ∧ y < (src.rows : ℚ) - 1) →
        d.data row col = ⟨b, b, b⟩) ∧
      ((0 ≤ x ∧ x < (src.cols : ℚ) - 1 ∧ 0 ≤ y ∧ y < (src.rows : ℚ) - 1) →
        ⌊x⌋.toNat + 1 < src.cols ∧ ⌊y⌋.toNat + 1 < src.rows ∧
        ∀ ch : Nat, ch < 3 →
          ((((d.data row col).get ch).val : Nat) : Int) =
            toInt ((1 - (y - ⌊y⌋)) *
                ((1 - (x - ⌊x⌋)) * (((src.data ⌊y⌋.toNat ⌊x⌋.toNat).get ch).val : ℚ) +
                  (x - ⌊x⌋) * (((src.data ⌊y⌋.toNat (⌊x⌋.toNat + 1)).get ch).val : ℚ)) +
              (y - ⌊y⌋) *
                ((1 - (x - ⌊x⌋)) * (((src.data (⌊y⌋.toNat + 1) ⌊x⌋.toNat).get ch).val : ℚ) +
                  (x - ⌊x⌋) *
                    (((src.data (⌊y⌋.toNat + 1) (⌊x⌋.toNat + 1)).get ch).val : ℚ)))) := by
  obtain ⟨d, hd, hr, hc, hcell⟩ := Remap_linear_constant_cells src map1 map2 b
  have e := hcell row col hrow hcol
  rw [hx, hy] at e
  refine ⟨d, hd, hr, hc, ?_, ?_⟩
  · intro h
    have h' : x < 0 ∨ x ≥ (src.cols : ℚ) - 1 ∨ y < 0 ∨ y ≥ (src.rows : ℚ) - 1 := by
      by_contra hcon
      simp only [not_or, not_lt, ge_iff_le, not_le] at hcon
      exact h ⟨hcon.1, hcon.2.1, hcon.2.2.1, hcon.2.2.2⟩
    rw [linearConstant_border src b x y h'] at e
    exact (Option.some.inj e).symm
  · rintro ⟨hx0, hx1, hy0, hy1⟩
    rw [linearConstant_inside src b x y hx0 hx1 hy0 hy1] at e
    have e' : d.data row col = specBilinear src x y := (Option.some.inj e).symm
    have fx0 : 0 ≤ ⌊x⌋ := Int.floor_nonneg.mpr hx0
    have fy0 : 0 ≤ ⌊y⌋ := Int.floor_nonneg.mpr hy0
    have fx1 : ⌊x⌋ < (src.cols : Int) - 1 := Int.floor_lt.mpr (by push_cast; exact hx1)
    have fy1 : ⌊y⌋ < (src.rows : Int) - 1 := Int.floor_lt.mpr (by push_cast; exact hy1)
    refine ⟨by omega, by omega, ?_⟩
    intro ch hch
    rw [e']
    exact specBilinear_get src x y ch hch

/-- Witness of C6 (amended): the 4x4 ramp image and a 1x1 map with the cell `(1/2, 1)`. -/
theorem C6_linear_constant_rule_witness :
    ∃ d, Remap (rampImage 4 4) (constMap 1 1 (1 / 2)) (constMap 1 1 1) Interpolation.LINEAR
        BorderMode.CONSTANT 9 = some d ∧
      d.rows = (constMap 1 1 (1 / 2)).rows ∧ d.cols = (constMap 1 1 (1 / 2)).cols ∧
      (¬ (0 ≤ (1 / 2 : ℚ) ∧ (1 / 2 : ℚ) < ((rampImage 4 4).cols : ℚ) - 1 ∧ 0 ≤ (1 : ℚ) ∧
          (1 : ℚ) < ((rampImage 4 4).rows : ℚ) - 1) →
        d.data 0 0 = ⟨9, 9, 9⟩) ∧
      ((0 ≤ (1 / 2 : ℚ) ∧ (1 / 2 : ℚ) < ((rampImage 4 4).cols : ℚ) - 1 ∧ 0 ≤ (1 : ℚ) ∧
          (1 : ℚ) < ((rampImage 4 4).rows : ℚ) - 1) →
        ⌊(1 / 2 : ℚ)⌋.toNat + 1 < (rampImage 4 4).cols ∧
        ⌊(1 : ℚ)⌋.toNat + 1 < (rampImage 4 4).rows ∧
        ∀ ch : Nat, ch < 3 →
          ((((d.data 0 0).get ch).val : Nat) : Int) =
            toInt ((1 - ((1 : ℚ) - ⌊(1 : ℚ)⌋)) *
                ((1 - ((1 / 2 : ℚ) - ⌊(1 / 2 : ℚ)⌋)) *
                    ((((rampImage 4 4).data ⌊(1 : ℚ)⌋.toNat ⌊(1 / 2 : ℚ)⌋.toNat).get ch).val : ℚ) +
                  ((1 / 2 : ℚ) - ⌊(1 / 2 : ℚ)⌋) *
                    ((((rampImage 4 4).data ⌊(1 : ℚ)⌋.toNat
                      (⌊(1 / 2 : ℚ)⌋.toNat + 1)).get ch).val : ℚ)) +
              ((1 : ℚ) - ⌊(1 : ℚ)⌋) *
                ((1 - ((1 / 2 : ℚ) - ⌊(1 / 2 : ℚ)⌋)) *
                    ((((rampImage 4 4).data (⌊(1 : ℚ)⌋.toNat + 1)
                      ⌊(1 / 2 : ℚ)⌋.toNat).get ch).val : ℚ) +
                  ((1 / 2 : ℚ) - ⌊(1 / 2 : ℚ)⌋) *
                    ((((rampImage 4 4).data (⌊(1 : ℚ)⌋.toNat + 1)
                      (⌊(1 / 2 : ℚ)⌋.toNat + 1)).get ch).val : ℚ)))) :=
  C6_linear_constant_rule (rampImage 4 4) (constMap 1 1 (1 / 2)) (constMap 1 1 1) 9 0 0
    (1 / 2) 1 (by decide) (by decide) rfl rfl

/-! ## Floating-point rounding: the exact instance and evaluated cases -/

/-- Without rounding the bilinear cell bodies are those of the exact model. -/
theorem interpolatePixelRounded_exact (src : Mat Vec3b) (x y : ℚ) :
    interpolatePixelRounded id id src x y = interpolatePixel src x y :=
  rfl

/-- With the identity for both roundings, `RemapRounded` is `Remap`: the exact model is the
rounded one with the rounding taken away. -/
theorem RemapRounded_exact (src : Mat Vec3b) (map1 map2 : Mat ℚ) (interpolation : Interpolation)
    (border_mode : BorderMode) (border_value : Fin 256) :
    RemapRounded id id src map1 map2 interpolation border_mode border_value =
      Remap src map1 map2 interpolation border_mode border_value :=
  rfl

theorem roundFloat_one_fifth : roundFloat (1 / 5) = floatOneFifth := by
  decide!

/-- The rounding shows in the LINEAR + REPLICATE branch as well: on the 4x4 ramp image at the
map cell `(x, y)` with `x = y` the `float` nearest to `0.2`, the rounded branch writes
`(0, 0, 0)` and the branch over exact arithmetic `(1, 1, 1)`. -/
theorem RemapRounded_replicate_ramp_fifth :
    (RemapRounded roundFloat roundDouble (rampImage 4 4) (constMap 1 1 floatOneFifth)
      (constMap 1 1 floatOneFifth) Interpolation.LINEAR BorderMode.REPLICATE 9).map
        (fun d => d.data 0 0) = some ⟨0, 0, 0⟩ ∧
    (Remap (rampImage 4 4) (constMap 1 1 floatOneFifth) (constMap 1 1 floatOneFifth)
      Interpolation.LINEAR BorderMode.REPLICATE 9).map (fun d => d.data 0 0) =
        some ⟨1, 1, 1⟩ := by
  constructor
  · decide!
  · decide!

theorem RemapRounded_ramp_fifth :
    (RemapRounded roundFloat roundDouble (rampImage 4 4) (constMap 1 1 floatOneFifth)
      (constMap 1 1 floatOneFifth) Interpolation.LINEAR BorderMode.CONSTANT 9).map
        (fun d => d.data 0 0) = some ⟨0, 0, 0⟩ := by
  decide!

theorem specBilinearChannel_ramp_fifth :
    toInt (specBilinearChannel (rampImage 4 4) floatOneFifth floatOneFifth 0) = 1 := by
  decide!

/-- C6 (counterexample).  The 4x4 ramp image and a 1x1 map whose cell is `(x, y)` with
`x = y` the `float` nearest to `0.2`, inside the valid region.  With the `float` and `double`
roundings of the code the LINEAR + CONSTANT branch writes the pixel `(0, 0, 0)`: the
interpolated value is rounded to a `double` just below `1` before the truncation.  The formula
of the claim, evaluated on the same `x` and `y`, is `1` after truncation. -/
theorem C6_counterexample :
    ∃ d, RemapRounded roundFloat roundDouble (rampImage 4 4) (constMap 1 1 floatOneFifth)
        (constMap 1 1 floatOneFifth) Interpolation.LINEAR BorderMode.CONSTANT 9 = some d ∧
      roundFloat (1 / 5) = floatOneFifth ∧
      (0 ≤ floatOneFifth ∧ floatOneFifth < ((rampImage 4 4).cols : ℚ) - 1 ∧
        floatOneFifth < ((rampImage 4 4).rows : ℚ) - 1) ∧
      d.data 0 0 = ⟨0, 0, 0⟩ ∧
      toInt (specBilinearChannel (rampImage 4 4) floatOneFifth floatOneFifth 0) = 1 ∧
      ((((d.data 0 0).get 0).val : Nat) : Int) ≠
        toInt (specBilinearChannel (rampImage 4 4) floatOneFifth floatOneFifth 0) := by
  obtain ⟨d, hd, hcell⟩ := Option.map_eq_some'.mp RemapRounded_ramp_fifth
  refine ⟨d, hd, roundFloat_one_fifth, by decide!, hcell, specBilinearChannel_ramp_fifth, ?_⟩
  rw [hcell, specBilinearChannel_ramp_fifth]
  decide

/-- C7.  Border policy at a coordinate left of the image: for a source with at least two
columns and two rows and a cell with `x < 0` and `y` an integer, `0 ≤ y < rows - 1`, both
kernels write the border value on all channels under CONSTANT and the source pixel at column
`0` of row `y` under REPLICATE. -/
theorem C7_border_policy_boundary (src : Mat Vec3b) (map1 map2 : Mat ℚ) (b : Fin 256)
    (interpolation : Interpolation) (row col : Nat) (x : ℚ) (yi : Int)
    (hc : 2 ≤ src.cols) (hr : 2 ≤ src.rows)
    (hrow : row < map1.rows) (hcol : col < map1.cols)
    (hx : map1.data row col = x) (hy : map2.data row col = (yi : ℚ))
    (hneg : x < 0) (hy0 : 0 ≤ yi) (hy1 : yi < (src.rows : Int) - 1) :
    (∃ d, Remap src map1 map2 interpolation BorderMode.CONSTANT b = some d ∧
      d.data row col = ⟨b, b, b⟩) ∧
    (∃ d, Remap src map1 map2 interpolation BorderMode.REPLICATE b = some d ∧
      d.data row col = src.data yi.toNat 0) := by
  have qy0 : (0 : ℚ) ≤ (yi : ℚ) := by exact_mod_cast hy0
  have qy1 : (yi : ℚ) < (src.rows : ℚ) - 1 := by
    have : ((yi : Int) : ℚ) < (((src.rows : Int) - 1 : Int) : ℚ) := by exact_mod_cast hy1
    push_cast at this; exact this
  cases interpolation
  · -- NEAREST
    obtain ⟨d1, e1, -, -, c1⟩ := Remap_nearest_constant_cells src map1 map2 b
    obtain ⟨d2, e2, -, -, c2⟩ :=
      Remap_nearest_replicate_cells src map1 map2 b (by omega) (by omega)
    have k1 := c1 row col hrow hcol
    have k2 := c2 row col hrow hcol
    rw [hx, hy] at k1 k2
    rw [nearestConstant_border src b x _ (Or.inl hneg)] at k1
    rw [nearestReplicate_eq src x _ (by omega) (by omega)] at k2
    have cx : specClamp x 0 ((src.cols : ℚ) - 1) = ((0 : Int) : ℚ) := by
      have h2 : (2 : ℚ) ≤ (src.cols : ℚ) := by exact_mod_cast hc
      simp only [specClamp]
      rw [max_eq_right (le_of_lt hneg), min_eq_left (by linarith)]
      simp
    have cy : specClamp (yi : ℚ) 0 ((src.rows : ℚ) - 1) = (yi : ℚ) := by
      simp only [specClamp]
      rw [max_eq_left qy0, min_eq_left (le_of_lt qy1)]
    rw [cx, cy, Int.floor_intCast, Int.floor_intCast] at k2
    exact ⟨⟨d1, e1, (Option.some.inj k1).symm⟩, ⟨d2, e2, (Option.some.inj k2).symm⟩⟩
  · -- LINEAR
    obtain ⟨d1, e1, -, -, c1⟩ := Remap_linear_constant_cells src map1 map2 b
    obtain ⟨d2, e2, -, -, c2⟩ := Remap_linear_replicate_cells src map1 map2 b hc hr
    have k1 := c1 row col hrow hcol
    have k2 := c2 row col hrow hcol
    rw [hx, hy] at k1 k2
    rw [linearConstant_border src b x _ (Or.inl hneg)] at k1
    rw [linearReplicate_eq src x _ hc hr] at k2
    have cx : (if x < 0 then 0 else if x ≥ (src.cols : ℚ) - 1 then (src.cols : ℚ) - 2
        else x) = ((0 : Int) : ℚ) := by
      rw [if_pos hneg]; simp
    have cy : (if (yi : ℚ) < 0 then 0 else if (yi : ℚ) ≥ (src.rows : ℚ) - 1 then
        (src.rows : ℚ) - 2 else (yi : ℚ)) = (yi : ℚ) := by
      rw [if_neg (not_lt.mpr qy0), if_neg (by rw [ge_iff_le, not_le]; exact qy1)]
    rw [cx, cy, specBilinear_grid] at k2
    exact ⟨⟨d1, e1, (Option.some.inj k1).symm⟩, ⟨d2, e2, (Option.some.inj k2).symm⟩⟩

/-- Witness of C7: the 4x4 ramp image, the cell `(x, y) = (-1/2, 1)` and the LINEAR kernel. -/
theorem C7_border_policy_boundary_witness :
    (∃ d, Remap (rampImage 4 4) (constMap 1 1 (-1 / 2)) (constMap 1 1 1) Interpolation.LINEAR
        BorderMode.CONSTANT 9 = some d ∧ d.data 0 0 = ⟨9, 9, 9⟩) ∧
    (∃ d, Remap (rampImage 4 4) (constMap 1 1 (-1 / 2)) (constMap 1 1 1) Interpolation.LINEAR
        BorderMode.REPLICATE 9 = some d ∧ d.data 0 0 = (rampImage 4 4).data (1 : Int).toNat 0) :=
  C7_border_policy_boundary (rampImage 4 4) (constMap 1 1 (-1 / 2)) (constMap 1 1 1) 9
    Interpolation.LINEAR 0 0 (-1 / 2) 1 (by decide) (by decide) (by decide) (by decide) rfl
    (by simp [constMap]) (by norm_num) (by decide) (by decide)

/-- C8.  Sentinel handling: a map cell equal to `(-1, -1)` under the CONSTANT border is written
with the pixel `(b, b, b)` by both kernels, for every source. -/
theorem C8_sentinel_constant (src : Mat Vec3b) (map1 map2 : Mat ℚ) (b : Fin 256)
    (interpolation : Interpolation) (row col : Nat)
    (hrow : row < map1.rows) (hcol : col < map1.cols)
    (hx : map1.data row col = -1) (hy : map2.data row col = -1) :
    ∃ d, Remap src map1 map2 interpolation BorderMode.CONSTANT b = some d ∧
      d.rows = map1.rows ∧ d.cols = map1.cols ∧ d.data row col = ⟨b, b, b⟩ := by
  have hneg : (-1 : ℚ) < 0 := by norm_num
  cases interpolation
  · obtain ⟨d, e, hr, hc, c1⟩ := Remap_nearest_constant_cells src map1 map2 b
    have k := c1 row col hrow hcol
    rw [hx, hy, nearestConstant_border src b _ _ (Or.inl hneg)] at k
    exact ⟨d, e, hr, hc, (Option.some.inj k).symm⟩
  · obtain ⟨d, e, hr, hc, c1⟩ := Remap_linear_constant_cells src map1 map2 b
    have k := c1 row col hrow hcol
    rw [hx, hy, linearConstant_border src b _ _ (Or.inl hneg)] at k
    exact ⟨d, e, hr, hc, (Option.some.inj k).symm⟩

/-- Witness of C8: the 4x4 ramp image, a 1x1 map holding the sentinel, the LINEAR kernel. -/
theorem C8_sentinel_constant_witness :
    ∃ d, Remap (rampImage 4 4) (constMap 1 1 (-1)) (constMap 1 1 (-1)) Interpolation.LINEAR
        BorderMode.CONSTANT 9 = some d ∧
      d.rows = (constMap 1 1 (-1)).rows ∧ d.cols = (constMap 1 1 (-1)).cols ∧
      d.data 0 0 = ⟨9, 9, 9⟩ :=
  C8_sentinel_constant (rampImage 4 4) (constMap 1 1 (-1)) (constMap 1 1 (-1)) 9
    Interpolation.LINEAR 0 0 (by decide) (by decide) rfl rfl

/-! ## MapRST: the loops -/

theorem loopRange_zero {σ : Type} (body : Nat → σ → σ) (init : σ) :
    loopRange 0 body init = init := by
  simp [loopRange]

theorem loopRange_succ {σ : Type} (n : Nat) (body : Nat → σ → σ) (init : σ) :
    loopRange (n + 1) body init = body n (loopRange n body init) := by
  simp [loopRange, List.range_succ, List.foldl_append]

/-- Closed form of the column loop of `MapRST` on row `row`. -/
theorem fillMapsRow_eq (f1 f2 : Nat → Nat → ℚ) (row : Nat) (m1 m2 : Mat ℚ) :
    ∀ n : Nat,
      loopRange n (fun col_idx (maps : Mat ℚ × Mat ℚ) =>
          (maps.1.set row col_idx (f1 row col_idx), maps.2.set row col_idx (f2 row col_idx)))
        (m1, m2) =
      ({ rows := m1.rows, cols := m1.cols,
         data := fun r c => if r = row ∧ c < n then f1 r c else m1.data r c },
       { rows := m2.rows, cols := m2.cols,
         data := fun r c => if r = row ∧ c < n then f2 r c else m2.data r c }) := by
  intro n
  induction n with
  | zero =>
    rw [loopRange_zero]
    cases m1; cases m2
    simp
  | succ n ih =>
    rw [loopRange_succ, ih]
    simp only [Mat.set, Prod.mk.injEq, Mat.mk.injEq, true_and]
    constructor <;>
    · funext r c
      by_cases h1 : r = row ∧ c = n
      · obtain ⟨rfl, rfl⟩ := h1
        simp
      · by_cases h2 : r = row ∧ c < n
        · have h3 : r = row ∧ c < n + 1 := ⟨h2.1, Nat.lt_succ_of_lt h2.2⟩
          have h4 : c ≠ n := Nat.ne_of_lt h2.2
          simp [h2, h3, h4]
        · have h3 : ¬ (r = row ∧ c < n + 1) := by
            rintro ⟨hr, hc⟩
            rcases Nat.lt_succ_iff_lt_or_eq.mp hc with hlt | heq
            · exact h2 ⟨hr, hlt⟩
            · exact h1 ⟨hr, heq⟩
          simp [h1, h2, h3]

/-- Closed form of the double loop of `MapRST`. -/
theorem fillMaps_eq (f1 f2 : Nat → Nat → ℚ) (cols : Nat) (m1 m2 : Mat ℚ) :
    ∀ n : Nat,
      loopRange n (fun row_idx (maps : Mat ℚ × Mat ℚ) =>
          loopRange cols (fun col_idx (maps : Mat ℚ × Mat ℚ) =>
            (maps.1.set row_idx col_idx (f1 row_idx col_idx),
             maps.2.set row_idx col_idx (f2 row_idx col_idx))) maps)
        (m1, m2) =
      ({ rows := m1.rows, cols := m1.cols,
         data := fun r c => if r < n ∧ c < cols then f1 r c else m1.data r c },
       { rows := m2.rows, cols := m2.cols,
         data := fun r c => if r < n ∧ c < cols then f2 r c else m2.data r c }) := by
  intro n
  induction n with
  | zero =>
    rw [loopRange_zero]
    cases m1; cases m2
    simp
  | succ n ih =>
    rw [loopRange_succ, ih, fillMapsRow_eq]
    simp only [Prod.mk.injEq, Mat.mk.injEq, true_and]
    constructor <;>
    · funext r c
      by_cases hc : c < cols
      · by_cases h1 : r = n
        · subst h1
          simp [hc]
        · by_cases h2 : r < n
          · have h3 : r < n + 1 := Nat.lt_succ_of_lt h2
            simp [h1, h2, h3, hc]
          · have h3 : ¬ r < n + 1 := by omega
            simp [h1, h2, h3, hc]
      · simp [hc]

/-- What `MapRST` returns, cell by cell: the flag is `true`, both maps have `rstRows` rows and
`rstCols` columns, and the cell `(r, c)` holds the source point of `(r, c)` shifted by half the
source size (integer halving). -/
theorem MapRST_cells (src : Mat Vec3b) (ca sa sx sy tx ty : ℚ) :
    (MapRST src ca sa sx sy tx ty).ok = true ∧
    (MapRST src ca sa sx sy tx ty).map1.rows =
      rstRows src.cols src.rows (rstAffine ca sa sx sy tx ty) ∧
    (MapRST src ca sa sx sy tx ty).map1.cols =
      rstCols src.cols src.rows (rstAffine ca sa sx sy tx ty) ∧
    (MapRST src ca sa sx sy tx ty).map2.rows =
      rstRows src.cols src.rows (rstAffine ca sa sx sy tx ty) ∧
    (MapRST src ca sa sx sy tx ty).map2.cols =
      rstCols src.cols src.rows (rstAffine ca sa sx sy tx ty) ∧
    ∀ r c, r < rstRows src.cols src.rows (rstAffine ca sa sx sy tx ty) →
      c < rstCols src.cols src.rows (rstAffine ca sa sx sy tx ty) →
      (MapRST src ca sa sx sy tx ty).map1.data r c =
        (rstSrcPoint (rstAffine ca sa sx sy tx ty)
          (rstRows src.cols src.rows (rstAffine ca sa sx sy tx ty))
          (rstCols src.cols src.rows (rstAffine ca sa sx sy tx ty)) r c).v0 +
          ((Int.tdiv (src.cols : Int) 2 : Int) : ℚ) ∧
      (MapRST src ca sa sx sy tx ty).map2.data r c =
        (rstSrcPoint (rstAffine ca sa sx sy tx ty)
          (rstRows src.cols src.rows (rstAffine ca sa sx sy tx ty))
          (rstCols src.cols src.rows (rstAffine ca sa sx sy tx ty)) r c).v1 +
          ((Int.tdiv (src.rows : Int) 2 : Int) : ℚ) := by
  have key := fillMaps_eq
    (fun r c => (rstSrcPoint (rstAffine ca sa sx sy tx ty)
          (rstRows src.cols src.rows (rstAffine ca sa sx sy tx ty))
          (rstCols src.cols src.rows (rstAffine ca sa sx sy tx ty)) r c).v0 +
          ((Int.tdiv (src.cols : Int) 2 : Int) : ℚ))
    (fun r c => (rstSrcPoint (rstAffine ca sa sx sy tx ty)
          (rstRows src.cols src.rows (rstAffine ca sa sx sy tx ty))
          (rstCols src.cols src.rows (rstAffine ca sa sx sy tx ty)) r c).v1 +
          ((Int.tdiv (src.rows : Int) 2 : Int) : ℚ))
    (rstCols src.cols src.rows (rstAffine ca sa sx sy tx ty))
    (Mat.create (rstRows src.cols src.rows (rstAffine ca sa sx sy tx ty))
      (rstCols src.cols src.rows (rstAffine ca sa sx sy tx ty)) 0)
    (Mat.create (rstRows src.cols src.rows (rstAffine ca sa sx sy tx ty))
      (rstCols src.cols src.rows (rstAffine ca sa sx sy tx ty)) 0)
    (rstRows src.cols src.rows (rstAffine ca sa sx sy tx ty))
  simp only [MapRST]
  rw [key]
  refine ⟨trivial, rfl, rfl, rfl, rfl, ?_⟩
  intro r c hr hc
  simp [hr, hc]

/-! ## MapRST: the identity transform -/

theorem tdiv_two_natCast (n : Nat) : Int.tdiv (n : Int) 2 = ((n / 2 : Nat) : Int) := by
  have h := Int.ofNat_tdiv n 2
  simpa using h.symm

theorem tdiv_two_neg_natCast (n : Nat) : Int.tdiv (-(n : Int)) 2 = -((n / 2 : Nat) : Int) := by
  rw [Int.neg_tdiv, tdiv_two_natCast]

/-- With `cos(angle) = 1`, `sin(angle) = 0`, unit scales and no translation the affine
matrix is the identity matrix. -/
theorem rstAffine_identity :
    rstAffine 1 0 1 1 0 0 = ⟨1, 0, 0, 0, 1, 0, 0, 0, 1⟩ := by
  simp [rstAffine, Matrix3d.mul]

theorem inverse_identity :
    Matrix3d.inverse ⟨1, 0, 0, 0, 1, 0, 0, 0, 1⟩ = ⟨1, 0, 0, 0, 1, 0, 0, 0, 1⟩ := by
  simp [Matrix3d.inverse, Matrix3d.determinant]

theorem abs_half_span (h : Nat) :
    |((h : Int) : ℚ) - ((-(h : Int) : Int) : ℚ)| = ((2 * h : Nat) : ℚ) := by
  have e : ((h : Int) : ℚ) - ((-(h : Int) : Int) : ℚ) = ((2 * h : Nat) : ℚ) := by
    push_cast; ring
  rw [e]
  exact abs_of_nonneg (Nat.cast_nonneg _)

theorem abs_half_span_neg (h : Nat) :
    |((-(h : Int) : Int) : ℚ) - ((h : Int) : ℚ)| = ((2 * h : Nat) : ℚ) := by
  rw [abs_sub_comm]
  exact abs_half_span h

theorem ceil_natCast_toNat (n : Nat) : (⌈max ((n : ℚ)) ((n : ℚ))⌉).toNat = n := by
  rw [max_self, Int.ceil_natCast]
  simp

/-- Rows of the identity map: twice the integer half of the source rows. -/
theorem rstRows_identity (src_cols src_rows : Nat) :
    rstRows src_cols src_rows (rstAffine 1 0 1 1 0 0) = 2 * (src_rows / 2) := by
  rw [rstAffine_identity]
  simp only [rstRows, inverse_identity, Matrix3d.mulVec, tdiv_two_natCast, tdiv_two_neg_natCast]
  simp only [one_mul, zero_mul, mul_one, add_zero, zero_add]
  rw [abs_half_span]
  exact ceil_natCast_toNat _

/-- Columns of the identity map: twice the integer half of the source columns. -/
theorem rstCols_identity (src_cols src_rows : Nat) :
    rstCols src_cols src_rows (rstAffine 1 0 1 1 0 0) = 2 * (src_cols / 2) := by
  rw [rstAffine_identity]
  simp only [rstCols, inverse_identity, Matrix3d.mulVec, tdiv_two_natCast, tdiv_two_neg_natCast]
  simp only [one_mul, zero_mul, mul_one, add_zero, zero_add]
  rw [abs_half_span, abs_half_span_neg]
  exact ceil_natCast_toNat _

/-- The cells of the identity map: `map1(row, col) = col` and `map2(row, col) = row`. -/
theorem MapRST_identity_cells (src : Mat Vec3b) (r c : Nat)
    (hr : r < 2 * (src.rows / 2)) (hc : c < 2 * (src.cols / 2)) :
    (MapRST src 1 0 1 1 0 0).map1.data r c = (c : ℚ) ∧
      (MapRST src 1 0 1 1 0 0).map2.data r c = (r : ℚ) := by
  obtain ⟨-, -, -, -, -, hcell⟩ := MapRST_cells src 1 0 1 1 0 0
  rw [rstRows_identity, rstCols_identity] at hcell
  obtain ⟨h1, h2⟩ := hcell r c hr hc
  rw [h1, h2, rstAffine_identity]
  simp only [rstSrcPoint, Matrix3d.mulVec, tdiv_two_natCast]
  have e1 : 2 * (src.cols / 2) / 2 = src.cols / 2 := by omega
  have e2 : 2 * (src.rows / 2) / 2 = src.rows / 2 := by omega
  rw [e1, e2]
  push_cast
  constructor <;> ring

theorem MapRST_identity_shape (src : Mat Vec3b) :
    (MapRST src 1 0 1 1 0 0).ok = true ∧
      (MapRST src 1 0 1 1 0 0).map1.rows = 2 * (src.rows / 2) ∧
      (MapRST src 1 0 1 1 0 0).map1.cols = 2 * (src.cols / 2) ∧
      (MapRST src 1 0 1 1 0 0).map2.rows = 2 * (src.rows / 2) ∧
      (MapRST src 1 0 1 1 0 0).map2.cols = 2 * (src.cols / 2) := by
  obtain ⟨h0, h1, h2, h3, h4, -⟩ := MapRST_cells src 1 0 1 1 0 0
  rw [rstRows_identity] at h1 h3
  rw [rstCols_identity] at h2 h4
  exact ⟨h0, h1, h2, h3, h4⟩

/-- Resampling a source through its identity map with NEAREST + CONSTANT returns the top-left
`2*floor(H/2)` x `2*floor(W/2)` part of the source. -/
theorem identity_round_trip_crop (src : Mat Vec3b) (b : Fin 256) :
    ∃ d, Remap src (MapRST src 1 0 1 1 0 0).map1 (MapRST src 1 0 1 1 0 0).map2
        Interpolation.NEAREST BorderMode.CONSTANT b = some d ∧
      d.rows = 2 * (src.rows / 2) ∧ d.cols = 2 * (src.cols / 2) ∧
      ∀ r c, r < 2 * (src.rows / 2) → c < 2 * (src.cols / 2) → d.data r c = src.data r c := by
  obtain ⟨-, s1, s2, -, -⟩ := MapRST_identity_shape src
  obtain ⟨d, hd, hr, hc, hcell⟩ := Remap_nearest_constant_cells src
    (MapRST src 1 0 1 1 0 0).map1 (MapRST src 1 0 1 1 0 0).map2 b
  refine ⟨d, hd, by rw [hr, s1], by rw [hc, s2], ?_⟩
  intro r c hr' hc'
  have e := hcell r c (by rw [s1]; exact hr') (by rw [s2]; exact hc')
  obtain ⟨m1, m2⟩ := MapRST_identity_cells src r c hr' hc'
  rw [m1, m2] at e
  have hrl : r < src.rows := by omega
  have hcl : c < src.cols := by omega
  obtain ⟨k1, k2⟩ := nearestConstant_inside src b (c : ℚ) (r : ℚ) (Nat.cast_nonneg _)
    (by exact_mod_cast hcl) (Nat.cast_nonneg _) (by exact_mod_cast hrl)
  rw [k1, k2, Int.floor_natCast, Int.floor_natCast, Int.toNat_natCast, Int.toNat_natCast] at e
  exact (Option.some.inj e).symm

/-- C9.  Identity RST (`cos(angle) = 1`, `sin(angle) = 0`, unit scales, zero translation):
`MapRST` returns `true` and two maps of one shape in which every cell `(row, col)` holds
`map1(row, col) = col` and `map2(row, col) = row`. -/
theorem C9_identity_rst (src : Mat Vec3b) (row col : Nat)
    (hrow : row < (MapRST src 1 0 1 1 0 0).map1.rows)
    (hcol : col < (MapRST src 1 0 1 1 0 0).map1.cols) :
    (MapRST src 1 0 1 1 0 0).ok = true ∧
      (MapRST src 1 0 1 1 0 0).map2.rows = (MapRST src 1 0 1 1 0 0).map1.rows ∧
      (MapRST src 1 0 1 1 0 0).map2.cols = (MapRST src 1 0 1 1 0 0).map1.cols ∧
      (MapRST src 1 0 1 1 0 0).map1.data row col = (col : ℚ) ∧
      (MapRST src 1 0 1 1 0 0).map2.data row col = (row : ℚ) := by
  obtain ⟨h0, s1, s2, s3, s4⟩ := MapRST_identity_shape src
  rw [s1] at hrow
  rw [s2] at hcol
  obtain ⟨m1, m2⟩ := MapRST_identity_cells src row col hrow hcol
  exact ⟨h0, by rw [s3, s1], by rw [s4, s2], m1, m2⟩

/-- Witness of C9: the 4x4 ramp image, cell `(1, 2)`. -/
theorem C9_identity_rst_witness :
    (MapRST (rampImage 4 4) 1 0 1 1 0 0).ok = true ∧
      (MapRST (rampImage 4 4) 1 0 1 1 0 0).map2.rows =
        (MapRST (rampImage 4 4) 1 0 1 1 0 0).map1.rows ∧
      (MapRST (rampImage 4 4) 1 0 1 1 0 0).map2.cols =
        (MapRST (rampImage 4 4) 1 0 1 1 0 0).map1.cols ∧
      (MapRST (rampImage 4 4) 1 0 1 1 0 0).map1.data 1 2 = ((2 : Nat) : ℚ) ∧
      (MapRST (rampImage 4 4) 1 0 1 1 0 0).map2.data 1 2 = ((1 : Nat) : ℚ) :=
  C9_identity_rst (rampImage 4 4) 1 2
    (by rw [(MapRST_identity_shape (rampImage 4 4)).2.1]; decide)
    (by rw [(MapRST_identity_shape (rampImage 4 4)).2.2.1]; decide)

/-- C10 (counterexample).  For the 3x3 ramp image the identity map has 2 rows and 2 columns,
so the resampled output is a 2x2 image and not the 3x3 input. -/
theorem C10_counterexample :
    ∃ d, Remap (rampImage 3 3) (MapRST (rampImage 3 3) 1 0 1 1 0 0).map1
        (MapRST (rampImage 3 3) 1 0 1 1 0 0).map2
        Interpolation.NEAREST BorderMode.CONSTANT 9 = some d ∧
      d.rows = 2 ∧ d.cols = 2 ∧ d.rows ≠ (rampImage 3 3).rows ∧
      d.cols ≠ (rampImage 3 3).cols := by
  obtain ⟨d, hd, hr, hc, -⟩ := identity_round_trip_crop (rampImage 3 3) 9
  have hr2 : d.rows = 2 := by rw [hr]; decide
  have hc2 : d.cols = 2 := by rw [hc]; decide
  refine ⟨d, hd, hr2, hc2, ?_, ?_⟩
  · rw [hr2]; decide
  · rw [hc2]; decide

/-- C10 (amended).  For a source with an even number of rows and of columns and every border
value, resampling the source with NEAREST + CONSTANT through the map of the identity RST
transform returns an image of the same dimensions holding the same pixel at every position. -/
theorem C10_identity_round_trip (src : Mat Vec3b) (b : Fin 256)
    (hrows : src.rows % 2 = 0) (hcols : src.cols % 2 = 0) :
    (MapRST src 1 0 1 1 0 0).ok = true ∧
    ∃ d, Remap src (MapRST src 1 0 1 1 0 0).map1 (MapRST src 1 0 1 1 0 0).map2
        Interpolation.NEAREST BorderMode.CONSTANT b = some d ∧
      d.rows = src.rows ∧ d.cols = src.cols ∧
      ∀ r c, r < src.rows → c < src.cols → d.data r c = src.data r c := by
  obtain ⟨d, hd, hr, hc, hcell⟩ := identity_round_trip_crop src b
  have er : 2 * (src.rows / 2) = src.rows := by omega
  have ec : 2 * (src.cols / 2) = src.cols := by omega
  rw [er] at hr hcell
  rw [ec] at hc hcell
  exact ⟨(MapRST_identity_shape src).1, d, hd, hr, hc, hcell⟩

/-- Witness of C10 (amended), the scenario of the specification: the 4x4 image with the values
`0..15` in row-major order and the border value 9. -/
theorem C10_identity_round_trip_witness :
    (MapRST (rampImage 4 4) 1 0 1 1 0 0).ok = true ∧
    ∃ d, Remap (rampImage 4 4) (MapRST (rampImage 4 4) 1 0 1 1 0 0).map1
        (MapRST (rampImage 4 4) 1 0 1 1 0 0).map2
        Interpolation.NEAREST BorderMode.CONSTANT 9 = some d ∧
      d.rows = (rampImage 4 4).rows ∧ d.cols = (rampImage 4 4).cols ∧
      ∀ r c, r < (rampImage 4 4).rows → c < (rampImage 4 4).cols →
        d.data r c = (rampImage 4 4).data r c :=
  C10_identity_round_trip (rampImage 4 4) 9 (by decide) (by decide)

/-! ## MapRST: the extent in general -/

/-- Rows of the map of `MapRST` in terms of the entries of the inverse matrix: the larger of
the two diagonal spans of the mapped corners, which do not depend on the translation column. -/
theorem rstRows_eq (src_cols src_rows : Nat) (A : Matrix3d) :
    rstRows src_cols src_rows A =
      (⌈max |A.inverse.m10 * (-(2 * ((src_cols / 2 : Nat) : ℚ))) +
              A.inverse.m11 * (2 * ((src_rows / 2 : Nat) : ℚ))|
            |A.inverse.m10 * (2 * ((src_cols / 2 : Nat) : ℚ)) +
              A.inverse.m11 * (2 * ((src_rows / 2 : Nat) : ℚ))|⌉).toNat := by
  simp only [rstRows, Matrix3d.mulVec, tdiv_two_natCast, tdiv_two_neg_natCast]
  generalize src_cols / 2 = w
  generalize src_rows / 2 = h
  have e1 : A.inverse.m10 * (((-(w : Int) : Int)) : ℚ) +
        A.inverse.m11 * (((h : Int)) : ℚ) + A.inverse.m12 * 1 -
      (A.inverse.m10 * (((w : Int)) : ℚ) +
        A.inverse.m11 * (((-(h : Int) : Int)) : ℚ) + A.inverse.m12 * 1) =
      A.inverse.m10 * (-(2 * (w : ℚ))) + A.inverse.m11 * (2 * (h : ℚ)) := by
    push_cast; ring
  have e2 : A.inverse.m10 * (((w : Int)) : ℚ) +
        A.inverse.m11 * (((h : Int)) : ℚ) + A.inverse.m12 * 1 -
      (A.inverse.m10 * (((-(w : Int) : Int)) : ℚ) +
        A.inverse.m11 * (((-(h : Int) : Int)) : ℚ) + A.inverse.m12 * 1) =
      A.inverse.m10 * (2 * (w : ℚ)) + A.inverse.m11 * (2 * (h : ℚ)) := by
    push_cast; ring
  rw [e1, e2]

/-- Columns of the map of `MapRST` in terms of the entries of the inverse matrix. -/
theorem rstCols_eq (src_cols src_rows : Nat) (A : Matrix3d) :
    rstCols src_cols src_rows A =
      (⌈max |A.inverse.m00 * (-(2 * ((src_cols / 2 : Nat) : ℚ))) +
              A.inverse.m01 * (2 * ((src_rows / 2 : Nat) : ℚ))|
            |A.inverse.m00 * (2 * ((src_cols / 2 : Nat) : ℚ)) +
              A.inverse.m01 * (2 * ((src_rows / 2 : Nat) : ℚ))|⌉).toNat := by
  simp only [rstCols, Matrix3d.mulVec, tdiv_two_natCast, tdiv_two_neg_natCast]
  generalize src_cols / 2 = w
  generalize src_rows / 2 = h
  have e1 : A.inverse.m00 * (((-(w : Int) : Int)) : ℚ) +
        A.inverse.m01 * (((h : Int)) : ℚ) + A.inverse.m02 * 1 -
      (A.inverse.m00 * (((w : Int)) : ℚ) +
        A.inverse.m01 * (((-(h : Int) : Int)) : ℚ) + A.inverse.m02 * 1) =
      A.inverse.m00 * (-(2 * (w : ℚ))) + A.inverse.m01 * (2 * (h : ℚ)) := by
    push_cast; ring
  have e2 : A.inverse.m00 * (((w : Int)) : ℚ) +
        A.inverse.m01 * (((h : Int)) : ℚ) + A.inverse.m02 * 1 -
      (A.inverse.m00 * (((-(w : Int) : Int)) : ℚ) +
        A.inverse.m01 * (((-(h : Int) : Int)) : ℚ) + A.inverse.m02 * 1) =
      A.inverse.m00 * (2 * (w : ℚ)) + A.inverse.m01 * (2 * (h : ℚ)) := by
    push_cast; ring
  rw [e1, e2]

/-- The entries of the affine matrix `rotation * scale * translation`. -/
theorem rstAffine_entries (ca sa sx sy tx ty : ℚ) :
    rstAffine ca sa sx sy tx ty =
      { m00 := ca / sx, m01 := -sa / sy, m02 := ca / sx * (-tx) + -sa / sy * ty
        m10 := sa / sx, m11 := ca / sy, m12 := sa / sx * (-tx) + ca / sy * ty
        m20 := 0, m21 := 0, m22 := 1 } := by
  simp only [rstAffine, Matrix3d.mul, Matrix3d.mk.injEq]
  refine ⟨?_, ?_, ?_, ?_, ?_, ?_, ?_, ?_, ?_⟩ <;> ring

theorem rstAffine_determinant (ca sa sx sy tx ty : ℚ) :
    (rstAffine ca sa sx sy tx ty).determinant = (ca * ca + sa * sa) / (sx * sy) := by
  rw [rstAffine_entries]
  simp only [Matrix3d.determinant]
  by_cases hx : sx = 0
  · subst hx; simp
  · by_cases hy : sy = 0
    · subst hy; simp
    · field_simp
      ring

/-- The linear part of the inverse of the affine matrix, for non-zero scales. -/
theorem rstAffine_inverse_linear (ca sa sx sy tx ty : ℚ) (hsx : sx ≠ 0) (hsy : sy ≠ 0) :
    (rstAffine ca sa sx sy tx ty).inverse.m00 = ca * sx / (ca * ca + sa * sa) ∧
    (rstAffine ca sa sx sy tx ty).inverse.m01 = sa * sx / (ca * ca + sa * sa) ∧
    (rstAffine ca sa sx sy tx ty).inverse.m10 = -sa * sy / (ca * ca + sa * sa) ∧
    (rstAffine ca sa sx sy tx ty).inverse.m11 = ca * sy / (ca * ca + sa * sa) := by
  have hdet := rstAffine_determinant ca sa sx sy tx ty
  simp only [Matrix3d.inverse, hdet]
  rw [rstAffine_entries]
  simp only []
  by_cases hcs : ca * ca + sa * sa = 0
  · rw [hcs]; simp
  · refine ⟨?_, ?_, ?_, ?_⟩ <;>
    · field_simp
      ring

theorem ceil_toNat_le_double (a b : ℚ) :
    (⌈max |a| |b|⌉).toNat ≤ (⌈max |2 * a| |2 * b|⌉).toNat := by
  have h0 : 0 ≤ max |a| |b| := le_max_of_le_left (abs_nonneg a)
  have e : max |2 * a| |2 * b| = 2 * max |a| |b| := by
    rw [abs_mul, abs_mul, abs_of_nonneg (by norm_num : (0 : ℚ) ≤ 2),
      mul_max_of_nonneg _ _ (by norm_num : (0 : ℚ) ≤ 2)]
  rw [e]
  apply Int.toNat_le_toNat
  apply Int.ceil_le_ceil
  linarith

/-- The shape of the maps returned by `MapRST`. -/
theorem MapRST_shape (src : Mat Vec3b) (ca sa sx sy tx ty : ℚ) :
    (MapRST src ca sa sx sy tx ty).map1.rows =
      rstRows src.cols src.rows (rstAffine ca sa sx sy tx ty) ∧
    (MapRST src ca sa sx sy tx ty).map1.cols =
      rstCols src.cols src.rows (rstAffine ca sa sx sy tx ty) ∧
    (MapRST src ca sa sx sy tx ty).map2.rows =
      rstRows src.cols src.rows (rstAffine ca sa sx sy tx ty) ∧
    (MapRST src ca sa sx sy tx ty).map2.cols =
      rstCols src.cols src.rows (rstAffine ca sa sx sy tx ty) := by
  obtain ⟨-, h1, h2, h3, h4, -⟩ := MapRST_cells src ca sa sx sy tx ty
  exact ⟨h1, h2, h3, h4⟩

/-- C11.  RST extent monotonicity: for scale factors `sx ≥ 1`, `sy ≥ 1` (and every source,
angle and translation) the maps produced with the scales `(2*sx, 2*sy)` have at least as many
rows and at least as many columns as the maps produced with `(sx, sy)`. -/
theorem C11_extent_monotone (src : Mat Vec3b) (ca sa sx sy tx ty : ℚ)
    (hsx : 1 ≤ sx) (hsy : 1 ≤ sy) :
    (MapRST src ca sa sx sy tx ty).map1.rows ≤
        (MapRST src ca sa (2 * sx) (2 * sy) tx ty).map1.rows ∧
    (MapRST src ca sa sx sy tx ty).map1.cols ≤
        (MapRST src ca sa (2 * sx) (2 * sy) tx ty).map1.cols ∧
    (MapRST src ca sa sx sy tx ty).map2.rows ≤
        (MapRST src ca sa (2 * sx) (2 * sy) tx ty).map2.rows ∧
    (MapRST src ca sa sx sy tx ty).map2.cols ≤
        (MapRST src ca sa (2 * sx) (2 * sy) tx ty).map2.cols := by
  have x0 : sx ≠ 0 := by intro h; rw [h] at hsx; norm_num at hsx
  have y0 : sy ≠ 0 := by intro h; rw [h] at hsy; norm_num at hsy
  have x2 : 2 * sx ≠ 0 := mul_ne_zero (by norm_num) x0
  have y2 : 2 * sy ≠ 0 := mul_ne_zero (by norm_num) y0
  obtain ⟨a00, a01, a10, a11⟩ := rstAffine_inverse_linear ca sa sx sy tx ty x0 y0
  obtain ⟨b00, b01, b10, b11⟩ := rstAffine_inverse_linear ca sa (2 * sx) (2 * sy) tx ty x2 y2
  have hrows : rstRows src.cols src.rows (rstAffine ca sa sx sy tx ty) ≤
      rstRows src.cols src.rows (rstAffine ca sa (2 * sx) (2 * sy) tx ty) := by
    rw [rstRows_eq, rstRows_eq, a10, a11, b10, b11]
    have e1 : -sa * (2 * sy) / (ca * ca + sa * sa) * (-(2 * ((src.cols / 2 : Nat) : ℚ))) +
        ca * (2 * sy) / (ca * ca + sa * sa) * (2 * ((src.rows / 2 : Nat) : ℚ)) =
        2 * (-sa * sy / (ca * ca + sa * sa) * (-(2 * ((src.cols / 2 : Nat) : ℚ))) +
          ca * sy / (ca * ca + sa * sa) * (2 * ((src.rows / 2 : Nat) : ℚ))) := by ring
    have e2 : -sa * (2 * sy) / (ca * ca + sa * sa) * (2 * ((src.cols / 2 : Nat) : ℚ)) +
        ca * (2 * sy) / (ca * ca + sa * sa) * (2 * ((src.rows / 2 : Nat) : ℚ)) =
        2 * (-sa * sy / (ca * ca + sa * sa) * (2 * ((src.cols / 2 : Nat) : ℚ)) +
          ca * sy / (ca * ca + sa * sa) * (2 * ((src.rows / 2 : Nat) : ℚ))) := by ring
    rw [e1, e2]
    exact ceil_toNat_le_double _ _
  have hcols : rstCols src.cols src.rows (rstAffine ca sa sx sy tx ty) ≤
      rstCols src.cols src.rows (rstAffine ca sa (2 * sx) (2 * sy) tx ty) := by
    rw [rstCols_eq, rstCols_eq, a00, a01, b00, b01]
    have e1 : ca * (2 * sx) / (ca * ca + sa * sa) * (-(2 * ((src.cols / 2 : Nat) : ℚ))) +
        sa * (2 * sx) / (ca * ca + sa * sa) * (2 * ((src.rows / 2 : Nat) : ℚ)) =
        2 * (ca * sx / (ca * ca + sa * sa) * (-(2 * ((src.cols / 2 : Nat) : ℚ))) +
          sa * sx / (ca * ca + sa * sa) * (2 * ((src.rows / 2 : Nat) : ℚ))) := by ring
    have e2 : ca * (2 * sx) / (ca * ca + sa * sa) * (2 * ((src.cols / 2 : Nat) : ℚ)) +
        sa * (2 * sx) / (ca * ca + sa * sa) * (2 * ((src.rows / 2 : Nat) : ℚ)) =
        2 * (ca * sx / (ca * ca + sa * sa) * (2 * ((src.cols / 2 : Nat) : ℚ)) +
          sa * sx / (ca * ca + sa * sa) * (2 * ((src.rows / 2 : Nat) : ℚ))) := by ring
    rw [e1, e2]
    exact ceil_toNat_le_double _ _
  obtain ⟨p1, p2, p3, p4⟩ := MapRST_shape src ca sa sx sy tx ty
  obtain ⟨q1, q2, q3, q4⟩ := MapRST_shape src ca sa (2 * sx) (2 * sy) tx ty
  rw [p1, p2, p3, p4, q1, q2, q3, q4]
  exact ⟨hrows, hcols, hrows, hcols⟩

/-- Witness of C11: the 4x4 ramp image rotated by the angle with `cos = 3/5`, `sin = 4/5`,
scales `(1, 3/2)` and translation `(1, -2)`. -/
theorem C11_extent_monotone_witness :
    (MapRST (rampImage 4 4) (3 / 5) (4 / 5) 1 (3 / 2) 1 (-2)).map1.rows ≤
        (MapRST (rampImage 4 4) (3 / 5) (4 / 5) (2 * 1) (2 * (3 / 2)) 1 (-2)).map1.rows ∧
    (MapRST (rampImage 4 4) (3 / 5) (4 / 5) 1 (3 / 2) 1 (-2)).map1.cols ≤
        (MapRST (rampImage 4 4) (3 / 5) (4 / 5) (2 * 1) (2 * (3 / 2)) 1 (-2)).map1.cols ∧
    (MapRST (rampImage 4 4) (3 / 5) (4 / 5) 1 (3 / 2) 1 (-2)).map2.rows ≤
        (MapRST (rampImage 4 4) (3 / 5) (4 / 5) (2 * 1) (2 * (3 / 2)) 1 (-2)).map2.rows ∧
    (MapRST (rampImage 4 4) (3 / 5) (4 / 5) 1 (3 / 2) 1 (-2)).map2.cols ≤
        (MapRST (rampImage 4 4) (3 / 5) (4 / 5) (2 * 1) (2 * (3 / 2)) 1 (-2)).map2.cols :=
  C11_extent_monotone (rampImage 4 4) (3 / 5) (4 / 5) 1 (3 / 2) 1 (-2) (by norm_num)
    (by norm_num)
/-- The bounding-box extent of the four corners of a parallelogram centred at `t` is the
larger of its two diagonal spans. -/
theorem span_four (a b t : ℚ) :
    max (max (-a + b + t) (-a - b + t)) (max (a + b + t) (a - b + t)) -
        min (min (-a + b + t) (-a - b + t)) (min (a + b + t) (a - b + t)) =
      max |(-(2 * a)) + 2 * b| |2 * a + 2 * b| := by
  rcases le_total 0 a with ha | ha <;> rcases le_total 0 b with hb | hb
  · rw [max_eq_left (by linarith : -a - b + t ≤ -a + b + t),
      max_eq_left (by linarith : a - b + t ≤ a + b + t),
      max_eq_right (by linarith : -a + b + t ≤ a + b + t),
      min_eq_right (by linarith : -a - b + t ≤ -a + b + t),
      min_eq_right (by linarith : a - b + t ≤ a + b + t),
      min_eq_left (by linarith : -a - b + t ≤ a - b + t),
      abs_of_nonneg (by linarith : 0 ≤ 2 * a + 2 * b),
      max_eq_right (abs_le.mpr ⟨by linarith, by linarith⟩)]
    ring
  · rw [max_eq_right (by linarith : -a + b + t ≤ -a - b + t),
      max_eq_right (by linarith : a + b + t ≤ a - b + t),
      max_eq_right (by linarith : -a - b + t ≤ a - b + t),
      min_eq_left (by linarith : -a + b + t ≤ -a - b + t),
      min_eq_left (by linarith : a + b + t ≤ a - b + t),
      min_eq_left (by linarith : -a + b + t ≤ a + b + t),
      abs_of_nonpos (by linarith : -(2 * a) + 2 * b ≤ 0),
      max_eq_left (abs_le.mpr ⟨by linarith, by linarith⟩)]
    ring
  · rw [max_eq_left (by linarith : -a - b + t ≤ -a + b + t),
      max_eq_left (by linarith : a - b + t ≤ a + b + t),
      max_eq_left (by linarith : a + b + t ≤ -a + b + t),
      min_eq_right (by linarith : -a - b + t ≤ -a + b + t),
      min_eq_right (by linarith : a - b + t ≤ a + b + t),
      min_eq_right (by linarith : a - b + t ≤ -a - b + t),
      abs_of_nonneg (by linarith : 0 ≤ -(2 * a) + 2 * b),
      max_eq_left (abs_le.mpr ⟨by linarith, by linarith⟩)]
    ring
  · rw [max_eq_right (by linarith : -a + b + t ≤ -a - b + t),
      max_eq_right (by linarith : a + b + t ≤ a - b + t),
      max_eq_left (by linarith : a - b + t ≤ -a - b + t),
      min_eq_left (by linarith : -a + b + t ≤ -a - b + t),
      min_eq_left (by linarith : a + b + t ≤ a - b + t),
      min_eq_right (by linarith : a + b + t ≤ -a + b + t),
      abs_of_nonpos (by linarith : 2 * a + 2 * b ≤ 0),
      max_eq_right (abs_le.mpr ⟨by linarith, by linarith⟩)]
    ring

theorem specBoundingSpan_cols (src_cols src_rows : Nat) (A : Matrix3d) :
    specBoundingSpan (specCorner src_cols src_rows A (-1) 1).v0
        (specCorner src_cols src_rows A (-1) (-1)).v0
        (specCorner src_cols src_rows A 1 1).v0
        (specCorner src_cols src_rows A 1 (-1)).v0 =
      rstCols src_cols src_rows A := by
  rw [rstCols_eq]
  simp only [specBoundingSpan, specCorner, Matrix3d.mulVec]
  generalize ((src_cols / 2 : Nat) : ℚ) = w
  generalize ((src_rows / 2 : Nat) : ℚ) = h
  have e := span_four (A.inverse.m00 * w) (A.inverse.m01 * h) A.inverse.m02
  have l1 : A.inverse.m00 * (((-1 : Int) : ℚ) * w) + A.inverse.m01 * (((1 : Int) : ℚ) * h) +
      A.inverse.m02 * 1 = -(A.inverse.m00 * w) + A.inverse.m01 * h + A.inverse.m02 := by
    push_cast; ring
  have l2 : A.inverse.m00 * (((-1 : Int) : ℚ) * w) + A.inverse.m01 * (((-1 : Int) : ℚ) * h) +
      A.inverse.m02 * 1 = -(A.inverse.m00 * w) - A.inverse.m01 * h + A.inverse.m02 := by
    push_cast; ring
  have l3 : A.inverse.m00 * (((1 : Int) : ℚ) * w) + A.inverse.m01 * (((1 : Int) : ℚ) * h) +
      A.inverse.m02 * 1 = A.inverse.m00 * w + A.inverse.m01 * h + A.inverse.m02 := by
    push_cast; ring
  have l4 : A.inverse.m00 * (((1 : Int) : ℚ) * w) + A.inverse.m01 * (((-1 : Int) : ℚ) * h) +
      A.inverse.m02 * 1 = A.inverse.m00 * w - A.inverse.m01 * h + A.inverse.m02 := by
    push_cast; ring
  have r1 : A.inverse.m00 * (-(2 * w)) + A.inverse.m01 * (2 * h) =
      -(2 * (A.inverse.m00 * w)) + 2 * (A.inverse.m01 * h) := by ring
  have r2 : A.inverse.m00 * (2 * w) + A.inverse.m01 * (2 * h) =
      2 * (A.inverse.m00 * w) + 2 * (A.inverse.m01 * h) := by ring
  rw [l1, l2, l3, l4, r1, r2, e]

theorem specBoundingSpan_rows (src_cols src_rows : Nat) (A : Matrix3d) :
    specBoundingSpan (specCorner src_cols src_rows A (-1) 1).v1
        (specCorner src_cols src_rows A (-1) (-1)).v1
        (specCorner src_cols src_rows A 1 1).v1
        (specCorner src_cols src_rows A 1 (-1)).v1 =
      rstRows src_cols src_rows A := by
  rw [rstRows_eq]
  simp only [specBoundingSpan, specCorner, Matrix3d.mulVec]
  generalize ((src_cols / 2 : Nat) : ℚ) = w
  generalize ((src_rows / 2 : Nat) : ℚ) = h
  have e := span_four (A.inverse.m10 * w) (A.inverse.m11 * h) A.inverse.m12
  have l1 : A.inverse.m10 * (((-1 : Int) : ℚ) * w) + A.inverse.m11 * (((1 : Int) : ℚ) * h) +
      A.inverse.m12 * 1 = -(A.inverse.m10 * w) + A.inverse.m11 * h + A.inverse.m12 := by
    push_cast; ring
  have l2 : A.inverse.m10 * (((-1 : Int) : ℚ) * w) + A.inverse.m11 * (((-1 : Int) : ℚ) * h) +
      A.inverse.m12 * 1 = -(A.inverse.m10 * w) - A.inverse.m11 * h + A.inverse.m12 := by
    push_cast; ring
  have l3 : A.inverse.m10 * (((1 : Int) : ℚ) * w) + A.inverse.m11 * (((1 : Int) : ℚ) * h) +
      A.inverse.m12 * 1 = A.inverse.m10 * w + A.inverse.m11 * h + A.inverse.m12 := by
    push_cast; ring
  have l4 : A.inverse.m10 * (((1 : Int) : ℚ) * w) + A.inverse.m11 * (((-1 : Int) : ℚ) * h) +
      A.inverse.m12 * 1 = A.inverse.m10 * w - A.inverse.m11 * h + A.inverse.m12 := by
    push_cast; ring
  have r1 : A.inverse.m10 * (-(2 * w)) + A.inverse.m11 * (2 * h) =
      -(2 * (A.inverse.m10 * w)) + 2 * (A.inverse.m11 * h) := by ring
  have r2 : A.inverse.m10 * (2 * w) + A.inverse.m11 * (2 * h) =
      2 * (A.inverse.m10 * w) + 2 * (A.inverse.m11 * h) := by ring
  rw [l1, l2, l3, l4, r1, r2, e]

/-! ## MapRST: translation and quarter turn -/

theorem ceil_max_abs_toNat (u v : ℚ) (n : Nat) (hu : |u| = (n : ℚ)) (hv : |v| = (n : ℚ)) :
    (⌈max |u| |v|⌉).toNat = n := by
  rw [hu, hv]
  exact ceil_natCast_toNat n

/-- Extent of the map for a pure translation: the extent of the identity map. -/
theorem rst_translation_shape (src_cols src_rows : Nat) (tx ty : ℚ) :
    rstRows src_cols src_rows (rstAffine 1 0 1 1 tx ty) = 2 * (src_rows / 2) ∧
      rstCols src_cols src_rows (rstAffine 1 0 1 1 tx ty) = 2 * (src_cols / 2) := by
  obtain ⟨a00, a01, a10, a11⟩ :=
    rstAffine_inverse_linear 1 0 1 1 tx ty (by norm_num) (by norm_num)
  rw [rstRows_eq, rstCols_eq, a00, a01, a10, a11]
  constructor
  · apply ceil_max_abs_toNat
    · rw [abs_of_nonneg]
      · push_cast; ring
      · have : (0 : ℚ) ≤ ((src_rows / 2 : Nat) : ℚ) := Nat.cast_nonneg _
        norm_num
    · rw [abs_of_nonneg]
      · push_cast; ring
      · have : (0 : ℚ) ≤ ((src_rows / 2 : Nat) : ℚ) := Nat.cast_nonneg _
        norm_num
  · apply ceil_max_abs_toNat
    · rw [abs_of_nonpos]
      · push_cast; ring
      · have : (0 : ℚ) ≤ ((src_cols / 2 : Nat) : ℚ) := Nat.cast_nonneg _
        norm_num
    · rw [abs_of_nonneg]
      · push_cast; ring
      · have : (0 : ℚ) ≤ ((src_cols / 2 : Nat) : ℚ) := Nat.cast_nonneg _
        norm_num

/-- Extent of the map for the quarter turn `cos = 0`, `sin = 1`: rows and columns of the
identity extent are exchanged. -/
theorem rst_quarter_shape (src_cols src_rows : Nat) :
    rstRows src_cols src_rows (rstAffine 0 1 1 1 0 0) = 2 * (src_cols / 2) ∧
      rstCols src_cols src_rows (rstAffine 0 1 1 1 0 0) = 2 * (src_rows / 2) := by
  obtain ⟨a00, a01, a10, a11⟩ :=
    rstAffine_inverse_linear 0 1 1 1 0 0 (by norm_num) (by norm_num)
  rw [rstRows_eq, rstCols_eq, a00, a01, a10, a11]
  constructor
  · apply ceil_max_abs_toNat
    · rw [abs_of_nonneg]
      · push_cast; ring
      · have : (0 : ℚ) ≤ ((src_cols / 2 : Nat) : ℚ) := Nat.cast_nonneg _
        norm_num
    · rw [abs_of_nonpos]
      · push_cast; ring
      · have : (0 : ℚ) ≤ ((src_cols / 2 : Nat) : ℚ) := Nat.cast_nonneg _
        norm_num
  · apply ceil_max_abs_toNat
    · rw [abs_of_nonneg]
      · push_cast; ring
      · have : (0 : ℚ) ≤ ((src_rows / 2 : Nat) : ℚ) := Nat.cast_nonneg _
        norm_num
    · rw [abs_of_nonneg]
      · push_cast; ring
      · have : (0 : ℚ) ≤ ((src_rows / 2 : Nat) : ℚ) := Nat.cast_nonneg _
        norm_num

/-- C13 (amended).  Translation direction over exact arithmetic: with `cos(angle) = 1`,
`sin(angle) = 0` and unit scales, `MapRST` produces maps of the extent of the identity case in
which every cell holds `map1(row, col) = col - tx` and `map2(row, col) = row + ty`: the
destination pixel takes the source `tx` columns to its left and `ty` rows below it, so the
content moves right by `tx` columns and up by `ty` rows. -/
theorem C13_translation_direction (src : Mat Vec3b) (tx ty : ℚ) (row col : Nat)
    (hrow : row < (MapRST src 1 0 1 1 tx ty).map1.rows)
    (hcol : col < (MapRST src 1 0 1 1 tx ty).map1.cols) :
    (MapRST src 1 0 1 1 tx ty).map1.rows = (MapRST src 1 0 1 1 0 0).map1.rows ∧
    (MapRST src 1 0 1 1 tx ty).map1.cols = (MapRST src 1 0 1 1 0 0).map1.cols ∧
    (MapRST src 1 0 1 1 tx ty).map2.rows = (MapRST src 1 0 1 1 0 0).map2.rows ∧
    (MapRST src 1 0 1 1 tx ty).map2.cols = (MapRST src 1 0 1 1 0 0).map2.cols ∧
    (MapRST src 1 0 1 1 tx ty).map1.data row col = (col : ℚ) - tx ∧
    (MapRST src 1 0 1 1 tx ty).map2.data row col = (row : ℚ) + ty := by
  obtain ⟨-, i1, i2, i3, i4⟩ := MapRST_identity_shape src
  obtain ⟨-, p1, p2, p3, p4, hcell⟩ := MapRST_cells src 1 0 1 1 tx ty
  obtain ⟨sr, sc⟩ := rst_translation_shape src.cols src.rows tx ty
  rw [sr] at p1 p3 hcell
  rw [sc] at p2 p4 hcell
  rw [p1] at hrow
  rw [p2] at hcol
  obtain ⟨h1, h2⟩ := hcell row col hrow hcol
  refine ⟨by rw [p1, i1], by rw [p2, i2], by rw [p3, i3], by rw [p4, i4], ?_, ?_⟩
  · rw [h1, rstAffine_entries]
    simp only [rstSrcPoint, Matrix3d.mulVec, tdiv_two_natCast]
    have e1 : 2 * (src.cols / 2) / 2 = src.cols / 2 := by omega
    have e2 : 2 * (src.rows / 2) / 2 = src.rows / 2 := by omega
    rw [e1, e2]
    generalize src.cols / 2 = w
    generalize src.rows / 2 = h
    push_cast
    ring
  · rw [h2, rstAffine_entries]
    simp only [rstSrcPoint, Matrix3d.mulVec, tdiv_two_natCast]
    have e1 : 2 * (src.cols / 2) / 2 = src.cols / 2 := by omega
    have e2 : 2 * (src.rows / 2) / 2 = src.rows / 2 := by omega
    rw [e1, e2]
    generalize src.cols / 2 = w
    generalize src.rows / 2 = h
    push_cast
    ring

/-- Witness of C13 (amended): the 4x4 ramp image translated by `(1, -2)`, cell `(1, 2)`. -/
theorem C13_translation_direction_witness :
    (MapRST (rampImage 4 4) 1 0 1 1 1 (-2)).map1.rows =
      (MapRST (rampImage 4 4) 1 0 1 1 0 0).map1.rows ∧
    (MapRST (rampImage 4 4) 1 0 1 1 1 (-2)).map1.cols =
      (MapRST (rampImage 4 4) 1 0 1 1 0 0).map1.cols ∧
    (MapRST (rampImage 4 4) 1 0 1 1 1 (-2)).map2.rows =
      (MapRST (rampImage 4 4) 1 0 1 1 0 0).map2.rows ∧
    (MapRST (rampImage 4 4) 1 0 1 1 1 (-2)).map2.cols =
      (MapRST (rampImage 4 4) 1 0 1 1 0 0).map2.cols ∧
    (MapRST (rampImage 4 4) 1 0 1 1 1 (-2)).map1.data 1 2 = ((2 : Nat) : ℚ) - 1 ∧
    (MapRST (rampImage 4 4) 1 0 1 1 1 (-2)).map2.data 1 2 = ((1 : Nat) : ℚ) + (-2) :=
  C13_translation_direction (rampImage 4 4) 1 (-2) 1 2
    (by rw [(MapRST_shape (rampImage 4 4) 1 0 1 1 1 (-2)).1,
          (rst_translation_shape (rampImage 4 4).cols (rampImage 4 4).rows 1 (-2)).1]; decide)
    (by rw [(MapRST_shape (rampImage 4 4) 1 0 1 1 1 (-2)).2.1,
          (rst_translation_shape (rampImage 4 4).cols (rampImage 4 4).rows 1 (-2)).2]; decide)

/-- C14.  Quarter turn (`cos(angle) = 0`, `sin(angle) = 1`, the exact values at `pi/2`), unit
scales, zero translation: the maps have `2*floor(W/2)` rows and `2*floor(H/2)` columns, every
cell holds `map1(row, col) = floor(W/2) - (row - rows/2)` and
`map2(row, col) = floor(H/2) + (col - cols/2)` with integer halving of `rows` and `cols`, and
the cell directly above the output centre, `(rows/2 - 1, cols/2)`, samples the source at
column `floor(W/2) + 1`, row `floor(H/2)`: one column to the right of the source centre. -/
theorem C14_rotation_quarter_turn (src : Mat Vec3b) (row col : Nat)
    (hrow : row < (MapRST src 0 1 1 1 0 0).map1.rows)
    (hcol : col < (MapRST src 0 1 1 1 0 0).map1.cols) :
    (MapRST src 0 1 1 1 0 0).map1.rows = 2 * (src.cols / 2) ∧
    (MapRST src 0 1 1 1 0 0).map1.cols = 2 * (src.rows / 2) ∧
    (MapRST src 0 1 1 1 0 0).map2.rows = 2 * (src.cols / 2) ∧
    (MapRST src 0 1 1 1 0 0).map2.cols = 2 * (src.rows / 2) ∧
    (MapRST src 0 1 1 1 0 0).map1.data row col =
      ((src.cols / 2 : Nat) : ℚ) -
        ((row : ℚ) - (((MapRST src 0 1 1 1 0 0).map1.rows / 2 : Nat) : ℚ)) ∧
    (MapRST src 0 1 1 1 0 0).map2.data row col =
      ((src.rows / 2 : Nat) : ℚ) +
        ((col : ℚ) - (((MapRST src 0 1 1 1 0 0).map1.cols / 2 : Nat) : ℚ)) ∧
    (MapRST src 0 1 1 1 0 0).map1.rows / 2 - 1 < (MapRST src 0 1 1 1 0 0).map1.rows ∧
    (MapRST src 0 1 1 1 0 0).map1.cols / 2 < (MapRST src 0 1 1 1 0 0).map1.cols ∧
    (MapRST src 0 1 1 1 0 0).map1.data ((MapRST src 0 1 1 1 0 0).map1.rows / 2 - 1)
        ((MapRST src 0 1 1 1 0 0).map1.cols / 2) = ((src.cols / 2 : Nat) : ℚ) + 1 ∧
    (MapRST src 0 1 1 1 0 0).map2.data ((MapRST src 0 1 1 1 0 0).map1.rows / 2 - 1)
        ((MapRST src 0 1 1 1 0 0).map1.cols / 2) = ((src.rows / 2 : Nat) : ℚ) := by
  obtain ⟨-, p1, p2, p3, p4, hcell⟩ := MapRST_cells src 0 1 1 1 0 0
  obtain ⟨sr, sc⟩ := rst_quarter_shape src.cols src.rows
  rw [sr] at p1 p3 hcell
  rw [sc] at p2 p4 hcell
  rw [p1] at hrow
  rw [p2] at hcol
  have e1 : 2 * (src.cols / 2) / 2 = src.cols / 2 := by omega
  have e2 : 2 * (src.rows / 2) / 2 = src.rows / 2 := by omega
  have cellval : ∀ r c, r < 2 * (src.cols / 2) → c < 2 * (src.rows / 2) →
      (MapRST src 0 1 1 1 0 0).map1.data r c =
        ((src.cols / 2 : Nat) : ℚ) - ((r : ℚ) - ((src.cols / 2 : Nat) : ℚ)) ∧
      (MapRST src 0 1 1 1 0 0).map2.data r c =
        ((src.rows / 2 : Nat) : ℚ) + ((c : ℚ) - ((src.rows / 2 : Nat) : ℚ)) := by
    intro r c hr hc
    obtain ⟨h1, h2⟩ := hcell r c hr hc
    rw [h1, h2, rstAffine_entries]
    simp only [rstSrcPoint, Matrix3d.mulVec, tdiv_two_natCast]
    rw [e1, e2]
    generalize src.cols / 2 = w
    generalize src.rows / 2 = h
    push_cast
    constructor <;> ring
  have hw : 1 ≤ src.cols / 2 := by omega
  have hh : 1 ≤ src.rows / 2 := by omega
  rw [p1, p2, p3, p4, e1, e2]
  obtain ⟨c1, c2⟩ := cellval row col hrow hcol
  obtain ⟨d1, d2⟩ := cellval (src.cols / 2 - 1) (src.rows / 2) (by omega) (by omega)
  refine ⟨rfl, rfl, rfl, rfl, c1, c2, by omega, by omega, ?_, ?_⟩
  · rw [d1]
    have : ((src.cols / 2 - 1 : Nat) : ℚ) = ((src.cols / 2 : Nat) : ℚ) - 1 := by
      rw [Nat.cast_sub hw]; simp
    rw [this]; ring
  · rw [d2]; ring

/-- Witness of C14: the 4x6 ramp image (4 rows, 6 columns), cell `(1, 2)`. -/
theorem C14_rotation_quarter_turn_witness :
    (MapRST (rampImage 4 6) 0 1 1 1 0 0).map1.rows = 2 * ((rampImage 4 6).cols / 2) ∧
    (MapRST (rampImage 4 6) 0 1 1 1 0 0).map1.cols = 2 * ((rampImage 4 6).rows / 2) ∧
    (MapRST (rampImage 4 6) 0 1 1 1 0 0).map2.rows = 2 * ((rampImage 4 6).cols / 2) ∧
    (MapRST (rampImage 4 6) 0 1 1 1 0 0).map2.cols = 2 * ((rampImage 4 6).rows / 2) ∧
    (MapRST (rampImage 4 6) 0 1 1 1 0 0).map1.data 1 2 =
      (((rampImage 4 6).cols / 2 : Nat) : ℚ) -
        (((1 : Nat) : ℚ) - (((MapRST (rampImage 4 6) 0 1 1 1 0 0).map1.rows / 2 : Nat) : ℚ)) ∧
    (MapRST (rampImage 4 6) 0 1 1 1 0 0).map2.data 1 2 =
      (((rampImage 4 6).rows / 2 : Nat) : ℚ) +
        (((2 : Nat) : ℚ) - (((MapRST (rampImage 4 6) 0 1 1 1 0 0).map1.cols / 2 : Nat) : ℚ)) ∧
    (MapRST (rampImage 4 6) 0 1 1 1 0 0).map1.rows / 2 - 1 <
      (MapRST (rampImage 4 6) 0 1 1 1 0 0).map1.rows ∧
    (MapRST (rampImage 4 6) 0 1 1 1 0 0).map1.cols / 2 <
      (MapRST (rampImage 4 6) 0 1 1 1 0 0).map1.cols ∧
    (MapRST (rampImage 4 6) 0 1 1 1 0 0).map1.data
        ((MapRST (rampImage 4 6) 0 1 1 1 0 0).map1.rows / 2 - 1)
        ((MapRST (rampImage 4 6) 0 1 1 1 0 0).map1.cols / 2) =
      (((rampImage 4 6).cols / 2 : Nat) : ℚ) + 1 ∧
    (MapRST (rampImage 4 6) 0 1 1 1 0 0).map2.data
        ((MapRST (rampImage 4 6) 0 1 1 1 0 0).map1.rows / 2 - 1)
        ((MapRST (rampImage 4 6) 0 1 1 1 0 0).map1.cols / 2) =
      (((rampImage 4 6).rows / 2 : Nat) : ℚ) :=
  C14_rotation_quarter_turn (rampImage 4 6) 1 2
    (by rw [(MapRST_shape (rampImage 4 6) 0 1 1 1 0 0).1, (rst_quarter_shape (rampImage 4 6).cols (rampImage 4 6).rows).1]; decide)
    (by rw [(MapRST_shape (rampImage 4 6) 0 1 1 1 0 0).2.1, (rst_quarter_shape (rampImage 4 6).cols (rampImage 4 6).rows).2]; decide)

/-! ## MapRST: the exact instance of the rounded model -/

theorem Matrix3d.mulRounded_exact (a b : Matrix3d) : a.mulRounded id b = a.mul b :=
  rfl

theorem Matrix3d.mulVecRounded_exact (a : Matrix3d) (v : Vector3d) :
    a.mulVecRounded id v = a.mulVec v :=
  rfl

/-- The expansion of the determinant along the first column, which the library uses, is the
determinant. -/
theorem Matrix3d.determinant_first_column (a : Matrix3d) :
    (a.m11 * a.m22 - a.m12 * a.m21) * a.m00 + (a.m21 * a.m02 - a.m22 * a.m01) * a.m10 +
        (a.m01 * a.m12 - a.m02 * a.m11) * a.m20 = a.determinant := by
  simp only [Matrix3d.determinant]
  ring

/-- Without rounding and with a non-zero determinant the inverse of the library is the
transposed cofactor matrix divided by the determinant. -/
theorem Matrix3d.inverseRounded_exact (a : Matrix3d) (hdet : a.determinant ≠ 0) :
    a.inverseRounded id = some a.inverse := by
  have hd := Matrix3d.determinant_first_column a
  simp only [Matrix3d.inverseRounded, divRounded, id, hd, if_neg hdet, Option.bind_eq_bind,
    Option.some_bind, Option.pure_def, Matrix3d.inverse, Option.some.injEq, Matrix3d.mk.injEq]
  refine ⟨?_, ?_, ?_, ?_, ?_, ?_, ?_, ?_, ?_⟩ <;> first | trivial | ring

theorem rstAffineRounded_exact (ca sa sx sy tx ty : ℚ) (hsx : sx ≠ 0) (hsy : sy ≠ 0) :
    rstAffineRounded id ca sa sx sy tx ty = some (rstAffine ca sa sx sy tx ty) := by
  simp only [rstAffineRounded, divRounded, if_neg hsx, if_neg hsy, Option.bind_eq_bind,
    Option.some_bind, Option.pure_def, id]
  rfl

/-- A zero scale stops the rounded model at the first division. -/
theorem rstAffineRounded_zero_scale (rnd : ℚ → ℚ) (ca sa sx sy tx ty : ℚ)
    (h : sx = 0 ∨ sy = 0) : rstAffineRounded rnd ca sa sx sy tx ty = none := by
  simp only [rstAffineRounded, divRounded]
  rcases h with h | h
  · rw [if_pos h]; rfl
  · rw [if_pos h]
    by_cases hx : sx = 0
    · rw [if_pos hx]; rfl
    · rw [if_neg hx]; rfl

/-- With the identity for both roundings, non-zero scales and `cos^2 + sin^2 ≠ 0`,
`MapRSTRounded` returns what `MapRST` describes: the exact model is the rounded one with the
rounding taken away. -/
theorem MapRSTRounded_exact (src : Mat Vec3b) (ca sa sx sy tx ty : ℚ) (hsx : sx ≠ 0)
    (hsy : sy ≠ 0) (hcs : ca * ca + sa * sa ≠ 0) :
    MapRSTRounded id id src ca sa sx sy tx ty = some (MapRST src ca sa sx sy tx ty) := by
  have hdet : (rstAffine ca sa sx sy tx ty).determinant ≠ 0 := by
    rw [rstAffine_determinant]
    exact div_ne_zero hcs (mul_ne_zero hsx hsy)
  simp only [MapRSTRounded, rstAffineRounded_exact ca sa sx sy tx ty hsx hsy,
    Matrix3d.inverseRounded_exact _ hdet, Option.bind_eq_bind, Option.some_bind,
    Option.pure_def]
  rfl

/-- Whatever the roundings, a result of `MapRSTRounded` carries the flag `true`. -/
theorem MapRSTRounded_ok (toFloat toDouble : ℚ → ℚ) (src : Mat Vec3b)
    (ca sa sx sy tx ty : ℚ) (r : MapResult)
    (h : MapRSTRounded toFloat toDouble src ca sa sx sy tx ty = some r) : r.ok = true := by
  simp only [MapRSTRounded, Option.bind_eq_bind, Option.pure_def] at h
  cases ha : rstAffineRounded toDouble ca sa sx sy tx ty with
  | none => rw [ha] at h; simp at h
  | some A =>
    rw [ha] at h
    simp only [Option.some_bind] at h
    cases hi : A.inverseRounded toDouble with
    | none => rw [hi] at h; simp at h
    | some inv =>
      rw [hi] at h
      simp only [Option.some_bind, Option.some.injEq] at h
      rw [← h]

/-- A zero scale: `MapRSTRounded` has no result. -/
theorem MapRSTRounded_zero_scale (toFloat toDouble : ℚ → ℚ) (src : Mat Vec3b)
    (ca sa sx sy tx ty : ℚ) (h : sx = 0 ∨ sy = 0) :
    MapRSTRounded toFloat toDouble src ca sa sx sy tx ty = none := by
  simp only [MapRSTRounded, rstAffineRounded_zero_scale toDouble ca sa sx sy tx ty h,
    Option.bind_eq_bind, Option.none_bind]

/-! ## The inverse of a 3x3 matrix -/

/-- For a non-zero determinant, `inverse` undoes the matrix: `a⁻¹ * (a * v) = v`. -/
theorem Matrix3d.inverse_mulVec (a : Matrix3d) (hdet : a.determinant ≠ 0) (v : Vector3d) :
    a.inverse.mulVec (a.mulVec v) = v := by
  have hd : a.m00 * (a.m11 * a.m22 - a.m12 * a.m21) - a.m01 * (a.m10 * a.m22 - a.m12 * a.m20) +
      a.m02 * (a.m10 * a.m21 - a.m11 * a.m20) ≠ 0 := hdet
  cases v with
  | mk v0 v1 v2 =>
    simp only [Matrix3d.inverse, Matrix3d.mulVec, Matrix3d.determinant, Vector3d.mk.injEq]
    refine ⟨?_, ?_, ?_⟩ <;>
    · field_simp
      ring

/-- For a non-zero determinant, `a * (a⁻¹ * v) = v`. -/
theorem Matrix3d.mulVec_inverse (a : Matrix3d) (hdet : a.determinant ≠ 0) (v : Vector3d) :
    a.mulVec (a.inverse.mulVec v) = v := by
  have hd : a.m00 * (a.m11 * a.m22 - a.m12 * a.m21) - a.m01 * (a.m10 * a.m22 - a.m12 * a.m20) +
      a.m02 * (a.m10 * a.m21 - a.m11 * a.m20) ≠ 0 := hdet
  cases v with
  | mk v0 v1 v2 =>
    simp only [Matrix3d.inverse, Matrix3d.mulVec, Matrix3d.determinant, Vector3d.mk.injEq]
    refine ⟨?_, ?_, ?_⟩ <;>
    · field_simp
      ring

/-! ## MapRST: evaluated cases of the rounded model -/

theorem roundDouble_six_point_three : roundDouble (63 / 10) = translationSixPointThree := by
  decide!

theorem roundDouble_one_point_two : roundDouble (6 / 5) = translationOnePointTwo := by
  decide!

/-- The rounded model on the 4x4 ramp image without translation: four columns. -/
theorem MapRSTRounded_ramp_identity :
    (MapRSTRounded roundFloat roundDouble (rampImage 4 4) 1 0 1 1 0 0).map
      (fun r => (r.map1.rows, r.map1.cols)) = some (4, 4) := by
  decide!

/-- The rounded model on the 4x4 ramp image translated by the `double` nearest to `6.3`: five
columns, and the first cell of `map1`. -/
theorem MapRSTRounded_ramp_translated :
    (MapRSTRounded roundFloat roundDouble (rampImage 4 4) 1 0 1 1 translationSixPointThree 0).map
      (fun r => (r.map1.rows, r.map1.cols, r.map1.data 0 0)) =
        some (4, 5, -6606029 / 1048576) := by
  decide!

/-- The rounded model on the 4x4 ramp image translated by the `double` nearest to `1.2`: four
columns. -/
theorem MapRSTRounded_ramp_translated_small :
    (MapRSTRounded roundFloat roundDouble (rampImage 4 4) 1 0 1 1 translationOnePointTwo 0).map
      (fun r => r.map1.cols) = some 4 := by
  decide!

/-- The affine matrix and its inverse as the rounded model computes them for the translation by
the `double` nearest to `1.2`. -/
theorem rstAffineRounded_translated_small :
    rstAffineRounded roundDouble 1 0 1 1 translationOnePointTwo 0 =
        some ⟨1, 0, -translationOnePointTwo, 0, 1, 0, 0, 0, 1⟩ ∧
      Matrix3d.inverseRounded roundDouble ⟨1, 0, -translationOnePointTwo, 0, 1, 0, 0, 0, 1⟩ =
        some ⟨1, 0, translationOnePointTwo, 0, 1, 0, 0, 0, 1⟩ := by
  decide!

/-! ## Claims about MapRST: extent, translation, zero scale -/

/-- C12 (counterexample).  Two runs of `MapRST` with the `double` arithmetic of the code on the
4x4 ramp image, angle `0` and unit scales.

With the horizontal translation `tx` the `double` nearest to `6.3` the map has 5 columns.  The
four corners `(±2, ±2)` mapped through the inverse of the affine matrix are the points
`(±2 + tx, ±2)` (the affine matrix maps these onto the corners), and `ceil(max x - min x)` over
them is 4.

With `tx` the `double` nearest to `1.2` the map has 4 columns, while `ceil(max x - min x)`
over the four transformed corners as the code itself computes them is 5: the difference of two
corners is rounded to 4 before the ceiling is taken. -/
theorem C12_counterexample :
    (∃ r, MapRSTRounded roundFloat roundDouble (rampImage 4 4) 1 0 1 1
          translationSixPointThree 0 = some r ∧
        r.map1.cols = 5 ∧
        (rstAffine 1 0 1 1 translationSixPointThree 0).mulVec
          ⟨-2 + translationSixPointThree, 2, 1⟩ = ⟨-2, 2, 1⟩ ∧
        (rstAffine 1 0 1 1 translationSixPointThree 0).mulVec
          ⟨-2 + translationSixPointThree, -2, 1⟩ = ⟨-2, -2, 1⟩ ∧
        (rstAffine 1 0 1 1 translationSixPointThree 0).mulVec
          ⟨2 + translationSixPointThree, 2, 1⟩ = ⟨2, 2, 1⟩ ∧
        (rstAffine 1 0 1 1 translationSixPointThree 0).mulVec
          ⟨2 + translationSixPointThree, -2, 1⟩ = ⟨2, -2, 1⟩ ∧
        specBoundingSpan (-2 + translationSixPointThree) (-2 + translationSixPointThree)
          (2 + translationSixPointThree) (2 + translationSixPointThree) = 4) ∧
    (∃ affine inv r,
        rstAffineRounded roundDouble 1 0 1 1 translationOnePointTwo 0 = some affine ∧
        affine.inverseRounded roundDouble = some inv ∧
        MapRSTRounded roundFloat roundDouble (rampImage 4 4) 1 0 1 1
          translationOnePointTwo 0 = some r ∧
        r.map1.cols = 4 ∧
        specBoundingSpan
          (rstCornersRounded roundDouble (rampImage 4 4).cols (rampImage 4 4).rows inv).1.v0
          (rstCornersRounded roundDouble (rampImage 4 4).cols (rampImage 4 4).rows inv).2.1.v0
          (rstCornersRounded roundDouble (rampImage 4 4).cols (rampImage 4 4).rows inv).2.2.1.v0
          (rstCornersRounded roundDouble (rampImage 4 4).cols (rampImage 4 4).rows inv).2.2.2.v0 =
            5) := by
  constructor
  · obtain ⟨r, hr, hv⟩ := Option.map_eq_some'.mp MapRSTRounded_ramp_translated
    have hc : r.map1.cols = 5 := congrArg (fun t => t.2.1) hv
    exact ⟨r, hr, hc, by decide!, by decide!, by decide!, by decide!, by decide!⟩
  · obtain ⟨r, hr, hv⟩ := Option.map_eq_some'.mp MapRSTRounded_ramp_translated_small
    exact ⟨_, _, r, rstAffineRounded_translated_small.1, rstAffineRounded_translated_small.2,
      hr, hv, by decide!⟩

/-- C12 (amended).  Over exact arithmetic, for non-zero scales and `cos^2 + sin^2 ≠ 0` (every
angle): each of the four corners `(±floor(W/2), ±floor(H/2), 1)` of the source is the image
under the affine matrix `R*S*T` of exactly one point, the corner mapped through the inverse of
the matrix; the number of map columns is `ceil(max x - min x)` and the number of map rows is
`ceil(max y - min y)` over these four points, and both maps have that shape. -/
theorem C12_extent_bounding_box (src : Mat Vec3b) (ca sa sx sy tx ty : ℚ)
    (hsx : sx ≠ 0) (hsy : sy ≠ 0) (hcs : ca * ca + sa * sa ≠ 0) :
    ∃ q1 q2 q3 q4 : Vector3d,
      (∀ p : Vector3d, (rstAffine ca sa sx sy tx ty).mulVec p =
          ⟨-((src.cols / 2 : Nat) : ℚ), ((src.rows / 2 : Nat) : ℚ), 1⟩ ↔ p = q1) ∧
      (∀ p : Vector3d, (rstAffine ca sa sx sy tx ty).mulVec p =
          ⟨-((src.cols / 2 : Nat) : ℚ), -((src.rows / 2 : Nat) : ℚ), 1⟩ ↔ p = q2) ∧
      (∀ p : Vector3d, (rstAffine ca sa sx sy tx ty).mulVec p =
          ⟨((src.cols / 2 : Nat) : ℚ), ((src.rows / 2 : Nat) : ℚ), 1⟩ ↔ p = q3) ∧
      (∀ p : Vector3d, (rstAffine ca sa sx sy tx ty).mulVec p =
          ⟨((src.cols / 2 : Nat) : ℚ), -((src.rows / 2 : Nat) : ℚ), 1⟩ ↔ p = q4) ∧
      (MapRST src ca sa sx sy tx ty).map1.cols = specBoundingSpan q1.v0 q2.v0 q3.v0 q4.v0 ∧
      (MapRST src ca sa sx sy tx ty).map1.rows = specBoundingSpan q1.v1 q2.v1 q3.v1 q4.v1 ∧
      (MapRST src ca sa sx sy tx ty).map2.cols = (MapRST src ca sa sx sy tx ty).map1.cols ∧
      (MapRST src ca sa sx sy tx ty).map2.rows = (MapRST src ca sa sx sy tx ty).map1.rows := by
  have hdet : (rstAffine ca sa sx sy tx ty).determinant ≠ 0 := by
    rw [rstAffine_determinant]
    exact div_ne_zero hcs (mul_ne_zero hsx hsy)
  have key : ∀ (signX signY : Int) (c p : Vector3d),
      c = ⟨(signX : ℚ) * ((src.cols / 2 : Nat) : ℚ), (signY : ℚ) * ((src.rows / 2 : Nat) : ℚ), 1⟩ →
      ((rstAffine ca sa sx sy tx ty).mulVec p = c ↔
        p = specCorner src.cols src.rows (rstAffine ca sa sx sy tx ty) signX signY) := by
    intro signX signY c p hc
    constructor
    · intro h
      rw [specCorner, ← hc, ← h, Matrix3d.inverse_mulVec _ hdet]
    · intro h
      rw [h, specCorner, ← hc, Matrix3d.mulVec_inverse _ hdet]
  obtain ⟨p1, p2, p3, p4⟩ := MapRST_shape src ca sa sx sy tx ty
  refine ⟨specCorner src.cols src.rows (rstAffine ca sa sx sy tx ty) (-1) 1,
    specCorner src.cols src.rows (rstAffine ca sa sx sy tx ty) (-1) (-1),
    specCorner src.cols src.rows (rstAffine ca sa sx sy tx ty) 1 1,
    specCorner src.cols src.rows (rstAffine ca sa sx sy tx ty) 1 (-1),
    fun p => key (-1) 1 _ p (by simp), fun p => key (-1) (-1) _ p (by simp),
    fun p => key 1 1 _ p (by simp), fun p => key 1 (-1) _ p (by simp), ?_, ?_, ?_, ?_⟩
  · rw [specBoundingSpan_cols, p2]
  · rw [specBoundingSpan_rows, p1]
  · rw [p4, p2]
  · rw [p3, p1]

/-- Witness of C12 (amended): the 4x4 ramp image, `cos = 3/5`, `sin = 4/5`, scales `(2, 3)`,
translation `(1, -2)`. -/
theorem C12_extent_bounding_box_witness :
    ∃ q1 q2 q3 q4 : Vector3d,
      (∀ p : Vector3d, (rstAffine (3 / 5) (4 / 5) 2 3 1 (-2)).mulVec p =
          ⟨-(((rampImage 4 4).cols / 2 : Nat) : ℚ), (((rampImage 4 4).rows / 2 : Nat) : ℚ), 1⟩ ↔
            p = q1) ∧
      (∀ p : Vector3d, (rstAffine (3 / 5) (4 / 5) 2 3 1 (-2)).mulVec p =
          ⟨-(((rampImage 4 4).cols / 2 : Nat) : ℚ), -(((rampImage 4 4).rows / 2 : Nat) : ℚ), 1⟩ ↔
            p = q2) ∧
      (∀ p : Vector3d, (rstAffine (3 / 5) (4 / 5) 2 3 1 (-2)).mulVec p =
          ⟨(((rampImage 4 4).cols / 2 : Nat) : ℚ), (((rampImage 4 4).rows / 2 : Nat) : ℚ), 1⟩ ↔
            p = q3) ∧
      (∀ p : Vector3d, (rstAffine (3 / 5) (4 / 5) 2 3 1 (-2)).mulVec p =
          ⟨(((rampImage 4 4).cols / 2 : Nat) : ℚ), -(((rampImage 4 4).rows / 2 : Nat) : ℚ), 1⟩ ↔
            p = q4) ∧
      (MapRST (rampImage 4 4) (3 / 5) (4 / 5) 2 3 1 (-2)).map1.cols =
        specBoundingSpan q1.v0 q2.v0 q3.v0 q4.v0 ∧
      (MapRST (rampImage 4 4) (3 / 5) (4 / 5) 2 3 1 (-2)).map1.rows =
        specBoundingSpan q1.v1 q2.v1 q3.v1 q4.v1 ∧
      (MapRST (rampImage 4 4) (3 / 5) (4 / 5) 2 3 1 (-2)).map2.cols =
        (MapRST (rampImage 4 4) (3 / 5) (4 / 5) 2 3 1 (-2)).map1.cols ∧
      (MapRST (rampImage 4 4) (3 / 5) (4 / 5) 2 3 1 (-2)).map2.rows =
        (MapRST (rampImage 4 4) (3 / 5) (4 / 5) 2 3 1 (-2)).map1.rows :=
  C12_extent_bounding_box (rampImage 4 4) (3 / 5) (4 / 5) 2 3 1 (-2) (by norm_num)
    (by norm_num) (by norm_num)

/-- C13 (counterexample).  `MapRST` with the `double` arithmetic of the code on the 4x4 ramp
image, angle `0`, unit scales.  Without translation the map has 4 columns.  With the horizontal
translation `tx` the `double` nearest to `6.3` the map has 5 columns, not the extent of the
identity case: the two transformed corners are `4 + 2^-50` apart after rounding.  The first
cell of `map1` holds a `float`, which is not `0 - tx`. -/
theorem C13_counterexample :
    ∃ r0 r, MapRSTRounded roundFloat roundDouble (rampImage 4 4) 1 0 1 1 0 0 = some r0 ∧
      MapRSTRounded roundFloat roundDouble (rampImage 4 4) 1 0 1 1
        translationSixPointThree 0 = some r ∧
      roundDouble (63 / 10) = translationSixPointThree ∧
      r0.map1.cols = 4 ∧ r.map1.cols = 5 ∧ r.map1.cols ≠ r0.map1.cols ∧
      r.map1.data 0 0 = -6606029 / 1048576 ∧
      r.map1.data 0 0 ≠ ((0 : Nat) : ℚ) - translationSixPointThree := by
  obtain ⟨r0, hr0, hv0⟩ := Option.map_eq_some'.mp MapRSTRounded_ramp_identity
  obtain ⟨r, hr, hv⟩ := Option.map_eq_some'.mp MapRSTRounded_ramp_translated
  have c0 : r0.map1.cols = 4 := congrArg (fun t => t.2) hv0
  have c1 : r.map1.cols = 5 := congrArg (fun t => t.2.1) hv
  have d1 : r.map1.data 0 0 = -6606029 / 1048576 := congrArg (fun t => t.2.2) hv
  refine ⟨r0, r, hr0, hr, roundDouble_six_point_three, c0, c1, ?_, d1, ?_⟩
  · rw [c0, c1]; decide
  · rw [d1]; decide!

/-- C15 (counterexample).  Called with `scale_x = 0` on the 4x4 ramp image (angle `0`,
`scale_y = 1`, no translation), `MapRST` does not return: the division `1 / scale_x` is a
division by zero, with the floating-point arithmetic of the code as without rounding.  In
particular it does not return `false`. -/
theorem C15_counterexample :
    MapRSTRounded roundFloat roundDouble (rampImage 4 4) 1 0 0 1 0 0 = none ∧
    MapRSTRounded id id (rampImage 4 4) 1 0 0 1 0 0 = none ∧
    ¬ ∃ r, MapRSTRounded roundFloat roundDouble (rampImage 4 4) 1 0 0 1 0 0 = some r ∧
      r.ok = false := by
  have h1 := MapRSTRounded_zero_scale roundFloat roundDouble (rampImage 4 4) 1 0 0 1 0 0
    (Or.inl rfl)
  have h2 := MapRSTRounded_zero_scale id id (rampImage 4 4) 1 0 0 1 0 0 (Or.inl rfl)
  refine ⟨h1, h2, ?_⟩
  rintro ⟨r, hr, -⟩
  rw [h1] at hr
  exact Option.noConfusion hr

/-- C15 (amended).  `MapRST` never returns `false`: whatever the rounding of the arithmetic,
every result it returns carries the flag `true`.  With `scale_x = 0` or `scale_y = 0` it does
not return a result at all.  With non-zero scales and `cos^2 + sin^2 ≠ 0` it returns, over exact
arithmetic, the maps of `MapRST` with the flag `true`. -/
theorem C15_MapRST_never_fails (toFloat toDouble : ℚ → ℚ) (src : Mat Vec3b)
    (ca sa sx sy tx ty : ℚ) :
    (∀ r, MapRSTRounded toFloat toDouble src ca sa sx sy tx ty = some r → r.ok = true) ∧
    ((sx = 0 ∨ sy = 0) → MapRSTRounded toFloat toDouble src ca sa sx sy tx ty = none) ∧
    (sx ≠ 0 → sy ≠ 0 → ca * ca + sa * sa ≠ 0 →
      MapRSTRounded id id src ca sa sx sy tx ty = some (MapRST src ca sa sx sy tx ty) ∧
        (MapRST src ca sa sx sy tx ty).ok = true) :=
  ⟨fun r h => MapRSTRounded_ok toFloat toDouble src ca sa sx sy tx ty r h,
    fun h => MapRSTRounded_zero_scale toFloat toDouble src ca sa sx sy tx ty h,
    fun hsx hsy hcs => ⟨MapRSTRounded_exact src ca sa sx sy tx ty hsx hsy hcs,
      (MapRST_cells src ca sa sx sy tx ty).1⟩⟩

/-! ## Sums and row-wise filled matrices -/

theorem sumRange_eq_sum (n : Nat) (f : Nat → ℚ) :
    sumRange n f = ∑ k in Finset.range n, f k := by
  induction n with
  | zero => simp [sumRange]
  | succ n ih =>
    have e : sumRange (n + 1) f = sumRange n f + f n := by
      simp [sumRange, List.range_succ]
    rw [e, ih, Finset.sum_range_succ]

theorem sumRange_two (f : Nat → ℚ) : sumRange 2 f = f 0 + f 1 := by
  simp [sumRange, List.range_succ]

theorem sumRange_three (f : Nat → ℚ) : sumRange 3 f = f 0 + f 1 + f 2 := by
  simp [sumRange, List.range_succ, add_assoc]

/-- A loop over the rows of a matrix whose body rewrites the first `w` entries of row `r`
with `g r` and leaves everything else alone fills the first `n` rows with `g`. -/
theorem loopRange_rowfill (g : Nat → Nat → ℚ) (w : Nat) (body : Nat → Mat ℚ → Mat ℚ)
    (hbody : ∀ r m, (body r m).rows = m.rows ∧ (body r m).cols = m.cols ∧
      ∀ i k, (body r m).data i k = if i = r ∧ k < w then g r k else m.data i k)
    (m : Mat ℚ) :
    ∀ n : Nat, (loopRange n body m).rows = m.rows ∧ (loopRange n body m).cols = m.cols ∧
      ∀ i k, (loopRange n body m).data i k = if i < n ∧ k < w then g i k else m.data i k := by
  intro n
  induction n with
  | zero =>
    rw [loopRange_zero]
    simp
  | succ n ih =>
    obtain ⟨ir, ic, id⟩ := ih
    obtain ⟨br, bc, bd⟩ := hbody n (loopRange n body m)
    rw [loopRange_succ]
    refine ⟨by rw [br, ir], by rw [bc, ic], ?_⟩
    intro i k
    rw [bd, id]
    by_cases hk : k < w
    · by_cases h1 : i = n
      · subst h1; simp [hk]
      · by_cases h2 : i < n
        · have h3 : i < n + 1 := Nat.lt_succ_of_lt h2
          simp [h1, h2, h3, hk]
        · have h3 : ¬ i < n + 1 := by omega
          simp [h1, h2, h3, hk]
    · simp [hk]

/-! ## MapGCP with order 1 -/

/-- The monomials of order 1 in the order of the columns written by the code:
`1`, `x`, `y`. -/
theorem gcpDesignRow_one (P_x P_y : ℚ) (row_idx : Nat) (X_Mat : Mat ℚ) :
    (gcpDesignRow 1 P_x P_y row_idx X_Mat).rows = X_Mat.rows ∧
    (gcpDesignRow 1 P_x P_y row_idx X_Mat).cols = X_Mat.cols ∧
    ∀ i k, (gcpDesignRow 1 P_x P_y row_idx X_Mat).data i k =
      if i = row_idx ∧ k < 3 then (if k = 0 then 1 else if k = 1 then P_x else P_y)
      else X_Mat.data i k := by
  refine ⟨?_, ?_, ?_⟩
  · simp [gcpDesignRow, loopRange_succ, loopRange_zero, Mat.set]
  · simp [gcpDesignRow, loopRange_succ, loopRange_zero, Mat.set]
  · intro i k
    simp only [gcpDesignRow, loopRange_succ, loopRange_zero, Mat.set]
    by_cases hi : i = row_idx
    · subst hi
      rcases k with _ | _ | _ | k
      · simp
      · simp
      · simp
      · have h3 : ¬ (k + 1 + 1 + 1 < 3) := by omega
        simp [h3]
    · simp [hi]

/-- The design matrix of order 1: one row `(1, x, y)` per map point. -/
theorem gcpDesign_one (map_points : List Point) :
    (gcpDesign 1 map_points).rows = map_points.length ∧
    (gcpDesign 1 map_points).cols = 3 ∧
    ∀ i k, (gcpDesign 1 map_points).data i k =
      if i < map_points.length ∧ k < 3 then
        (if k = 0 then 1 else if k = 1 then ((map_points.getD i ⟨0, 0⟩).x : ℚ)
          else ((map_points.getD i ⟨0, 0⟩).y : ℚ))
      else 0 := by
  have h := loopRange_rowfill
    (fun i k => if k = 0 then 1 else if k = 1 then ((map_points.getD i ⟨0, 0⟩).x : ℚ)
          else ((map_points.getD i ⟨0, 0⟩).y : ℚ)) 3
    (fun row_idx X_Mat => gcpDesignRow 1 ((map_points.getD row_idx ⟨0, 0⟩).x : ℚ)
      ((map_points.getD row_idx ⟨0, 0⟩).y : ℚ) row_idx X_Mat)
    (fun r m => gcpDesignRow_one _ _ r m)
    (Mat.create map_points.length (gcpWidth 1) 0) map_points.length
  exact h

/-- The right-hand sides: one row `(x, y)` per source point. -/
theorem gcpTargets_eq (src_points : List Point) :
    (gcpTargets src_points).rows = src_points.length ∧
    (gcpTargets src_points).cols = 2 ∧
    ∀ i k, (gcpTargets src_points).data i k =
      if i < src_points.length ∧ k < 2 then
        (if k = 0 then ((src_points.getD i ⟨0, 0⟩).x : ℚ)
          else ((src_points.getD i ⟨0, 0⟩).y : ℚ))
      else 0 := by
  have h := loopRange_rowfill
    (fun i k => if k = 0 then ((src_points.getD i ⟨0, 0⟩).x : ℚ)
          else ((src_points.getD i ⟨0, 0⟩).y : ℚ)) 2
    (fun row_idx Y_Mat =>
      (Y_Mat.set row_idx 0 ((src_points.getD row_idx ⟨0, 0⟩).x : ℚ)).set row_idx 1
        ((src_points.getD row_idx ⟨0, 0⟩).y : ℚ))
    (fun r m => by
      refine ⟨rfl, rfl, ?_⟩
      intro i k
      simp only [Mat.set]
      by_cases hi : i = r
      · subst hi
        rcases k with _ | _ | k
        · simp
        · simp
        · have h2 : ¬ (k + 1 + 1 < 2) := by omega
          simp [h2]
      · simp [hi])
    (Mat.create src_points.length 2 0) src_points.length
  exact h

/-- The polynomial of order 1 evaluated by the code at the pixel `(col, row)`. -/
theorem gcpEvaluate_one (a b : Nat → ℚ) (col row : Nat) :
    gcpEvaluate 1 a b col row =
      (a 0 + a 1 * (col : ℚ) + a 2 * (row : ℚ), b 0 + b 1 * (col : ℚ) + b 2 * (row : ℚ)) := by
  simp [gcpEvaluate, loopRange_succ, loopRange_zero]

/-- What `MapGCP` returns, cell by cell. -/
theorem MapGCP_cells (ldltSolve : Mat ℚ → Mat ℚ → Mat ℚ) (src map : Mat Vec3b)
    (src_points map_points : List Point) (order : Nat) :
    (MapGCP ldltSolve src map src_points map_points order).ok = true ∧
    (MapGCP ldltSolve src map src_points map_points order).map1.rows = map.rows ∧
    (MapGCP ldltSolve src map src_points map_points order).map1.cols = map.cols ∧
    (MapGCP ldltSolve src map src_points map_points order).map2.rows = map.rows ∧
    (MapGCP ldltSolve src map src_points map_points order).map2.cols = map.cols ∧
    ∀ r c, r < map.rows → c < map.cols →
      (MapGCP ldltSolve src map src_points map_points order).map1.data r c =
        (gcpEvaluate order
          (fun idx => (ldltSolve ((gcpDesign order map_points).transpose.mul
            (gcpDesign order map_points)) ((gcpDesign order map_points).transpose.mul
            (gcpTargets src_points))).data idx 0)
          (fun idx => (ldltSolve ((gcpDesign order map_points).transpose.mul
            (gcpDesign order map_points)) ((gcpDesign order map_points).transpose.mul
            (gcpTargets src_points))).data idx 1) c r).1 ∧
      (MapGCP ldltSolve src map src_points map_points order).map2.data r c =
        (gcpEvaluate order
          (fun idx => (ldltSolve ((gcpDesign order map_points).transpose.mul
            (gcpDesign order map_points)) ((gcpDesign order map_points).transpose.mul
            (gcpTargets src_points))).data idx 0)
          (fun idx => (ldltSolve ((gcpDesign order map_points).transpose.mul
            (gcpDesign order map_points)) ((gcpDesign order map_points).transpose.mul
            (gcpTargets src_points))).data idx 1) c r).2 := by
  simp only [MapGCP]
  rw [fillMaps_eq (fun row col => (gcpEvaluate order
          (fun idx => (ldltSolve ((gcpDesign order map_points).transpose.mul
            (gcpDesign order map_points)) ((gcpDesign order map_points).transpose.mul
            (gcpTargets src_points))).data idx 0)
          (fun idx => (ldltSolve ((gcpDesign order map_points).transpose.mul
            (gcpDesign order map_points)) ((gcpDesign order map_points).transpose.mul
            (gcpTargets src_points))).data idx 1) col row).1)
        (fun row col => (gcpEvaluate order
          (fun idx => (ldltSolve ((gcpDesign order map_points).transpose.mul
            (gcpDesign order map_points)) ((gcpDesign order map_points).transpose.mul
            (gcpTargets src_points))).data idx 0)
          (fun idx => (ldltSolve ((gcpDesign order map_points).transpose.mul
            (gcpDesign order map_points)) ((gcpDesign order map_points).transpose.mul
            (gcpTargets src_points))).data idx 1) col row).2)]
  refine ⟨trivial, rfl, rfl, rfl, rfl, ?_⟩
  intro r c hr hc
  simp [hr, hc]

/-- A polynomial `v0 + v1*x + v2*y` orthogonal to `1`, `x` and `y` on a set of points that are
not all collinear is zero: the normal equations of an order-1 fit have one solution only. -/
theorem affine_fit_unique (n : Nat) (x y : Nat → ℚ) (v0 v1 v2 : ℚ)
    (h0 : ∑ k in Finset.range n, (v0 + v1 * x k + v2 * y k) = 0)
    (h1 : ∑ k in Finset.range n, x k * (v0 + v1 * x k + v2 * y k) = 0)
    (h2 : ∑ k in Finset.range n, y k * (v0 + v1 * x k + v2 * y k) = 0)
    (p q r : Nat) (hp : p < n) (hq : q < n) (hr : r < n)
    (hcross : (x q - x p) * (y r - y p) - (x r - x p) * (y q - y p) ≠ 0) :
    v0 = 0 ∧ v1 = 0 ∧ v2 = 0 := by
  have hsq : ∑ k in Finset.range n, (v0 + v1 * x k + v2 * y k) ^ 2 = 0 := by
    have e : ∑ k in Finset.range n, (v0 + v1 * x k + v2 * y k) ^ 2 =
        v0 * ∑ k in Finset.range n, (v0 + v1 * x k + v2 * y k) +
        v1 * ∑ k in Finset.range n, x k * (v0 + v1 * x k + v2 * y k) +
        v2 * ∑ k in Finset.range n, y k * (v0 + v1 * x k + v2 * y k) := by
      rw [Finset.mul_sum, Finset.mul_sum, Finset.mul_sum, ← Finset.sum_add_distrib,
        ← Finset.sum_add_distrib]
      apply Finset.sum_congr rfl
      intro k _
      ring
    rw [e, h0, h1, h2]
    ring
  have hzero : ∀ k, k < n → v0 + v1 * x k + v2 * y k = 0 := by
    intro k hk
    have hall := (Finset.sum_eq_zero_iff_of_nonneg
      (fun i _ => sq_nonneg (v0 + v1 * x i + v2 * y i))).mp hsq k (Finset.mem_range.mpr hk)
    exact pow_eq_zero_iff (by norm_num) |>.mp hall
  have ep := hzero p hp
  have eq := hzero q hq
  have er := hzero r hr
  have k1 : v1 * ((x q - x p) * (y r - y p) - (x r - x p) * (y q - y p)) = 0 := by
    linear_combination (y r - y p) * (eq - ep) - (y q - y p) * (er - ep)
  have k2 : v2 * ((x q - x p) * (y r - y p) - (x r - x p) * (y q - y p)) = 0 := by
    linear_combination (x q - x p) * (er - ep) - (x r - x p) * (eq - ep)
  have z1 : v1 = 0 := by
    rcases mul_eq_zero.mp k1 with h | h
    · exact h
    · exact absurd h hcross
  have z2 : v2 = 0 := by
    rcases mul_eq_zero.mp k2 with h | h
    · exact h
    · exact absurd h hcross
  refine ⟨?_, z1, z2⟩
  rw [z1, z2] at ep
  linarith

/-- Entries of the normal-equation matrix `X^T X` of an order-1 fit. -/
theorem gcpNormal_one (map_points : List Point) (i k : Nat) (hi : i < 3) (hk : k < 3) :
    ((gcpDesign 1 map_points).transpose.mul (gcpDesign 1 map_points)).data i k =
      ∑ l in Finset.range map_points.length,
        (if i = 0 then 1 else if i = 1 then ((map_points.getD l ⟨0, 0⟩).x : ℚ)
          else ((map_points.getD l ⟨0, 0⟩).y : ℚ)) *
        (if k = 0 then 1 else if k = 1 then ((map_points.getD l ⟨0, 0⟩).x : ℚ)
          else ((map_points.getD l ⟨0, 0⟩).y : ℚ)) := by
  obtain ⟨xr, -, xd⟩ := gcpDesign_one map_points
  simp only [Mat.mul, Mat.transpose, xr, sumRange_eq_sum]
  apply Finset.sum_congr rfl
  intro l hl
  have hl' : l < map_points.length := Finset.mem_range.mp hl
  rw [xd, xd]
  simp only [hl', hi, hk, and_self, if_true]

/-- Entries of the right-hand side `X^T Y` of an order-1 fit. -/
theorem gcpRhs_one (src_points map_points : List Point)
    (hlen : src_points.length = map_points.length) (i j : Nat) (hi : i < 3) (hj : j < 2) :
    ((gcpDesign 1 map_points).transpose.mul (gcpTargets src_points)).data i j =
      ∑ l in Finset.range map_points.length,
        (if i = 0 then 1 else if i = 1 then ((map_points.getD l ⟨0, 0⟩).x : ℚ)
          else ((map_points.getD l ⟨0, 0⟩).y : ℚ)) *
        (if j = 0 then ((src_points.getD l ⟨0, 0⟩).x : ℚ)
          else ((src_points.getD l ⟨0, 0⟩).y : ℚ)) := by
  obtain ⟨xr, -, xd⟩ := gcpDesign_one map_points
  obtain ⟨-, -, yd⟩ := gcpTargets_eq src_points
  simp only [Mat.mul, Mat.transpose, xr, sumRange_eq_sum]
  apply Finset.sum_congr rfl
  intro l hl
  have hl' : l < map_points.length := Finset.mem_range.mp hl
  have hl2 : l < src_points.length := by rw [hlen]; exact hl'
  rw [xd, yd]
  simp only [hl', hl2, hi, hj, and_self, if_true]

/-- One normal equation of a three-term fit to data that the terms reproduce exactly, written
for the difference between the solved and the true coefficients. -/
theorem normal_row_diff (n : Nat) (u m0 m1 m2 s : Nat → ℚ) (a0 a1 a2 f0 f1 f2 : ℚ)
    (hs : ∀ l, l < n → s l = f0 * m0 l + f1 * m1 l + f2 * m2 l)
    (h : (∑ l in Finset.range n, u l * m0 l) * a0 + (∑ l in Finset.range n, u l * m1 l) * a1 +
        (∑ l in Finset.range n, u l * m2 l) * a2 = ∑ l in Finset.range n, u l * s l) :
    ∑ l in Finset.range n,
      u l * ((a0 - f0) * m0 l + (a1 - f1) * m1 l + (a2 - f2) * m2 l) = 0 := by
  have e : ∑ l in Finset.range n,
        u l * ((a0 - f0) * m0 l + (a1 - f1) * m1 l + (a2 - f2) * m2 l) =
      (∑ l in Finset.range n, u l * m0 l) * a0 + (∑ l in Finset.range n, u l * m1 l) * a1 +
        (∑ l in Finset.range n, u l * m2 l) * a2 - ∑ l in Finset.range n, u l * s l := by
    rw [Finset.sum_mul, Finset.sum_mul, Finset.sum_mul, ← Finset.sum_add_distrib,
      ← Finset.sum_add_distrib, ← Finset.sum_sub_distrib]
    apply Finset.sum_congr rfl
    intro l hl
    rw [hs l (Finset.mem_range.mp hl)]
    ring
  rw [e, h]
  ring

/-- The coefficients solved by an order-1 fit to control points related by an affine
transform are the coefficients of that transform, when the target points are not all
collinear and the solver returns a solution of the normal equations.  `j = 0` is the x
coordinate, `j = 1` the y coordinate. -/
theorem gcp_affine_coeffs (AB : Mat ℚ) (src_points map_points : List Point)
    (hlen : src_points.length = map_points.length) (j : Nat) (hj : j < 2) (f0 f1 f2 : ℚ)
    (hF : ∀ l, l < map_points.length →
      (if j = 0 then ((src_points.getD l ⟨0, 0⟩).x : ℚ) else ((src_points.getD l ⟨0, 0⟩).y : ℚ)) =
        f0 + f1 * ((map_points.getD l ⟨0, 0⟩).x : ℚ) + f2 * ((map_points.getD l ⟨0, 0⟩).y : ℚ))
    (p q r : Nat) (hp : p < map_points.length) (hq : q < map_points.length)
    (hr : r < map_points.length)
    (hcross :
      (((map_points.getD q ⟨0, 0⟩).x : ℚ) - ((map_points.getD p ⟨0, 0⟩).x : ℚ)) *
          (((map_points.getD r ⟨0, 0⟩).y : ℚ) - ((map_points.getD p ⟨0, 0⟩).y : ℚ)) -
        (((map_points.getD r ⟨0, 0⟩).x : ℚ) - ((map_points.getD p ⟨0, 0⟩).x : ℚ)) *
          (((map_points.getD q ⟨0, 0⟩).y : ℚ) - ((map_points.getD p ⟨0, 0⟩).y : ℚ)) ≠ 0)
    (hsolve : SolvesSystem
      ((gcpDesign 1 map_points).transpose.mul (gcpDesign 1 map_points))
      ((gcpDesign 1 map_points).transpose.mul (gcpTargets src_points)) AB) :
    AB.data 0 j = f0 ∧ AB.data 1 j = f1 ∧ AB.data 2 j = f2 := by
  obtain ⟨-, xc, -⟩ := gcpDesign_one map_points
  obtain ⟨-, yc, -⟩ := gcpTargets_eq src_points
  have hrow : ∀ i, i < 3 →
      ∑ l in Finset.range map_points.length,
        (if i = 0 then 1 else if i = 1 then ((map_points.getD l ⟨0, 0⟩).x : ℚ)
          else ((map_points.getD l ⟨0, 0⟩).y : ℚ)) *
        ((AB.data 0 j - f0) * 1 + (AB.data 1 j - f1) * ((map_points.getD l ⟨0, 0⟩).x : ℚ) +
          (AB.data 2 j - f2) * ((map_points.getD l ⟨0, 0⟩).y : ℚ)) = 0 := by
    intro i hi
    have h := hsolve i j (by simp only [Mat.mul, Mat.transpose]; rw [xc]; exact hi)
      (by simp only [Mat.mul, Mat.transpose]; rw [yc]; exact hj)
    have hmul : (((gcpDesign 1 map_points).transpose.mul (gcpDesign 1 map_points)).mul AB).data
        i j =
        ((gcpDesign 1 map_points).transpose.mul (gcpDesign 1 map_points)).data i 0 *
          AB.data 0 j +
        ((gcpDesign 1 map_points).transpose.mul (gcpDesign 1 map_points)).data i 1 *
          AB.data 1 j +
        ((gcpDesign 1 map_points).transpose.mul (gcpDesign 1 map_points)).data i 2 *
          AB.data 2 j := by
      have hc : ((gcpDesign 1 map_points).transpose.mul (gcpDesign 1 map_points)).cols = 3 := by
        simp only [Mat.mul]; exact xc
      show sumRange ((gcpDesign 1 map_points).transpose.mul (gcpDesign 1 map_points)).cols _ = _
      rw [hc, sumRange_three]
    rw [hmul, gcpNormal_one map_points i 0 hi (by norm_num),
      gcpNormal_one map_points i 1 hi (by norm_num),
      gcpNormal_one map_points i 2 hi (by norm_num),
      gcpRhs_one src_points map_points hlen i j hi hj] at h
    simp only [if_pos, if_neg, Nat.one_ne_zero, OfNat.ofNat_ne_zero, OfNat.ofNat_ne_one,
      ↓reduceIte] at h
    exact normal_row_diff map_points.length _ (fun _ => 1)
      (fun l => ((map_points.getD l ⟨0, 0⟩).x : ℚ))
      (fun l => ((map_points.getD l ⟨0, 0⟩).y : ℚ)) _ _ _ _ f0 f1 f2
      (fun l hl => by rw [hF l hl]; ring) h
  have h0 := hrow 0 (by norm_num)
  have h1 := hrow 1 (by norm_num)
  have h2 := hrow 2 (by norm_num)
  simp only [if_pos, if_neg, Nat.one_ne_zero, OfNat.ofNat_ne_zero, OfNat.ofNat_ne_one,
    ↓reduceIte, one_mul, mul_one] at h0 h1 h2
  obtain ⟨z0, z1, z2⟩ := affine_fit_unique map_points.length
    (fun l => ((map_points.getD l ⟨0, 0⟩).x : ℚ)) (fun l => ((map_points.getD l ⟨0, 0⟩).y : ℚ))
    (AB.data 0 j - f0) (AB.data 1 j - f1) (AB.data 2 j - f2) h0 h1 h2 p q r hp hq hr hcross
  exact ⟨by linarith, by linarith, by linarith⟩

/-- C16.  GCP round trip.  Let the control points be related by an affine transform
`F(x, y) = (f0 + f1*x + f2*y, g0 + g1*x + g2*y)` (`src_i = F(map_i)`), let three of the map
points be non-collinear (so there are at least three pairs), and let the library solve return
a solution of the normal equations.  Then `MapGCP` with `order = 1` returns `true` and maps of
the shape of `map` in which every cell `(row, col)` holds `F(col, row)`; in particular at every
control point whose target coordinate lies inside the grid the map holds its source point. -/
theorem C16_gcp_round_trip (ldltSolve : Mat ℚ → Mat ℚ → Mat ℚ) (src map : Mat Vec3b)
    (src_points map_points : List Point) (f0 f1 f2 g0 g1 g2 : ℚ)
    (hlen : src_points.length = map_points.length)
    (hF : ∀ l, l < map_points.length →
      ((src_points.getD l ⟨0, 0⟩).x : ℚ) =
        f0 + f1 * ((map_points.getD l ⟨0, 0⟩).x : ℚ) + f2 * ((map_points.getD l ⟨0, 0⟩).y : ℚ) ∧
      ((src_points.getD l ⟨0, 0⟩).y : ℚ) =
        g0 + g1 * ((map_points.getD l ⟨0, 0⟩).x : ℚ) + g2 * ((map_points.getD l ⟨0, 0⟩).y : ℚ))
    (p q r : Nat) (hp : p < map_points.length) (hq : q < map_points.length)
    (hr : r < map_points.length)
    (hcross :
      (((map_points.getD q ⟨0, 0⟩).x : ℚ) - ((map_points.getD p ⟨0, 0⟩).x : ℚ)) *
          (((map_points.getD r ⟨0, 0⟩).y : ℚ) - ((map_points.getD p ⟨0, 0⟩).y : ℚ)) -
        (((map_points.getD r ⟨0, 0⟩).x : ℚ) - ((map_points.getD p ⟨0, 0⟩).x : ℚ)) *
          (((map_points.getD q ⟨0, 0⟩).y : ℚ) - ((map_points.getD p ⟨0, 0⟩).y : ℚ)) ≠ 0)
    (hsolve : SolvesSystem
      ((gcpDesign 1 map_points).transpose.mul (gcpDesign 1 map_points))
      ((gcpDesign 1 map_points).transpose.mul (gcpTargets src_points))
      (ldltSolve ((gcpDesign 1 map_points).transpose.mul (gcpDesign 1 map_points))
        ((gcpDesign 1 map_points).transpose.mul (gcpTargets src_points)))) :
    (MapGCP ldltSolve src map src_points map_points 1).ok = true ∧
    (MapGCP ldltSolve src map src_points map_points 1).map1.rows = map.rows ∧
    (MapGCP ldltSolve src map src_points map_points 1).map1.cols = map.cols ∧
    (MapGCP ldltSolve src map src_points map_points 1).map2.rows = map.rows ∧
    (MapGCP ldltSolve src map src_points map_points 1).map2.cols = map.cols ∧
    (∀ row col, row < map.rows → col < map.cols →
      (MapGCP ldltSolve src map src_points map_points 1).map1.data row col =
        f0 + f1 * (col : ℚ) + f2 * (row : ℚ) ∧
      (MapGCP ldltSolve src map src_points map_points 1).map2.data row col =
        g0 + g1 * (col : ℚ) + g2 * (row : ℚ)) ∧
    (∀ l, l < map_points.length →
      0 ≤ (map_points.getD l ⟨0, 0⟩).x → (map_points.getD l ⟨0, 0⟩).x < (map.cols : Int) →
      0 ≤ (map_points.getD l ⟨0, 0⟩).y → (map_points.getD l ⟨0, 0⟩).y < (map.rows : Int) →
      (MapGCP ldltSolve src map src_points map_points 1).map1.data
          (map_points.getD l ⟨0, 0⟩).y.toNat (map_points.getD l ⟨0, 0⟩).x.toNat =
        ((src_points.getD l ⟨0, 0⟩).x : ℚ) ∧
      (MapGCP ldltSolve src map src_points map_points 1).map2.data
          (map_points.getD l ⟨0, 0⟩).y.toNat (map_points.getD l ⟨0, 0⟩).x.toNat =
        ((src_points.getD l ⟨0, 0⟩).y : ℚ)) := by
  obtain ⟨k0, k1, k2, k3, k4, hcell⟩ :=
    MapGCP_cells ldltSolve src map src_points map_points 1
  obtain ⟨a0, a1, a2⟩ := gcp_affine_coeffs _ src_points map_points hlen 0 (by norm_num)
    f0 f1 f2 (fun l hl => by simpa using (hF l hl).1) p q r hp hq hr hcross hsolve
  obtain ⟨b0, b1, b2⟩ := gcp_affine_coeffs _ src_points map_points hlen 1 (by norm_num)
    g0 g1 g2 (fun l hl => by simpa using (hF l hl).2) p q r hp hq hr hcross hsolve
  have hall : ∀ row col, row < map.rows → col < map.cols →
      (MapGCP ldltSolve src map src_points map_points 1).map1.data row col =
        f0 + f1 * (col : ℚ) + f2 * (row : ℚ) ∧
      (MapGCP ldltSolve src map src_points map_points 1).map2.data row col =
        g0 + g1 * (col : ℚ) + g2 * (row : ℚ) := by
    intro row col hrow hcol
    obtain ⟨h1, h2⟩ := hcell row col hrow hcol
    rw [h1, h2, gcpEvaluate_one]
    simp only [a0, a1, a2, b0, b1, b2]
    exact ⟨trivial, trivial⟩
  refine ⟨k0, k1, k2, k3, k4, hall, ?_⟩
  intro l hl hx0 hx1 hy0 hy1
  obtain ⟨h1, h2⟩ := hall (map_points.getD l ⟨0, 0⟩).y.toNat (map_points.getD l ⟨0, 0⟩).x.toNat
    (by omega) (by omega)
  have cx : (((map_points.getD l ⟨0, 0⟩).x.toNat : Nat) : ℚ) =
      ((map_points.getD l ⟨0, 0⟩).x : ℚ) := by
    have : (((map_points.getD l ⟨0, 0⟩).x.toNat : Nat) : Int) = (map_points.getD l ⟨0, 0⟩).x :=
      Int.toNat_of_nonneg hx0
    exact_mod_cast this
  have cy : (((map_points.getD l ⟨0, 0⟩).y.toNat : Nat) : ℚ) =
      ((map_points.getD l ⟨0, 0⟩).y : ℚ) := by
    have : (((map_points.getD l ⟨0, 0⟩).y.toNat : Nat) : Int) = (map_points.getD l ⟨0, 0⟩).y :=
      Int.toNat_of_nonneg hy0
    exact_mod_cast this
  rw [h1, h2, cx, cy, (hF l hl).1, (hF l hl).2]
  exact ⟨rfl, rfl⟩

theorem mul_data_three (A S : Mat ℚ) (hc : A.cols = 3) (i j : Nat) :
    (A.mul S).data i j =
      A.data i 0 * S.data 0 j + A.data i 1 * S.data 1 j + A.data i 2 * S.data 2 j := by
  show sumRange A.cols (fun k => A.data i k * S.data k j) = _
  rw [hc, sumRange_three]

/-- On the triangle control points the solver `triangleSolver` returns a solution of the
normal equations. -/
theorem triangle_solves :
    SolvesSystem
      ((gcpDesign 1 trianglePoints).transpose.mul (gcpDesign 1 trianglePoints))
      ((gcpDesign 1 trianglePoints).transpose.mul (gcpTargets triangleImages))
      (triangleSolver ((gcpDesign 1 trianglePoints).transpose.mul (gcpDesign 1 trianglePoints))
        ((gcpDesign 1 trianglePoints).transpose.mul (gcpTargets triangleImages))) := by
  obtain ⟨-, xc, -⟩ := gcpDesign_one trianglePoints
  obtain ⟨-, yc, -⟩ := gcpTargets_eq triangleImages
  intro i j hi hj
  have hi3 : i < 3 := by
    simp only [Mat.mul, Mat.transpose] at hi; rw [xc] at hi; exact hi
  have hj2 : j < 2 := by
    simp only [Mat.mul, Mat.transpose] at hj; rw [yc] at hj; exact hj
  have hc : ((gcpDesign 1 trianglePoints).transpose.mul (gcpDesign 1 trianglePoints)).cols = 3 := by
    simp only [Mat.mul]; exact xc
  rw [mul_data_three _ _ hc, gcpNormal_one trianglePoints i 0 hi3 (by norm_num),
    gcpNormal_one trianglePoints i 1 hi3 (by norm_num),
    gcpNormal_one trianglePoints i 2 hi3 (by norm_num),
    gcpRhs_one triangleImages trianglePoints rfl i j hi3 hj2]
  have hlen : trianglePoints.length = 3 := rfl
  rw [hlen]
  interval_cases i <;> interval_cases j <;>
    simp [Finset.sum_range_succ, trianglePoints, triangleImages, triangleSolver] <;> norm_num

/-- Witness of C16: the triangle control points, their images under
`(x, y) ↦ (1 + 2*x, 2 + 3*y)` and a 4x4 map; cell `(row, col) = (1, 2)` holds
`(1 + 2*2, 2 + 3*1)`. -/
theorem C16_gcp_round_trip_witness :
    (MapGCP triangleSolver (rampImage 4 4) (rampImage 4 4) triangleImages trianglePoints 1).ok =
        true ∧
    (MapGCP triangleSolver (rampImage 4 4) (rampImage 4 4) triangleImages
        trianglePoints 1).map1.data 1 2 = 1 + 2 * ((2 : Nat) : ℚ) + 0 * ((1 : Nat) : ℚ) ∧
    (MapGCP triangleSolver (rampImage 4 4) (rampImage 4 4) triangleImages
        trianglePoints 1).map2.data 1 2 = 2 + 0 * ((2 : Nat) : ℚ) + 3 * ((1 : Nat) : ℚ) := by
  have h := C16_gcp_round_trip triangleSolver (rampImage 4 4) (rampImage 4 4) triangleImages
    trianglePoints 1 2 0 2 0 3 rfl
    (by
      intro l hl
      have hl3 : l < 3 := hl
      interval_cases l <;> simp [trianglePoints, triangleImages] <;> norm_num)
    0 1 2 (by decide) (by decide) (by decide)
    (by simp [trianglePoints])
    triangle_solves
  exact ⟨h.1, h.2.2.2.2.2.1 1 2 (by decide) (by decide)⟩

/-! ## MapQ2Q -/

theorem q2qMatrix_shape (src_vertices tgt_vertices : List Point) :
    (q2qMatrix src_vertices tgt_vertices).rows = 8 ∧
      (q2qMatrix src_vertices tgt_vertices).cols = 8 := by
  simp [q2qMatrix, loopRange_succ, loopRange_zero, Mat.set, Mat.create]

/-- Row `i` of `map_mat` (`i < 4`): the equation of the x coordinate of vertex `i`. -/
theorem q2qMatrix_row_x (src_vertices tgt_vertices : List Point) (i : Nat) (hi : i < 4) :
    (q2qMatrix src_vertices tgt_vertices).data i 0 = ((tgt_vertices.getD i ⟨0, 0⟩).x : ℚ) ∧
    (q2qMatrix src_vertices tgt_vertices).data i 1 = ((tgt_vertices.getD i ⟨0, 0⟩).y : ℚ) ∧
    (q2qMatrix src_vertices tgt_vertices).data i 2 = 1 ∧
    (q2qMatrix src_vertices tgt_vertices).data i 3 = 0 ∧
    (q2qMatrix src_vertices tgt_vertices).data i 4 = 0 ∧
    (q2qMatrix src_vertices tgt_vertices).data i 5 = 0 ∧
    (q2qMatrix src_vertices tgt_vertices).data i 6 =
      ((-(tgt_vertices.getD i ⟨0, 0⟩).x * (src_vertices.getD i ⟨0, 0⟩).x : Int) : ℚ) ∧
    (q2qMatrix src_vertices tgt_vertices).data i 7 =
      ((-(tgt_vertices.getD i ⟨0, 0⟩).y * (src_vertices.getD i ⟨0, 0⟩).x : Int) : ℚ) := by
  interval_cases i <;>
    simp [q2qMatrix, loopRange_succ, loopRange_zero, Mat.set, Mat.create]

/-- Row `i + 4` of `map_mat` (`i < 4`): the equation of the y coordinate of vertex `i`. -/
theorem q2qMatrix_row_y (src_vertices tgt_vertices : List Point) (i : Nat) (hi : i < 4) :
    (q2qMatrix src_vertices tgt_vertices).data (i + 4) 0 = 0 ∧
    (q2qMatrix src_vertices tgt_vertices).data (i + 4) 1 = 0 ∧
    (q2qMatrix src_vertices tgt_vertices).data (i + 4) 2 = 0 ∧
    (q2qMatrix src_vertices tgt_vertices).data (i + 4) 3 =
      ((tgt_vertices.getD i ⟨0, 0⟩).x : ℚ) ∧
    (q2qMatrix src_vertices tgt_vertices).data (i + 4) 4 =
      ((tgt_vertices.getD i ⟨0, 0⟩).y : ℚ) ∧
    (q2qMatrix src_vertices tgt_vertices).data (i + 4) 5 = 1 ∧
    (q2qMatrix src_vertices tgt_vertices).data (i + 4) 6 =
      ((-(tgt_vertices.getD i ⟨0, 0⟩).x * (src_vertices.getD i ⟨0, 0⟩).y : Int) : ℚ) ∧
    (q2qMatrix src_vertices tgt_vertices).data (i + 4) 7 =
      ((-(tgt_vertices.getD i ⟨0, 0⟩).y * (src_vertices.getD i ⟨0, 0⟩).y : Int) : ℚ) := by
  interval_cases i <;>
    simp [q2qMatrix, loopRange_succ, loopRange_zero, Mat.set, Mat.create]

/-- The entries of `src_point`: source x coordinates, then source y coordinates. -/
theorem q2qSrcPoint_entries (src_vertices : List Point) (i : Nat) (hi : i < 4) :
    (q2qSrcPoint src_vertices).data i 0 = ((src_vertices.getD i ⟨0, 0⟩).x : ℚ) ∧
    (q2qSrcPoint src_vertices).data (i + 4) 0 = ((src_vertices.getD i ⟨0, 0⟩).y : ℚ) := by
  interval_cases i <;> simp [q2qSrcPoint]

theorem sumRange_eight (f : Nat → ℚ) :
    sumRange 8 f = f 0 + f 1 + f 2 + f 3 + f 4 + f 5 + f 6 + f 7 := by
  simp [sumRange, List.range_succ, add_assoc]

/-- What `MapQ2Q` returns, cell by cell. -/
theorem MapQ2Q_cells (inverse : Mat ℚ → Mat ℚ) (src tgt : Mat Vec3b)
    (src_vertices tgt_vertices : List Point) :
    (MapQ2Q inverse src tgt src_vertices tgt_vertices).ok = true ∧
    (MapQ2Q inverse src tgt src_vertices tgt_vertices).map1.rows = tgt.rows ∧
    (MapQ2Q inverse src tgt src_vertices tgt_vertices).map1.cols = tgt.cols ∧
    (MapQ2Q inverse src tgt src_vertices tgt_vertices).map2.rows = tgt.rows ∧
    (MapQ2Q inverse src tgt src_vertices tgt_vertices).map2.cols = tgt.cols ∧
    ∀ r c, r < tgt.rows → c < tgt.cols →
      (MapQ2Q inverse src tgt src_vertices tgt_vertices).map1.data r c =
        ((q2qP ((inverse (q2qMatrix src_vertices tgt_vertices)).mul
            (q2qSrcPoint src_vertices))).mulVec ⟨(c : ℚ), (r : ℚ), 1⟩).v0 /
          ((q2qP ((inverse (q2qMatrix src_vertices tgt_vertices)).mul
            (q2qSrcPoint src_vertices))).mulVec ⟨(c : ℚ), (r : ℚ), 1⟩).v2 ∧
      (MapQ2Q inverse src tgt src_vertices tgt_vertices).map2.data r c =
        ((q2qP ((inverse (q2qMatrix src_vertices tgt_vertices)).mul
            (q2qSrcPoint src_vertices))).mulVec ⟨(c : ℚ), (r : ℚ), 1⟩).v1 /
          ((q2qP ((inverse (q2qMatrix src_vertices tgt_vertices)).mul
            (q2qSrcPoint src_vertices))).mulVec ⟨(c : ℚ), (r : ℚ), 1⟩).v2 := by
  simp only [MapQ2Q]
  rw [fillMaps_eq
    (fun r c => ((q2qP ((inverse (q2qMatrix src_vertices tgt_vertices)).mul
            (q2qSrcPoint src_vertices))).mulVec ⟨(c : ℚ), (r : ℚ), 1⟩).v0 /
          ((q2qP ((inverse (q2qMatrix src_vertices tgt_vertices)).mul
            (q2qSrcPoint src_vertices))).mulVec ⟨(c : ℚ), (r : ℚ), 1⟩).v2)
    (fun r c => ((q2qP ((inverse (q2qMatrix src_vertices tgt_vertices)).mul
            (q2qSrcPoint src_vertices))).mulVec ⟨(c : ℚ), (r : ℚ), 1⟩).v1 /
          ((q2qP ((inverse (q2qMatrix src_vertices tgt_vertices)).mul
            (q2qSrcPoint src_vertices))).mulVec ⟨(c : ℚ), (r : ℚ), 1⟩).v2)]
  refine ⟨trivial, rfl, rfl, rfl, rfl, ?_⟩
  intro r c hr hc
  simp [hr, hc]

/-- With equal source and target quads the right-hand side `src_point` is the sum of the
columns 0 and 4 of `map_mat`. -/
theorem q2qSrcPoint_identity (Q : List Point) (k : Nat) (hk : k < 8) :
    (q2qSrcPoint Q).data k 0 = (q2qMatrix Q Q).data k 0 + (q2qMatrix Q Q).data k 4 := by
  by_cases h4 : k < 4
  · obtain ⟨r0, -, -, -, r4, -, -, -⟩ := q2qMatrix_row_x Q Q k h4
    rw [(q2qSrcPoint_entries Q k h4).1, r0, r4]
    ring
  · obtain ⟨i, rfl⟩ : ∃ i, k = i + 4 := ⟨k - 4, by omega⟩
    have hi : i < 4 := by omega
    obtain ⟨r0, -, -, -, r4, -, -, -⟩ := q2qMatrix_row_y Q Q i hi
    rw [(q2qSrcPoint_entries Q i hi).2, r0, r4]
    ring

/-- With equal source and target quads and an exact inverse, the solved coefficients are
those of the identity homography: `(1, 0, 0, 0, 1, 0, 0, 0)`. -/
theorem q2q_identity_coeffs (Minv : Mat ℚ) (Q : List Point)
    (hinv : IsInverseOf (q2qMatrix Q Q) Minv) (r : Nat) (hr : r < 8) :
    (Minv.mul (q2qSrcPoint Q)).data r 0 = (if r = 0 then 1 else 0) + (if r = 4 then 1 else 0) := by
  obtain ⟨mr, mc⟩ := q2qMatrix_shape Q Q
  obtain ⟨-, ic, hprod⟩ := hinv
  rw [mr, mc] at hprod
  rw [mc] at ic
  have h0 := (hprod r 0 hr (by norm_num)).1
  have h4 := (hprod r 4 hr (by norm_num)).1
  have e0 : (Minv.mul (q2qMatrix Q Q)).data r 0 =
      ∑ k in Finset.range 8, Minv.data r k * (q2qMatrix Q Q).data k 0 := by
    show sumRange Minv.cols (fun k => Minv.data r k * (q2qMatrix Q Q).data k 0) = _
    rw [ic, sumRange_eq_sum]
  have e4 : (Minv.mul (q2qMatrix Q Q)).data r 4 =
      ∑ k in Finset.range 8, Minv.data r k * (q2qMatrix Q Q).data k 4 := by
    show sumRange Minv.cols (fun k => Minv.data r k * (q2qMatrix Q Q).data k 4) = _
    rw [ic, sumRange_eq_sum]
  have es : (Minv.mul (q2qSrcPoint Q)).data r 0 =
      ∑ k in Finset.range 8, Minv.data r k * (q2qSrcPoint Q).data k 0 := by
    show sumRange Minv.cols (fun k => Minv.data r k * (q2qSrcPoint Q).data k 0) = _
    rw [ic, sumRange_eq_sum]
  rw [es, ← h0, ← h4, e0, e4, ← Finset.sum_add_distrib]
  apply Finset.sum_congr rfl
  intro k hk
  rw [q2qSrcPoint_identity Q k (Finset.mem_range.mp hk)]
  ring

/-- With an exact inverse, the solved coefficients satisfy the linear system
`map_mat * tgt_point = src_point`. -/
theorem q2q_system_solved (Minv : Mat ℚ) (src_vertices tgt_vertices : List Point)
    (hinv : IsInverseOf (q2qMatrix src_vertices tgt_vertices) Minv) (i : Nat) (hi : i < 8) :
    ∑ k in Finset.range 8, (q2qMatrix src_vertices tgt_vertices).data i k *
        (Minv.mul (q2qSrcPoint src_vertices)).data k 0 =
      (q2qSrcPoint src_vertices).data i 0 := by
  obtain ⟨mr, mc⟩ := q2qMatrix_shape src_vertices tgt_vertices
  obtain ⟨-, ic, hprod⟩ := hinv
  rw [mr, mc] at hprod
  rw [mc] at ic
  have es : ∀ k, (Minv.mul (q2qSrcPoint src_vertices)).data k 0 =
      ∑ l in Finset.range 8, Minv.data k l * (q2qSrcPoint src_vertices).data l 0 := by
    intro k
    show sumRange Minv.cols (fun l => Minv.data k l * (q2qSrcPoint src_vertices).data l 0) = _
    rw [ic, sumRange_eq_sum]
  have ep : ∀ l, l < 8 →
      ∑ k in Finset.range 8, (q2qMatrix src_vertices tgt_vertices).data i k * Minv.data k l =
        (if i = l then 1 else 0) := by
    intro l hl
    have h := (hprod i l hi hl).2
    rw [← h]
    show _ = sumRange (q2qMatrix src_vertices tgt_vertices).cols
      (fun k => (q2qMatrix src_vertices tgt_vertices).data i k * Minv.data k l)
    rw [mc, sumRange_eq_sum]
  calc ∑ k in Finset.range 8, (q2qMatrix src_vertices tgt_vertices).data i k *
          (Minv.mul (q2qSrcPoint src_vertices)).data k 0
      = ∑ k in Finset.range 8, ∑ l in Finset.range 8,
          (q2qMatrix src_vertices tgt_vertices).data i k * Minv.data k l *
            (q2qSrcPoint src_vertices).data l 0 := by
        apply Finset.sum_congr rfl
        intro k _
        rw [es k, Finset.mul_sum]
        apply Finset.sum_congr rfl
        intro l _
        ring
    _ = ∑ l in Finset.range 8, ∑ k in Finset.range 8,
          (q2qMatrix src_vertices tgt_vertices).data i k * Minv.data k l *
            (q2qSrcPoint src_vertices).data l 0 := Finset.sum_comm
    _ = ∑ l in Finset.range 8, (if i = l then 1 else 0) *
          (q2qSrcPoint src_vertices).data l 0 := by
        apply Finset.sum_congr rfl
        intro l hl
        rw [← Finset.sum_mul, ep l (Finset.mem_range.mp hl)]
    _ = (q2qSrcPoint src_vertices).data i 0 := by
        simp only [ite_mul, one_mul, zero_mul]
        rw [Finset.sum_ite_eq]
        simp [hi]

/-- C18.  Quad-to-quad identity: for a 4-vertex quad `Q` used as source and as target quad,
when the library returns the exact inverse of the 8x8 correspondence matrix, `MapQ2Q` returns
`true` and maps of the shape of `tgt` with `map1(row, col) = col` and `map2(row, col) = row`
in every destination cell. -/
theorem C18_q2q_identity (inverse : Mat ℚ → Mat ℚ) (src tgt : Mat Vec3b) (Q : List Point)
    (row col : Nat) (_hQ : Q.length = 4)
    (hinv : IsInverseOf (q2qMatrix Q Q) (inverse (q2qMatrix Q Q)))
    (hrow : row < tgt.rows) (hcol : col < tgt.cols) :
    (MapQ2Q inverse src tgt Q Q).ok = true ∧
    (MapQ2Q inverse src tgt Q Q).map1.rows = tgt.rows ∧
    (MapQ2Q inverse src tgt Q Q).map1.cols = tgt.cols ∧
    (MapQ2Q inverse src tgt Q Q).map2.rows = tgt.rows ∧
    (MapQ2Q inverse src tgt Q Q).map2.cols = tgt.cols ∧
    (MapQ2Q inverse src tgt Q Q).map1.data row col = (col : ℚ) ∧
    (MapQ2Q inverse src tgt Q Q).map2.data row col = (row : ℚ) := by
  obtain ⟨k0, k1, k2, k3, k4, hcell⟩ := MapQ2Q_cells inverse src tgt Q Q
  obtain ⟨h1, h2⟩ := hcell row col hrow hcol
  have c := fun r hr => q2q_identity_coeffs (inverse (q2qMatrix Q Q)) Q hinv r hr
  have hP : q2qP ((inverse (q2qMatrix Q Q)).mul (q2qSrcPoint Q)) =
      ⟨1, 0, 0, 0, 1, 0, 0, 0, 1⟩ := by
    simp only [q2qP, c 0 (by norm_num), c 1 (by norm_num), c 2 (by norm_num),
      c 3 (by norm_num), c 4 (by norm_num), c 5 (by norm_num), c 6 (by norm_num),
      c 7 (by norm_num)]
    norm_num
  rw [hP] at h1 h2
  refine ⟨k0, k1, k2, k3, k4, ?_, ?_⟩
  · rw [h1]; simp [Matrix3d.mulVec]
  · rw [h2]; simp [Matrix3d.mulVec]

/-- C19.  The quad-to-quad map sends target vertices to source vertices: for 4-vertex quads,
when the library returns the exact inverse of the 8x8 correspondence matrix, for every vertex
index `i < 4` whose target vertex `(tx, ty)` lies inside the output grid and whose homogeneous
weight `P[2][0]*tx + P[2][1]*ty + 1` is not zero, the map holds the source vertex `i` at the
cell `(ty, tx)`. -/
theorem C19_q2q_vertices (inverse : Mat ℚ → Mat ℚ) (src tgt : Mat Vec3b)
    (src_vertices tgt_vertices : List Point) (i : Nat)
    (_hs : src_vertices.length = 4) (_ht : tgt_vertices.length = 4)
    (hinv : IsInverseOf (q2qMatrix src_vertices tgt_vertices)
      (inverse (q2qMatrix src_vertices tgt_vertices)))
    (hi : i < 4)
    (hx0 : 0 ≤ (tgt_vertices.getD i ⟨0, 0⟩).x)
    (hx1 : (tgt_vertices.getD i ⟨0, 0⟩).x < (tgt.cols : Int))
    (hy0 : 0 ≤ (tgt_vertices.getD i ⟨0, 0⟩).y)
    (hy1 : (tgt_vertices.getD i ⟨0, 0⟩).y < (tgt.rows : Int))
    (hw : (q2qP ((inverse (q2qMatrix src_vertices tgt_vertices)).mul
            (q2qSrcPoint src_vertices))).m20 * ((tgt_vertices.getD i ⟨0, 0⟩).x : ℚ) +
          (q2qP ((inverse (q2qMatrix src_vertices tgt_vertices)).mul
            (q2qSrcPoint src_vertices))).m21 * ((tgt_vertices.getD i ⟨0, 0⟩).y : ℚ) + 1 ≠ 0) :
    (MapQ2Q inverse src tgt src_vertices tgt_vertices).map1.data
        (tgt_vertices.getD i ⟨0, 0⟩).y.toNat (tgt_vertices.getD i ⟨0, 0⟩).x.toNat =
      ((src_vertices.getD i ⟨0, 0⟩).x : ℚ) ∧
    (MapQ2Q inverse src tgt src_vertices tgt_vertices).map2.data
        (tgt_vertices.getD i ⟨0, 0⟩).y.toNat (tgt_vertices.getD i ⟨0, 0⟩).x.toNat =
      ((src_vertices.getD i ⟨0, 0⟩).y : ℚ) := by
  obtain ⟨-, -, -, -, -, hcell⟩ := MapQ2Q_cells inverse src tgt src_vertices tgt_vertices
  obtain ⟨h1, h2⟩ := hcell (tgt_vertices.getD i ⟨0, 0⟩).y.toNat
    (tgt_vertices.getD i ⟨0, 0⟩).x.toNat (by omega) (by omega)
  have cx : (((tgt_vertices.getD i ⟨0, 0⟩).x.toNat : Nat) : ℚ) =
      ((tgt_vertices.getD i ⟨0, 0⟩).x : ℚ) := by
    have : (((tgt_vertices.getD i ⟨0, 0⟩).x.toNat : Nat) : Int) =
      (tgt_vertices.getD i ⟨0, 0⟩).x := Int.toNat_of_nonneg hx0
    exact_mod_cast this
  have cy : (((tgt_vertices.getD i ⟨0, 0⟩).y.toNat : Nat) : ℚ) =
      ((tgt_vertices.getD i ⟨0, 0⟩).y : ℚ) := by
    have : (((tgt_vertices.getD i ⟨0, 0⟩).y.toNat : Nat) : Int) =
      (tgt_vertices.getD i ⟨0, 0⟩).y := Int.toNat_of_nonneg hy0
    exact_mod_cast this
  have ex := q2q_system_solved _ src_vertices tgt_vertices hinv i (by omega)
  have ey := q2q_system_solved _ src_vertices tgt_vertices hinv (i + 4) (by omega)
  obtain ⟨x0, x1, x2, x3, x4, x5, x6, x7⟩ := q2qMatrix_row_x src_vertices tgt_vertices i hi
  obtain ⟨y0, y1, y2, y3, y4, y5, y6, y7⟩ := q2qMatrix_row_y src_vertices tgt_vertices i hi
  obtain ⟨s1, s2⟩ := q2qSrcPoint_entries src_vertices i hi
  simp only [Finset.sum_range_succ, Finset.sum_range_zero, x0, x1, x2, x3, x4, x5, x6, x7,
    s1] at ex
  simp only [Finset.sum_range_succ, Finset.sum_range_zero, y0, y1, y2, y3, y4, y5, y6, y7,
    s2] at ey
  push_cast at ex ey
  rw [h1, h2, cx, cy]
  simp only [q2qP, Matrix3d.mulVec] at hw ⊢
  have hw' : ((inverse (q2qMatrix src_vertices tgt_vertices)).mul
        (q2qSrcPoint src_vertices)).data 6 0 * ((tgt_vertices.getD i ⟨0, 0⟩).x : ℚ) +
      ((inverse (q2qMatrix src_vertices tgt_vertices)).mul
        (q2qSrcPoint src_vertices)).data 7 0 * ((tgt_vertices.getD i ⟨0, 0⟩).y : ℚ) + 1 * 1 ≠ 0 := by
    rw [mul_one]; exact hw
  constructor
  · rw [div_eq_iff hw']
    linear_combination ex
  · rw [div_eq_iff hw']
    linear_combination ey

/-! ## Concrete quads -/

/-- The correspondence matrix of concrete quads, entry by entry, from the two row lemmas. -/
theorem q2qMatrix_table (src_vertices tgt_vertices : List Point) (T : List (List Int))
    (hx : ∀ i, i < 4 →
      intEntry T i 0 = (tgt_vertices.getD i ⟨0, 0⟩).x ∧
      intEntry T i 1 = (tgt_vertices.getD i ⟨0, 0⟩).y ∧
      intEntry T i 2 = 1 ∧ intEntry T i 3 = 0 ∧ intEntry T i 4 = 0 ∧ intEntry T i 5 = 0 ∧
      intEntry T i 6 = -(tgt_vertices.getD i ⟨0, 0⟩).x * (src_vertices.getD i ⟨0, 0⟩).x ∧
      intEntry T i 7 = -(tgt_vertices.getD i ⟨0, 0⟩).y * (src_vertices.getD i ⟨0, 0⟩).x ∧
      intEntry T (i + 4) 0 = 0 ∧ intEntry T (i + 4) 1 = 0 ∧ intEntry T (i + 4) 2 = 0 ∧
      intEntry T (i + 4) 3 = (tgt_vertices.getD i ⟨0, 0⟩).x ∧
      intEntry T (i + 4) 4 = (tgt_vertices.getD i ⟨0, 0⟩).y ∧
      intEntry T (i + 4) 5 = 1 ∧
      intEntry T (i + 4) 6 = -(tgt_vertices.getD i ⟨0, 0⟩).x * (src_vertices.getD i ⟨0, 0⟩).y ∧
      intEntry T (i + 4) 7 = -(tgt_vertices.getD i ⟨0, 0⟩).y * (src_vertices.getD i ⟨0, 0⟩).y)
    (k j : Nat) (hk : k < 8) (hj : j < 8) :
    (q2qMatrix src_vertices tgt_vertices).data k j = ((intEntry T k j : Int) : ℚ) := by
  by_cases h4 : k < 4
  · obtain ⟨x0, x1, x2, x3, x4, x5, x6, x7⟩ := q2qMatrix_row_x src_vertices tgt_vertices k h4
    obtain ⟨t0, t1, t2, t3, t4, t5, t6, t7, -⟩ := hx k h4
    interval_cases j
    · rw [x0, t0]
    · rw [x1, t1]
    · rw [x2, t2]; norm_num
    · rw [x3, t3]; norm_num
    · rw [x4, t4]; norm_num
    · rw [x5, t5]; norm_num
    · rw [x6, t6]
    · rw [x7, t7]
  · obtain ⟨i, rfl⟩ : ∃ i, k = i + 4 := ⟨k - 4, by omega⟩
    have hi : i < 4 := by omega
    obtain ⟨y0, y1, y2, y3, y4, y5, y6, y7⟩ := q2qMatrix_row_y src_vertices tgt_vertices i hi
    obtain ⟨-, -, -, -, -, -, -, -, t0, t1, t2, t3, t4, t5, t6, t7⟩ := hx i hi
    interval_cases j
    · rw [y0, t0]; norm_num
    · rw [y1, t1]; norm_num
    · rw [y2, t2]; norm_num
    · rw [y3, t3]
    · rw [y4, t4]
    · rw [y5, t5]; norm_num
    · rw [y6, t6]
    · rw [y7, t7]

theorem sumRange_intCast (n : Nat) (a b : Nat → Int) :
    sumRange n (fun k => ((a k : Int) : ℚ) * ((b k : Int) : ℚ)) =
      ((((List.range n).map (fun k => a k * b k)).sum : Int) : ℚ) := by
  induction n with
  | zero => simp [sumRange]
  | succ n ih =>
    have e : sumRange (n + 1) (fun k => ((a k : Int) : ℚ) * ((b k : Int) : ℚ)) =
        sumRange n (fun k => ((a k : Int) : ℚ) * ((b k : Int) : ℚ)) +
          ((a n : Int) : ℚ) * ((b n : Int) : ℚ) := by
      simp [sumRange, List.range_succ]
    rw [e, ih]
    simp [List.range_succ]

/-- A matrix that agrees with an integer table has the table of the inverse as its inverse,
once the two integer products are checked to be the identity. -/
theorem isInverseOf_of_tables (M : Mat ℚ) (T Tinv : List (List Int))
    (hr : M.rows = 8) (hc : M.cols = 8)
    (hent : ∀ k j, k < 8 → j < 8 → M.data k j = ((intEntry T k j : Int) : ℚ))
    (hcheck : ∀ i, i < 8 → ∀ j, j < 8 →
      intProduct Tinv T i j = (if i = j then 1 else 0) ∧
      intProduct T Tinv i j = (if i = j then 1 else 0)) :
    IsInverseOf M (matOfRows 8 8 Tinv) := by
  refine ⟨by rw [hr]; rfl, by rw [hc]; rfl, ?_⟩
  intro i j hi hj
  rw [hr] at hi
  rw [hc] at hj
  obtain ⟨c1, c2⟩ := hcheck i hi j hj
  constructor
  · have e : ((matOfRows 8 8 Tinv).mul M).data i j =
        sumRange 8 (fun k => ((intEntry Tinv i k : Int) : ℚ) * ((intEntry T k j : Int) : ℚ)) := by
      show sumRange 8 (fun k => ((intEntry Tinv i k : Int) : ℚ) * M.data k j) = _
      rw [sumRange_eq_sum, sumRange_eq_sum]
      apply Finset.sum_congr rfl
      intro k hk
      rw [hent k j (Finset.mem_range.mp hk) hj]
    rw [e, sumRange_intCast]
    have c1' : ((List.range 8).map (fun k => intEntry Tinv i k * intEntry T k j)).sum =
        (if i = j then 1 else 0) := c1
    rw [c1']
    split_ifs <;> simp
  · have e : (M.mul (matOfRows 8 8 Tinv)).data i j =
        sumRange 8 (fun k => ((intEntry T i k : Int) : ℚ) * ((intEntry Tinv k j : Int) : ℚ)) := by
      show sumRange M.cols (fun k => M.data i k * ((intEntry Tinv k j : Int) : ℚ)) = _
      rw [hc, sumRange_eq_sum, sumRange_eq_sum]
      apply Finset.sum_congr rfl
      intro k hk
      rw [hent i k hi (Finset.mem_range.mp hk)]
    rw [e, sumRange_intCast]
    have c2' : ((List.range 8).map (fun k => intEntry T i k * intEntry Tinv k j)).sum =
        (if i = j then 1 else 0) := c2
    rw [c2']
    split_ifs <;> simp

set_option maxRecDepth 100000 in
theorem unitSquare_isInverse :
    IsInverseOf (q2qMatrix unitSquare unitSquare)
      (unitSquareInverse (q2qMatrix unitSquare unitSquare)) :=
  isInverseOf_of_tables _ unitSquareTable unitSquareInverseTable
    (q2qMatrix_shape unitSquare unitSquare).1 (q2qMatrix_shape unitSquare unitSquare).2
    (q2qMatrix_table unitSquare unitSquare unitSquareTable (by decide))
    (by decide)

set_option maxRecDepth 100000 in
theorem shiftedSquare_isInverse :
    IsInverseOf (q2qMatrix shiftedSquare unitSquare)
      (shiftedSquareInverse (q2qMatrix shiftedSquare unitSquare)) :=
  isInverseOf_of_tables _ shiftedSquareTable shiftedSquareInverseTable
    (q2qMatrix_shape shiftedSquare unitSquare).1 (q2qMatrix_shape shiftedSquare unitSquare).2
    (q2qMatrix_table shiftedSquare unitSquare shiftedSquareTable (by decide))
    (by decide)

theorem mul_data_eight (A S : Mat ℚ) (hc : A.cols = 8) (i j : Nat) :
    (A.mul S).data i j =
      A.data i 0 * S.data 0 j + A.data i 1 * S.data 1 j + A.data i 2 * S.data 2 j +
        A.data i 3 * S.data 3 j + A.data i 4 * S.data 4 j + A.data i 5 * S.data 5 j +
        A.data i 6 * S.data 6 j + A.data i 7 * S.data 7 j := by
  show sumRange A.cols (fun k => A.data i k * S.data k j) = _
  rw [hc, sumRange_eight]

/-- Witness of C18: the unit square as source and target quad on a 4x4 target, cell
`(1, 2)`. -/
theorem C18_q2q_identity_witness :
    (MapQ2Q unitSquareInverse (rampImage 4 4) (rampImage 4 4) unitSquare unitSquare).ok = true ∧
    (MapQ2Q unitSquareInverse (rampImage 4 4) (rampImage 4 4) unitSquare unitSquare).map1.rows =
      (rampImage 4 4).rows ∧
    (MapQ2Q unitSquareInverse (rampImage 4 4) (rampImage 4 4) unitSquare unitSquare).map1.cols =
      (rampImage 4 4).cols ∧
    (MapQ2Q unitSquareInverse (rampImage 4 4) (rampImage 4 4) unitSquare unitSquare).map2.rows =
      (rampImage 4 4).rows ∧
    (MapQ2Q unitSquareInverse (rampImage 4 4) (rampImage 4 4) unitSquare unitSquare).map2.cols =
      (rampImage 4 4).cols ∧
    (MapQ2Q unitSquareInverse (rampImage 4 4) (rampImage 4 4) unitSquare
      unitSquare).map1.data 1 2 = ((2 : Nat) : ℚ) ∧
    (MapQ2Q unitSquareInverse (rampImage 4 4) (rampImage 4 4) unitSquare
      unitSquare).map2.data 1 2 = ((1 : Nat) : ℚ) :=
  C18_q2q_identity unitSquareInverse (rampImage 4 4) (rampImage 4 4) unitSquare 1 2 rfl
    unitSquare_isInverse (by decide) (by decide)

/-- The homogeneous weight at the vertex `(1, 1)` for the shifted square is `1`. -/
theorem shiftedSquare_weight :
    (q2qP ((shiftedSquareInverse (q2qMatrix shiftedSquare unitSquare)).mul
          (q2qSrcPoint shiftedSquare))).m20 * ((unitSquare.getD 2 ⟨0, 0⟩).x : ℚ) +
        (q2qP ((shiftedSquareInverse (q2qMatrix shiftedSquare unitSquare)).mul
          (q2qSrcPoint shiftedSquare))).m21 * ((unitSquare.getD 2 ⟨0, 0⟩).y : ℚ) + 1 ≠ 0 := by
  have e6 : ((shiftedSquareInverse (q2qMatrix shiftedSquare unitSquare)).mul
      (q2qSrcPoint shiftedSquare)).data 6 0 = 0 := by
    rw [mul_data_eight _ _ rfl]
    simp [shiftedSquareInverse, matOfRows, intEntry, shiftedSquareInverseTable, q2qSrcPoint,
      shiftedSquare]
  have e7 : ((shiftedSquareInverse (q2qMatrix shiftedSquare unitSquare)).mul
      (q2qSrcPoint shiftedSquare)).data 7 0 = 0 := by
    rw [mul_data_eight _ _ rfl]
    simp [shiftedSquareInverse, matOfRows, intEntry, shiftedSquareInverseTable, q2qSrcPoint,
      shiftedSquare]
  simp only [q2qP, e6, e7]
  norm_num

/-- Witness of C19: target `unitSquare`, source `shiftedSquare`, vertex 2: the cell
`(row, col) = (1, 1)` holds the source vertex `(2, 3)`. -/
theorem C19_q2q_vertices_witness :
    (MapQ2Q shiftedSquareInverse (rampImage 4 4) (rampImage 4 4) shiftedSquare
        unitSquare).map1.data (unitSquare.getD 2 ⟨0, 0⟩).y.toNat
        (unitSquare.getD 2 ⟨0, 0⟩).x.toNat = ((shiftedSquare.getD 2 ⟨0, 0⟩).x : ℚ) ∧
    (MapQ2Q shiftedSquareInverse (rampImage 4 4) (rampImage 4 4) shiftedSquare
        unitSquare).map2.data (unitSquare.getD 2 ⟨0, 0⟩).y.toNat
        (unitSquare.getD 2 ⟨0, 0⟩).x.toNat = ((shiftedSquare.getD 2 ⟨0, 0⟩).y : ℚ) :=
  C19_q2q_vertices shiftedSquareInverse (rampImage 4 4) (rampImage 4 4) shiftedSquare
    unitSquare 2 rfl rfl shiftedSquare_isInverse (by decide) (by decide) (by decide)
    (by decide) (by decide) shiftedSquare_weight

/-- A matrix with two equal rows has no inverse. -/
theorem no_inverse_of_equal_rows (M : Mat ℚ) (r1 r2 : Nat) (h1 : r1 < M.rows)
    (h2 : r2 < M.rows) (hc : r1 < M.cols) (hne : r1 ≠ r2)
    (heq : ∀ k, k < M.cols → M.data r1 k = M.data r2 k) :
    ¬ ∃ Minv, IsInverseOf M Minv := by
  rintro ⟨Minv, -, -, hprod⟩
  have a := (hprod r1 r1 h1 hc).2
  have b := (hprod r2 r1 h2 hc).2
  have e : (M.mul Minv).data r1 r1 = (M.mul Minv).data r2 r1 := by
    show sumRange M.cols (fun k => M.data r1 k * Minv.data k r1) =
      sumRange M.cols (fun k => M.data r2 k * Minv.data k r1)
    rw [sumRange_eq_sum, sumRange_eq_sum]
    apply Finset.sum_congr rfl
    intro k hk
    rw [heq k (Finset.mem_range.mp hk)]
  rw [a, b] at e
  simp [hne, Ne.symm hne] at e

/-- A matrix with two equal columns has no inverse. -/
theorem no_inverse_of_equal_cols (M : Mat ℚ) (c1 c2 : Nat) (h1 : c1 < M.cols)
    (h2 : c2 < M.cols) (hr : c1 < M.rows) (hne : c1 ≠ c2)
    (heq : ∀ k, M.data k c1 = M.data k c2) :
    ¬ ∃ Minv, IsInverseOf M Minv := by
  rintro ⟨Minv, -, -, hprod⟩
  have a := (hprod c1 c1 hr h1).1
  have b := (hprod c1 c2 hr h2).1
  have e : (Minv.mul M).data c1 c1 = (Minv.mul M).data c1 c2 := by
    show sumRange Minv.cols (fun k => Minv.data c1 k * M.data k c1) =
      sumRange Minv.cols (fun k => Minv.data c1 k * M.data k c2)
    congr 1
    funext k
    rw [heq k]
  rw [a, b] at e
  simp [hne] at e

/-- The normal-equation matrix of the collinear control points has no inverse: the points
satisfy `x = y`, so its columns 1 and 2 coincide. -/
theorem collinear_normal_singular :
    ¬ ∃ Ninv, IsInverseOf
      ((gcpDesign 1 collinearPoints).transpose.mul (gcpDesign 1 collinearPoints)) Ninv := by
  obtain ⟨-, xc, xd⟩ := gcpDesign_one collinearPoints
  apply no_inverse_of_equal_cols _ 1 2
  · show 1 < (gcpDesign 1 collinearPoints).cols
    rw [xc]; norm_num
  · show 2 < (gcpDesign 1 collinearPoints).cols
    rw [xc]; norm_num
  · show 1 < (gcpDesign 1 collinearPoints).cols
    rw [xc]; norm_num
  · norm_num
  · intro k
    show sumRange (gcpDesign 1 collinearPoints).rows
        (fun l => (gcpDesign 1 collinearPoints).data l k * (gcpDesign 1 collinearPoints).data l 1) =
      sumRange (gcpDesign 1 collinearPoints).rows
        (fun l => (gcpDesign 1 collinearPoints).data l k * (gcpDesign 1 collinearPoints).data l 2)
    congr 1
    funext l
    congr 1
    rw [xd, xd]
    by_cases hl : l < collinearPoints.length
    · have hl3 : l < 3 := hl
      interval_cases l <;> simp [collinearPoints]
    · simp [hl]

/-- C17 (counterexample).  For the three collinear control points `(0,0)`, `(1,1)`, `(2,2)`
and order 1 the normal-equation matrix `X^T X` is singular, yet whatever the library solve
returns, `MapGCP` does not report failure. -/
theorem C17_counterexample :
    (¬ ∃ Ninv, IsInverseOf
      ((gcpDesign 1 collinearPoints).transpose.mul (gcpDesign 1 collinearPoints)) Ninv) ∧
    ¬ ∃ ldltSolve : Mat ℚ → Mat ℚ → Mat ℚ,
      (MapGCP ldltSolve (rampImage 4 4) (rampImage 4 4) collinearPoints collinearPoints 1).ok =
        false := by
  refine ⟨collinear_normal_singular, ?_⟩
  rintro ⟨ldltSolve, h⟩
  rw [(MapGCP_cells ldltSolve (rampImage 4 4) (rampImage 4 4) collinearPoints
    collinearPoints 1).1] at h
  exact absurd h (by decide)

/-- C17 (amended).  `MapGCP` has no failure path: for every order, every control-point set
(degenerate ones included) and whatever the library solve returns, the flag it returns is
`true` and the maps have the shape of `map`. -/
theorem C17_MapGCP_never_fails (ldltSolve : Mat ℚ → Mat ℚ → Mat ℚ) (src map : Mat Vec3b)
    (src_points map_points : List Point) (order : Nat) :
    (MapGCP ldltSolve src map src_points map_points order).ok = true ∧
    (MapGCP ldltSolve src map src_points map_points order).map1.rows = map.rows ∧
    (MapGCP ldltSolve src map src_points map_points order).map1.cols = map.cols ∧
    (MapGCP ldltSolve src map src_points map_points order).map2.rows = map.rows ∧
    (MapGCP ldltSolve src map src_points map_points order).map2.cols = map.cols := by
  obtain ⟨k0, k1, k2, k3, k4, -⟩ := MapGCP_cells ldltSolve src map src_points map_points order
  exact ⟨k0, k1, k2, k3, k4⟩

/-- The correspondence matrix of the degenerate target quad has no inverse: its rows 0 and 1
coincide. -/
theorem duplicated_matrix_singular :
    ¬ ∃ Minv, IsInverseOf (q2qMatrix unitSquare duplicatedQuad) Minv := by
  obtain ⟨mr, mc⟩ := q2qMatrix_shape unitSquare duplicatedQuad
  apply no_inverse_of_equal_rows _ 0 1
  · rw [mr]; norm_num
  · rw [mr]; norm_num
  · rw [mc]; norm_num
  · norm_num
  · intro k hk
    rw [mc] at hk
    obtain ⟨a0, a1, a2, a3, a4, a5, a6, a7⟩ :=
      q2qMatrix_row_x unitSquare duplicatedQuad 0 (by norm_num)
    obtain ⟨b0, b1, b2, b3, b4, b5, b6, b7⟩ :=
      q2qMatrix_row_x unitSquare duplicatedQuad 1 (by norm_num)
    interval_cases k
    · rw [a0, b0]; simp [duplicatedQuad]
    · rw [a1, b1]; simp [duplicatedQuad]
    · rw [a2, b2]
    · rw [a3, b3]
    · rw [a4, b4]
    · rw [a5, b5]
    · rw [a6, b6]; simp [duplicatedQuad]
    · rw [a7, b7]; simp [duplicatedQuad]

/-- C20 (counterexample).  For the 4-vertex target quad `(0,0)`, `(0,0)`, `(1,1)`, `(0,1)`
with a duplicated vertex the 8x8 correspondence matrix is singular, yet whatever the library
inverse returns, `MapQ2Q` does not report failure. -/
theorem C20_counterexample :
    unitSquare.length = 4 ∧ duplicatedQuad.length = 4 ∧
    (¬ ∃ Minv, IsInverseOf (q2qMatrix unitSquare duplicatedQuad) Minv) ∧
    ¬ ∃ inverse : Mat ℚ → Mat ℚ,
      (MapQ2Q inverse (rampImage 4 4) (rampImage 4 4) unitSquare duplicatedQuad).ok = false := by
  refine ⟨rfl, rfl, duplicated_matrix_singular, ?_⟩
  rintro ⟨inverse, h⟩
  rw [(MapQ2Q_cells inverse (rampImage 4 4) (rampImage 4 4) unitSquare duplicatedQuad).1] at h
  exact absurd h (by decide)

/-- C20 (amended).  `MapQ2Q` has no failure path: for every pair of quads (degenerate ones
included) and whatever the library inverse returns, the flag it returns is `true` and the maps
have the shape of `tgt`. -/
theorem C20_MapQ2Q_never_fails (inverse : Mat ℚ → Mat ℚ) (src tgt : Mat Vec3b)
    (src_vertices tgt_vertices : List Point) :
    (MapQ2Q inverse src tgt src_vertices tgt_vertices).ok = true ∧
    (MapQ2Q inverse src tgt src_vertices tgt_vertices).map1.rows = tgt.rows ∧
    (MapQ2Q inverse src tgt src_vertices tgt_vertices).map1.cols = tgt.cols ∧
    (MapQ2Q inverse src tgt src_vertices tgt_vertices).map2.rows = tgt.rows ∧
    (MapQ2Q inverse src tgt src_vertices tgt_vertices).map2.cols = tgt.cols := by
  obtain ⟨k0, k1, k2, k3, k4, -⟩ := MapQ2Q_cells inverse src tgt src_vertices tgt_vertices
  exact ⟨k0, k1, k2, k3, k4⟩

/-! ## Remap: grid points, the valid region and convexity -/

/-- At an integer grid point `(xi, yi)` with `0 ≤ xi ≤ cols - 2` and `0 ≤ yi ≤ rows - 2` the
four cell bodies return the source pixel of row `yi`, column `xi`. -/
theorem cell_bodies_at_grid_point (src : Mat Vec3b) (b : Fin 256) (xi yi : Int)
    (hx0 : 0 ≤ xi) (hx1 : xi ≤ (src.cols : Int) - 2)
    (hy0 : 0 ≤ yi) (hy1 : yi ≤ (src.rows : Int) - 2) :
    nearestConstant src b (xi : ℚ) (yi : ℚ) = some (src.data yi.toNat xi.toNat) ∧
    nearestReplicate src (xi : ℚ) (yi : ℚ) = some (src.data yi.toNat xi.toNat) ∧
    linearConstant src b (xi : ℚ) (yi : ℚ) = some (src.data yi.toNat xi.toNat) ∧
    linearReplicate src (xi : ℚ) (yi : ℚ) = some (src.data yi.toNat xi.toNat) := by
  have hcols : 2 ≤ src.cols := by omega
  have hrows : 2 ≤ src.rows := by omega
  have qx0 : (0 : ℚ) ≤ (xi : ℚ) := by exact_mod_cast hx0
  have qy0 : (0 : ℚ) ≤ (yi : ℚ) := by exact_mod_cast hy0
  have qx1 : (xi : ℚ) ≤ (src.cols : ℚ) - 2 := by
    have : ((xi : Int) : ℚ) ≤ (((src.cols : Int) - 2 : Int) : ℚ) := by exact_mod_cast hx1
    push_cast at this; exact this
  have qy1 : (yi : ℚ) ≤ (src.rows : ℚ) - 2 := by
    have : ((yi : Int) : ℚ) ≤ (((src.rows : Int) - 2 : Int) : ℚ) := by exact_mod_cast hy1
    push_cast at this; exact this
  refine ⟨?_, ?_, ?_, ?_⟩
  · obtain ⟨h1, h2⟩ := nearestConstant_inside src b (xi : ℚ) (yi : ℚ) qx0 (by linarith) qy0
      (by linarith)
    rw [h1, h2, Int.floor_intCast, Int.floor_intCast]
  · rw [nearestReplicate_eq src _ _ (by omega) (by omega)]
    have cx : specClamp (xi : ℚ) 0 ((src.cols : ℚ) - 1) = (xi : ℚ) := by
      simp only [specClamp]
      rw [max_eq_left qx0, min_eq_left (by linarith)]
    have cy : specClamp (yi : ℚ) 0 ((src.rows : ℚ) - 1) = (yi : ℚ) := by
      simp only [specClamp]
      rw [max_eq_left qy0, min_eq_left (by linarith)]
    rw [cx, cy, Int.floor_intCast, Int.floor_intCast]
  · rw [linearConstant_inside src b (xi : ℚ) (yi : ℚ) qx0 (by linarith) qy0 (by linarith),
      specBilinear_grid]
  · rw [linearReplicate_eq src _ _ hcols hrows]
    have cx : (if (xi : ℚ) < 0 then 0 else if (xi : ℚ) ≥ (src.cols : ℚ) - 1 then
        (src.cols : ℚ) - 2 else (xi : ℚ)) = (xi : ℚ) := by
      rw [if_neg (not_lt.mpr qx0), if_neg (by rw [ge_iff_le, not_le]; linarith)]
    have cy : (if (yi : ℚ) < 0 then 0 else if (yi : ℚ) ≥ (src.rows : ℚ) - 1 then
        (src.rows : ℚ) - 2 else (yi : ℚ)) = (yi : ℚ) := by
      rw [if_neg (not_lt.mpr qy0), if_neg (by rw [ge_iff_le, not_le]; linarith)]
    rw [cx, cy, specBilinear_grid]

/-- Inside the region `0 ≤ x < cols`, `0 ≤ y < rows` the clamp of the NEAREST + REPLICATE
branch changes nothing: the cell body returns the source pixel at `(floor y, floor x)`. -/
theorem nearestReplicate_inside (src : Mat Vec3b) (x y : ℚ)
    (hx0 : 0 ≤ x) (hx1 : x < (src.cols : ℚ)) (hy0 : 0 ≤ y) (hy1 : y < (src.rows : ℚ)) :
    nearestReplicate src x y = some (src.data ⌊y⌋.toNat ⌊x⌋.toNat) := by
  have hx1' : ¬ (x ≥ ((src.cols : Int) : ℚ)) := by
    simp only [Int.cast_natCast, ge_iff_le, not_le]; exact hx1
  have hy1' : ¬ (y ≥ ((src.rows : Int) : ℚ)) := by
    simp only [Int.cast_natCast, ge_iff_le, not_le]; exact hy1
  simp only [nearestReplicate, if_neg (not_lt.mpr hx0), if_neg (not_lt.mpr hy0), if_neg hx1',
    if_neg hy1', toInt_of_nonneg x hx0, toInt_of_nonneg y hy0]
  apply atChecked_of_bounds
  · exact Int.floor_nonneg.mpr hy0
  · exact Int.floor_lt.mpr (by exact_mod_cast hy1)
  · exact Int.floor_nonneg.mpr hx0
  · exact Int.floor_lt.mpr (by exact_mod_cast hx1)

/-- The LINEAR + REPLICATE cell body interpolates at the clamped coordinate. -/
theorem linearReplicate_clamp (src : Mat Vec3b) (x y : ℚ) (hc : 2 ≤ src.cols)
    (hr : 2 ≤ src.rows) :
    linearReplicate src x y =
      some (specBilinear src (linearClamp src.cols x) (linearClamp src.rows y)) :=
  linearReplicate_eq src x y hc hr

/-- Inside the region `0 ≤ x < n - 1` the clamp of the LINEAR + REPLICATE branch changes
nothing. -/
theorem linearClamp_inside (n : Nat) (x : ℚ) (h0 : 0 ≤ x) (h1 : x < (n : ℚ) - 1) :
    linearClamp n x = x := by
  simp only [linearClamp]
  rw [if_neg (not_lt.mpr h0), if_neg (by rw [ge_iff_le, not_le]; exact h1)]

/-- The clamped coordinate lies in `[0, n - 1)` when `n ≥ 2`. -/
theorem linearClamp_range (n : Nat) (hn : 2 ≤ n) (x : ℚ) :
    0 ≤ linearClamp n x ∧ linearClamp n x < (n : ℚ) - 1 := by
  have hn' : (2 : ℚ) ≤ (n : ℚ) := by exact_mod_cast hn
  simp only [linearClamp]
  by_cases h0 : x < 0
  · rw [if_pos h0]; constructor <;> linarith
  · rw [if_neg h0]
    by_cases h1 : x ≥ (n : ℚ) - 1
    · rw [if_pos h1]; constructor <;> linarith
    · rw [if_neg h1]; exact ⟨not_lt.mp h0, not_le.mp h1⟩

/-- A weighted mean of two values of `[lo, hi]` with a weight of `[0, 1]` lies in
`[lo, hi]`. -/
theorem lerp_between (t a b lo hi : ℚ) (ht0 : 0 ≤ t) (ht1 : t ≤ 1) (ha0 : lo ≤ a) (ha1 : a ≤ hi)
    (hb0 : lo ≤ b) (hb1 : b ≤ hi) :
    lo ≤ (1 - t) * a + t * b ∧ (1 - t) * a + t * b ≤ hi := by
  have h1 : 0 ≤ 1 - t := by linarith
  have e1 : (1 - t) * lo ≤ (1 - t) * a := mul_le_mul_of_nonneg_left ha0 h1
  have e2 : t * lo ≤ t * b := mul_le_mul_of_nonneg_left hb0 ht0
  have e3 : (1 - t) * a ≤ (1 - t) * hi := mul_le_mul_of_nonneg_left ha1 h1
  have e4 : t * b ≤ t * hi := mul_le_mul_of_nonneg_left hb1 ht0
  constructor <;> linarith

/-- The interpolated value lies between the smallest and the largest of the four neighbouring
channel values. -/
theorem specBilinearChannel_between (src : Mat Vec3b) (x y : ℚ) (ch : Nat) :
    (specNeighbourMin src x y ch : ℚ) ≤ specBilinearChannel src x y ch ∧
      specBilinearChannel src x y ch ≤ (specNeighbourMax src x y ch : ℚ) := by
  have hx0 : 0 ≤ x - ⌊x⌋ := sub_nonneg.mpr (Int.floor_le x)
  have hx1 : x - ⌊x⌋ ≤ 1 := by have := Int.lt_floor_add_one x; linarith
  have hy0 : 0 ≤ y - ⌊y⌋ := sub_nonneg.mpr (Int.floor_le y)
  have hy1 : y - ⌊y⌋ ≤ 1 := by have := Int.lt_floor_add_one y; linarith
  have lo : ∀ a b c d : Nat, ((min (min a b) (min c d) : Nat) : ℚ) ≤ a ∧
      ((min (min a b) (min c d) : Nat) : ℚ) ≤ b ∧ ((min (min a b) (min c d) : Nat) : ℚ) ≤ c ∧
      ((min (min a b) (min c d) : Nat) : ℚ) ≤ d := by
    intro a b c d
    refine ⟨?_, ?_, ?_, ?_⟩ <;> exact_mod_cast (by omega)
  have hi : ∀ a b c d : Nat, (a : ℚ) ≤ ((max (max a b) (max c d) : Nat) : ℚ) ∧
      (b : ℚ) ≤ ((max (max a b) (max c d) : Nat) : ℚ) ∧
      (c : ℚ) ≤ ((max (max a b) (max c d) : Nat) : ℚ) ∧
      (d : ℚ) ≤ ((max (max a b) (max c d) : Nat) : ℚ) := by
    intro a b c d
    refine ⟨?_, ?_, ?_, ?_⟩ <;> exact_mod_cast (by omega)
  obtain ⟨l1, l2, l3, l4⟩ := lo ((src.data ⌊y⌋.toNat ⌊x⌋.toNat).get ch).val
    ((src.data ⌊y⌋.toNat (⌊x⌋.toNat + 1)).get ch).val
    ((src.data (⌊y⌋.toNat + 1) ⌊x⌋.toNat).get ch).val
    ((src.data (⌊y⌋.toNat + 1) (⌊x⌋.toNat + 1)).get ch).val
  obtain ⟨u1, u2, u3, u4⟩ := hi ((src.data ⌊y⌋.toNat ⌊x⌋.toNat).get ch).val
    ((src.data ⌊y⌋.toNat (⌊x⌋.toNat + 1)).get ch).val
    ((src.data (⌊y⌋.toNat + 1) ⌊x⌋.toNat).get ch).val
    ((src.data (⌊y⌋.toNat + 1) (⌊x⌋.toNat + 1)).get ch).val
  have top := lerp_between (x - ⌊x⌋) _ _ _ _ hx0 hx1 l1 u1 l2 u2
  have bottom := lerp_between (x - ⌊x⌋) _ _ _ _ hx0 hx1 l3 u3 l4 u4
  exact lerp_between (y - ⌊y⌋) _ _ _ _ hy0 hy1 top.1 top.2 bottom.1 bottom.2

/-- What the bilinear branches write at a coordinate `(x, y)` with `0 ≤ x < cols - 1` and
`0 ≤ y < rows - 1`: the weights lie in `[0, 1)`, the four neighbours lie inside the source, and
every channel is the truncation of a value that lies between the smallest and the largest
neighbouring channel value, hence in `[0, 255]`. -/
theorem specBilinear_convex (src : Mat Vec3b) (x y : ℚ)
    (hx0 : 0 ≤ x) (hx1 : x < (src.cols : ℚ) - 1) (hy0 : 0 ≤ y) (hy1 : y < (src.rows : ℚ) - 1) :
    (0 ≤ x - ⌊x⌋ ∧ x - ⌊x⌋ < 1 ∧ 0 ≤ y - ⌊y⌋ ∧ y - ⌊y⌋ < 1) ∧
    (⌊x⌋.toNat + 1 < src.cols ∧ ⌊y⌋.toNat + 1 < src.rows) ∧
    ∀ ch : Nat, ch < 3 →
      (specNeighbourMin src x y ch : ℚ) ≤ specBilinearChannel src x y ch ∧
      specBilinearChannel src x y ch ≤ (specNeighbourMax src x y ch : ℚ) ∧
      0 ≤ specBilinearChannel src x y ch ∧ specBilinearChannel src x y ch ≤ 255 ∧
      0 ≤ toInt (specBilinearChannel src x y ch) ∧
      toInt (specBilinearChannel src x y ch) ≤ 255 ∧
      ((((specBilinear src x y).get ch).val : Nat) : Int) =
        toInt (specBilinearChannel src x y ch) ∧
      specNeighbourMin src x y ch ≤ ((specBilinear src x y).get ch).val ∧
      ((specBilinear src x y).get ch).val ≤ specNeighbourMax src x y ch := by
  have fx0 : 0 ≤ ⌊x⌋ := Int.floor_nonneg.mpr hx0
  have fy0 : 0 ≤ ⌊y⌋ := Int.floor_nonneg.mpr hy0
  have fx1 : ⌊x⌋ < (src.cols : Int) - 1 := Int.floor_lt.mpr (by push_cast; exact hx1)
  have fy1 : ⌊y⌋ < (src.rows : Int) - 1 := Int.floor_lt.mpr (by push_cast; exact hy1)
  refine ⟨⟨sub_nonneg.mpr (Int.floor_le x), ?_, sub_nonneg.mpr (Int.floor_le y), ?_⟩,
    ⟨by omega, by omega⟩, ?_⟩
  · have := Int.lt_floor_add_one x; linarith
  · have := Int.lt_floor_add_one y; linarith
  · intro ch hch
    obtain ⟨b0, b1⟩ := specBilinearChannel_bounds src x y ch
    obtain ⟨m0, m1⟩ := specBilinearChannel_between src x y ch
    have hg := specBilinear_get src x y ch hch
    have ht : toInt (specBilinearChannel src x y ch) = ⌊specBilinearChannel src x y ch⌋ :=
      toInt_of_nonneg _ b0
    have t0 : 0 ≤ ⌊specBilinearChannel src x y ch⌋ := Int.floor_nonneg.mpr b0
    have t1 : ⌊specBilinearChannel src x y ch⌋ ≤ 255 := by
      have h := Int.floor_le (specBilinearChannel src x y ch)
      have h2 : ((⌊specBilinearChannel src x y ch⌋ : Int) : ℚ) ≤ ((255 : Int) : ℚ) := by
        push_cast; linarith
      exact_mod_cast h2
    have t2 : (specNeighbourMin src x y ch : Int) ≤ ⌊specBilinearChannel src x y ch⌋ := by
      apply Int.le_floor.mpr
      push_cast; exact m0
    have t3 : ⌊specBilinearChannel src x y ch⌋ ≤ (specNeighbourMax src x y ch : Int) := by
      have h := Int.floor_le (specBilinearChannel src x y ch)
      have h2 : ((⌊specBilinearChannel src x y ch⌋ : Int) : ℚ) ≤
          (((specNeighbourMax src x y ch : Nat) : Int) : ℚ) := by
        push_cast; linarith
      exact_mod_cast h2
    rw [ht] at hg ⊢
    refine ⟨m0, m1, b0, b1, t0, t1, hg, ?_, ?_⟩
    · omega
    · omega

/-- C28.  Bilinear output is a convex combination.  For a source with at least two columns and
two rows and a map cell with coordinate `(x, y)`: `Remap` with LINEAR + CONSTANT at a coordinate
of the region `0 ≤ x < cols - 1`, `0 ≤ y < rows - 1`, and `Remap` with LINEAR + REPLICATE at
every coordinate (after its clamp to `(x', y')`), write a pixel for which the weights
`fx = x - floor(x)`, `fy = y - floor(y)` lie in `[0, 1)`, the four neighbours lie inside the
source, and every channel is the truncation of an interpolated value that lies between the
smallest and the largest of the four neighbouring channel values, hence in `[0, 255]`: the
conversion to 8 bits does not wrap.  Arithmetic on coordinates and weights is exact. -/
theorem C28_bilinear_convex (src : Mat Vec3b) (map1 map2 : Mat ℚ) (b : Fin 256)
    (row col : Nat) (x y : ℚ) (hc : 2 ≤ src.cols) (hr : 2 ≤ src.rows)
    (hrow : row < map1.rows) (hcol : col < map1.cols)
    (hx : map1.data row col = x) (hy : map2.data row col = y) :
    ((0 ≤ x ∧ x < (src.cols : ℚ) - 1 ∧ 0 ≤ y ∧ y < (src.rows : ℚ) - 1) →
      ∃ d, Remap src map1 map2 Interpolation.LINEAR BorderMode.CONSTANT b = some d ∧
        (0 ≤ x - ⌊x⌋ ∧ x - ⌊x⌋ < 1 ∧ 0 ≤ y - ⌊y⌋ ∧ y - ⌊y⌋ < 1) ∧
        (⌊x⌋.toNat + 1 < src.cols ∧ ⌊y⌋.toNat + 1 < src.rows) ∧
        ∀ ch : Nat, ch < 3 →
          (specNeighbourMin src x y ch : ℚ) ≤ specBilinearChannel src x y ch ∧
          specBilinearChannel src x y ch ≤ (specNeighbourMax src x y ch : ℚ) ∧
          0 ≤ specBilinearChannel src x y ch ∧ specBilinearChannel src x y ch ≤ 255 ∧
          0 ≤ toInt (specBilinearChannel src x y ch) ∧
          toInt (specBilinearChannel src x y ch) ≤ 255 ∧
          ((((d.data row col).get ch).val : Nat) : Int) =
            toInt (specBilinearChannel src x y ch) ∧
          specNeighbourMin src x y ch ≤ ((d.data row col).get ch).val ∧
          ((d.data row col).get ch).val ≤ specNeighbourMax src x y ch) ∧
    (∃ d, Remap src map1 map2 Interpolation.LINEAR BorderMode.REPLICATE b = some d ∧
      (0 ≤ linearClamp src.cols x - ⌊linearClamp src.cols x⌋ ∧
        linearClamp src.cols x - ⌊linearClamp src.cols x⌋ < 1 ∧
        0 ≤ linearClamp src.rows y - ⌊linearClamp src.rows y⌋ ∧
        linearClamp src.rows y - ⌊linearClamp src.rows y⌋ < 1) ∧
      (⌊linearClamp src.cols x⌋.toNat + 1 < src.cols ∧
        ⌊linearClamp src.rows y⌋.toNat + 1 < src.rows) ∧
      ∀ ch : Nat, ch < 3 →
        (specNeighbourMin src (linearClamp src.cols x) (linearClamp src.rows y) ch : ℚ) ≤
          specBilinearChannel src (linearClamp src.cols x) (linearClamp src.rows y) ch ∧
        specBilinearChannel src (linearClamp src.cols x) (linearClamp src.rows y) ch ≤
          (specNeighbourMax src (linearClamp src.cols x) (linearClamp src.rows y) ch : ℚ) ∧
        0 ≤ specBilinearChannel src (linearClamp src.cols x) (linearClamp src.rows y) ch ∧
        specBilinearChannel src (linearClamp src.cols x) (linearClamp src.rows y) ch ≤ 255 ∧
        0 ≤ toInt (specBilinearChannel src (linearClamp src.cols x)
          (linearClamp src.rows y) ch) ∧
        toInt (specBilinearChannel src (linearClamp src.cols x)
          (linearClamp src.rows y) ch) ≤ 255 ∧
        ((((d.data row col).get ch).val : Nat) : Int) =
          toInt (specBilinearChannel src (linearClamp src.cols x)
            (linearClamp src.rows y) ch) ∧
        specNeighbourMin src (linearClamp src.cols x) (linearClamp src.rows y) ch ≤
          ((d.data row col).get ch).val ∧
        ((d.data row col).get ch).val ≤
          specNeighbourMax src (linearClamp src.cols x) (linearClamp src.rows y) ch) := by
  constructor
  · rintro ⟨hx0, hx1, hy0, hy1⟩
    obtain ⟨d, hd, -, -, hcell⟩ := Remap_linear_constant_cells src map1 map2 b
    have e := hcell row col hrow hcol
    rw [hx, hy, linearConstant_inside src b x y hx0 hx1 hy0 hy1] at e
    have e' : d.data row col = specBilinear src x y := (Option.some.inj e).symm
    refine ⟨d, hd, ?_⟩
    rw [e']
    exact specBilinear_convex src x y hx0 hx1 hy0 hy1
  · obtain ⟨d, hd, -, -, hcell⟩ := Remap_linear_replicate_cells src map1 map2 b hc hr
    have e := hcell row col hrow hcol
    rw [hx, hy, linearReplicate_clamp src x y hc hr] at e
    have e' : d.data row col =
        specBilinear src (linearClamp src.cols x) (linearClamp src.rows y) :=
      (Option.some.inj e).symm
    obtain ⟨cx0, cx1⟩ := linearClamp_range src.cols hc x
    obtain ⟨cy0, cy1⟩ := linearClamp_range src.rows hr y
    refine ⟨d, hd, ?_⟩
    rw [e']
    exact specBilinear_convex src _ _ cx0 cx1 cy0 cy1

/-- Witness of C28: the 4x4 ramp image and a 1x1 map with the cell `(1/2, 1)`; the channels
written under both border modes lie between the smallest and the largest neighbour. -/
theorem C28_bilinear_convex_witness :
    (∃ d, Remap (rampImage 4 4) (constMap 1 1 (1 / 2)) (constMap 1 1 1) Interpolation.LINEAR
        BorderMode.CONSTANT 9 = some d ∧
      ∀ ch : Nat, ch < 3 →
        specNeighbourMin (rampImage 4 4) (1 / 2) 1 ch ≤ ((d.data 0 0).get ch).val ∧
        ((d.data 0 0).get ch).val ≤ specNeighbourMax (rampImage 4 4) (1 / 2) 1 ch) ∧
    (∃ d, Remap (rampImage 4 4) (constMap 1 1 (1 / 2)) (constMap 1 1 1) Interpolation.LINEAR
        BorderMode.REPLICATE 9 = some d ∧
      ∀ ch : Nat, ch < 3 →
        ((((d.data 0 0).get ch).val : Nat) : Int) =
          toInt (specBilinearChannel (rampImage 4 4)
            (linearClamp (rampImage 4 4).cols (1 / 2))
            (linearClamp (rampImage 4 4).rows 1) ch)) := by
  have h := C28_bilinear_convex (rampImage 4 4) (constMap 1 1 (1 / 2)) (constMap 1 1 1) 9 0 0
    (1 / 2) 1 (by decide) (by decide) (by decide) (by decide) rfl rfl
  have hin : (0 : ℚ) ≤ 1 / 2 ∧ (1 / 2 : ℚ) < (((rampImage 4 4).cols : Nat) : ℚ) - 1 ∧
      (0 : ℚ) ≤ 1 ∧ (1 : ℚ) < (((rampImage 4 4).rows : Nat) : ℚ) - 1 := by
    have e1 : (rampImage 4 4).cols = 4 := rfl
    have e2 : (rampImage 4 4).rows = 4 := rfl
    rw [e1, e2]
    norm_num
  obtain ⟨d1, hd1, -, -, k1⟩ := h.1 hin
  obtain ⟨d2, hd2, -, -, k2⟩ := h.2
  exact ⟨⟨d1, hd1, fun ch hch => ⟨(k1 ch hch).2.2.2.2.2.2.2.1, (k1 ch hch).2.2.2.2.2.2.2.2⟩⟩,
    ⟨d2, hd2, fun ch hch => (k2 ch hch).2.2.2.2.2.2.1⟩⟩

/-- C29.  The border policy only matters outside the valid region.  For every source, border
value and map cell with coordinate `(x, y)`: if `0 ≤ x < cols` and `0 ≤ y < rows`, `Remap`
with NEAREST + REPLICATE and with NEAREST + CONSTANT write the same pixel (the source pixel at
row `floor(y)`, column `floor(x)`); if `0 ≤ x < cols - 1` and `0 ≤ y < rows - 1`, `Remap` with
LINEAR + REPLICATE and with LINEAR + CONSTANT write the same pixel. -/
theorem C29_border_policy_inside (src : Mat Vec3b) (map1 map2 : Mat ℚ) (b : Fin 256)
    (row col : Nat) (x y : ℚ) (hrow : row < map1.rows) (hcol : col < map1.cols)
    (hx : map1.data row col = x) (hy : map2.data row col = y) :
    ((0 ≤ x ∧ x < (src.cols : ℚ) ∧ 0 ≤ y ∧ y < (src.rows : ℚ)) →
      ∃ dr dc,
        Remap src map1 map2 Interpolation.NEAREST BorderMode.REPLICATE b = some dr ∧
        Remap src map1 map2 Interpolation.NEAREST BorderMode.CONSTANT b = some dc ∧
        dr.data row col = dc.data row col ∧
        dc.data row col = src.data ⌊y⌋.toNat ⌊x⌋.toNat) ∧
    ((0 ≤ x ∧ x < (src.cols : ℚ) - 1 ∧ 0 ≤ y ∧ y < (src.rows : ℚ) - 1) →
      ∃ dr dc,
        Remap src map1 map2 Interpolation.LINEAR BorderMode.REPLICATE b = some dr ∧
        Remap src map1 map2 Interpolation.LINEAR BorderMode.CONSTANT b = some dc ∧
        dr.data row col = dc.data row col ∧
        dc.data row col = specBilinear src x y) := by
  constructor
  · rintro ⟨hx0, hx1, hy0, hy1⟩
    have hc : 1 ≤ src.cols := by
      have h : (0 : ℚ) < (src.cols : ℚ) := lt_of_le_of_lt hx0 hx1
      have h2 : 0 < src.cols := by exact_mod_cast h
      omega
    have hr : 1 ≤ src.rows := by
      have h : (0 : ℚ) < (src.rows : ℚ) := lt_of_le_of_lt hy0 hy1
      have h2 : 0 < src.rows := by exact_mod_cast h
      omega
    obtain ⟨dr, er, -, -, cr⟩ := Remap_nearest_replicate_cells src map1 map2 b hc hr
    obtain ⟨dc, ec, -, -, cc⟩ := Remap_nearest_constant_cells src map1 map2 b
    have kr := cr row col hrow hcol
    have kc := cc row col hrow hcol
    rw [hx, hy] at kr kc
    rw [nearestReplicate_inside src x y hx0 hx1 hy0 hy1] at kr
    obtain ⟨h1, h2⟩ := nearestConstant_inside src b x y hx0 hx1 hy0 hy1
    rw [h1, h2] at kc
    have vr := (Option.some.inj kr).symm
    have vc := (Option.some.inj kc).symm
    exact ⟨dr, dc, er, ec, by rw [vr, vc], vc⟩
  · rintro ⟨hx0, hx1, hy0, hy1⟩
    have hc : 2 ≤ src.cols := by
      have h : (1 : ℚ) < (src.cols : ℚ) := by linarith
      have h2 : 1 < src.cols := by exact_mod_cast h
      omega
    have hr : 2 ≤ src.rows := by
      have h : (1 : ℚ) < (src.rows : ℚ) := by linarith
      have h2 : 1 < src.rows := by exact_mod_cast h
      omega
    obtain ⟨dr, er, -, -, cr⟩ := Remap_linear_replicate_cells src map1 map2 b hc hr
    obtain ⟨dc, ec, -, -, cc⟩ := Remap_linear_constant_cells src map1 map2 b
    have kr := cr row col hrow hcol
    have kc := cc row col hrow hcol
    rw [hx, hy] at kr kc
    rw [linearReplicate_clamp src x y hc hr, linearClamp_inside _ x hx0 hx1,
      linearClamp_inside _ y hy0 hy1] at kr
    rw [linearConstant_inside src b x y hx0 hx1 hy0 hy1] at kc
    have vr := (Option.some.inj kr).symm
    have vc := (Option.some.inj kc).symm
    exact ⟨dr, dc, er, ec, by rw [vr, vc], vc⟩

/-- Witness of C29: the 4x4 ramp image and a 1x1 map with the cell `(1/2, 1)`, which lies in
both regions. -/
theorem C29_border_policy_inside_witness :
    (∃ dr dc,
      Remap (rampImage 4 4) (constMap 1 1 (1 / 2)) (constMap 1 1 1) Interpolation.NEAREST
        BorderMode.REPLICATE 9 = some dr ∧
      Remap (rampImage 4 4) (constMap 1 1 (1 / 2)) (constMap 1 1 1) Interpolation.NEAREST
        BorderMode.CONSTANT 9 = some dc ∧
      dr.data 0 0 = dc.data 0 0) ∧
    (∃ dr dc,
      Remap (rampImage 4 4) (constMap 1 1 (1 / 2)) (constMap 1 1 1) Interpolation.LINEAR
        BorderMode.REPLICATE 9 = some dr ∧
      Remap (rampImage 4 4) (constMap 1 1 (1 / 2)) (constMap 1 1 1) Interpolation.LINEAR
        BorderMode.CONSTANT 9 = some dc ∧
      dr.data 0 0 = dc.data 0 0) := by
  have h := C29_border_policy_inside (rampImage 4 4) (constMap 1 1 (1 / 2)) (constMap 1 1 1) 9
    0 0 (1 / 2) 1 (by decide) (by decide) rfl rfl
  have e1 : (rampImage 4 4).cols = 4 := rfl
  have e2 : (rampImage 4 4).rows = 4 := rfl
  have hin1 : (0 : ℚ) ≤ 1 / 2 ∧ (1 / 2 : ℚ) < (((rampImage 4 4).cols : Nat) : ℚ) ∧
      (0 : ℚ) ≤ 1 ∧ (1 : ℚ) < (((rampImage 4 4).rows : Nat) : ℚ) := by
    rw [e1, e2]; norm_num
  have hin2 : (0 : ℚ) ≤ 1 / 2 ∧ (1 / 2 : ℚ) < (((rampImage 4 4).cols : Nat) : ℚ) - 1 ∧
      (0 : ℚ) ≤ 1 ∧ (1 : ℚ) < (((rampImage 4 4).rows : Nat) : ℚ) - 1 := by
    rw [e1, e2]; norm_num
  obtain ⟨dr, dc, er, ec, k, -⟩ := h.1 hin1
  obtain ⟨dr2, dc2, er2, ec2, k2, -⟩ := h.2 hin2
  exact ⟨⟨dr, dc, er, ec, k⟩, ⟨dr2, dc2, er2, ec2, k2⟩⟩

/-- C30.  Bilinear interpolation reproduces grid samples.  At a map cell whose coordinate is an
integer grid point `(x, y)` with `0 ≤ x ≤ cols - 2` and `0 ≤ y ≤ rows - 2`, `Remap` with LINEAR
writes the source pixel of row `y`, column `x` under the CONSTANT and under the REPLICATE
border, and `Remap` with NEAREST writes that same pixel under both borders. -/
theorem C30_bilinear_grid_samples (src : Mat Vec3b) (map1 map2 : Mat ℚ) (b : Fin 256)
    (border_mode : BorderMode) (row col : Nat) (xi yi : Int)
    (hmode : border_mode = BorderMode.CONSTANT ∨ border_mode = BorderMode.REPLICATE)
    (hrow : row < map1.rows) (hcol : col < map1.cols)
    (hx : map1.data row col = (xi : ℚ)) (hy : map2.data row col = (yi : ℚ))
    (hx0 : 0 ≤ xi) (hx1 : xi ≤ (src.cols : Int) - 2)
    (hy0 : 0 ≤ yi) (hy1 : yi ≤ (src.rows : Int) - 2) :
    (∃ dl, Remap src map1 map2 Interpolation.LINEAR border_mode b = some dl ∧
      dl.data row col = src.data yi.toNat xi.toNat) ∧
    (∃ dn, Remap src map1 map2 Interpolation.NEAREST border_mode b = some dn ∧
      dn.data row col = src.data yi.toNat xi.toNat) := by
  have hcols : 2 ≤ src.cols := by omega
  have hrows : 2 ≤ src.rows := by omega
  obtain ⟨vnc, vnr, vlc, vlr⟩ := cell_bodies_at_grid_point src b xi yi hx0 hx1 hy0 hy1
  rcases hmode with rfl | rfl
  · obtain ⟨d1, e1, -, -, c1⟩ := Remap_linear_constant_cells src map1 map2 b
    obtain ⟨d2, e2, -, -, c2⟩ := Remap_nearest_constant_cells src map1 map2 b
    have k1 := c1 row col hrow hcol
    have k2 := c2 row col hrow hcol
    rw [hx, hy] at k1 k2
    rw [vlc] at k1
    rw [vnc] at k2
    exact ⟨⟨d1, e1, (Option.some.inj k1).symm⟩, ⟨d2, e2, (Option.some.inj k2).symm⟩⟩
  · obtain ⟨d1, e1, -, -, c1⟩ := Remap_linear_replicate_cells src map1 map2 b hcols hrows
    obtain ⟨d2, e2, -, -, c2⟩ :=
      Remap_nearest_replicate_cells src map1 map2 b (by omega) (by omega)
    have k1 := c1 row col hrow hcol
    have k2 := c2 row col hrow hcol
    rw [hx, hy] at k1 k2
    rw [vlr] at k1
    rw [vnr] at k2
    exact ⟨⟨d1, e1, (Option.some.inj k1).symm⟩, ⟨d2, e2, (Option.some.inj k2).symm⟩⟩

/-- Witness of C30: the 4x4 ramp image under the identity map, at cell `(2, 1)`, with the
REPLICATE border. -/
theorem C30_bilinear_grid_samples_witness :
    (∃ dl, Remap (rampImage 4 4) (colMap 4 4) (rowMap 4 4) Interpolation.LINEAR
        BorderMode.REPLICATE 9 = some dl ∧
      dl.data 2 1 = (rampImage 4 4).data (2 : Int).toNat (1 : Int).toNat) ∧
    (∃ dn, Remap (rampImage 4 4) (colMap 4 4) (rowMap 4 4) Interpolation.NEAREST
        BorderMode.REPLICATE 9 = some dn ∧
      dn.data 2 1 = (rampImage 4 4).data (2 : Int).toNat (1 : Int).toNat) :=
  C30_bilinear_grid_samples (rampImage 4 4) (colMap 4 4) (rowMap 4 4) 9 BorderMode.REPLICATE
    2 1 1 2 (Or.inr rfl) (by decide) (by decide) (by simp [colMap]) (by simp [rowMap])
    (by decide) (by decide) (by decide) (by decide)

/-! ## MapRST: the size of the identity map -/

/-- C26.  Identity RST output size (`cos(angle) = 1`, `sin(angle) = 0`, unit scales, zero
translation): both maps have exactly `2 * floor(H / 2)` rows and `2 * floor(W / 2)` columns for
a source of `H` rows and `W` columns; the maps have the size of the source if and only if `W`
and `H` are both even, and an odd dimension loses exactly one row or column. -/
theorem C26_identity_output_size (src : Mat Vec3b) :
    (MapRST src 1 0 1 1 0 0).map1.rows = 2 * (src.rows / 2) ∧
    (MapRST src 1 0 1 1 0 0).map1.cols = 2 * (src.cols / 2) ∧
    (MapRST src 1 0 1 1 0 0).map2.rows = 2 * (src.rows / 2) ∧
    (MapRST src 1 0 1 1 0 0).map2.cols = 2 * (src.cols / 2) ∧
    (((MapRST src 1 0 1 1 0 0).map1.rows = src.rows ∧
        (MapRST src 1 0 1 1 0 0).map1.cols = src.cols) ↔
      (src.cols % 2 = 0 ∧ src.rows % 2 = 0)) ∧
    (src.rows % 2 = 1 → (MapRST src 1 0 1 1 0 0).map1.rows + 1 = src.rows) ∧
    (src.cols % 2 = 1 → (MapRST src 1 0 1 1 0 0).map1.cols + 1 = src.cols) := by
  obtain ⟨-, s1, s2, s3, s4⟩ := MapRST_identity_shape src
  refine ⟨s1, s2, s3, s4, ?_, ?_, ?_⟩
  · rw [s1, s2]
    constructor
    · rintro ⟨h1, h2⟩
      constructor <;> omega
    · rintro ⟨h1, h2⟩
      constructor <;> omega
  · intro h; rw [s1]; omega
  · intro h; rw [s2]; omega

/-! ## MapGCP: the loop nest over the monomials -/

/-- A relation between two loop states that every pair of bodies preserves holds after the
loops. -/
theorem loopRange_related {σ τ : Type} (R : σ → τ → Prop) (f : Nat → σ → σ) (g : Nat → τ → τ)
    (h : ∀ i s t, R s t → R (f i s) (g i t)) :
    ∀ (n : Nat) (s : σ) (t : τ), R s t → R (loopRange n f s) (loopRange n g t) := by
  intro n
  induction n with
  | zero =>
    intro s t hst
    rw [loopRange_zero, loopRange_zero]
    exact hst
  | succ n ih =>
    intro s t hst
    rw [loopRange_succ, loopRange_succ]
    exact h n _ _ (ih s t hst)

/-- A property of the loop state that holds before the loop and is carried from step `i` to
step `i + 1` by the body holds after the loop. -/
theorem loopRange_invariant {σ : Type} (I : Nat → σ → Prop) (body : Nat → σ → σ) (init : σ)
    (n : Nat) (h0 : I 0 init) (hstep : ∀ i s, i < n → I i s → I (i + 1) (body i s)) :
    I n (loopRange n body init) := by
  have key : ∀ m, m ≤ n → I m (loopRange m body init) := by
    intro m
    induction m with
    | zero => intro _; rw [loopRange_zero]; exact h0
    | succ m ih =>
      intro hm
      rw [loopRange_succ]
      exact hstep m _ (by omega) (ih (by omega))
  exact key n (le_refl n)

theorem gcpWidth_succ (n : Nat) : (n + 1) * (n + 2) / 2 = n * (n + 1) / 2 + (n + 1) := by
  have e : (n + 1) * (n + 2) = n * (n + 1) + 2 * (n + 1) := by ring
  rw [e, Nat.add_mul_div_left _ _ (by decide : 0 < 2)]

/-- The bookkeeping of the loop nest: after the rows `i = 0..n-1` the running index is
`n * (n + 1) / 2`, the indices entered so far are `0, 1, ..., n * (n + 1) / 2 - 1` in this
order, and every entered triple `(idx, i, j)` has `j ≤ i < n` and `idx = i * (i + 1) / 2 + j`. -/
theorem gcpVisits_rows (n : Nat) :
    (loopRange n (fun i (st : List (Nat × Nat × Nat) × Nat) =>
      loopRange (i + 1) (fun j (st : List (Nat × Nat × Nat) × Nat) =>
        (st.1 ++ [(st.2, i, j)], st.2 + 1)) st) ([], 0)).2 = n * (n + 1) / 2 ∧
    (loopRange n (fun i (st : List (Nat × Nat × Nat) × Nat) =>
      loopRange (i + 1) (fun j (st : List (Nat × Nat × Nat) × Nat) =>
        (st.1 ++ [(st.2, i, j)], st.2 + 1)) st) ([], 0)).1.map (fun v => v.1) =
      List.range (n * (n + 1) / 2) ∧
    ∀ v ∈ (loopRange n (fun i (st : List (Nat × Nat × Nat) × Nat) =>
      loopRange (i + 1) (fun j (st : List (Nat × Nat × Nat) × Nat) =>
        (st.1 ++ [(st.2, i, j)], st.2 + 1)) st) ([], 0)).1,
      v.2.2 ≤ v.2.1 ∧ v.2.1 < n ∧ v.1 = v.2.1 * (v.2.1 + 1) / 2 + v.2.2 := by
  refine loopRange_invariant
    (fun n (st : List (Nat × Nat × Nat) × Nat) => st.2 = n * (n + 1) / 2 ∧
      st.1.map (fun v => v.1) = List.range (n * (n + 1) / 2) ∧
      ∀ v ∈ st.1, v.2.2 ≤ v.2.1 ∧ v.2.1 < n ∧ v.1 = v.2.1 * (v.2.1 + 1) / 2 + v.2.2)
    _ _ n ⟨rfl, rfl, by simp⟩ ?_
  intro i st _ hI
  obtain ⟨h1, h2, h3⟩ := hI
  have inner := loopRange_invariant
    (fun m (s : List (Nat × Nat × Nat) × Nat) => s.2 = i * (i + 1) / 2 + m ∧
      s.1.map (fun v => v.1) = List.range (i * (i + 1) / 2 + m) ∧
      ∀ v ∈ s.1, v.2.2 ≤ v.2.1 ∧ v.2.1 < i + 1 ∧ v.1 = v.2.1 * (v.2.1 + 1) / 2 + v.2.2)
    (fun j (s : List (Nat × Nat × Nat) × Nat) => (s.1 ++ [(s.2, i, j)], s.2 + 1)) st (i + 1)
    ⟨h1, h2, fun v hv => ⟨(h3 v hv).1, Nat.lt_succ_of_lt (h3 v hv).2.1, (h3 v hv).2.2⟩⟩ ?_
  · obtain ⟨k1, k2, k3⟩ := inner
    have e : (i + 1) * (i + 1 + 1) / 2 = i * (i + 1) / 2 + (i + 1) := gcpWidth_succ i
    refine ⟨by rw [k1, e], by rw [k2, e], k3⟩
  · intro j s hj hJ
    obtain ⟨k1, k2, k3⟩ := hJ
    refine ⟨by simp only [k1]; omega, ?_, ?_⟩
    · simp only [List.map_append, k2, k1, List.map_cons, List.map_nil]
      rw [← Nat.add_assoc, List.range_succ]
    · intro v hv
      rcases List.mem_append.mp hv with hv | hv
      · exact k3 v hv
      · have hv' : v = (s.2, i, j) := by simpa using hv
        subst hv'
        exact ⟨by simp only; omega, by simp only; omega, by simp only [k1]⟩

/-- The loop nest of a design-matrix row (and of the evaluation) with an arbitrary body `f`
that receives the running index and the loop variables: the result is the fold of `f` over
`gcpVisits order`. -/
theorem gcpLoop_eq_foldl {σ : Type} (f : Nat → Nat → Nat → σ → σ) (s0 : σ) (order : Nat) :
    (loopRange (order + 1) (fun i (st : σ × Nat) =>
      loopRange (i + 1) (fun j (st : σ × Nat) => (f st.2 i j st.1, st.2 + 1)) st) (s0, 0)).1 =
      (gcpVisits order).foldl (fun s v => f v.1 v.2.1 v.2.2 s) s0 := by
  have key := loopRange_related
    (fun (s : σ × Nat) (t : List (Nat × Nat × Nat) × Nat) =>
      s.2 = t.2 ∧ s.1 = t.1.foldl (fun s v => f v.1 v.2.1 v.2.2 s) s0)
    (fun i (st : σ × Nat) =>
      loopRange (i + 1) (fun j (st : σ × Nat) => (f st.2 i j st.1, st.2 + 1)) st)
    (fun i (st : List (Nat × Nat × Nat) × Nat) =>
      loopRange (i + 1) (fun j (st : List (Nat × Nat × Nat) × Nat) =>
        (st.1 ++ [(st.2, i, j)], st.2 + 1)) st)
    (by
      intro i s t hst
      refine loopRange_related
        (fun (s : σ × Nat) (t : List (Nat × Nat × Nat) × Nat) =>
          s.2 = t.2 ∧ s.1 = t.1.foldl (fun s v => f v.1 v.2.1 v.2.2 s) s0) _ _ ?_ (i + 1) s t hst
      intro j s t hst
      obtain ⟨h1, h2⟩ := hst
      refine ⟨by simp only [h1], ?_⟩
      simp only [List.foldl_append, List.foldl_cons, List.foldl_nil, h1, h2])
    (order + 1) (s0, 0) ([], 0) ⟨rfl, rfl⟩
  exact key.2

/-- The design-matrix row of one control point is the fold over `gcpVisits`: the visit
`(idx, i, j)` writes `P_x^(i-j) * P_y^j` to column `idx`. -/
theorem gcpDesignRow_eq_foldl (order : Nat) (P_x P_y : ℚ) (row_idx : Nat) (X_Mat : Mat ℚ) :
    gcpDesignRow order P_x P_y row_idx X_Mat =
      (gcpVisits order).foldl
        (fun m v => m.set row_idx v.1 (P_x ^ (v.2.1 - v.2.2) * P_y ^ v.2.2)) X_Mat :=
  gcpLoop_eq_foldl (fun idx i j (m : Mat ℚ) => m.set row_idx idx (P_x ^ (i - j) * P_y ^ j))
    X_Mat order

/-- The evaluation at a destination pixel is the fold over `gcpVisits`: the visit
`(idx, i, j)` adds `a(idx) * col^(i-j) * row^j` to `x` and `b(idx) * col^(i-j) * row^j` to
`y`. -/
theorem gcpEvaluate_eq_foldl (order : Nat) (a b : Nat → ℚ) (col row : Nat) :
    gcpEvaluate order a b col row =
      (gcpVisits order).foldl
        (fun xy v => (xy.1 + a v.1 * ((col : ℚ) ^ (v.2.1 - v.2.2) * (row : ℚ) ^ v.2.2),
          xy.2 + b v.1 * ((col : ℚ) ^ (v.2.1 - v.2.2) * (row : ℚ) ^ v.2.2))) (0, 0) := by
  have key := loopRange_related
    (fun (s : ℚ × ℚ × Nat) (t : (ℚ × ℚ) × Nat) => s.1 = t.1.1 ∧ s.2.1 = t.1.2 ∧ s.2.2 = t.2)
    (fun i (st : ℚ × ℚ × Nat) =>
      loopRange (i + 1) (fun j (st : ℚ × ℚ × Nat) =>
        let term : ℚ := (col : ℚ) ^ (i - j) * (row : ℚ) ^ j
        (st.1 + a st.2.2 * term, st.2.1 + b st.2.2 * term, st.2.2 + 1)) st)
    (fun i (st : (ℚ × ℚ) × Nat) =>
      loopRange (i + 1) (fun j (st : (ℚ × ℚ) × Nat) =>
        ((st.1.1 + a st.2 * ((col : ℚ) ^ (i - j) * (row : ℚ) ^ j),
          st.1.2 + b st.2 * ((col : ℚ) ^ (i - j) * (row : ℚ) ^ j)), st.2 + 1)) st)
    (by
      intro i s t hst
      refine loopRange_related
        (fun (s : ℚ × ℚ × Nat) (t : (ℚ × ℚ) × Nat) =>
          s.1 = t.1.1 ∧ s.2.1 = t.1.2 ∧ s.2.2 = t.2) _ _ ?_ (i + 1) s t hst
      intro j s t hst
      obtain ⟨h1, h2, h3⟩ := hst
      simp only [h1, h2, h3, and_self])
    (order + 1) (0, 0, 0) ((0, 0), 0) ⟨rfl, rfl, rfl⟩
  have fold := gcpLoop_eq_foldl
    (fun idx i j (xy : ℚ × ℚ) => (xy.1 + a idx * ((col : ℚ) ^ (i - j) * (row : ℚ) ^ j),
      xy.2 + b idx * ((col : ℚ) ^ (i - j) * (row : ℚ) ^ j))) (0, 0) order
  rw [← fold]
  simp only [gcpEvaluate]
  exact Prod.ext key.1 key.2.1

theorem gcpDesign_cols (order : Nat) (map_points : List Point) :
    (gcpDesign order map_points).cols = gcpWidth order ∧
      (gcpDesign order map_points).rows = map_points.length := by
  have hrow : ∀ (P_x P_y : ℚ) (row_idx : Nat) (m : Mat ℚ),
      (gcpDesignRow order P_x P_y row_idx m).cols = m.cols ∧
        (gcpDesignRow order P_x P_y row_idx m).rows = m.rows := by
    intro P_x P_y row_idx m
    rw [gcpDesignRow_eq_foldl]
    generalize gcpVisits order = l
    induction l generalizing m with
    | nil => exact ⟨rfl, rfl⟩
    | cons v l ih =>
      rw [List.foldl_cons]
      exact ih _
  have := loopRange_invariant
    (fun _ (m : Mat ℚ) => m.cols = gcpWidth order ∧ m.rows = map_points.length)
    (fun row_idx X_Mat =>
      gcpDesignRow order ((map_points.getD row_idx ⟨0, 0⟩).x : ℚ)
        ((map_points.getD row_idx ⟨0, 0⟩).y : ℚ) row_idx X_Mat)
    (Mat.create map_points.length (gcpWidth order) 0) map_points.length ⟨rfl, rfl⟩
    (fun i s _ hI => by
      obtain ⟨h1, h2⟩ := hrow ((map_points.getD i ⟨0, 0⟩).x : ℚ)
        ((map_points.getD i ⟨0, 0⟩).y : ℚ) i s
      exact ⟨by rw [h1, hI.1], by rw [h2, hI.2]⟩)
  exact this

/-- C27.  The monomial count matches the coefficient count.  For every `order`, the loop nest
`for i in 0..order, for j in 0..i` enters its body exactly `(order + 1) * (order + 2) / 2`
times; the running column index `idx` takes the values `0, 1, ..., (order+1)(order+2)/2 - 1`
in this order, each exactly once, so it stays below the number of columns of the design matrix
(which is the number of coefficients); every visit has `j ≤ i ≤ order` and
`idx = i * (i + 1) / 2 + j`.  The design-matrix row and the evaluation of the polynomial are
the folds of their loop bodies over this list of visits. -/
theorem C27_gcp_monomial_count (order : Nat) :
    (gcpVisits order).length = gcpWidth order ∧
    (gcpVisits order).map (fun v => v.1) = List.range (gcpWidth order) ∧
    (∀ v ∈ gcpVisits order, v.1 < gcpWidth order ∧ v.2.2 ≤ v.2.1 ∧ v.2.1 ≤ order ∧
      v.1 = v.2.1 * (v.2.1 + 1) / 2 + v.2.2) ∧
    (∀ map_points : List Point, (gcpDesign order map_points).cols = gcpWidth order) ∧
    (∀ (P_x P_y : ℚ) (row_idx : Nat) (X_Mat : Mat ℚ),
      gcpDesignRow order P_x P_y row_idx X_Mat =
        (gcpVisits order).foldl
          (fun m v => m.set row_idx v.1 (P_x ^ (v.2.1 - v.2.2) * P_y ^ v.2.2)) X_Mat) ∧
    (∀ (a b : Nat → ℚ) (col row : Nat),
      gcpEvaluate order a b col row =
        (gcpVisits order).foldl
          (fun xy v => (xy.1 + a v.1 * ((col : ℚ) ^ (v.2.1 - v.2.2) * (row : ℚ) ^ v.2.2),
            xy.2 + b v.1 * ((col : ℚ) ^ (v.2.1 - v.2.2) * (row : ℚ) ^ v.2.2))) (0, 0)) := by
  obtain ⟨-, h2, h3⟩ := gcpVisits_rows (order + 1)
  have hmap : (gcpVisits order).map (fun v => v.1) = List.range (gcpWidth order) := h2
  have hlen : (gcpVisits order).length = gcpWidth order := by
    have := congrArg List.length hmap
    simpa using this
  refine ⟨hlen, hmap, ?_, fun mp => (gcpDesign_cols order mp).1,
    gcpDesignRow_eq_foldl order, gcpEvaluate_eq_foldl order⟩
  intro v hv
  have hv3 := h3 v hv
  have hmem : v.1 ∈ (gcpVisits order).map (fun v => v.1) := List.mem_map_of_mem _ hv
  rw [hmap, List.mem_range] at hmem
  exact ⟨hmem, hv3.1, by omega, hv3.2.2⟩

/-! ## MapGCP: the order of the monomials -/

/-- The visits of the loop nest for `order = 2`. -/
theorem gcpVisits_two :
    gcpVisits 2 = [(0, 0, 0), (1, 1, 0), (2, 1, 1), (3, 2, 0), (4, 2, 1), (5, 2, 2)] := by
  decide

/-- The design-matrix row of order 2 written by the code: the columns `0..5` of row `row_idx`
hold `1, x, y, x^2, x*y, y^2`. -/
theorem gcpDesignRow_two (P_x P_y : ℚ) (row_idx : Nat) (X_Mat : Mat ℚ) :
    (gcpDesignRow 2 P_x P_y row_idx X_Mat).data row_idx 0 = 1 ∧
    (gcpDesignRow 2 P_x P_y row_idx X_Mat).data row_idx 1 = P_x ∧
    (gcpDesignRow 2 P_x P_y row_idx X_Mat).data row_idx 2 = P_y ∧
    (gcpDesignRow 2 P_x P_y row_idx X_Mat).data row_idx 3 = P_x ^ 2 ∧
    (gcpDesignRow 2 P_x P_y row_idx X_Mat).data row_idx 4 = P_x * P_y ∧
    (gcpDesignRow 2 P_x P_y row_idx X_Mat).data row_idx 5 = P_y ^ 2 := by
  rw [gcpDesignRow_eq_foldl, gcpVisits_two]
  simp [Mat.set]

/-- The polynomial of order 2 evaluated by the code at the pixel `(col, row)`. -/
theorem gcpEvaluate_two (a b : Nat → ℚ) (col row : Nat) :
    gcpEvaluate 2 a b col row =
      (a 0 + a 1 * (col : ℚ) + a 2 * (row : ℚ) + a 3 * (col : ℚ) ^ 2 +
          a 4 * ((col : ℚ) * (row : ℚ)) + a 5 * (row : ℚ) ^ 2,
        b 0 + b 1 * (col : ℚ) + b 2 * (row : ℚ) + b 3 * (col : ℚ) ^ 2 +
          b 4 * ((col : ℚ) * (row : ℚ)) + b 5 * (row : ℚ) ^ 2) := by
  rw [gcpEvaluate_eq_foldl, gcpVisits_two]
  simp

/-- C23 (the code departs from its header comment).  For `order = 2` the code orders the
monomials `1, x, y, x^2, x*y, y^2` (by total degree), in the design matrix and in the
evaluation alike, whereas the header comment documents `1, x, x^2, y, x*y, y^2`.  At the control
point `(2, 3)` column 2 of the design matrix holds `y = 3` where the documented list has
`x^2 = 4`, and column 3 holds `x^2 = 4` where the documented list has `y = 3`; at the pixel
`(col, row) = (2, 3)` the coefficient `a2` alone contributes `3 = row`, not `4 = col^2`. -/
theorem C23_term_order_differs :
    (∀ (P_x P_y : ℚ) (row_idx : Nat) (X_Mat : Mat ℚ),
      (gcpDesignRow 2 P_x P_y row_idx X_Mat).data row_idx 0 = 1 ∧
      (gcpDesignRow 2 P_x P_y row_idx X_Mat).data row_idx 1 = P_x ∧
      (gcpDesignRow 2 P_x P_y row_idx X_Mat).data row_idx 2 = P_y ∧
      (gcpDesignRow 2 P_x P_y row_idx X_Mat).data row_idx 3 = P_x ^ 2 ∧
      (gcpDesignRow 2 P_x P_y row_idx X_Mat).data row_idx 4 = P_x * P_y ∧
      (gcpDesignRow 2 P_x P_y row_idx X_Mat).data row_idx 5 = P_y ^ 2) ∧
    (∀ (a b : Nat → ℚ) (col row : Nat),
      gcpEvaluate 2 a b col row =
        (a 0 + a 1 * (col : ℚ) + a 2 * (row : ℚ) + a 3 * (col : ℚ) ^ 2 +
            a 4 * ((col : ℚ) * (row : ℚ)) + a 5 * (row : ℚ) ^ 2,
          b 0 + b 1 * (col : ℚ) + b 2 * (row : ℚ) + b 3 * (col : ℚ) ^ 2 +
            b 4 * ((col : ℚ) * (row : ℚ)) + b 5 * (row : ℚ) ^ 2)) ∧
    (gcpDesign 2 [⟨2, 3⟩]).data 0 2 = 3 ∧ (gcpDocumentedOrder2 2 3).getD 2 0 = 4 ∧
    (gcpDesign 2 [⟨2, 3⟩]).data 0 3 = 4 ∧ (gcpDocumentedOrder2 2 3).getD 3 0 = 3 ∧
    (gcpDesign 2 [⟨2, 3⟩]).data 0 2 ≠ (gcpDocumentedOrder2 2 3).getD 2 0 ∧
    gcpEvaluate 2 (fun idx => if idx = 2 then 1 else 0) (fun _ => 0) 2 3 = (3, 0) := by
  have hd : ∀ k, (gcpDesign 2 [⟨2, 3⟩]).data 0 k =
      (gcpDesignRow 2 2 3 0 (Mat.create 1 (gcpWidth 2) 0)).data 0 k := by
    intro k
    simp [gcpDesign, loopRange_succ, loopRange_zero]
  have hrow := gcpDesignRow_two 2 3 0 (Mat.create 1 (gcpWidth 2) 0)
  have h2 : (gcpDesign 2 [⟨2, 3⟩]).data 0 2 = 3 := by rw [hd, hrow.2.2.1]
  have h3 : (gcpDesign 2 [⟨2, 3⟩]).data 0 3 = 4 := by rw [hd, hrow.2.2.2.1]; norm_num
  have g2 : (gcpDocumentedOrder2 2 3).getD 2 0 = 4 := by
    simp [gcpDocumentedOrder2]; norm_num
  have g3 : (gcpDocumentedOrder2 2 3).getD 3 0 = 3 := by
    simp [gcpDocumentedOrder2]
  refine ⟨gcpDesignRow_two, gcpEvaluate_two, h2, g2, h3, g3, ?_, ?_⟩
  · rw [h2, g2]; norm_num
  · rw [gcpEvaluate_two]
    simp

/-! ## MapPolar: the loops -/

/-- A property of the loop state that holds before a loop with a fallible body and is carried
from step `i` to step `i + 1` by a successful body holds after the loop, and the loop
succeeds. -/
theorem forRange_invariant {σ : Type} (I : Nat → σ → Prop) (body : Nat → σ → Option σ)
    (init : σ) (n : Nat) (h0 : I 0 init)
    (hstep : ∀ i s, i < n → I i s → ∃ s', body i s = some s' ∧ I (i + 1) s') :
    ∃ s', forRange n body init = some s' ∧ I n s' := by
  have key : ∀ m, m ≤ n → ∃ s', forRange m body init = some s' ∧ I m s' := by
    intro m
    induction m with
    | zero => intro _; exact ⟨init, forRange_zero body init, h0⟩
    | succ m ih =>
      intro hm
      obtain ⟨s, hs, hI⟩ := ih (by omega)
      obtain ⟨s', hs', hI'⟩ := hstep m s (by omega) hI
      exact ⟨s', by rw [forRange_succ, hs, Option.some_bind, hs'], hI'⟩
  exact key n (le_refl n)

theorem setChecked_of_bounds {α : Type} (m : Mat α) (row col : Nat) (v : α)
    (hr : row < m.rows) (hc : col < m.cols) :
    m.setChecked row col v = some (m.set row col v) := by
  simp [Mat.setChecked, hr, hc]

/-- The first loop of `MapPolar` on a source with at least one row: it succeeds, row `0` of
both maps holds the centre, the other rows are untouched, and the vectors hold the cosine and
the sine of the sector angles. -/
theorem polarFirstLoop (libm : Libm) (rows cols : Nat) (centerX centerY : ℚ)
    (hr : 1 ≤ rows) :
    ∃ st, forRange cols (fun i (st : PolarState) => do
        let theta : ℚ := 2 * libm.M_PI * (i : ℚ) / (cols : ℚ)
        let map1 ← st.map1.setChecked 0 i centerX
        let map2 ← st.map2.setChecked 0 i centerY
        pure { cosValues := fun k => if k = i then libm.cos theta else st.cosValues k
               sinValues := fun k => if k = i then libm.sin theta else st.sinValues k
               map1 := map1
               map2 := map2 })
      { cosValues := fun _ => 0, sinValues := fun _ => 0,
        map1 := Mat.create rows cols 0, map2 := Mat.create rows cols 0 } = some st ∧
      st.map1.rows = rows ∧ st.map1.cols = cols ∧ st.map2.rows = rows ∧ st.map2.cols = cols ∧
      (∀ r c, st.map1.data r c = if r = 0 ∧ c < cols then centerX else 0) ∧
      (∀ r c, st.map2.data r c = if r = 0 ∧ c < cols then centerY else 0) ∧
      (∀ i, i < cols → st.cosValues i = libm.cos (2 * libm.M_PI * (i : ℚ) / (cols : ℚ))) ∧
      (∀ i, i < cols → st.sinValues i = libm.sin (2 * libm.M_PI * (i : ℚ) / (cols : ℚ))) := by
  have key := forRange_invariant
    (fun n (st : PolarState) =>
      st.map1.rows = rows ∧ st.map1.cols = cols ∧ st.map2.rows = rows ∧ st.map2.cols = cols ∧
      (∀ r c, st.map1.data r c = if r = 0 ∧ c < n then centerX else 0) ∧
      (∀ r c, st.map2.data r c = if r = 0 ∧ c < n then centerY else 0) ∧
      (∀ i, i < n → st.cosValues i = libm.cos (2 * libm.M_PI * (i : ℚ) / (cols : ℚ))) ∧
      (∀ i, i < n → st.sinValues i = libm.sin (2 * libm.M_PI * (i : ℚ) / (cols : ℚ))))
    (fun i (st : PolarState) => do
        let theta : ℚ := 2 * libm.M_PI * (i : ℚ) / (cols : ℚ)
        let map1 ← st.map1.setChecked 0 i centerX
        let map2 ← st.map2.setChecked 0 i centerY
        pure ({ cosValues := fun k => if k = i then libm.cos theta else st.cosValues k
                sinValues := fun k => if k = i then libm.sin theta else st.sinValues k
                map1 := map1
                map2 := map2 } : PolarState))
    { cosValues := fun _ => 0, sinValues := fun _ => 0,
      map1 := Mat.create rows cols 0, map2 := Mat.create rows cols 0 } cols
    ⟨rfl, rfl, rfl, rfl, by intro r c; simp [Mat.create], by intro r c; simp [Mat.create],
      by intro i hi; omega, by intro i hi; omega⟩
    (by
      intro i st hi hI
      obtain ⟨r1, c1, r2, c2, d1, d2, cv, sv⟩ := hI
      have w1 := setChecked_of_bounds st.map1 0 i centerX (by omega) (by omega)
      have w2 := setChecked_of_bounds st.map2 0 i centerY (by omega) (by omega)
      have hfill : ∀ (m : Mat ℚ) (v : ℚ) (r c : Nat),
          (∀ r c, m.data r c = if r = 0 ∧ c < i then v else 0) →
          (m.set 0 i v).data r c = if r = 0 ∧ c < i + 1 then v else 0 := by
        intro m v r c hm
        simp only [Mat.set, hm]
        by_cases h1 : r = 0 ∧ c = i
        · obtain ⟨rfl, rfl⟩ := h1
          simp
        · by_cases h2 : r = 0 ∧ c < i
          · have h3 : r = 0 ∧ c < i + 1 := ⟨h2.1, by omega⟩
            rw [if_neg h1, if_pos h2, if_pos h3]
          · have h3 : ¬ (r = 0 ∧ c < i + 1) := by
              rintro ⟨hr0, hc0⟩
              rcases Nat.lt_succ_iff_lt_or_eq.mp hc0 with hlt | heq
              · exact h2 ⟨hr0, hlt⟩
              · exact h1 ⟨hr0, heq⟩
            rw [if_neg h1, if_neg h2, if_neg h3]
      refine ⟨{ cosValues := fun k => if k = i then
                  libm.cos (2 * libm.M_PI * (i : ℚ) / (cols : ℚ)) else st.cosValues k
                sinValues := fun k => if k = i then
                  libm.sin (2 * libm.M_PI * (i : ℚ) / (cols : ℚ)) else st.sinValues k
                map1 := st.map1.set 0 i centerX
                map2 := st.map2.set 0 i centerY },
        by simp only [w1, w2, bind, Option.bind, pure], r1, c1, r2, c2,
        fun r c => hfill st.map1 centerX r c d1, fun r c => hfill st.map2 centerY r c d2,
        ?_, ?_⟩
      · intro k hk
        show (if k = i then libm.cos (2 * libm.M_PI * (i : ℚ) / (cols : ℚ))
          else st.cosValues k) = _
        by_cases hki : k = i
        · rw [if_pos hki, hki]
        · rw [if_neg hki]
          exact cv k (by omega)
      · intro k hk
        show (if k = i then libm.sin (2 * libm.M_PI * (i : ℚ) / (cols : ℚ))
          else st.sinValues k) = _
        by_cases hki : k = i
        · rw [if_pos hki, hki]
        · rw [if_neg hki]
          exact sv k (by omega))
  exact key

/-- The loop over the rings `j = 1, ..., numRings - 1` when the cell `(j, i)` of the two maps
is written with `f1 j i` and `f2 j i`: the rows `1..n` are filled, the others are untouched. -/
theorem fillRings_eq (f1 f2 : Nat → Nat → ℚ) (cols : Nat) (m1 m2 : Mat ℚ) (n : Nat) :
    loopRange n (fun k (maps : Mat ℚ × Mat ℚ) =>
        loopRange cols (fun i (maps : Mat ℚ × Mat ℚ) =>
          (maps.1.set (k + 1) i (f1 (k + 1) i), maps.2.set (k + 1) i (f2 (k + 1) i))) maps)
      (m1, m2) =
    ({ rows := m1.rows, cols := m1.cols,
       data := fun r c => if 1 ≤ r ∧ r < n + 1 ∧ c < cols then f1 r c else m1.data r c },
     { rows := m2.rows, cols := m2.cols,
       data := fun r c => if 1 ≤ r ∧ r < n + 1 ∧ c < cols then f2 r c else m2.data r c }) := by
  induction n with
  | zero =>
    rw [loopRange_zero]
    cases m1; cases m2
    simp only [Prod.mk.injEq, Mat.mk.injEq, true_and]
    constructor <;>
    · funext r c
      have h : ¬ (1 ≤ r ∧ r < 0 + 1 ∧ c < cols) := by omega
      simp only [h, if_false]
  | succ n ih =>
    rw [loopRange_succ, ih, fillMapsRow_eq f1 f2 (n + 1)]
    simp only [Prod.mk.injEq, Mat.mk.injEq, true_and]
    constructor <;>
    · funext r c
      by_cases hc : c < cols
      · by_cases h1 : r = n + 1
        · have h2 : 1 ≤ r ∧ r < n + 1 + 1 ∧ c < cols := ⟨by omega, by omega, hc⟩
          simp only [h1, hc, h2, and_self, if_true]
          simp
        · by_cases h2 : 1 ≤ r ∧ r < n + 1 ∧ c < cols
          · have h3 : 1 ≤ r ∧ r < n + 1 + 1 ∧ c < cols := ⟨h2.1, by omega, hc⟩
            simp only [h1, h2, h3, and_self, if_true, false_and, if_false]
          · have h3 : ¬ (1 ≤ r ∧ r < n + 1 + 1 ∧ c < cols) := by
              rintro ⟨a1, a2, a3⟩
              exact h2 ⟨a1, by omega, a3⟩
            simp only [h1, h2, h3, false_and, if_false]
      · have h2 : ¬ (1 ≤ r ∧ r < n + 1 ∧ c < cols) := fun h => hc h.2.2
        have h3 : ¬ (1 ≤ r ∧ r < n + 1 + 1 ∧ c < cols) := fun h => hc h.2.2
        have h4 : ¬ (r = n + 1 ∧ c < cols) := fun h => hc h.2
        simp only [h2, h3, h4, if_false]

/-- The cell written for sector `i` of ring `j`: the computed point when it lies inside the
source, the sentinel `(-1, -1)` otherwise. -/
theorem polarCell_write (cols rows : ℚ) (x y : ℚ) (j i : Nat) (maps : Mat ℚ × Mat ℚ) :
    (if x ≥ 0 ∧ x < cols ∧ y ≥ 0 ∧ y < rows then (maps.1.set j i x, maps.2.set j i y)
      else (maps.1.set j i (-1), maps.2.set j i (-1))) =
    (maps.1.set j i (if x ≥ 0 ∧ x < cols ∧ y ≥ 0 ∧ y < rows then x else -1),
     maps.2.set j i (if x ≥ 0 ∧ x < cols ∧ y ≥ 0 ∧ y < rows then y else -1)) := by
  by_cases h : x ≥ 0 ∧ x < cols ∧ y ≥ 0 ∧ y < rows
  · simp only [h, and_self, if_true]
  · simp only [h, if_false]

/-- What `MapPolar` returns on a source with at least one row, cell by cell: the flag is
`true`, both maps have the shape of the source, row `0` holds the centre, and the cell
`(j, i)` of a ring `j ≥ 1` holds the computed point when it lies inside the source and the
sentinel `(-1, -1)` otherwise. -/
theorem MapPolar_cells (libm : Libm) (src : Mat Vec3b) (use_log : Bool) (hr : 1 ≤ src.rows) :
    ∃ res, MapPolar libm src use_log = some res ∧ res.ok = true ∧
      res.map1.rows = src.rows ∧ res.map1.cols = src.cols ∧
      res.map2.rows = src.rows ∧ res.map2.cols = src.cols ∧
      (∀ i, i < src.cols → res.map1.data 0 i = (src.cols : ℚ) / 2 ∧
        res.map2.data 0 i = (src.rows : ℚ) / 2) ∧
      (∀ j i, 1 ≤ j → j < src.rows → i < src.cols →
        res.map1.data j i =
          (if (polarPoint libm src use_log j i).1 ≥ 0 ∧
              (polarPoint libm src use_log j i).1 < (src.cols : ℚ) ∧
              (polarPoint libm src use_log j i).2 ≥ 0 ∧
              (polarPoint libm src use_log j i).2 < (src.rows : ℚ)
            then (polarPoint libm src use_log j i).1 else -1) ∧
        res.map2.data j i =
          (if (polarPoint libm src use_log j i).1 ≥ 0 ∧
              (polarPoint libm src use_log j i).1 < (src.cols : ℚ) ∧
              (polarPoint libm src use_log j i).2 ≥ 0 ∧
              (polarPoint libm src use_log j i).2 < (src.rows : ℚ)
            then (polarPoint libm src use_log j i).2 else -1)) := by
  obtain ⟨st, hst, r1, c1, r2, c2, d1, d2, cv, sv⟩ :=
    polarFirstLoop libm src.rows src.cols ((src.cols : ℚ) / 2) ((src.rows : ℚ) / 2) hr
  simp only [MapPolar]
  rw [hst]
  simp only [Option.bind_eq_bind, Option.some_bind, Option.pure_def, polarCell_write]
  have fill := fillRings_eq
    (fun j i => if (src.cols : ℚ) / 2 +
          polarRho libm (polarRhoMax libm src use_log) src.rows use_log j * st.cosValues i ≥ 0 ∧
        (src.cols : ℚ) / 2 +
          polarRho libm (polarRhoMax libm src use_log) src.rows use_log j * st.cosValues i <
            (src.cols : ℚ) ∧
        (src.rows : ℚ) / 2 +
          polarRho libm (polarRhoMax libm src use_log) src.rows use_log j * st.sinValues i ≥ 0 ∧
        (src.rows : ℚ) / 2 +
          polarRho libm (polarRhoMax libm src use_log) src.rows use_log j * st.sinValues i <
            (src.rows : ℚ)
      then (src.cols : ℚ) / 2 +
          polarRho libm (polarRhoMax libm src use_log) src.rows use_log j * st.cosValues i
      else -1)
    (fun j i => if (src.cols : ℚ) / 2 +
          polarRho libm (polarRhoMax libm src use_log) src.rows use_log j * st.cosValues i ≥ 0 ∧
        (src.cols : ℚ) / 2 +
          polarRho libm (polarRhoMax libm src use_log) src.rows use_log j * st.cosValues i <
            (src.cols : ℚ) ∧
        (src.rows : ℚ) / 2 +
          polarRho libm (polarRhoMax libm src use_log) src.rows use_log j * st.sinValues i ≥ 0 ∧
        (src.rows : ℚ) / 2 +
          polarRho libm (polarRhoMax libm src use_log) src.rows use_log j * st.sinValues i <
            (src.rows : ℚ)
      then (src.rows : ℚ) / 2 +
          polarRho libm (polarRhoMax libm src use_log) src.rows use_log j * st.sinValues i
      else -1)
    src.cols st.map1 st.map2 (src.rows - 1)
  refine ⟨_, rfl, rfl, ?_, ?_, ?_, ?_, ?_, ?_⟩
  · rw [fill]; exact r1
  · rw [fill]; exact c1
  · rw [fill]; exact r2
  · rw [fill]; exact c2
  · intro i hi
    rw [fill]
    have h1 : (0 : Nat) = 0 ∧ i < src.cols := ⟨rfl, hi⟩
    simp only [d1, d2, h1, and_self, if_true]
    constructor
    · rw [if_neg (by omega)]
    · rw [if_neg (by omega)]
  · intro j i hj1 hj2 hi
    rw [fill]
    have h0 : 1 ≤ j ∧ j < src.rows - 1 + 1 ∧ i < src.cols := ⟨hj1, by omega, hi⟩
    simp only [h0, and_self, if_true, cv i hi, sv i hi, polarPoint]

/-! ## Claims about MapPolar -/

/-- C21.  Polar centre.  For every source with at least one row (and any number of columns),
with and without `use_log` and whatever the math library returns, `MapPolar` returns `true`,
its maps have the shape of the source, and row `0` of the maps holds the centre:
`map1(0, i) = cols / 2` and `map2(0, i) = rows / 2` (halving of real numbers) for every sector
`i` in `0..cols-1`. -/
theorem C21_polar_centre (libm : Libm) (src : Mat Vec3b) (use_log : Bool)
    (hr : 1 ≤ src.rows) :
    ∃ res, MapPolar libm src use_log = some res ∧ res.ok = true ∧
      res.map1.rows = src.rows ∧ res.map1.cols = src.cols ∧
      res.map2.rows = src.rows ∧ res.map2.cols = src.cols ∧
      ∀ i, i < src.cols →
        res.map1.data 0 i = (src.cols : ℚ) / 2 ∧ res.map2.data 0 i = (src.rows : ℚ) / 2 := by
  obtain ⟨res, h, hok, r1, c1, r2, c2, h0, -⟩ := MapPolar_cells libm src use_log hr
  exact ⟨res, h, hok, r1, c1, r2, c2, h0⟩

/-- Witness of C21: the 2x2 ramp image with `use_log` set; the centre is `(1, 1)`. -/
theorem C21_polar_centre_witness :
    ∃ res, MapPolar sampleLibm (rampImage 2 2) true = some res ∧ res.ok = true ∧
      res.map1.data 0 1 = (((rampImage 2 2).cols : Nat) : ℚ) / 2 ∧
      res.map2.data 0 1 = (((rampImage 2 2).rows : Nat) : ℚ) / 2 := by
  obtain ⟨res, h, hok, -, -, -, -, h0⟩ :=
    C21_polar_centre sampleLibm (rampImage 2 2) true (by decide)
  exact ⟨res, h, hok, (h0 1 (by decide)).1, (h0 1 (by decide)).2⟩

/-- C22.  Polar map cells are in bounds or the sentinel.  For every source with at least one
column and one row, with and without `use_log` and whatever the math library returns,
`MapPolar` returns `true` and two maps of the shape of the source; every cell `(map1, map2)` is
`(-1, -1)` or satisfies `0 ≤ map1 < cols` and `0 ≤ map2 < rows`; and a cell of a ring `j ≥ 1`
is `(-1, -1)` exactly when the computed point `(cx + rho*cos(theta), cy + rho*sin(theta))` lies
outside `[0, cols) x [0, rows)`, and holds the computed point otherwise. -/
theorem C22_polar_cells_in_bounds (libm : Libm) (src : Mat Vec3b) (use_log : Bool)
    (hc : 1 ≤ src.cols) (hr : 1 ≤ src.rows) :
    ∃ res, MapPolar libm src use_log = some res ∧ res.ok = true ∧
      res.map1.rows = src.rows ∧ res.map1.cols = src.cols ∧
      res.map2.rows = src.rows ∧ res.map2.cols = src.cols ∧
      ∀ j i, j < src.rows → i < src.cols →
        ((res.map1.data j i = -1 ∧ res.map2.data j i = -1) ∨
          (0 ≤ res.map1.data j i ∧ res.map1.data j i < (src.cols : ℚ) ∧
            0 ≤ res.map2.data j i ∧ res.map2.data j i < (src.rows : ℚ))) ∧
        (1 ≤ j →
          ((res.map1.data j i = -1 ∧ res.map2.data j i = -1) ↔
            ¬ (0 ≤ (polarPoint libm src use_log j i).1 ∧
              (polarPoint libm src use_log j i).1 < (src.cols : ℚ) ∧
              0 ≤ (polarPoint libm src use_log j i).2 ∧
              (polarPoint libm src use_log j i).2 < (src.rows : ℚ))) ∧
          ((0 ≤ (polarPoint libm src use_log j i).1 ∧
              (polarPoint libm src use_log j i).1 < (src.cols : ℚ) ∧
              0 ≤ (polarPoint libm src use_log j i).2 ∧
              (polarPoint libm src use_log j i).2 < (src.rows : ℚ)) →
            res.map1.data j i = (polarPoint libm src use_log j i).1 ∧
            res.map2.data j i = (polarPoint libm src use_log j i).2)) := by
  obtain ⟨res, h, hok, r1, c1, r2, c2, h0, hring⟩ := MapPolar_cells libm src use_log hr
  have qc : (1 : ℚ) ≤ (src.cols : ℚ) := by exact_mod_cast hc
  have qr : (1 : ℚ) ≤ (src.rows : ℚ) := by exact_mod_cast hr
  refine ⟨res, h, hok, r1, c1, r2, c2, ?_⟩
  intro j i hj hi
  by_cases hj0 : j = 0
  · subst hj0
    obtain ⟨e1, e2⟩ := h0 i hi
    refine ⟨Or.inr ?_, fun h1 => absurd h1 (by decide)⟩
    rw [e1, e2]
    refine ⟨by linarith, by linarith, by linarith, by linarith⟩
  · have hj1 : 1 ≤ j := by omega
    obtain ⟨e1, e2⟩ := hring j i hj1 hj hi
    by_cases hin : (polarPoint libm src use_log j i).1 ≥ 0 ∧
        (polarPoint libm src use_log j i).1 < (src.cols : ℚ) ∧
        (polarPoint libm src use_log j i).2 ≥ 0 ∧
        (polarPoint libm src use_log j i).2 < (src.rows : ℚ)
    · rw [if_pos hin] at e1 e2
      have hin' : 0 ≤ (polarPoint libm src use_log j i).1 ∧
          (polarPoint libm src use_log j i).1 < (src.cols : ℚ) ∧
          0 ≤ (polarPoint libm src use_log j i).2 ∧
          (polarPoint libm src use_log j i).2 < (src.rows : ℚ) := hin
      refine ⟨Or.inr (by rw [e1, e2]; exact hin'), fun _ => ⟨?_, fun _ => ⟨e1, e2⟩⟩⟩
      constructor
      · rintro ⟨k1, -⟩
        rw [e1] at k1
        have := hin'.1
        linarith
      · intro hn
        exact absurd hin' hn
    · rw [if_neg hin] at e1 e2
      have hin' : ¬ (0 ≤ (polarPoint libm src use_log j i).1 ∧
          (polarPoint libm src use_log j i).1 < (src.cols : ℚ) ∧
          0 ≤ (polarPoint libm src use_log j i).2 ∧
          (polarPoint libm src use_log j i).2 < (src.rows : ℚ)) := hin
      exact ⟨Or.inl ⟨e1, e2⟩, fun _ => ⟨⟨fun _ => hin', fun _ => ⟨e1, e2⟩⟩,
        fun hp => absurd hp hin'⟩⟩

/-- Witness of C22: the 2x2 ramp image without `use_log`. -/
theorem C22_polar_cells_in_bounds_witness :
    ∃ res, MapPolar sampleLibm (rampImage 2 2) false = some res ∧ res.ok = true ∧
      res.map1.rows = (rampImage 2 2).rows ∧ res.map1.cols = (rampImage 2 2).cols ∧
      ((res.map1.data 1 1 = -1 ∧ res.map2.data 1 1 = -1) ∨
        (0 ≤ res.map1.data 1 1 ∧ res.map1.data 1 1 < (((rampImage 2 2).cols : Nat) : ℚ) ∧
          0 ≤ res.map2.data 1 1 ∧ res.map2.data 1 1 < (((rampImage 2 2).rows : Nat) : ℚ))) := by
  obtain ⟨res, h, hok, r1, c1, -, -, hcell⟩ :=
    C22_polar_cells_in_bounds sampleLibm (rampImage 2 2) false (by decide) (by decide)
  exact ⟨res, h, hok, r1, c1, (hcell 1 1 (by decide) (by decide)).1⟩

/-! ## Quantize: the carried error of Igs -/

theorem toInt_natCast (n : Nat) : toInt (n : ℚ) = (n : Int) := by
  have h := toInt_intCast (n : Int)
  simpa using h

theorem toInt_ofNat (n : Nat) [n.AtLeastTwo] : toInt (OfNat.ofNat n : ℚ) = OfNat.ofNat n := by
  have h := toInt_natCast n
  simpa using h

theorem igs_bin_size_two : toInt (256 / ((2 : Int) : ℚ)) = 128 := by
  have e : (256 : ℚ) / ((2 : Int) : ℚ) = ((128 : Int) : ℚ) := by norm_num
  rw [e, toInt_intCast]

/-- The level that `Uniform` writes for a channel value lies below the number of levels. -/
theorem uniform_level_lt (p : Fin 256) (quantization_levels : Int)
    (h1 : 1 ≤ quantization_levels) (h2 : quantization_levels ≤ 256) :
    ((toUchar (((p.val : Nat) : ℚ) / (256 / (quantization_levels : ℚ)))).val : Int) <
      quantization_levels := by
  have hL : (1 : ℚ) ≤ (quantization_levels : ℚ) := by exact_mod_cast h1
  have hL2 : (quantization_levels : ℚ) ≤ 256 := by exact_mod_cast h2
  have hp0 : (0 : ℚ) ≤ ((p.val : Nat) : ℚ) := Nat.cast_nonneg _
  have hp1 : ((p.val : Nat) : ℚ) ≤ 255 := by
    have h : p.val ≤ 255 := by have := p.isLt; omega
    exact_mod_cast h
  have e : ((p.val : Nat) : ℚ) / (256 / (quantization_levels : ℚ)) =
      ((p.val : Nat) : ℚ) * (quantization_levels : ℚ) / 256 := by
    field_simp
  have v0 : 0 ≤ ((p.val : Nat) : ℚ) * (quantization_levels : ℚ) / 256 := by positivity
  have v1 : ((p.val : Nat) : ℚ) * (quantization_levels : ℚ) / 256 < (quantization_levels : ℚ) := by
    rw [div_lt_iff₀ (by norm_num)]
    nlinarith
  rw [e, toUchar_val _ v0 (by linarith), toInt_of_nonneg _ v0]
  exact Int.floor_lt.mpr v1

theorem vec3b_set_get (p : Vec3b) (channel_idx : Nat) (v : Fin 256) (ch : Nat) :
    (p.set channel_idx v).get ch = v ∨ (p.set channel_idx v).get ch = p.get ch := by
  rcases channel_idx with _ | _ | k <;> rcases ch with _ | _ | c <;>
    simp [Vec3b.set, Vec3b.get]

/-- On a destination whose channels all lie below the number of levels (such as the fresh
destination of `Quantize`), `Uniform` returns an image of the same shape whose channels all
lie below the number of levels, for every number of levels in `1..256`. -/
theorem Uniform_levels (src dst : Mat Vec3b) (quantization_levels : Int)
    (h1 : 1 ≤ quantization_levels) (h2 : quantization_levels ≤ 256)
    (hdst : ∀ r c ch, ((((dst.data r c).get ch).val : Nat) : Int) < quantization_levels) :
    ∀ r c ch, (((((Uniform src quantization_levels dst).data r c).get ch).val : Nat) : Int) <
      quantization_levels := by
  have hstep : ∀ (y x channel : Nat) (d : Mat Vec3b),
      (∀ r c ch, ((((d.data r c).get ch).val : Nat) : Int) < quantization_levels) →
      ∀ r c ch, (((((d.set y x ((d.data y x).set channel
        (toUchar ((((src.data y x).get channel).val : ℚ) /
          (256 / (quantization_levels : ℚ)))))).data r c).get ch).val : Nat) : Int) <
        quantization_levels := by
    intro y x channel d hd r c ch
    simp only [Mat.set]
    by_cases hrc : r = y ∧ c = x
    · rw [if_pos hrc]
      rcases vec3b_set_get (d.data y x) channel
        (toUchar ((((src.data y x).get channel).val : ℚ) / (256 / (quantization_levels : ℚ))))
        ch with h | h
      · rw [h]; exact uniform_level_lt _ _ h1 h2
      · rw [h]; exact hd y x ch
    · rw [if_neg hrc]; exact hd r c ch
  simp only [Uniform]
  refine loopRange_invariant
    (fun _ (d : Mat Vec3b) =>
      ∀ r c ch, ((((d.data r c).get ch).val : Nat) : Int) < quantization_levels) _ _ _ hdst ?_
  intro y d _ hd
  refine loopRange_invariant
    (fun _ (d : Mat Vec3b) =>
      ∀ r c ch, ((((d.data r c).get ch).val : Nat) : Int) < quantization_levels) _ _ _ hd ?_
  intro x d _ hd
  refine loopRange_invariant
    (fun _ (d : Mat Vec3b) =>
      ∀ r c ch, ((((d.data r c).get ch).val : Nat) : Int) < quantization_levels) _ _ _ hd ?_
  intro channel d _ hd
  exact hstep y x channel d hd

/-- The run of `Igs` on `igsImage` with two levels: the first pixel is written with level
`0` and leaves the error `127`; the second pixel, `255 + 127 = 382`, is written with level
`382 / 128 = 2`. -/
theorem igs_two_levels :
    ∃ d, Igs igsImage 2 (Mat.create igsImage.rows igsImage.cols ⟨0, 0, 0⟩) = some d ∧
      d.rows = 1 ∧ d.cols = 2 ∧ d.data 0 0 = ⟨0, 0, 0⟩ ∧ d.data 0 1 = ⟨2, 2, 2⟩ := by
  have v127 : ((127 : Fin 256) : Nat) = 127 := rfl
  have v255 : ((255 : Fin 256) : Nat) = 255 := rfl
  have t1 : Int.tdiv 127 128 = 0 := by decide
  have t2 : Int.tdiv 382 128 = 2 := by decide
  have i127 : toInt (127 : ℚ) = 127 := toInt_ofNat 127
  have i382 : toInt (382 : ℚ) = 382 := toInt_ofNat 382
  have s1 : (255 : ℚ) + 127 = 382 := by norm_num
  simp only [Igs, igs_bin_size_two, igsImage, forRange_succ, forRange_zero, Option.some_bind]
  simp [Mat.set, Mat.create, Vec3b.set, Vec3b.get, intToUchar, v127, v255, i127, i382, t1, t2,
    s1]

theorem igs_bin_size_three : toInt (256 / ((3 : Int) : ℚ)) = 85 := by
  have h0 : (0 : ℚ) ≤ 256 / ((3 : Int) : ℚ) := by norm_num
  rw [toInt_of_nonneg _ h0, Int.floor_eq_iff]
  constructor <;> norm_num

/-- The run of `Igs` on the single white pixel with three levels: the bin size is
`floor(256 / 3) = 85` and the pixel is written with level `255 / 85 = 3`, without any carried
error. -/
theorem igs_three_levels :
    ∃ d, Igs whiteImage 3 (Mat.create whiteImage.rows whiteImage.cols ⟨0, 0, 0⟩) = some d ∧
      d.data 0 0 = ⟨3, 3, 3⟩ := by
  have v255 : ((255 : Fin 256) : Nat) = 255 := rfl
  have i255 : toInt (255 : ℚ) = 255 := toInt_ofNat 255
  have t1 : Int.tdiv 255 85 = 3 := by decide
  simp only [Igs, igs_bin_size_three, whiteImage, forRange_succ, forRange_zero,
    Option.some_bind]
  simp [Mat.set, Mat.create, Vec3b.set, Vec3b.get, intToUchar, v255, i255, t1]

/-- C24 (the code departs from its documentation).  With `quantization_levels = 2` (bin size
128) on the image of one row holding the pixels `(127, 127, 127)` and `(255, 255, 255)`, `Igs`
returns an image whose second pixel is `(2, 2, 2)`: the error `127` carried from the first pixel
lifts `255` to `382`, and `382 / 128 = 2` is not one of the two levels `0..1`.  With
`quantization_levels = 3` (bin size 85) the single pixel `(255, 255, 255)` is written with level
`3`, which is not one of the levels `0..2`.  On the first input `Uniform` writes levels below 2
only. -/
theorem C24_igs_exceeds_levels :
    (∃ d, Igs igsImage 2 (Mat.create igsImage.rows igsImage.cols ⟨0, 0, 0⟩) = some d ∧
      d.data 0 0 = ⟨0, 0, 0⟩ ∧ d.data 0 1 = ⟨2, 2, 2⟩ ∧
      ((d.data 0 1).get 0).val = 2 ∧
      ¬ ((((d.data 0 1).get 0).val : Int) ≤ 2 - 1)) ∧
    (∃ d, Igs whiteImage 3 (Mat.create whiteImage.rows whiteImage.cols ⟨0, 0, 0⟩) = some d ∧
      d.data 0 0 = ⟨3, 3, 3⟩ ∧ ¬ ((((d.data 0 0).get 0).val : Int) ≤ 3 - 1)) ∧
    (∀ r c ch,
      (((((Uniform igsImage 2 (Mat.create igsImage.rows igsImage.cols ⟨0, 0, 0⟩)).data
        r c).get ch).val : Nat) : Int) ≤ 2 - 1) := by
  obtain ⟨d, hd, -, -, h0, h1⟩ := igs_two_levels
  obtain ⟨d3, hd3, h3⟩ := igs_three_levels
  refine ⟨⟨d, hd, h0, h1, by rw [h1]; rfl, by rw [h1]; decide⟩,
    ⟨d3, hd3, h3, by rw [h3]; decide⟩, ?_⟩
  intro r c ch
  have h := Uniform_levels igsImage (Mat.create igsImage.rows igsImage.cols ⟨0, 0, 0⟩) 2
    (by decide) (by decide)
    (by
      intro r c ch
      rcases ch with _ | _ | k <;> simp [Mat.create, Vec3b.get])
    r c ch
  omega

/-! ## Visual cryptography: the loops -/

theorem atChecked_natCast {α : Type} (m : Mat α) (row col : Nat) (hr : row < m.rows)
    (hc : col < m.cols) : m.atChecked (row : Int) (col : Int) = some (m.data row col) := by
  have h := atChecked_of_bounds m (row : Int) (col : Int) (by omega) (by omega) (by omega)
    (by omega)
  simpa using h

/-- A double loop whose body at `(r, c)` rewrites exactly the cells `(i, j)` with `kr i = r`
and `kc j = c` (with `V i j`) and keeps the shape: the loop succeeds and the result holds
`V i j` in the cells with `kr i < height` and `kc j < width`. -/
theorem forRange_grid {α : Type} (kr kc : Nat → Nat) (V : Nat → Nat → α)
    (body : Nat → Nat → Mat α → Option (Mat α)) (height width R C : Nat)
    (hbody : ∀ r c m, r < height → c < width → m.rows = R → m.cols = C →
      ∃ m', body r c m = some m' ∧ m'.rows = R ∧ m'.cols = C ∧
        ∀ i j, m'.data i j = if kr i = r ∧ kc j = c then V i j else m.data i j)
    (m0 : Mat α) (hR : m0.rows = R) (hC : m0.cols = C) :
    ∃ m', forRange height (fun r m => forRange width (fun c m => body r c m) m) m0 = some m' ∧
      m'.rows = R ∧ m'.cols = C ∧
      ∀ i j, m'.data i j = if kr i < height ∧ kc j < width then V i j else m0.data i j := by
  have outer := forRange_invariant
    (fun n (m : Mat α) => m.rows = R ∧ m.cols = C ∧
      ∀ i j, m.data i j = if kr i < n ∧ kc j < width then V i j else m0.data i j)
    (fun r m => forRange width (fun c m => body r c m) m) m0 height
    ⟨hR, hC, by intro i j; simp⟩
    (by
      intro r m hr hI
      obtain ⟨mR, mC, mD⟩ := hI
      have inner := forRange_invariant
        (fun n (m' : Mat α) => m'.rows = R ∧ m'.cols = C ∧
          ∀ i j, m'.data i j = if kr i = r ∧ kc j < n then V i j else m.data i j)
        (fun c m => body r c m) m width ⟨mR, mC, by intro i j; simp⟩
        (by
          intro c m' hc hI'
          obtain ⟨mR', mC', mD'⟩ := hI'
          obtain ⟨m'', hb, bR, bC, bD⟩ := hbody r c m' hr hc mR' mC'
          refine ⟨m'', hb, bR, bC, ?_⟩
          intro i j
          rw [bD, mD']
          by_cases h1 : kr i = r ∧ kc j = c
          · have h2 : kr i = r ∧ kc j < c + 1 := ⟨h1.1, by omega⟩
            rw [if_pos h1, if_pos h2]
          · by_cases h2 : kr i = r ∧ kc j < c
            · have h3 : kr i = r ∧ kc j < c + 1 := ⟨h2.1, by omega⟩
              rw [if_neg h1, if_pos h2, if_pos h3]
            · have h3 : ¬ (kr i = r ∧ kc j < c + 1) := by
                rintro ⟨a1, a2⟩
                rcases Nat.lt_succ_iff_lt_or_eq.mp a2 with hlt | heq
                · exact h2 ⟨a1, hlt⟩
                · exact h1 ⟨a1, heq⟩
              rw [if_neg h1, if_neg h2, if_neg h3])
      obtain ⟨m', hm', iR, iC, iD⟩ := inner
      refine ⟨m', hm', iR, iC, ?_⟩
      intro i j
      rw [iD, mD]
      by_cases hj : kc j < width
      · by_cases h1 : kr i = r
        · have h2 : kr i < r + 1 := by omega
          rw [if_pos ⟨h1, hj⟩, if_pos ⟨h2, hj⟩]
        · by_cases h2 : kr i < r
          · have h3 : kr i < r + 1 := by omega
            rw [if_neg (fun h => h1 h.1), if_pos ⟨h2, hj⟩, if_pos ⟨h3, hj⟩]
          · have h3 : ¬ kr i < r + 1 := by omega
            rw [if_neg (fun h => h1 h.1), if_neg (fun h => h2 h.1), if_neg (fun h => h3 h.1)]
      · rw [if_neg (fun h => hj h.2), if_neg (fun h => hj h.2), if_neg (fun h => hj h.2)])
  exact outer

theorem Mat.set_rows {α : Type} (m : Mat α) (row col : Nat) (v : α) :
    (m.set row col v).rows = m.rows := rfl

theorem Mat.set_cols {α : Type} (m : Mat α) (row col : Nat) (v : α) :
    (m.set row col v).cols = m.cols := rfl

/-- The four checked writes of one 2x2 block at `(r*2, c*2)`: they succeed when the block lies
inside the matrix, keep the shape and change the cells of the block only. -/
theorem blockWrites {α : Type} (m : Mat α) (r c : Nat) (v00 v10 v01 v11 : α)
    (hr : r * 2 + 1 < m.rows) (hc : c * 2 + 1 < m.cols) :
    ∃ m', (do
        let m1 ← m.setChecked (r * 2) (c * 2) v00
        let m2 ← m1.setChecked (r * 2 + 1) (c * 2) v10
        let m3 ← m2.setChecked (r * 2) (c * 2 + 1) v01
        m3.setChecked (r * 2 + 1) (c * 2 + 1) v11) = some m' ∧
      m'.rows = m.rows ∧ m'.cols = m.cols ∧
      ∀ i j, m'.data i j =
        if i / 2 = r ∧ j / 2 = c then
          (if i % 2 = 0 then (if j % 2 = 0 then v00 else v01)
            else (if j % 2 = 0 then v10 else v11))
        else m.data i j := by
  have a1 : r * 2 < m.rows ∧ c * 2 < m.cols := ⟨by omega, by omega⟩
  have a2 : r * 2 + 1 < m.rows ∧ c * 2 < m.cols := ⟨hr, by omega⟩
  have a3 : r * 2 < m.rows ∧ c * 2 + 1 < m.cols := ⟨by omega, hc⟩
  have a4 : r * 2 + 1 < m.rows ∧ c * 2 + 1 < m.cols := ⟨hr, hc⟩
  refine ⟨(((m.set (r * 2) (c * 2) v00).set (r * 2 + 1) (c * 2) v10).set (r * 2)
    (c * 2 + 1) v01).set (r * 2 + 1) (c * 2 + 1) v11, ?_, rfl, rfl, ?_⟩
  · simp only [Mat.setChecked, Mat.set_rows, Mat.set_cols, a1, a2, a3, a4, and_self, if_true,
      bind, Option.bind]
  · intro i j
    simp only [Mat.set]
    split_ifs <;> first | rfl | (exfalso; omega)

theorem binaryMat_shape (rand : Int → Nat → Nat) (key : Int) (height width : Nat) :
    (binaryMat rand key height width).rows = height ∧
      (binaryMat rand key height width).cols = width := by
  have h := loopRange_invariant
    (fun _ (st : Mat (Fin 256) × Nat) => st.1.rows = height ∧ st.1.cols = width)
    (fun row_idx (st : Mat (Fin 256) × Nat) =>
      loopRange width (fun col_idx (st : Mat (Fin 256) × Nat) =>
        (st.1.set row_idx col_idx ⟨rand key st.2 % 2, by omega⟩, st.2 + 1)) st)
    (Mat.create height width 0, 0) height ⟨rfl, rfl⟩
    (by
      intro r st _ hI
      exact loopRange_invariant
        (fun _ (st : Mat (Fin 256) × Nat) => st.1.rows = height ∧ st.1.cols = width)
        (fun col_idx (st : Mat (Fin 256) × Nat) =>
          (st.1.set r col_idx ⟨rand key st.2 % 2, by omega⟩, st.2 + 1)) st width hI
        (fun c st _ hI => hI))
  exact h

/-- The share built from `binary_mat`: when the blocks fit into the share, the loops succeed,
keep the shape, and the block of the bit `(r, c)` holds `0` in its upper row and `255` in its
lower row when the bit is `0`, and `255` in its upper row and `0` in its lower row
otherwise. -/
theorem shareBlocks_eq (binary_mat : Mat (Fin 256)) (height width : Nat)
    (share : Mat (Fin 256)) (hr : height * 2 ≤ share.rows) (hc : width * 2 ≤ share.cols) :
    ∃ m, shareBlocks binary_mat height width share = some m ∧
      m.rows = share.rows ∧ m.cols = share.cols ∧
      ∀ i j, m.data i j =
        if i / 2 < height ∧ j / 2 < width then
          (if binary_mat.data (i / 2) (j / 2) = 0 then (if i % 2 = 0 then 0 else 255)
            else (if i % 2 = 0 then 255 else 0))
        else share.data i j := by
  refine forRange_grid (fun i => i / 2) (fun j => j / 2)
    (fun i j => if binary_mat.data (i / 2) (j / 2) = 0 then (if i % 2 = 0 then 0 else 255)
      else (if i % 2 = 0 then 255 else 0)) _ height width share.rows share.cols ?_ share rfl rfl
  intro r c m hr' hc' mR mC
  by_cases hbit : binary_mat.data r c = 0
  · obtain ⟨m', hm', bR, bC, bD⟩ := blockWrites m r c 0 255 0 255 (by omega) (by omega)
    refine ⟨m', by simp only [hbit, if_true]; exact hm', by rw [bR, mR], by rw [bC, mC], ?_⟩
    intro i j
    beta_reduce
    rw [bD]
    by_cases hij : i / 2 = r ∧ j / 2 = c
    · rw [if_pos hij, if_pos hij, hij.1, hij.2, if_pos hbit]
      by_cases hi2 : i % 2 = 0
      · simp only [hi2, if_true, ite_self]
      · simp only [hi2, if_false, ite_self]
    · rw [if_neg hij, if_neg hij]
  · obtain ⟨m', hm', bR, bC, bD⟩ := blockWrites m r c 255 0 255 0 (by omega) (by omega)
    refine ⟨m', by simp only [hbit, if_false]; exact hm', by rw [bR, mR], by rw [bC, mC], ?_⟩
    intro i j
    beta_reduce
    rw [bD]
    by_cases hij : i / 2 = r ∧ j / 2 = c
    · rw [if_pos hij, if_pos hij, hij.1, hij.2, if_neg hbit]
      by_cases hi2 : i % 2 = 0
      · simp only [hi2, if_true, ite_self]
      · simp only [hi2, if_false, ite_self]
    · rw [if_neg hij, if_neg hij]

/-- The watermark loops of `visual_cryptography` on a share and a prepared secret that have
the sizes the loops expect: they succeed, and the block of the secret pixel `(r, c)` is the
block of the share when the pixel is 255 and the block of the share with its two rows swapped
otherwise. -/
theorem watermark_eq (share secret : Mat (Fin 256)) (height width rows cols : Nat)
    (hr : height * 2 ≤ rows) (hc : width * 2 ≤ cols)
    (sR : share.rows = rows) (sC : share.cols = cols)
    (tR : secret.rows = height) (tC : secret.cols = width) :
    ∃ w, forRange height (fun row_idx watermark =>
        forRange width (fun col_idx watermark => do
          let base_row : Nat := row_idx * 2
          let base_col : Nat := col_idx * 2
          let secret_pixel ← secret.atChecked row_idx col_idx
          if secret_pixel = 255 then do
            let v ← share.atChecked base_row base_col
            let watermark ← watermark.setChecked base_row base_col v
            let v ← share.atChecked (base_row + 1 : Nat) base_col
            let watermark ← watermark.setChecked (base_row + 1) base_col v
            let v ← share.atChecked base_row (base_col + 1 : Nat)
            let watermark ← watermark.setChecked base_row (base_col + 1) v
            let v ← share.atChecked (base_row + 1 : Nat) (base_col + 1 : Nat)
            watermark.setChecked (base_row + 1) (base_col + 1) v
          else do
            let v ← share.atChecked (base_row + 1 : Nat) base_col
            let watermark ← watermark.setChecked base_row base_col v
            let v ← share.atChecked base_row base_col
            let watermark ← watermark.setChecked (base_row + 1) base_col v
            let v ← share.atChecked (base_row + 1 : Nat) (base_col + 1 : Nat)
            let watermark ← watermark.setChecked base_row (base_col + 1) v
            let v ← share.atChecked base_row (base_col + 1 : Nat)
            watermark.setChecked (base_row + 1) (base_col + 1) v) watermark)
        (Mat.create rows cols 0) = some w ∧
      w.rows = rows ∧ w.cols = cols ∧
      ∀ i j, w.data i j =
        if i / 2 < height ∧ j / 2 < width then
          (if secret.data (i / 2) (j / 2) = 255 then share.data i j
            else share.data (if i % 2 = 0 then i + 1 else i - 1) j)
        else 0 := by
  refine forRange_grid (fun i => i / 2) (fun j => j / 2)
    (fun i j => if secret.data (i / 2) (j / 2) = 255 then share.data i j
      else share.data (if i % 2 = 0 then i + 1 else i - 1) j) _ height width rows cols ?_
    (Mat.create rows cols 0) rfl rfl
  intro r c m hr' hc' mR mC
  have e0 := atChecked_natCast secret r c (by omega) (by omega)
  have e00 := atChecked_natCast share (r * 2) (c * 2) (by omega) (by omega)
  have e10 := atChecked_natCast share (r * 2 + 1) (c * 2) (by omega) (by omega)
  have e01 := atChecked_natCast share (r * 2) (c * 2 + 1) (by omega) (by omega)
  have e11 := atChecked_natCast share (r * 2 + 1) (c * 2 + 1) (by omega) (by omega)
  by_cases hs : secret.data r c = 255
  · obtain ⟨m', hm', bR, bC, bD⟩ := blockWrites m r c (share.data (r * 2) (c * 2))
      (share.data (r * 2 + 1) (c * 2)) (share.data (r * 2) (c * 2 + 1))
      (share.data (r * 2 + 1) (c * 2 + 1)) (by omega) (by omega)
    refine ⟨m', ?_, by rw [bR, mR], by rw [bC, mC], ?_⟩
    · simp only [e0, e00, e10, e01, e11, hs, if_true, Option.bind_eq_bind, Option.some_bind]
        at hm' ⊢
      exact hm'
    · intro i j
      beta_reduce
      rw [bD]
      by_cases hij : i / 2 = r ∧ j / 2 = c
      · rw [if_pos hij, if_pos hij, hij.1, hij.2, if_pos hs]
        rcases Nat.mod_two_eq_zero_or_one i with hi2 | hi2 <;>
          rcases Nat.mod_two_eq_zero_or_one j with hj2 | hj2
        · rw [if_pos hi2, if_pos hj2]; congr 1 <;> omega
        · rw [if_pos hi2, if_neg (by omega)]; congr 1 <;> omega
        · rw [if_neg (by omega), if_pos hj2]; congr 1 <;> omega
        · rw [if_neg (by omega), if_neg (by omega)]; congr 1 <;> omega
      · rw [if_neg hij, if_neg hij]
  · obtain ⟨m', hm', bR, bC, bD⟩ := blockWrites m r c (share.data (r * 2 + 1) (c * 2))
      (share.data (r * 2) (c * 2)) (share.data (r * 2 + 1) (c * 2 + 1))
      (share.data (r * 2) (c * 2 + 1)) (by omega) (by omega)
    refine ⟨m', ?_, by rw [bR, mR], by rw [bC, mC], ?_⟩
    · simp only [e0, e00, e10, e01, e11, hs, if_false, Option.bind_eq_bind, Option.some_bind]
        at hm' ⊢
      exact hm'
    · intro i j
      beta_reduce
      rw [bD]
      by_cases hij : i / 2 = r ∧ j / 2 = c
      · rw [if_pos hij, if_pos hij, hij.1, hij.2, if_neg hs]
        rcases Nat.mod_two_eq_zero_or_one i with hi2 | hi2 <;>
          rcases Nat.mod_two_eq_zero_or_one j with hj2 | hj2
        · rw [if_pos hi2, if_pos hj2, if_pos hi2]; congr 1 <;> omega
        · rw [if_pos hi2, if_neg (by omega), if_pos hi2]; congr 1 <;> omega
        · rw [if_neg (by omega), if_pos hj2, if_neg (by omega)]; congr 1 <;> omega
        · rw [if_neg (by omega), if_neg (by omega), if_neg (by omega)]; congr 1 <;> omega
      · rw [if_neg hij, if_neg hij]

/-- The reveal loops of `decrypt` on an ownership share and a master share of the size of the
host: they succeed, and every pixel is the master pixel where the two shares agree and `0`
where they differ. -/
theorem reveal_eq (ownership_share master : Mat (Fin 256)) (rows cols : Nat)
    (oR : ownership_share.rows = rows) (oC : ownership_share.cols = cols)
    (mR : master.rows = rows) (mC : master.cols = cols) :
    ∃ rv, forRange rows (fun row_idx revealed_watermark =>
        forRange cols (fun col_idx revealed_watermark => do
          let ownership_pixel ← ownership_share.atChecked row_idx col_idx
          let master_pixel ← master.atChecked row_idx col_idx
          revealed_watermark.setChecked row_idx col_idx
            (if ownership_pixel = master_pixel then master_pixel else 0)) revealed_watermark)
        (Mat.create rows cols 0) = some rv ∧
      rv.rows = rows ∧ rv.cols = cols ∧
      ∀ i j, rv.data i j =
        if i < rows ∧ j < cols then
          (if ownership_share.data i j = master.data i j then master.data i j else 0)
        else 0 := by
  refine forRange_grid (fun i => i) (fun j => j)
    (fun i j => if ownership_share.data i j = master.data i j then master.data i j else 0)
    _ rows cols rows cols ?_ (Mat.create rows cols 0) rfl rfl
  intro r c m hr' hc' mR' mC'
  have e1 := atChecked_natCast ownership_share r c (by omega) (by omega)
  have e2 := atChecked_natCast master r c (by omega) (by omega)
  have e3 := setChecked_of_bounds m r c
    (if ownership_share.data r c = master.data r c then master.data r c else 0)
    (by omega) (by omega)
  refine ⟨m.set r c (if ownership_share.data r c = master.data r c then master.data r c else 0),
    by simp only [e1, e2, Option.bind_eq_bind, Option.some_bind]; exact e3, mR', mC', ?_⟩
  intro i j
  beta_reduce
  simp only [Mat.set]
  by_cases hij : i = r ∧ j = c
  · obtain ⟨rfl, rfl⟩ := hij
    simp
  · rw [if_neg hij, if_neg hij]

/-- What `decrypt` reveals from the watermark of `visual_cryptography` on a square host with an
even number of rows: both functions return, and the pixel `(i, j)` of the result is the pixel
of the master share where the prepared secret is 255 and `0` elsewhere. -/
theorem round_trip_pixels (rand : Int → Nat → Nat)
    (resizeGrayThreshold : Mat Vec3b → Nat → Nat → Mat (Fin 256))
    (host secret : Mat Vec3b) (key : Int)
    (hsq : host.rows = host.cols) (heven : host.rows % 2 = 0)
    (hshape : (resizeGrayThreshold secret (host.rows / 2) (host.cols / 2)).rows =
        host.cols / 2 ∧
      (resizeGrayThreshold secret (host.rows / 2) (host.cols / 2)).cols = host.rows / 2) :
    ∃ w, visual_cryptography rand resizeGrayThreshold host secret key = some w ∧
      w.rows = host.rows ∧ w.cols = host.cols ∧
      ∃ rv, decrypt rand w host key = some rv ∧ rv.rows = host.rows ∧ rv.cols = host.cols ∧
        ∀ i j, i < host.rows → j < host.cols →
          rv.data i j =
            if (resizeGrayThreshold secret (host.rows / 2) (host.cols / 2)).data (i / 2) (j / 2)
                = 255 then
              (if (binaryMat rand key (host.cols / 2) (host.rows / 2)).data (i / 2) (j / 2) = 0
                then (if i % 2 = 0 then 0 else 255) else (if i % 2 = 0 then 255 else 0))
            else 0 := by
  obtain ⟨sh, hsh, shR, shC, shD⟩ := shareBlocks_eq
    (binaryMat rand key (host.cols / 2) (host.rows / 2)) (host.cols / 2) (host.rows / 2)
    (Mat.create host.rows host.cols 0)
    (by show host.cols / 2 * 2 ≤ host.rows; omega)
    (by show host.rows / 2 * 2 ≤ host.cols; omega)
  have shR' : sh.rows = host.rows := shR
  have shC' : sh.cols = host.cols := shC
  obtain ⟨w, hw, wR, wC, wD⟩ := watermark_eq sh
    (resizeGrayThreshold secret (host.rows / 2) (host.cols / 2)) (host.cols / 2)
    (host.rows / 2) host.rows host.cols (by omega) (by omega) shR' shC' hshape.1 hshape.2
  obtain ⟨rv, hrv, rvR, rvC, rvD⟩ := reveal_eq w sh host.rows host.cols wR wC shR' shC'
  obtain ⟨bR, bC⟩ := binaryMat_shape rand key (host.cols / 2) (host.rows / 2)
  refine ⟨w, ?_, wR, wC, rv, ?_, rvR, rvC, ?_⟩
  · simp only [visual_cryptography]
    rw [hsh]
    simp only [Option.bind_eq_bind, Option.some_bind]
    exact hw
  · simp only [decrypt]
    rw [bR, bC, hsh]
    simp only [Option.bind_eq_bind, Option.some_bind]
    exact hrv
  · intro i j hi hj
    have hi2 : i / 2 < host.cols / 2 := by omega
    have hj2 : j / 2 < host.rows / 2 := by omega
    have hrv_ij : rv.data i j = if w.data i j = sh.data i j then sh.data i j else 0 := by
      rw [rvD]; exact if_pos ⟨hi, hj⟩
    have hw_ij : w.data i j =
        if (resizeGrayThreshold secret (host.rows / 2) (host.cols / 2)).data (i / 2) (j / 2)
            = 255 then sh.data i j
        else sh.data (if i % 2 = 0 then i + 1 else i - 1) j := by
      rw [wD]; exact if_pos ⟨hi2, hj2⟩
    have hshk : ∀ k, k / 2 = i / 2 → sh.data k j =
        if (binaryMat rand key (host.cols / 2) (host.rows / 2)).data (i / 2) (j / 2) = 0
          then (if k % 2 = 0 then 0 else 255) else (if k % 2 = 0 then 255 else 0) := by
      intro k hk
      rw [shD, hk]; exact if_pos ⟨hi2, hj2⟩
    have hne : (255 : Fin 256) ≠ 0 := by decide
    have hne' : (0 : Fin 256) ≠ 255 := by decide
    rw [hrv_ij, hw_ij]
    by_cases hs : (resizeGrayThreshold secret (host.rows / 2) (host.cols / 2)).data (i / 2)
        (j / 2) = 255
    · rw [if_pos hs, if_pos hs, if_pos rfl, hshk i rfl]
    · rw [if_neg hs, if_neg hs]
      rcases Nat.mod_two_eq_zero_or_one i with hm | hm
      · have e2 : ¬ ((i + 1) % 2 = 0) := by omega
        rw [if_pos hm, hshk i rfl, hshk (i + 1) (by omega)]
        by_cases hb : (binaryMat rand key (host.cols / 2) (host.rows / 2)).data (i / 2)
            (j / 2) = 0
        · simp only [hb, hm, e2, if_true, if_false, hne, hne']
        · simp only [hb, hm, e2, if_true, if_false, hne, hne']
      · have e2 : (i - 1) % 2 = 0 := by omega
        have e3 : ¬ (i % 2 = 0) := by omega
        rw [if_neg e3, hshk i rfl, hshk (i - 1) (by omega)]
        by_cases hb : (binaryMat rand key (host.cols / 2) (host.rows / 2)).data (i / 2)
            (j / 2) = 0
        · simp only [hb, e2, e3, if_true, if_false, hne, hne']
        · simp only [hb, e2, e3, if_true, if_false, hne, hne']

/-! ## Claim about the visual cryptography -/

/-- C25.  Visual-cryptography round trip.  For every host with equal and even numbers of rows
and columns, every key and pseudo-random generator, and every prepared secret of half the
size of the host whose pixels are `0` or `255`: `visual_cryptography` returns a watermark,
`decrypt` of that watermark with the same host and key returns an image of the size of the
host, and for every secret position `(r, c)` the 2x2 block of the result at rows
`2r..2r+1`, columns `2c..2c+1` is all zero if and only if the secret pixel is `0`, and holds
exactly two pixels of value `255` otherwise. -/
theorem C25_visual_cryptography_round_trip (rand : Int → Nat → Nat)
    (resizeGrayThreshold : Mat Vec3b → Nat → Nat → Mat (Fin 256))
    (host secret : Mat Vec3b) (key : Int)
    (hsq : host.rows = host.cols) (heven : host.rows % 2 = 0)
    (hshape : (resizeGrayThreshold secret (host.rows / 2) (host.cols / 2)).rows =
        host.cols / 2 ∧
      (resizeGrayThreshold secret (host.rows / 2) (host.cols / 2)).cols = host.rows / 2)
    (hbin : ∀ r c, r < host.rows / 2 → c < host.cols / 2 →
      (resizeGrayThreshold secret (host.rows / 2) (host.cols / 2)).data r c = 0 ∨
      (resizeGrayThreshold secret (host.rows / 2) (host.cols / 2)).data r c = 255) :
    ∃ w, visual_cryptography rand resizeGrayThreshold host secret key = some w ∧
      ∃ rv, decrypt rand w host key = some rv ∧ rv.rows = host.rows ∧ rv.cols = host.cols ∧
        ∀ r c, r < host.rows / 2 → c < host.cols / 2 →
          ((rv.data (2 * r) (2 * c) = 0 ∧ rv.data (2 * r) (2 * c + 1) = 0 ∧
              rv.data (2 * r + 1) (2 * c) = 0 ∧ rv.data (2 * r + 1) (2 * c + 1) = 0) ↔
            (resizeGrayThreshold secret (host.rows / 2) (host.cols / 2)).data r c = 0) ∧
          ((resizeGrayThreshold secret (host.rows / 2) (host.cols / 2)).data r c ≠ 0 →
            List.count (255 : Fin 256)
              [rv.data (2 * r) (2 * c), rv.data (2 * r) (2 * c + 1),
               rv.data (2 * r + 1) (2 * c), rv.data (2 * r + 1) (2 * c + 1)] = 2) := by
  obtain ⟨w, hw, -, -, rv, hrv, rvR, rvC, hpix⟩ :=
    round_trip_pixels rand resizeGrayThreshold host secret key hsq heven hshape
  refine ⟨w, hw, rv, hrv, rvR, rvC, ?_⟩
  intro r c hr hc
  have d1 : 2 * r / 2 = r := by omega
  have d2 : (2 * r + 1) / 2 = r := by omega
  have d3 : 2 * c / 2 = c := by omega
  have d4 : (2 * c + 1) / 2 = c := by omega
  have m1 : 2 * r % 2 = 0 := by omega
  have m2 : ¬ ((2 * r + 1) % 2 = 0) := by omega
  have p00 := hpix (2 * r) (2 * c) (by omega) (by omega)
  have p01 := hpix (2 * r) (2 * c + 1) (by omega) (by omega)
  have p10 := hpix (2 * r + 1) (2 * c) (by omega) (by omega)
  have p11 := hpix (2 * r + 1) (2 * c + 1) (by omega) (by omega)
  rw [d1, d3, if_pos m1, if_pos m1] at p00
  rw [d1, d4, if_pos m1, if_pos m1] at p01
  rw [d2, d3, if_neg m2, if_neg m2] at p10
  rw [d2, d4, if_neg m2, if_neg m2] at p11
  have h255 : (255 : Fin 256) ≠ 0 := by decide
  rcases hbin r c hr hc with hs | hs
  · have hs' : ¬ ((resizeGrayThreshold secret (host.rows / 2) (host.cols / 2)).data r c =
        255) := by
      rw [hs]; decide
    rw [if_neg hs'] at p00 p01 p10 p11
    exact ⟨⟨fun _ => hs, fun _ => ⟨p00, p01, p10, p11⟩⟩, fun hn => absurd hs hn⟩
  · rw [if_pos hs] at p00 p01 p10 p11
    have hs0 : (resizeGrayThreshold secret (host.rows / 2) (host.cols / 2)).data r c ≠ 0 := by
      rw [hs]; exact h255
    by_cases hb : (binaryMat rand key (host.cols / 2) (host.rows / 2)).data r c = 0
    · rw [if_pos hb] at p00 p01 p10 p11
      refine ⟨⟨fun h => ?_, fun h => absurd h hs0⟩, fun _ => ?_⟩
      · exact absurd (p10.symm.trans h.2.2.1) h255
      · rw [p00, p01, p10, p11]; decide
    · rw [if_neg hb] at p00 p01 p10 p11
      refine ⟨⟨fun h => ?_, fun h => absurd h hs0⟩, fun _ => ?_⟩
      · exact absurd (p00.symm.trans h.1) h255
      · rw [p00, p01, p10, p11]; decide

/-- Witness of C25: a 2x2 host, the key 7 and a white secret pixel; the revealed block holds
exactly two pixels of value 255. -/
theorem C25_visual_cryptography_round_trip_witness :
    ∃ w, visual_cryptography sampleRand sampleSecret (rampImage 2 2) (rampImage 1 1) 7 =
        some w ∧
      ∃ rv, decrypt sampleRand w (rampImage 2 2) 7 = some rv ∧
        List.count (255 : Fin 256)
          [rv.data (2 * 0) (2 * 0), rv.data (2 * 0) (2 * 0 + 1),
           rv.data (2 * 0 + 1) (2 * 0), rv.data (2 * 0 + 1) (2 * 0 + 1)] = 2 := by
  obtain ⟨w, hw, rv, hrv, -, -, h⟩ :=
    C25_visual_cryptography_round_trip sampleRand sampleSecret (rampImage 2 2) (rampImage 1 1) 7
      (by decide) (by decide) ⟨rfl, rfl⟩
      (by
        intro r c _ _
        by_cases hrc : r = c
        · right; simp [sampleSecret, hrc]
        · left; simp [sampleSecret, hrc])
  exact ⟨w, hw, rv, hrv, (h 0 0 (by decide) (by decide)).2 (by simp [sampleSecret])⟩

end ipcv
